import Mathlib

/-!
# Exact maximum clique by branch and bound (lab4, `BnBSolver`)

A shallow embedding of `src/lab4/src/main.cpp`, class `BnBSolver`, and the
properties of its search that the specification states.

Conventions of the embedding.

* `vector<T>` is `List T`, read with `List.getD _ _ 0`; every read the search
  performs on a well-formed state is inside the vector.
* `uint64_t` words are `Nat`; the only operations applied to them are `|`, `&`
  and `1ULL << k` with `k < 64`, none of which leaves `[0, 2^64)`.
* `int` vertex ids and the vertex count `n` are `Nat` (a header with a
  negative count makes `degree.assign` throw, so no state with `n < 0` is ever
  searched); `best_size` and the arguments `starts`, `rcl` are `Int`. The one
  `int` expression that can overflow on a value read from the file, the sum
  `n + 63` of the header branch, is reduced to 32 bits (`wrapInt`,
  `headerWords`); exhaustion of memory is not modelled.
* `unordered_set<int>` is `Finset Nat`.
* `static mt19937 gen` is a list of raw draws consumed from the front;
  `uniform_int_distribution<int>(0, take)` maps a raw draw `d` to
  `d % (take + 1)`, so every value of `[0, take]` is a possible outcome.
* `while` loops and the recursion of `Expand` carry a fuel argument and return
  `none` when it runs out; the fuel supplied is shown to be sufficient.
-/

namespace BnBSolver

/-- State of a `BnBSolver` object (the private data members). -/
structure State where
  n : Nat
  words : Nat
  adj : List Nat
  degree : List Int
  best_size : Int
  best_clique_vec : List Nat
  cur_clique : List Nat
  best_clique_set : Finset Nat
deriving DecidableEq

/-- Read `AdjRow(u)[i]`: word `i` of the adjacency row of `u`, which starts at
offset `u * words` of `adj`. -/
def AdjRow (s : State) (u : Nat) (i : Nat) : Nat :=
  s.adj.getD (u * s.words + i) 0

/-- Method `IsAdjacent(u, v)`: bit `v & 63` of word `v >> 6` of row `u`. -/
def IsAdjacent (s : State) (u v : Nat) : Bool :=
  (AdjRow s u (v >>> 6) &&& (1 <<< (v &&& 63))) != 0

/-- Method `SetEdge(u, v)`: `AdjRow(u)[v >> 6] |= 1ULL << (v & 63)`. -/
def SetEdge (s : State) (u v : Nat) : State :=
  { s with
    adj := s.adj.set (u * s.words + (v >>> 6)) (AdjRow s u (v >>> 6) ||| (1 <<< (v &&& 63))) }

/-- Function `OrEq(a, b, w)`: `for (i = 0; i < w; ++i) a[i] |= b[i]`. -/
def OrEq (a : List Nat) (b : Nat → Nat) (w : Nat) : List Nat :=
  (List.range w).foldl (fun acc i => acc.set i (acc.getD i 0 ||| b i)) a

/-- Function `SetBit(bs, v)`: `bs[v >> 6] |= 1ULL << (v & 63)`. -/
def SetBit (bs : List Nat) (v : Nat) : List Nat :=
  bs.set (v >>> 6) (bs.getD (v >>> 6) 0 ||| (1 <<< (v &&& 63)))

/-- Function `TestBit(bs, v)`: `(bs[v >> 6] & (1ULL << (v & 63))) != 0`. -/
def TestBit (bs : List Nat) (v : Nat) : Bool :=
  (bs.getD (v >>> 6) 0 &&& (1 <<< (v &&& 63))) != 0

/-- Method `ClearClique()`. -/
def ClearClique (s : State) : State :=
  { s with best_clique_set := ∅, best_clique_vec := [], cur_clique := [], best_size := 0 }

/-- Method `GetClique()`. -/
def GetClique (s : State) : Finset Nat := s.best_clique_set

/-- Method `Check()`: `false` as soon as two distinct members of `best_clique_set`
are not adjacent, `true` when the double loop finishes. -/
def Check (s : State) : Bool :=
  decide (∀ i ∈ s.best_clique_set, ∀ j ∈ s.best_clique_set,
    ¬ (i ≠ j ∧ IsAdjacent s i j = false))

/-- One pass of the `for (int v : U)` loop of `ColorSort` with the current
`color`; the arguments after `U` are `forbidden`, `order`, `bounds` and
`nextU`, returned in this order. -/
def colorPass (s : State) (color : Nat) :
    List Nat → List Nat → List Nat → List Nat → List Nat →
      List Nat × List Nat × List Nat × List Nat
  | [], forbidden, order, bounds, nextU => (forbidden, order, bounds, nextU)
  | v :: U, forbidden, order, bounds, nextU =>
    if !TestBit forbidden v then
      colorPass s color U (OrEq (SetBit forbidden v) (AdjRow s v) s.words)
        (order ++ [v]) (bounds ++ [color]) nextU
    else
      colorPass s color U forbidden order bounds (nextU ++ [v])

/-- The `while (!U.empty())` loop of `ColorSort`; arguments: fuel, `U`,
`color`, `order`, `bounds`. -/
def colorLoop (s : State) :
    Nat → List Nat → Nat → List Nat → List Nat → Option (List Nat × List Nat)
  | _, [], _, order, bounds => some (order, bounds)
  | 0, _ :: _, _, _, _ => none
  | fuel + 1, v :: U, color, order, bounds =>
    let r := colorPass s (color + 1) (v :: U) (List.replicate s.words 0) order bounds []
    colorLoop s fuel r.2.2.2 (color + 1) r.2.1 r.2.2.1

/-- Method `ColorSort(candidates, order, bounds)`, returning `(order, bounds)`. -/
def ColorSort (s : State) (candidates : List Nat) : Option (List Nat × List Nat) :=
  colorLoop s candidates.length candidates 0 [] []

/-- Replacement of the incumbent by `clique`, the body shared by the leaf of
`Expand` and the end of a restart of `InitBestCliqueGreedy`:
`best_size = size; best_clique_vec = clique; best_clique_set.clear();
for (int v : best_clique_vec) best_clique_set.insert(v)`. -/
def replaceBest (s : State) (clique : List Nat) : State :=
  { s with
    best_size := (clique.length : Int)
    best_clique_vec := clique
    best_clique_set := clique.foldl (fun acc v => insert v acc) ∅ }

/-- The `for (int i = order.size() - 1; i >= 0; --i)` loop of `Expand`;
`k` is the number of indices still to visit, the next one being `k - 1`, and
`expand` is the recursive call. -/
def expandLoop (expand : State → List Nat → Option State) (order bounds : List Nat) :
    Nat → State → Option State
  | 0, s => some s
  | k + 1, s =>
    if (s.cur_clique.length : Int) + (bounds.getD k 0 : Int) ≤ s.best_size then
      some s
    else
      let v := order.getD k 0
      let new_candidates := (order.take k).filter (fun u => IsAdjacent s v u)
      match expand { s with cur_clique := s.cur_clique ++ [v] } new_candidates with
      | none => none
      | some s1 =>
        expandLoop expand order bounds k { s1 with cur_clique := s1.cur_clique.dropLast }

/-- Method `Expand(candidates)`; the first argument is the fuel. -/
def Expand : Nat → State → List Nat → Option State
  | 0, _, _ => none
  | fuel + 1, s, candidates =>
    if candidates.isEmpty then
      if (s.cur_clique.length : Int) > s.best_size then
        some (replaceBest s s.cur_clique)
      else
        some s
    else
      match ColorSort s candidates with
      | none => none
      | some (order, bounds) =>
        expandLoop (Expand fuel) order bounds order.length s

/-- The call `sort(first, last, [&](int a, int b) { return degree[a] > degree[b]; })`.
`std::sort` leaves the relative order of vertices of equal degree unspecified;
the embedding fixes the order insertion sort produces, and the proofs use only
that the result is a permutation of the input. -/
def sortByDegree (s : State) (l : List Nat) : List Nat :=
  l.insertionSort (fun a b => s.degree.getD a 0 > s.degree.getD b 0)

/-- The `while (!cand.empty())` loop of one restart of `InitBestCliqueGreedy`;
arguments: fuel, `cand`, `clique`, remaining random draws. Returns the local
clique and the draws left. -/
def greedyLoop (s : State) (rcl : Int) :
    Nat → List Nat → List Nat → List Nat → Option (List Nat × List Nat)
  | _, [], clique, picks => some (clique, picks)
  | 0, _ :: _, _, _ => none
  | fuel + 1, c :: cand, clique, picks =>
    let last : Int := ((c :: cand).length : Int) - 1
    let take : Int := min (rcl - 1) last
    let pick_idx : Nat := picks.headD 0 % (take.toNat + 1)
    let v := (c :: cand).getD pick_idx 0
    let next := ((c :: cand).eraseIdx pick_idx).filter (fun u => IsAdjacent s v u)
    greedyLoop s rcl fuel next (clique ++ [v]) picks.tail

/-- The `for (int s = 0; s < starts; ++s)` loop of `InitBestCliqueGreedy`;
the first argument is the number of restarts still to run. -/
def greedyStarts (rcl : Int) (base : List Nat) :
    Nat → State → List Nat → Option (State × List Nat)
  | 0, s, picks => some (s, picks)
  | k + 1, s, picks =>
    match greedyLoop s rcl base.length base [] picks with
    | none => none
    | some (clique, picks1) =>
      if (clique.length : Int) > s.best_size then
        greedyStarts rcl base k (replaceBest s clique) picks1
      else
        greedyStarts rcl base k s picks1

/-- Method `InitBestCliqueGreedy(starts, rcl)` with the random draws `picks`;
returns the new state and the draws left in the generator. -/
def InitBestCliqueGreedy (s : State) (starts rcl : Int) (picks : List Nat) :
    Option (State × List Nat) :=
  if s.n ≤ 0 then some (s, picks)
  else
    let starts := if starts ≤ 0 then 1 else starts
    let rcl := if rcl ≤ 0 then 1 else rcl
    let base := sortByDegree s (List.range s.n)
    greedyStarts rcl base starts.toNat s picks

/-- Method `RunBnB()` with the random draws `picks`. -/
def RunBnB (s : State) (picks : List Nat) : Option (State × List Nat) :=
  match InitBestCliqueGreedy s 8 10 picks with
  | none => none
  | some (s1, picks1) =>
    let candidates := sortByDegree s1 (List.range s1.n)
    match Expand (candidates.length + 1) { s1 with cur_clique := [] } candidates with
    | none => none
    | some s2 => some (s2, picks1)

/-- One record of the input file, by its tag: a comment line (`c`), the
header (`p`, with the vertex and edge counts), an edge (`e`, with its two
1-indexed endpoints), or a line with any other tag. -/
inductive Record where
  | comment : Record
  | header (vert edges : Int) : Record
  | edge (st fn : Int) : Record
  | other : Record
deriving DecidableEq

/-- The constant `INT_MAX` of the 32-bit type `int`. -/
def INT_MAX : Int := 2147483647

/-- The value a 32-bit `int` holds when an arithmetic result `x` is reduced
to 32 bits in two's complement. -/
def wrapInt (x : Int) : Int := (x + 2147483648) % 4294967296 - 2147483648

/-- The expression `(n + 63) / 64` of the header branch, as the `int`
arithmetic of the source computes it: the sum is reduced to 32 bits and the
division truncates toward zero. -/
def headerWords (n : Int) : Int := Int.tdiv (wrapInt (n + 63)) 64

/-- The `tag == 'p'` branch of `ReadGraphFile`; `none` when one of the two
`assign` calls throws: `degree.assign(n, 0)` for a negative vertex count, and
`adj.assign` for a vertex count above `INT_MAX - 63`, where the sum `n + 63`
overflows and the word count comes out negative, so that the `size_t` product
is beyond the largest size of a vector. A count the `int` cannot hold is
stored as `INT_MAX` or `INT_MIN` by the stream and throws in the same way. -/
def readHeader (s : State) (vert : Int) : Option State :=
  let n := vert
  let words := headerWords n
  if n < 0 ∨ INT_MAX < n ∨ words < 0 then none
  else
    some { s with
      n := n.toNat
      words := words.toNat
      adj := List.replicate (n.toNat * words.toNat) 0
      degree := List.replicate n.toNat 0 }

/-- The `tag == 'e'` branch of `ReadGraphFile`. -/
def readEdge (s : State) (st fn : Int) : State :=
  let st := st - 1
  let fn := fn - 1
  if st < 0 ∨ fn < 0 ∨ st ≥ (s.n : Int) ∨ fn ≥ (s.n : Int) ∨ st = fn then s
  else if !IsAdjacent s st.toNat fn.toNat then
    let s1 := SetEdge (SetEdge s st.toNat fn.toNat) fn.toNat st.toNat
    let d1 := s1.degree.set st.toNat (s1.degree.getD st.toNat 0 + 1)
    { s1 with degree := d1.set fn.toNat (d1.getD fn.toNat 0 + 1) }
  else s

/-- Method `ReadGraphFile` on the records of a file that could be opened (a file that
cannot be opened leaves the state as it is, like the empty list of records). -/
def ReadGraphFile : State → List Record → Option State
  | s, [] => some s
  | s, Record.comment :: rest => ReadGraphFile s rest
  | s, Record.header vert _ :: rest =>
    match readHeader s vert with
    | none => none
    | some s1 => ReadGraphFile s1 rest
  | s, Record.edge st fn :: rest => ReadGraphFile (readEdge s st fn) rest
  | s, Record.other :: rest => ReadGraphFile s rest

/-- A default-constructed `BnBSolver`. -/
def newSolver : State :=
  { n := 0, words := 0, adj := [], degree := [], best_size := 0,
    best_clique_vec := [], cur_clique := [], best_clique_set := ∅ }

/-- The complete graph on 5 vertices, as `ReadGraphFile` stores it. -/
def k5 : State :=
  { n := 5, words := 1, adj := [30, 29, 27, 23, 15], degree := [4, 4, 4, 4, 4],
    best_size := 0, best_clique_vec := [], cur_clique := [], best_clique_set := ∅ }

/-- The 4-cycle 1-2, 2-3, 3-4, 4-1, as `ReadGraphFile` stores it. -/
def c4 : State :=
  { n := 4, words := 1, adj := [10, 5, 10, 5], degree := [2, 2, 2, 2],
    best_size := 0, best_clique_vec := [], cur_clique := [], best_clique_set := ∅ }

/-- The perfect matching 1-2, 3-4, 5-6 on 6 vertices, as `ReadGraphFile` stores it. -/
def m6 : State :=
  { n := 6, words := 1, adj := [2, 1, 8, 4, 32, 16], degree := [1, 1, 1, 1, 1, 1],
    best_size := 0, best_clique_vec := [], cur_clique := [], best_clique_set := ∅ }

/-- A solver object that ran `RunBnB` on K5 and then read the 4-cycle with
`ReadGraphFile`, with no `ClearClique` in between: the graph is the 4-cycle,
the incumbent is the clique found on K5. -/
def staleC4 : State :=
  { c4 with best_size := 5, best_clique_vec := [4, 3, 2, 1, 0],
            best_clique_set := {0, 1, 2, 3, 4} }


/-! ## Notions used to state the properties -/

/-- Every two distinct members of `S` are adjacent (in both directions). -/
def IsClique (s : State) (S : Finset Nat) : Prop :=
  ∀ i ∈ S, ∀ j ∈ S, i ≠ j → IsAdjacent s i j = true

instance (s : State) (S : Finset Nat) : Decidable (IsClique s S) := by
  unfold IsClique; infer_instance

/-- Relation between a vertex placed earlier and one placed later in the same
pass of `ColorSort`: they differ and the later is not in the row of the
earlier. -/
def Indep (s : State) (p q : Nat) : Prop := p ≠ q ∧ IsAdjacent s p q = false

/-- What the forbidden vector records during a pass that has placed `P`. -/
def ForbiddenInv (s : State) (forbidden P : List Nat) : Prop :=
  forbidden.length = s.words ∧
  ∀ u, u / 64 < s.words →
    (TestBit forbidden u = true ↔ (u ∈ P ∨ ∃ p ∈ P, IsAdjacent s p u = true))

/-- Shape of the output of `ColorSort` after the passes `1 .. color`. -/
structure ColorShape (color : Nat) (order bounds : List Nat) : Prop where
  len : bounds.length = order.length
  range : ∀ b ∈ bounds, 1 ≤ b ∧ b ≤ color
  sorted : bounds.Pairwise (fun a b => a ≤ b)

/-- Soundness of the bounds after the passes `1 .. color`: cliques inside the
vertices placed so far have at most `color` members, and cliques inside
`order[0..k]` have at most `bounds[k]` members. -/
structure ColorSound (s : State) (color : Nat) (order bounds : List Nat) : Prop where
  total : ∀ T : Finset Nat, T ⊆ order.toFinset → IsClique s T → T.card ≤ color
  pre : ∀ k, k < order.length → ∀ T : Finset Nat,
    T ⊆ (order.take (k + 1)).toFinset → IsClique s T → T.card ≤ bounds.getD k 0

/-- The graph is undirected: `IsAdjacent` is symmetric on `[0, n)`. -/
def GraphSym (s : State) : Prop :=
  ∀ u, u < s.n → ∀ v, v < s.n → IsAdjacent s u v = IsAdjacent s v u

instance (s : State) : Decidable (GraphSym s) := by
  unfold GraphSym; infer_instance

/-- Two states hold the same graph. -/
def SameGraph (s s1 : State) : Prop :=
  s1.n = s.n ∧ s1.words = s.words ∧ s1.adj = s.adj ∧ s1.degree = s.degree

/-- Two states hold the same incumbent. -/
def SameIncumbent (s s1 : State) : Prop :=
  s1.best_size = s.best_size ∧ s1.best_clique_vec = s.best_clique_vec ∧
    s1.best_clique_set = s.best_clique_set

/-- The incumbent is a clique of the graph, stored consistently: the vector
has no repetition and only vertices of `[0, n)`, its members are pairwise
adjacent, the set holds exactly the members of the vector, and `best_size` is
their number. -/
def IncumbentOK (s : State) : Prop :=
  s.best_clique_vec.Nodup ∧ (∀ v ∈ s.best_clique_vec, v < s.n) ∧
    IsClique s s.best_clique_vec.toFinset ∧
    s.best_clique_set = s.best_clique_vec.toFinset ∧
    s.best_size = (s.best_clique_vec.length : Int)

/-- A search node: the partial clique is a clique of distinct vertices of
`[0, n)`, and the candidates are distinct vertices of `[0, n)` outside it, each
in the row of every member of the partial clique. -/
def NodeOK (s : State) (cur candidates : List Nat) : Prop :=
  cur.Nodup ∧ (∀ v ∈ cur, v < s.n) ∧ IsClique s cur.toFinset ∧
    candidates.Nodup ∧
    ∀ c ∈ candidates, c < s.n ∧ c ∉ cur ∧ ∀ u ∈ cur, IsAdjacent s u c = true

/-- Effect of `Expand(candidates)` (and of its loop) on the state. -/
structure SearchStep (s s1 : State) : Prop where
  graph : SameGraph s s1
  cur : s1.cur_clique = s.cur_clique
  mono : s.best_size ≤ s1.best_size
  strict : SameIncumbent s s1 ∨ s.best_size < s1.best_size

/-- What a call `Expand(candidates)` guarantees: the incumbent is either
untouched or a clique of the graph, and afterwards no clique made of the
partial clique and candidates is larger than the incumbent. -/
structure ExpandPost (s : State) (candidates : List Nat) (s1 : State) : Prop where
  step : SearchStep s s1
  valid : GraphSym s → NodeOK s s.cur_clique candidates →
    SameIncumbent s s1 ∨ IncumbentOK s1
  complete : (∀ u ∈ candidates, u / 64 < s.words) →
    ∀ T : Finset Nat, T ⊆ candidates.toFinset → IsClique s T →
      (s.cur_clique.length : Int) + (T.card : Int) ≤ s1.best_size

/-- The value brute-force enumeration returns: the largest size of a subset of
`[0, n)` whose members are pairwise adjacent. -/
def bruteForceMaxClique (s : State) : Nat :=
  ((Finset.range s.n).powerset.filter (fun S => IsClique s S)).sup Finset.card

/-- The graph has an edge: two distinct adjacent vertices of `[0, n)`. -/
def HasEdge (s : State) : Prop :=
  ∃ a, a < s.n ∧ ∃ b, b < s.n ∧ a ≠ b ∧ IsAdjacent s a b = true

instance (s : State) : Decidable (HasEdge s) := by
  unfold HasEdge; infer_instance

/-- The vertices `a`, `b`, `c` form a triangle: they are distinct and pairwise
adjacent. -/
def IsTriangle (s : State) (a b c : Nat) : Prop :=
  a ≠ b ∧ a ≠ c ∧ b ≠ c ∧
    IsAdjacent s a b = true ∧ IsAdjacent s a c = true ∧ IsAdjacent s b c = true

instance (s : State) (a b c : Nat) : Decidable (IsTriangle s a b c) := by
  unfold IsTriangle; infer_instance

/-- The graph has no triangle: no three distinct vertices of `[0, n)` are
pairwise adjacent. -/
def TriangleFree (s : State) : Prop :=
  ∀ a, a < s.n → ∀ b, b < s.n → ∀ c, c < s.n → ¬ IsTriangle s a b c

instance (s : State) : Decidable (TriangleFree s) := by
  unfold TriangleFree; infer_instance

/-- Vertices of `order` that received the same bound are pairwise independent:
the one placed earlier differs from the later one and does not have it in its
row. -/
def ColorIndep (s : State) (order bounds : List Nat) : Prop :=
  ∀ i j, i < j → j < order.length → bounds.getD i 0 = bounds.getD j 0 →
    Indep s (order.getD i 0) (order.getD j 0)

/-- The loop of `Expand`, as `expandLoop`, recording in addition every call of
`Expand` made below it: the state on entry and the candidates passed. -/
def expandLoopLog (expand : State → List Nat → Option (State × List (State × List Nat)))
    (order bounds : List Nat) : Nat → State → Option (State × List (State × List Nat))
  | 0, s => some (s, [])
  | k + 1, s =>
    if (s.cur_clique.length : Int) + (bounds.getD k 0 : Int) ≤ s.best_size then
      some (s, [])
    else
      let v := order.getD k 0
      let new_candidates := (order.take k).filter (fun u => IsAdjacent s v u)
      match expand { s with cur_clique := s.cur_clique ++ [v] } new_candidates with
      | none => none
      | some (s1, log1) =>
        match expandLoopLog expand order bounds k
            { s1 with cur_clique := s1.cur_clique.dropLast } with
        | none => none
        | some (s2, log2) => some (s2, log1 ++ log2)

/-- The method `Expand(candidates)`, as `Expand`, returning in addition the
list of all calls of `Expand` it gave rise to, itself first: for each call the
state on entry and the candidates passed. -/
def ExpandLog : Nat → State → List Nat → Option (State × List (State × List Nat))
  | 0, _, _ => none
  | fuel + 1, s, candidates =>
    if candidates.isEmpty then
      if (s.cur_clique.length : Int) > s.best_size then
        some (replaceBest s s.cur_clique, [(s, candidates)])
      else
        some (s, [(s, candidates)])
    else
      match ColorSort s candidates with
      | none => none
      | some (order, bounds) =>
        match expandLoopLog (ExpandLog fuel) order bounds order.length s with
        | none => none
        | some (s1, log) => some (s1, (s, candidates) :: log)

/-- The local cliques built by `k` restarts of `InitBestCliqueGreedy`, in the
order of the restarts, with the random draws `picks`. -/
def greedyRuns (s : State) (rcl : Int) (base : List Nat) :
    Nat → List Nat → Option (List (List Nat))
  | 0, _ => some []
  | k + 1, picks =>
    match greedyLoop s rcl base.length base [] picks with
    | none => none
    | some (clique, picks1) =>
      match greedyRuns s rcl base k picks1 with
      | none => none
      | some runs => some (clique :: runs)

/-- The sizes `ReadGraphFile` gives the vectors: rows of `(n + 63) / 64` words,
`n` rows, `n` degrees. -/
structure GraphShape (s : State) : Prop where
  words_eq : s.words = (s.n + 63) / 64
  adj_len : s.adj.length = s.n * s.words
  deg_len : s.degree.length = s.n

/-- No vertex of `[0, n)` is adjacent to itself. -/
def LoopFree (s : State) : Prop :=
  ∀ v, v < s.n → IsAdjacent s v v = false

/-- No stray bit: a bit set in word `i` of the row of a vertex of `[0, n)` is
one of the 64 bits of the word and stands for a vertex of `[0, n)`. -/
def RowsClean (s : State) : Prop :=
  ∀ v, v < s.n → ∀ i, i < s.words → ∀ b, (AdjRow s v i).testBit b = true →
    b < 64 ∧ 64 * i + b < s.n

/-- The entry `degree[v]` is the number of vertices of `[0, n)` in the row of `v`. -/
def DegreeOK (s : State) : Prop :=
  ∀ v, v < s.n →
    s.degree.getD v 0 = (((Finset.range s.n).filter (fun u => IsAdjacent s v u)).card : Int)

/-- The invariant of the graph part of the state that `ReadGraphFile` keeps. -/
structure GraphWF (s : State) : Prop where
  shape : GraphShape s
  sym : GraphSym s
  loopfree : LoopFree s
  clean : RowsClean s
  deg : DegreeOK s

/-- An edge record with 1-indexed endpoints `st`, `fn` passes the range and
self-loop test of `ReadGraphFile`. -/
def EdgeAccepted (s : State) (st fn : Int) : Prop :=
  ¬ (st - 1 < 0 ∨ fn - 1 < 0 ∨ st - 1 ≥ (s.n : Int) ∨ fn - 1 ≥ (s.n : Int) ∨ st - 1 = fn - 1)

instance (s : State) (st fn : Int) : Decidable (EdgeAccepted s st fn) := by
  unfold EdgeAccepted; infer_instance

/-- The `e` branch of `ReadGraphFile` applied to a list of edge records in turn. -/
def readEdges (s : State) (es : List (Int × Int)) : State :=
  es.foldl (fun acc e => readEdge acc e.1 e.2) s

/-- The body of the `if (!IsAdjacent(st, fn))` block of `ReadGraphFile` for the
0-indexed endpoints `u`, `v`: both bits are set and both degrees incremented. -/
def insertEdge (s : State) (u v : Nat) : State :=
  { SetEdge (SetEdge s u v) v u with
    degree := (s.degree.set u (s.degree.getD u 0 + 1)).set v
      ((s.degree.set u (s.degree.getD u 0 + 1)).getD v 0 + 1) }

/-- The number of set bits in the row of `v`, the row being read as a vector
of `64 * words` bits (bit `p` is bit `p & 63` of word `p >> 6`). -/
def RowBitCount (s : State) (v : Nat) : Nat :=
  ((Finset.range (64 * s.words)).filter (fun p => IsAdjacent s v p)).card

/-- The degree invariant: for every vertex `v` of `[0, n)`, `degree[v]` is the
number of set bits in the row of `v` and the number of vertices `u` of `[0, n)`
with `IsAdjacent(v, u)`; every set bit of a word of the row is one of its 64
bits and stands for a vertex of `[0, n)`, so no position `p >= n` of the row is
set. -/
def DegreeInv (s : State) : Prop :=
  (∀ v, v < s.n →
    s.degree.getD v 0 = (RowBitCount s v : Int) ∧
    s.degree.getD v 0 =
      (((Finset.range s.n).filter (fun u => IsAdjacent s v u)).card : Int)) ∧
  (∀ v, v < s.n → ∀ i, i < s.words → ∀ b, (AdjRow s v i).testBit b = true →
    b < 64 ∧ 64 * i + b < s.n) ∧
  (∀ v, v < s.n → ∀ p, s.n ≤ p → p < 64 * s.words → IsAdjacent s v p = false)

/-- The way the bounds of `ColorSort` grow after the passes `1 .. color`: the
last bound is `color` (0 when there is none), the first bound is 1, and each
bound is its predecessor or its predecessor plus one. -/
def ColorSteps (color : Nat) (bounds : List Nat) : Prop :=
  bounds.getLastD 0 = color ∧
  (bounds ≠ [] → bounds.getD 0 0 = 1) ∧
  ∀ i, i + 1 < bounds.length →
    bounds.getD (i + 1) 0 = bounds.getD i 0 ∨ bounds.getD (i + 1) 0 = bounds.getD i 0 + 1


/-- The loop of one restart of `InitBestCliqueGreedy`, as `greedyLoop`,
recording in addition the pair (`cand`, `clique`) reached after each pick, at
the `cand.swap(next)` that ends the iteration. -/
def greedyLoopLog (s : State) (rcl : Int) :
    Nat → List Nat → List Nat → List Nat →
      Option ((List Nat × List Nat) × List (List Nat × List Nat))
  | _, [], clique, picks => some ((clique, picks), [])
  | 0, _ :: _, _, _ => none
  | fuel + 1, c :: cand, clique, picks =>
    let last : Int := ((c :: cand).length : Int) - 1
    let take : Int := min (rcl - 1) last
    let pick_idx : Nat := picks.headD 0 % (take.toNat + 1)
    let v := (c :: cand).getD pick_idx 0
    let next := ((c :: cand).eraseIdx pick_idx).filter (fun u => IsAdjacent s v u)
    match greedyLoopLog s rcl fuel next (clique ++ [v]) picks.tail with
    | none => none
    | some (r, log) => some (r, (next, clique ++ [v]) :: log)

/-- The loop over the restarts, as `greedyStarts`, returning in addition the
record `greedyLoopLog` makes of each restart, in the order of the restarts. -/
def greedyStartsLog (rcl : Int) (base : List Nat) :
    Nat → State → List Nat →
      Option ((State × List Nat) × List (List (List Nat × List Nat)))
  | 0, s, picks => some ((s, picks), [])
  | k + 1, s, picks =>
    match greedyLoopLog s rcl base.length base [] picks with
    | none => none
    | some ((clique, picks1), log) =>
      match (if (clique.length : Int) > s.best_size then
          greedyStartsLog rcl base k (replaceBest s clique) picks1
        else
          greedyStartsLog rcl base k s picks1) with
      | none => none
      | some (r, logs) => some (r, log :: logs)

/-- The method `InitBestCliqueGreedy(starts, rcl)`, as `InitBestCliqueGreedy`,
returning in addition the records of its restarts. -/
def InitBestCliqueGreedyLog (s : State) (starts rcl : Int) (picks : List Nat) :
    Option ((State × List Nat) × List (List (List Nat × List Nat))) :=
  if s.n ≤ 0 then some ((s, picks), [])
  else
    let starts := if starts ≤ 0 then 1 else starts
    let rcl := if rcl ≤ 0 then 1 else rcl
    let base := sortByDegree s (List.range s.n)
    greedyStartsLog rcl base starts.toNat s picks

/-- The incumbent is stored consistently: `best_clique_vec` has no repeated
vertex, `best_clique_set` is the set of its elements, and `best_size` is both
the length of the vector and the cardinality of the set. -/
def IncumbentRep (s : State) : Prop :=
  s.best_clique_vec.Nodup ∧ s.best_clique_set = s.best_clique_vec.toFinset ∧
    s.best_size = (s.best_clique_vec.length : Int) ∧
    s.best_size = (s.best_clique_set.card : Int)

/-- The lists of a call of `Expand` hold distinct vertices: neither the
partial clique nor the candidates repeat a vertex, and no candidate is in the
partial clique. -/
def DistinctNode (cur candidates : List Nat) : Prop :=
  cur.Nodup ∧ candidates.Nodup ∧ ∀ c ∈ candidates, c ∉ cur

/-- The colour `ColorSort` gives to the vertex `v`: the entry of `bounds` at
the place of `v` in `order`. -/
def colourOf (order bounds : List Nat) (v : Nat) : Nat :=
  bounds.getD (order.indexOf v) 0

/-- First-fit sequential colouring, in the words of the specification: `col`
gives each member `v` of `candidates` the smallest colour `c >= 1` such that
no vertex earlier than `v` in `candidates` with colour `c` has `v` in its row.
The colour of `v` is at least 1 and free (no earlier vertex of that colour is
adjacent to `v`), and every smaller colour `c >= 1` is taken by an earlier
vertex adjacent to `v`. -/
def FirstFit (s : State) (candidates : List Nat) (col : Nat → Nat) : Prop :=
  ∀ i, i < candidates.length →
    1 ≤ col (candidates.getD i 0) ∧
    (∀ j, j < i → col (candidates.getD j 0) = col (candidates.getD i 0) →
      IsAdjacent s (candidates.getD j 0) (candidates.getD i 0) = false) ∧
    ∀ c, 1 ≤ c → c < col (candidates.getD i 0) →
      ∃ j, j < i ∧ col (candidates.getD j 0) = c ∧
        IsAdjacent s (candidates.getD j 0) (candidates.getD i 0) = true

/-- The list `order` is `candidates` stably sorted by `col`: a permutation of
`candidates` along which `col` does not decrease, in which the vertices of
each colour keep the relative order they have in `candidates`. -/
def StableSortedBy (col : Nat → Nat) (candidates order : List Nat) : Prop :=
  order.Perm candidates ∧ order.Pairwise (fun a b => col a ≤ col b) ∧
    ∀ c, order.filter (fun v => col v == c) = candidates.filter (fun v => col v == c)

/-- The invariant of the `while` loop of `ColorSort` on the list `cand`, after
the passes `1 .. color`, `U` being the vertices not placed yet: `U` keeps the
order of `cand`; among the placed vertices, an earlier one of the same colour
is not adjacent to a later one, and every colour below that of a vertex is
taken by an earlier vertex adjacent to it; every colour so far is taken by a
vertex that is earlier than and adjacent to each vertex of `U`; and the
vertices of each colour are in the order of `cand`. -/
structure FitInv (s : State) (cand U : List Nat) (color : Nat) (order bounds : List Nat) :
    Prop where
  shape : ColorShape color order bounds
  perm : (order ++ U).Perm cand
  sub : U.Sublist cand
  free : ∀ p ∈ order, ∀ q ∈ order, [p, q].Sublist cand →
    colourOf order bounds p = colourOf order bounds q → IsAdjacent s p q = false
  minimal : ∀ v ∈ order, ∀ c, 1 ≤ c → c < colourOf order bounds v →
    ∃ p ∈ order, [p, v].Sublist cand ∧ colourOf order bounds p = c ∧ IsAdjacent s p v = true
  blocked : ∀ v ∈ U, ∀ c, 1 ≤ c → c ≤ color →
    ∃ p ∈ order, [p, v].Sublist cand ∧ colourOf order bounds p = c ∧ IsAdjacent s p v = true
  stable : ∀ c, (order.filter (fun v => colourOf order bounds v == c)).Sublist cand

/-- The search for the smallest colour not in `taken`, from the colour `c`
upwards; the first argument is the number of colours that may still be found
taken. -/
def firstFreeFrom (taken : List Nat) : Nat → Nat → Nat
  | 0, c => c
  | fuel + 1, c => if taken.contains c then firstFreeFrom taken fuel (c + 1) else c

/-- The smallest colour `c >= 1` that is not in `taken`. At most `|taken|`
colours can be found taken, so the search stops within `|taken| + 1` steps. -/
def firstFree (taken : List Nat) : Nat :=
  firstFreeFrom taken taken.length 1

/-- The first-fit colour of `v`, in the words of the specification: the
smallest `c >= 1` such that no vertex of `coloured` (the vertices earlier than
`v`, with their colours) with colour `c` is adjacent to `v`. -/
def firstFitColour (s : State) (coloured : List (Nat × Nat)) (v : Nat) : Nat :=
  firstFree ((coloured.filter (fun p => IsAdjacent s p.1 v)).map Prod.snd)

/-- The first-fit sequential colouring of `candidates`: each vertex in turn
gets its first-fit colour against the vertices before it. -/
def firstFitColouring (s : State) (candidates : List Nat) : List (Nat × Nat) :=
  candidates.foldl (fun coloured v => coloured ++ [(v, firstFitColour s coloured v)]) []

/-- What the specification says `ColorSort` computes: the candidates coloured
by first fit and then stably sorted by colour (insertion sort puts a vertex
ahead of the later vertices of the same colour), returned as the list of the
vertices and the list of their colours. -/
def firstFitSort (s : State) (candidates : List Nat) : List Nat × List Nat :=
  (((firstFitColouring s candidates).insertionSort (fun a b => a.2 ≤ b.2)).map Prod.fst,
    ((firstFitColouring s candidates).insertionSort (fun a b => a.2 ≤ b.2)).map Prod.snd)

end BnBSolver

namespace ColoringProblem

/-- The fields of class `ColoringProblem` (week1). A colour is a positive
`int`, `0` meaning "not coloured"; each `unordered_set<int>` of
`neighbour_sets` is held as the list of its elements in iteration order. -/
structure State where
  colors : List Nat
  maxcolor : Nat
  neighbour_sets : List (List Nat)
deriving DecidableEq

/-- A freshly constructed `ColoringProblem`: `maxcolor = 1`, empty vectors. -/
def newProblem : State :=
  { colors := [], maxcolor := 1, neighbour_sets := [] }

/-- One line of the input file as `ReadGraphFile` sees it: a line starting
with `c`, a line starting with `p` with its vertex count, or any other line,
read as `command start finish`. -/
inductive Record where
  | comment : Record
  | header (vertices : Int) : Record
  | edge (start finish : Int) : Record
deriving DecidableEq

/-- The call `neighbour_sets.resize(k)`. -/
def resize (sets : List (List Nat)) (k : Nat) : List (List Nat) :=
  sets.take k ++ List.replicate (k - sets.length) []

/-- The call `neighbour_sets[u].insert(v)`; a new element is put at the end of
the iteration order. -/
def insertAt (sets : List (List Nat)) (u v : Nat) : List (List Nat) :=
  if v ∈ sets.getD u [] then sets else sets.set u (sets.getD u [] ++ [v])

/-- Method `ReadGraphFile`, on the list of the lines of the file. A negative
vertex count and an edge line with an endpoint outside `[1, size]` index the
vectors out of range; the model returns `none` there. -/
def ReadGraphFile : State → List Record → Option State
  | s, [] => some s
  | s, Record.comment :: rest => ReadGraphFile s rest
  | s, Record.header vertices :: rest =>
    if vertices < 0 then none
    else
      ReadGraphFile
        { s with
          neighbour_sets := resize s.neighbour_sets vertices.toNat
          colors := List.replicate vertices.toNat 0 } rest
  | s, Record.edge start finish :: rest =>
    if start - 1 < 0 ∨ start - 1 ≥ (s.neighbour_sets.length : Int) ∨
        finish - 1 < 0 ∨ finish - 1 ≥ (s.neighbour_sets.length : Int) then none
    else
      ReadGraphFile
        { s with
          neighbour_sets :=
            insertAt (insertAt s.neighbour_sets (start - 1).toNat (finish - 1).toNat)
              (finish - 1).toNat (start - 1).toNat } rest

/-- The running maxima of the vertex selection loop of `GreedyGraphColoring`. -/
structure Selection where
  max_saturation : Int
  max_degree : Int
  max_uncolored_neighbors : Int
  max_neighbor_degree_sum : Int
  candidate_list : List Nat

/-- Body of `for (int vertex : uncolored_vertices)`. -/
def selectStep (sets : List (List Nat)) (colors saturation : List Nat)
    (a : Selection) (vertex : Nat) : Selection :=
  let sat : Int := (saturation.getD vertex 0 : Nat)
  let degree : Int := ((sets.getD vertex []).length : Nat)
  let uncolored := (sets.getD vertex []).filter (fun neighbour => colors.getD neighbour 0 == 0)
  let uncolored_neighbors : Int := (uncolored.length : Nat)
  let neighbor_degree_sum : Int :=
    (uncolored.map (fun neighbour => (((sets.getD neighbour []).length : Nat) : Int))).sum
  if sat > a.max_saturation then
    ⟨sat, degree, uncolored_neighbors, neighbor_degree_sum, [vertex]⟩
  else if sat = a.max_saturation then
    if degree > a.max_degree then
      ⟨a.max_saturation, degree, uncolored_neighbors, neighbor_degree_sum, [vertex]⟩
    else if degree = a.max_degree then
      if uncolored_neighbors > a.max_uncolored_neighbors then
        ⟨a.max_saturation, a.max_degree, uncolored_neighbors, neighbor_degree_sum, [vertex]⟩
      else if uncolored_neighbors = a.max_uncolored_neighbors then
        if neighbor_degree_sum > a.max_neighbor_degree_sum then
          ⟨a.max_saturation, a.max_degree, a.max_uncolored_neighbors, neighbor_degree_sum,
            [vertex]⟩
        else if neighbor_degree_sum = a.max_neighbor_degree_sum then
          { a with candidate_list := a.candidate_list ++ [vertex] }
        else a
      else a
    else a
  else a

/-- The vertex selection of one round: `candidate_list[0]` after the loop over
`uncolored_vertices`. -/
def selectVertex (sets : List (List Nat)) (colors saturation uncolored_vertices : List Nat) :
    Nat :=
  ((uncolored_vertices.foldl (selectStep sets colors saturation)
    ⟨-1, -1, -1, -1, []⟩).candidate_list).getD 0 0

/-- The vector `used_colors` after `used_colors.assign(maxcolor + 2, false)` and
the loop marking the colours of the coloured neighbours of `vertex`. -/
def markUsed (sets : List (List Nat)) (colors : List Nat) (maxcolor vertex : Nat) :
    List Bool :=
  (sets.getD vertex []).foldl
    (fun used neighbour =>
      if colors.getD neighbour 0 ≠ 0 then used.set (colors.getD neighbour 0) true else used)
    (List.replicate (maxcolor + 2) false)

/-- The value `saturation_increase` computed for `color`: the number of
uncoloured neighbours of `vertex` none of whose neighbours has `color`. -/
def saturationIncrease (sets : List (List Nat)) (colors : List Nat) (vertex color : Nat) :
    Int :=
  (((sets.getD vertex []).countP (fun neighbour =>
    colors.getD neighbour 0 == 0 &&
      !(sets.getD neighbour []).any (fun other_neighbour =>
        colors.getD other_neighbour 0 == color)) : Nat) : Int)

/-- The variables of the colour choice loop. -/
structure Choice where
  best_color : Nat
  min_saturation_increase : Int
  found_zero_increase : Bool

/-- The constant `INT_MAX`. -/
def INT_MAX : Int := 2147483647

/-- Body of `for (int color = 1; color <= maxcolor; ++color)`. -/
def colorStep (sets : List (List Nat)) (colors : List Nat) (used_colors : List Bool)
    (vertex : Nat) (c : Choice) (color : Nat) : Choice :=
  if used_colors.getD color false then c
  else
    let saturation_increase := saturationIncrease sets colors vertex color
    if saturation_increase = 0 then
      if !c.found_zero_increase || color > c.best_color then
        ⟨color, 0, true⟩
      else c
    else if !c.found_zero_increase then
      if saturation_increase < c.min_saturation_increase then
        ⟨color, saturation_increase, c.found_zero_increase⟩
      else if saturation_increase = c.min_saturation_increase ∧ color > c.best_color then
        { c with best_color := color }
      else c
    else c

/-- The colour choice loop of one round, from `best_color = 1`,
`min_saturation_increase = INT_MAX`, `found_zero_increase = false`. -/
def chooseColor (sets : List (List Nat)) (colors : List Nat) (used_colors : List Bool)
    (maxcolor vertex : Nat) : Choice :=
  (List.range' 1 maxcolor).foldl (colorStep sets colors used_colors vertex)
    ⟨1, INT_MAX, false⟩

/-- The loop that recomputes the saturation of the uncoloured neighbours of
`vertex`: the number of distinct colours among their coloured neighbours. -/
def updateSaturation (sets : List (List Nat)) (colors saturation : List Nat) (vertex : Nat) :
    List Nat :=
  (sets.getD vertex []).foldl
    (fun sat neighbour =>
      if colors.getD neighbour 0 = 0 then
        sat.set neighbour
          ((((sets.getD neighbour []).map (fun other_neighbour =>
            colors.getD other_neighbour 0)).filter (fun c => c ≠ 0)).toFinset.card)
      else sat)
    saturation

/-- The local variables of `GreedyGraphColoring` that live across the rounds
of its `while` loop, with the fields `colors` and `maxcolor`. -/
structure Loop where
  colors : List Nat
  maxcolor : Nat
  saturation : List Nat
  uncolored_vertices : List Nat

/-- One round of `while (!uncolored_vertices.empty())`. -/
def round (sets : List (List Nat)) (l : Loop) : Loop :=
  let vertex := selectVertex sets l.colors l.saturation l.uncolored_vertices
  let used_colors := markUsed sets l.colors l.maxcolor vertex
  let c := chooseColor sets l.colors used_colors l.maxcolor vertex
  let fresh : Bool := !c.found_zero_increase && c.min_saturation_increase == INT_MAX
  let best_color := if fresh then l.maxcolor + 1 else c.best_color
  let maxcolor := if fresh then l.maxcolor + 1 else l.maxcolor
  let colors := l.colors.set vertex best_color
  { colors := colors
    maxcolor := maxcolor
    saturation := updateSaturation sets colors l.saturation vertex
    uncolored_vertices := l.uncolored_vertices.erase vertex }

/-- The loop `while (!uncolored_vertices.empty())`; the first argument is the
fuel. -/
def whileLoop (sets : List (List Nat)) : Nat → Loop → Option Loop
  | 0, l => if l.uncolored_vertices.isEmpty then some l else none
  | fuel + 1, l =>
    if l.uncolored_vertices.isEmpty then some l else whileLoop sets fuel (round sets l)

/-- Method `GreedyGraphColoring`. The list `order` is the iteration order of
`uncolored_vertices` once `0 .. n-1` have been inserted, which the standard
library leaves unspecified; erasing an element keeps the order of the others. -/
def GreedyGraphColoring (s : State) (order : List Nat) : Option State :=
  let n := s.neighbour_sets.length
  match whileLoop s.neighbour_sets order.length
      ⟨List.replicate n 0, 1, List.replicate n 0, order⟩ with
  | none => none
  | some l => some { s with colors := l.colors, maxcolor := l.maxcolor }

/-- Method `Check`. -/
def Check (s : State) : Bool :=
  (List.range s.neighbour_sets.length).all (fun i =>
    s.colors.getD i 0 != 0 &&
      (s.neighbour_sets.getD i []).all (fun neighbour =>
        s.colors.getD neighbour 0 != s.colors.getD i 0))

/-- Method `GetNumberOfColors`. -/
def GetNumberOfColors (s : State) : Nat := s.maxcolor

/-- The graph held in `neighbour_sets` is a simple undirected graph on
`[0, n)`: neighbours are vertices, adjacency is symmetric, and no vertex is
its own neighbour. -/
structure GraphOK (sets : List (List Nat)) : Prop where
  inRange : ∀ v, v < sets.length → ∀ u ∈ sets.getD v [], u < sets.length
  sym : ∀ v, v < sets.length → ∀ u ∈ sets.getD v [], v ∈ sets.getD u []
  loopFree : ∀ v, v < sets.length → v ∉ sets.getD v []

/-- The invariant of the `while` loop of `GreedyGraphColoring`. -/
structure LoopInv (sets : List (List Nat)) (l : Loop) : Prop where
  len : l.colors.length = sets.length
  nodup : l.uncolored_vertices.Nodup
  unc : ∀ v, v ∈ l.uncolored_vertices ↔ v < sets.length ∧ l.colors.getD v 0 = 0
  le : ∀ v, l.colors.getD v 0 ≤ l.maxcolor
  proper : ∀ v, v < sets.length → ∀ u ∈ sets.getD v [],
    l.colors.getD v 0 ≠ 0 → l.colors.getD u 0 ≠ l.colors.getD v 0

/-- The 3-vertex path `0 - 1 - 2`. -/
def path3 : State :=
  { colors := [0, 0, 0], maxcolor := 1, neighbour_sets := [[1], [0, 2], [1]] }

/-- A file whose edge lines are not self-loops and whose `p` lines never lower
the vertex count `n` read so far; a file with a single `p` line ahead of its
edge lines and no line `e v v` is one. -/
def simpleFile : Nat → List Record → Bool
  | _, [] => true
  | n, Record.comment :: rest => simpleFile n rest
  | n, Record.header vertices :: rest =>
    decide ((n : Int) ≤ vertices) && simpleFile vertices.toNat rest
  | n, Record.edge start finish :: rest => decide (start ≠ finish) && simpleFile n rest

/-- Method `GetColors`. -/
def GetColors (s : State) : List Nat := s.colors

/-- A file whose `p` lines never lower the vertex count `n` read so far (its
edge lines may be self-loops). -/
def growingFile : Nat → List Record → Bool
  | _, [] => true
  | n, Record.comment :: rest => growingFile n rest
  | n, Record.header vertices :: rest =>
    decide ((n : Int) ≤ vertices) && growingFile vertices.toNat rest
  | n, Record.edge _ _ :: rest => growingFile n rest

/-- The maximum vertex degree: the largest size of a set of `neighbour_sets`
(0 when there is no vertex). -/
def maxDegree (sets : List (List Nat)) : Nat :=
  (sets.map List.length).foldl max 0

/-- The states of the `while` loop of `GreedyGraphColoring` at the start of
each round it runs, in order; the first argument is the fuel. -/
def roundStates (sets : List (List Nat)) : Nat → Loop → List Loop
  | 0, _ => []
  | fuel + 1, l =>
    if l.uncolored_vertices.isEmpty then [] else l :: roundStates sets fuel (round sets l)

/-- The invariant of the `while` loop of `GreedyGraphColoring` about the
colours in use: the uncoloured vertices are those of colour 0; every colour is
at most `maxcolor`; once a vertex is coloured every colour of `[1, maxcolor]`
is the colour of some vertex, and before that `maxcolor` is 1; and `maxcolor`
is at most the maximum degree plus one. -/
structure PaletteInv (sets : List (List Nat)) (l : Loop) : Prop where
  len : l.colors.length = sets.length
  nodup : l.uncolored_vertices.Nodup
  unc : ∀ v, v ∈ l.uncolored_vertices ↔ v < sets.length ∧ l.colors.getD v 0 = 0
  le : ∀ v, l.colors.getD v 0 ≤ l.maxcolor
  pos : 1 ≤ l.maxcolor
  used : (∃ v, v < sets.length ∧ l.colors.getD v 0 ≠ 0) →
    ∀ c, 1 ≤ c → c ≤ l.maxcolor → ∃ v, v < sets.length ∧ l.colors.getD v 0 = c
  start : (∀ v, l.colors.getD v 0 = 0) → l.maxcolor = 1
  bound : l.maxcolor ≤ maxDegree sets + 1

end ColoringProblem

namespace MaxCliqueProblem

/-- The fields of class `MaxCliqueProblem` (lab2); each `unordered_set<int>` of
`neighbour_sets` is held as the list of its elements in iteration order. -/
structure State where
  neighbour_sets : List (List Nat)
  best_clique : List Nat
deriving DecidableEq

/-- A freshly constructed `MaxCliqueProblem`. -/
def newProblem : State :=
  { neighbour_sets := [], best_clique := [] }

/-- One line of the input file as `ReadGraphFile` sees it: a line that is
skipped (empty, starting with `c`, or starting with neither `p` nor `e`), a `p`
line that parses with its vertex count, a `p` line that fails to parse, an `e`
line that parses, an `e` line that fails to parse. -/
inductive Record where
  | skip : Record
  | header (vertices : Int) : Record
  | headerFail : Record
  | edge (start finish : Int) : Record
  | edgeFail : Record
deriving DecidableEq

/-- The loop of `ReadGraphFile`; the first argument is the local variable
`vertices`. A negative vertex count makes `resize` fail: the model returns
`none`. A `p` line that fails to parse ends the reading. -/
def readLoop : Int → State → List Record → Option State
  | _, s, [] => some s
  | vertices, s, Record.skip :: rest => readLoop vertices s rest
  | _, s, Record.header vertices :: rest =>
    if vertices < 0 then none
    else
      readLoop vertices
        { s with neighbour_sets := ColoringProblem.resize s.neighbour_sets vertices.toNat } rest
  | _, s, Record.headerFail :: _ => some s
  | vertices, s, Record.edge start finish :: rest =>
    if start < 1 ∨ start > vertices ∨ finish < 1 ∨ finish > vertices then
      readLoop vertices s rest
    else
      readLoop vertices
        { s with
          neighbour_sets :=
            ColoringProblem.insertAt
              (ColoringProblem.insertAt s.neighbour_sets (start - 1).toNat (finish - 1).toNat)
              (finish - 1).toNat (start - 1).toNat } rest
  | vertices, s, Record.edgeFail :: rest => readLoop vertices s rest

/-- Method `ReadGraphFile` on the lines of a file that could be opened. -/
def ReadGraphFile (s : State) (recs : List Record) : Option State :=
  readLoop 0 s recs

/-- The call `GetRandom(a, b)` on the stream `gen` of raw draws of the static
generator: the draw is reduced to `[a, b]`; `a > b` is outside the contract of
`uniform_int_distribution`, the model returns `none`. -/
def GetRandom (a b : Int) (gen : List Nat) : Option (Int × List Nat) :=
  if b < a then none
  else some (a + ((gen.headD 0 % ((b - a).toNat + 1) : Nat) : Int), gen.tail)

/-- Checked read `v[i]` of a vector with an `int` index. -/
def at? {α : Type} (v : List α) (i : Int) : Option α :=
  if i < 0 then none else v.get? i.toNat

/-- The constant `INT_MAX`. -/
def INT_MAX : Int := 2147483647

/-- The first loop of a round of the `while`: for every candidate `v` the
number of its neighbours that are candidates is stored in
`candidate_degrees_static[v]`; returns the vector and `max_degree`. -/
def computeDegrees (sets : List (List Nat)) (is_candidate : List Bool)
    (candidates : List Nat) (degrees : List Int) : List Int × Int :=
  candidates.foldl
    (fun acc v =>
      let degree : Int :=
        (sets.getD v []).foldl
          (fun d neighbor => d + (if is_candidate.getD neighbor false then 1 else 0)) 0
      (acc.1.set v degree, if degree > acc.2 then degree else acc.2))
    (degrees, 0)

/-- The metrics gathered over the neighbours of a candidate. -/
structure Metrics where
  critical_neighbors : Int
  total_neighbor_degree : Int
  min_neighbor_degree : Int
  potential : Int
  neighbor_count : Int

/-- The score of candidate `v`. The `int` arithmetic is taken without
overflow. -/
def scoreOf (sets : List (List Nat)) (is_candidate : List Bool) (degrees : List Int)
    (critical_threshold : Int) (v : Nat) : Int :=
  let degree := degrees.getD v 0
  let potential_limit := min 15 degree
  let m := (sets.getD v []).foldl
    (fun (m : Metrics) neighbor =>
      if is_candidate.getD neighbor false then
        let n_degree := degrees.getD neighbor 0
        { total_neighbor_degree := m.total_neighbor_degree + n_degree
          min_neighbor_degree :=
            if n_degree < m.min_neighbor_degree then n_degree else m.min_neighbor_degree
          potential :=
            if m.neighbor_count < potential_limit then m.potential + n_degree else m.potential
          critical_neighbors :=
            if n_degree ≤ critical_threshold then
              m.critical_neighbors + (critical_threshold - n_degree + 1)
            else m.critical_neighbors
          neighbor_count := m.neighbor_count + 1 }
      else m)
    ⟨0, 0, INT_MAX, 0, 0⟩
  let avg_neighbor_degree :=
    if m.neighbor_count > 0 then Int.tdiv m.total_neighbor_degree m.neighbor_count else 0
  let min_neighbor_degree := if m.min_neighbor_degree = INT_MAX then 0 else m.min_neighbor_degree
  degree * 1000 + m.critical_neighbors * 100 + avg_neighbor_degree * 10
    + min_neighbor_degree * 20 + m.potential * 5

/-- The vector `candidate_scores` of a round, before it is sorted. -/
def candidateScores (sets : List (List Nat)) (is_candidate : List Bool)
    (candidates : List Nat) (degrees : List Int) (max_degree : Int) : List (Nat × Int) :=
  let critical_threshold := max 2 (Int.tdiv max_degree 4)
  candidates.map (fun v => (v, scoreOf sets is_candidate degrees critical_threshold v))

/-- The value of `rcl_size` after `if (rcl_size == 0) rcl_size = 1`. -/
def rclSize (randomization : Int) (size : Nat) : Int :=
  let rcl_size := min randomization (size : Int)
  if rcl_size = 0 then 1 else rcl_size

/-- The calls `partial_sort` and `sort` with the comparator
`a.second > b.second`. The standard library fixes neither the order of equal
scores nor, for `partial_sort`, the order behind the first `rcl_size` entries;
the embedding takes the order insertion sort produces, which both calls may
return. -/
def sortScores (scores : List (Nat × Int)) : List (Nat × Int) :=
  scores.insertionSort (fun a b => a.2 > b.2)

/-- The value of `actual_rcl_size` after the loop that extends the list by the
entries whose score equals `min_score_in_rcl`. -/
def actualRclSize (sorted : List (Nat × Int)) (rcl_size min_score_in_rcl : Int) : Int :=
  rcl_size +
    (((sorted.drop rcl_size.toNat).takeWhile (fun p => p.2 == min_score_in_rcl)).length : Nat)

/-- The loop that fills `cumulative_weights`; returns `total_weight` and the
vector. -/
def cumulativeWeights (sorted : List (Nat × Int)) (actual_rcl_size : Int)
    (min_score_in_rcl score_range_div : Int) : Int × List Int :=
  (List.range actual_rcl_size.toNat).foldl
    (fun acc i =>
      let normalized_score := (sorted.getD i (0, 0)).2 - min_score_in_rcl
      let weight := 1 + Int.tdiv (normalized_score * 10) score_range_div
      (acc.1 + weight, acc.2 ++ [acc.1 + weight]))
    (0, [])

/-- The choice of `selected_idx` among the first `actual_rcl_size` entries. A
read outside the vector, a call `GetRandom(0, b)` with `b < 0` and a loop that
leaves `selected_idx` unset give `none`. -/
def selectIdx (sorted : List (Nat × Int)) (actual_rcl_size : Int) (gen : List Nat) :
    Option (Int × List Nat) :=
  if actual_rcl_size ≤ 3 then GetRandom 0 (actual_rcl_size - 1) gen
  else
    match at? sorted 0, at? sorted (actual_rcl_size - 1) with
    | some first, some last =>
      let max_score := first.2
      let min_score_in_rcl := last.2
      let score_range := max_score - min_score_in_rcl
      if score_range > 0 then
        let score_range_div := max 1 score_range
        let w := cumulativeWeights sorted actual_rcl_size min_score_in_rcl score_range_div
        match GetRandom 0 (w.1 - 1) gen with
        | none => none
        | some (random_val, gen1) =>
          match (List.range actual_rcl_size.toNat).find?
              (fun i => random_val < w.2.getD i 0) with
          | none => none
          | some i => some ((i : Int), gen1)
      else GetRandom 0 (actual_rcl_size - 1) gen
    | _, _ => none

/-- The part of a round of the `while` that ends with `selected_vertex`:
returns the vertex, `candidate_degrees_static` and the draws left. -/
def selectVertex (sets : List (List Nat)) (randomization : Int) (is_candidate : List Bool)
    (candidates : List Nat) (degrees : List Int) (gen : List Nat) :
    Option (Nat × List Int × List Nat) :=
  let d := computeDegrees sets is_candidate candidates degrees
  let candidate_scores := candidateScores sets is_candidate candidates d.1 d.2
  let rcl_size := rclSize randomization candidate_scores.length
  let sorted := sortScores candidate_scores
  match at? sorted (rcl_size - 1) with
  | none => none
  | some entry =>
    let actual_rcl_size := actualRclSize sorted rcl_size entry.2
    match selectIdx sorted actual_rcl_size gen with
    | none => none
    | some (selected_idx, gen1) =>
      match at? sorted selected_idx with
      | none => none
      | some selected => some (selected.1, d.1, gen1)

/-- The update of `candidates` and `is_candidate` after `selected_vertex` has
been pushed on the clique, with both of its branches. -/
def updateCandidates (sets : List (List Nat)) (selected_vertex : Nat)
    (candidates : List Nat) (is_candidate : List Bool) : List Nat × List Bool :=
  let is_candidate1 := is_candidate.set selected_vertex false
  let selected_neighbors := sets.getD selected_vertex []
  if selected_neighbors.length < candidates.length then
    let new_candidates := selected_neighbors.filter (fun neighbor =>
      is_candidate1.getD neighbor false)
    let is_candidate2 := candidates.foldl (fun ic c => ic.set c false) is_candidate1
    (new_candidates, new_candidates.foldl (fun ic c => ic.set c true) is_candidate2)
  else
    (candidates.filter (fun c => c != selected_vertex && selected_neighbors.contains c),
      candidates.foldl
        (fun ic c =>
          if c != selected_vertex && selected_neighbors.contains c then ic
          else ic.set c false)
        is_candidate1)

/-- The local variables of one iteration of `FindClique` that live across
the rounds of its `while` loop, with the generator. -/
structure Iter where
  clique : List Nat
  candidates : List Nat
  is_candidate : List Bool
  candidate_degrees : List Int
  gen : List Nat

/-- The loop `while (!candidates.empty())`; the first argument is the fuel. -/
def whileLoop (sets : List (List Nat)) (randomization : Int) : Nat → Iter → Option Iter
  | 0, it => if it.candidates.isEmpty then some it else none
  | fuel + 1, it =>
    if it.candidates.isEmpty then some it
    else
      match selectVertex sets randomization it.is_candidate it.candidates
          it.candidate_degrees it.gen with
      | none => none
      | some (selected_vertex, degrees, gen1) =>
        let u := updateCandidates sets selected_vertex it.candidates it.is_candidate
        whileLoop sets randomization fuel
          { clique := it.clique ++ [selected_vertex]
            candidates := u.1
            is_candidate := u.2
            candidate_degrees := degrees
            gen := gen1 }

/-- The vertex `max_degree_vertex` of the diversification step. -/
def maxDegreeVertex (sets : List (List Nat)) (candidates : List Nat) : Nat :=
  (candidates.foldl
    (fun (acc : Nat × Int) v =>
      let degree : Int := ((sets.getD v []).length : Nat)
      if degree > acc.2 then (v, degree) else acc)
    (candidates.getD 0 0, 0)).1

/-- The diversification step: the clique starts with a candidate of maximum
degree, and the candidates are cut down to its neighbours. -/
def preselect (sets : List (List Nat)) (candidates : List Nat) (is_candidate : List Bool) :
    List Nat × List Nat × List Bool :=
  let max_degree_vertex := maxDegreeVertex sets candidates
  let is_candidate1 := is_candidate.set max_degree_vertex false
  let max_vertex_neighbors := sets.getD max_degree_vertex []
  ([max_degree_vertex],
    candidates.filter (fun c => c != max_degree_vertex && max_vertex_neighbors.contains c),
    candidates.foldl
      (fun ic c =>
        if c != max_degree_vertex && max_vertex_neighbors.contains c then ic
        else ic.set c false)
      is_candidate1)

/-- The clique, the candidates and `is_candidate` at the start of the
`while` loop of an iteration whose draw `GetRandom(0, 100)` is `r`: those of
the diversification step when `r < 25` and there is a candidate, else the
empty clique and all the vertices. -/
def startOf (sets : List (List Nat)) (r : Int) : List Nat × List Nat × List Bool :=
  let candidates := List.range sets.length
  let is_candidate := List.replicate sets.length true
  if r < 25 ∧ ¬ candidates.isEmpty then preselect sets candidates is_candidate
  else ([], candidates, is_candidate)

/-- One iteration of the `for` loop of `FindClique`: returns the new
`best_clique` and the draws left. -/
def iteration (sets : List (List Nat)) (randomization : Int) (best_clique : List Nat)
    (gen : List Nat) : Option (List Nat × List Nat) :=
  match GetRandom 0 100 gen with
  | none => none
  | some (r, gen1) =>
    match whileLoop sets randomization (startOf sets r).2.1.length
        { clique := (startOf sets r).1
          candidates := (startOf sets r).2.1
          is_candidate := (startOf sets r).2.2
          candidate_degrees := List.replicate sets.length 0
          gen := gen1 } with
    | none => none
    | some it =>
      some (if it.clique.length > best_clique.length then it.clique else best_clique, it.gen)

/-- The `for (int iteration = 0; iteration < iterations; ++iteration)` loop;
the first argument is the number of iterations still to run. -/
def iterations (sets : List (List Nat)) (randomization : Int) :
    Nat → List Nat → List Nat → Option (List Nat × List Nat)
  | 0, best_clique, gen => some (best_clique, gen)
  | k + 1, best_clique, gen =>
    match iteration sets randomization best_clique gen with
    | none => none
    | some (best1, gen1) => iterations sets randomization k best1 gen1

/-- Method `FindClique(randomization, iterations)` with the raw draws `gen`. -/
def FindClique (s : State) (randomization iters : Int) (gen : List Nat) :
    Option (State × List Nat) :=
  match iterations s.neighbour_sets randomization iters.toNat s.best_clique gen with
  | none => none
  | some (best, gen1) => some ({ s with best_clique := best }, gen1)

/-- Method `GetClique`. -/
def GetClique (s : State) : List Nat := s.best_clique

/-- The test `unique(first, last) != last`: the vector has two equal
consecutive entries. When it has none `unique` leaves the vector as it is. -/
def hasRepeat : List Nat → Bool
  | a :: b :: rest => a == b || hasRepeat (b :: rest)
  | _ => false

/-- Method `Check`. -/
def Check (s : State) : Bool :=
  if hasRepeat s.best_clique then false
  else
    s.best_clique.all (fun i =>
      s.best_clique.all (fun j => !(i != j && !(s.neighbour_sets.getD i []).contains j)))

/-- The graph held in `neighbour_sets`: each set is a list without
repetition of vertices of `[0, n)`, and adjacency is symmetric. -/
structure GraphOK (sets : List (List Nat)) : Prop where
  nodup : ∀ v, v < sets.length → (sets.getD v []).Nodup
  inRange : ∀ v, v < sets.length → ∀ u ∈ sets.getD v [], u < sets.length
  sym : ∀ v, v < sets.length → ∀ u ∈ sets.getD v [], v ∈ sets.getD u []

/-- A file whose `p` lines never lower the vertex count `n` read so far. -/
def growingFile : Int → List Record → Bool
  | _, [] => true
  | n, Record.skip :: rest => growingFile n rest
  | n, Record.header vertices :: rest => decide (n ≤ vertices) && growingFile vertices rest
  | _, Record.headerFail :: _ => true
  | n, Record.edge _ _ :: rest => growingFile n rest
  | n, Record.edgeFail :: rest => growingFile n rest

/-- The triangle `0, 1, 2`, as `ReadGraphFile` stores it in a fresh object. -/
def triangle : State :=
  { neighbour_sets := [[1, 2], [0, 2], [0, 1]], best_clique := [] }

end MaxCliqueProblem

namespace MaxCliqueTabuSearch

/-- The indexed set `FastSet` of lab3: the vector `items` and the vector `pos`
giving the place of each vertex in `items`, `-1` when it is not in the set. -/
structure FastSet where
  items : List Nat
  pos : List Int
deriving DecidableEq

/-- Method `FastSet::Init(n)`. -/
def FastSet.Init (n : Nat) : FastSet :=
  { items := [], pos := List.replicate n (-1) }

/-- Method `FastSet::Contains(v)`. -/
def FastSet.Contains (f : FastSet) (v : Nat) : Bool :=
  f.pos.getD v (-1) != -1

/-- Method `FastSet::Size()`. -/
def FastSet.Size (f : FastSet) : Int := (f.items.length : Nat)

/-- Method `FastSet::Add(v)`. -/
def FastSet.Add (f : FastSet) (v : Nat) : FastSet :=
  if f.pos.getD v (-1) ≠ -1 then f
  else { items := f.items ++ [v], pos := f.pos.set v (f.items.length : Nat) }

/-- Method `FastSet::Remove(v)`: the last item takes the place of `v`. -/
def FastSet.Remove (f : FastSet) (v : Nat) : FastSet :=
  let p := f.pos.getD v (-1)
  if p = -1 then f
  else
    let last := f.items.getLastD 0
    { items := (f.items.set p.toNat last).dropLast
      pos := (f.pos.set last p).set v (-1) }

/-- The fields of class `MaxCliqueTabuSearch` (lab3). Each `unordered_set<int>`
is held as the list of its elements in iteration order; `rng` is the stream of
raw draws of the generator. The scores of the search are `double`s, which the
model does not compute: `decisions` is the stream of the outcomes of the
floating-point comparisons still to come, so that every run of the program is
a run of the model for some stream. -/
structure State where
  neighbour_sets : List (List Nat)
  non_neighbours : List (List Nat)
  best_clique : List Nat
  degrees : List Int
  rng : List Nat
  decisions : List Bool
  clique : List Nat
  best_vector : List Nat
  pos_in_clique : List Int
  in_clique : List Bool
  tight : List Int
  C0 : FastSet
  C1 : FastSet
  tabu_until : List Int
  freq : List Int
deriving DecidableEq

/-- A freshly constructed `MaxCliqueTabuSearch` with the generator stream
`rng` and the comparison outcomes `decisions`. -/
def newSearch (rng : List Nat) (decisions : List Bool) : State :=
  { neighbour_sets := [], non_neighbours := [], best_clique := [], degrees := [],
    rng := rng, decisions := decisions, clique := [], best_vector := [],
    pos_in_clique := [], in_clique := [], tight := [],
    C0 := ⟨[], []⟩, C1 := ⟨[], []⟩, tabu_until := [], freq := [] }

/-- One line of the input file as `ReadGraphFile` sees it: a line starting
with `c`, a line starting with `p` with its vertex count, or any other line,
read as `command start finish`. -/
inductive Record where
  | comment : Record
  | header (vertices : Int) : Record
  | edge (start finish : Int) : Record
deriving DecidableEq

/-- The `while (getline(fin, line))` loop of `ReadGraphFile`; the first
argument is the local variable `vertices`, which is returned with the state.
A negative vertex count and an edge line with an endpoint outside `[1, size]`
index the vectors out of range; the model returns `none` there. -/
def readLoop : Int → State → List Record → Option (Int × State)
  | vertices, s, [] => some (vertices, s)
  | vertices, s, Record.comment :: rest => readLoop vertices s rest
  | _, s, Record.header vertices :: rest =>
    if vertices < 0 then none
    else
      readLoop vertices
        { s with
          neighbour_sets := ColoringProblem.resize s.neighbour_sets vertices.toNat
          non_neighbours := List.replicate vertices.toNat []
          degrees := List.replicate vertices.toNat 0 } rest
  | vertices, s, Record.edge start finish :: rest =>
    if start - 1 < 0 ∨ start - 1 ≥ (s.neighbour_sets.length : Int) ∨
        finish - 1 < 0 ∨ finish - 1 ≥ (s.neighbour_sets.length : Int) then none
    else
      readLoop vertices
        { s with
          neighbour_sets :=
            ColoringProblem.insertAt
              (ColoringProblem.insertAt s.neighbour_sets (start - 1).toNat (finish - 1).toNat)
              (finish - 1).toNat (start - 1).toNat } rest

/-- Method `ReadGraphFile`: the lines are read, then `degrees` and the lists
`non_neighbours` are filled for the vertices `0 .. vertices - 1`. -/
def ReadGraphFile (s : State) (recs : List Record) : Option State :=
  match readLoop 0 s recs with
  | none => none
  | some (vertices, s1) =>
    some { s1 with
      degrees := (List.range vertices.toNat).foldl
        (fun d i => d.set i (((s1.neighbour_sets.getD i []).length : Nat) : Int)) s1.degrees
      non_neighbours := (List.range vertices.toNat).foldl
        (fun nn i => nn.set i
          (nn.getD i [] ++ (List.range vertices.toNat).filter
            (fun j => i != j && !(s1.neighbour_sets.getD i []).contains j)))
        s1.non_neighbours }

/-- Method `RandInt(a, b)`: the next raw draw reduced to `[a, b]`; `a > b` is
outside the contract of `uniform_int_distribution`, the model returns `none`. -/
def RandInt (a b : Int) (s : State) : Option (Int × State) :=
  if b < a then none
  else some (a + ((s.rng.headD 0 % ((b - a).toNat + 1) : Nat) : Int),
    { s with rng := s.rng.tail })

/-- The outcome of the next comparison of two `double`s. -/
def nextDecision (s : State) : Bool × State :=
  (s.decisions.headD false, { s with decisions := s.decisions.tail })

/-- Method `InitializeState(n)`. -/
def InitializeState (s : State) (n : Nat) : State :=
  { s with
    clique := []
    best_vector := []
    pos_in_clique := List.replicate n (-1)
    in_clique := List.replicate n false
    tight := List.replicate n 0
    C0 := (List.range n).foldl (fun f v => f.Add v) (FastSet.Init n)
    C1 := FastSet.Init n
    tabu_until := List.replicate n 0
    freq := List.replicate n 0 }

/-- Body of the loop `for (int u : non_neighbours[v])` of `AddToClique`, on
`tight`, `C0` and `C1`. -/
def addStep (in_clique : List Bool) (acc : List Int × FastSet × FastSet) (u : Nat) :
    List Int × FastSet × FastSet :=
  if in_clique.getD u false then acc
  else
    let old := acc.1.getD u 0
    let tight := acc.1.set u (old + 1)
    if old = 0 then (tight, acc.2.1.Remove u, acc.2.2.Add u)
    else if old = 1 then (tight, acc.2.1, acc.2.2.Remove u)
    else (tight, acc.2.1, acc.2.2)

/-- Method `AddToClique(v)`. -/
def AddToClique (s : State) (v : Nat) : State :=
  let in_clique := s.in_clique.set v true
  let r := (s.non_neighbours.getD v []).foldl (addStep in_clique)
    (s.tight.set v 0, s.C0.Remove v, s.C1.Remove v)
  { s with
    in_clique := in_clique
    pos_in_clique := s.pos_in_clique.set v (s.clique.length : Nat)
    clique := s.clique ++ [v]
    freq := s.freq.set v (s.freq.getD v 0 + 1)
    tight := r.1
    C0 := r.2.1
    C1 := r.2.2 }

/-- Body of the loop `for (int u : non_neighbours[v])` of `RemoveFromClique`. -/
def removeStep (in_clique : List Bool) (acc : List Int × FastSet × FastSet) (u : Nat) :
    List Int × FastSet × FastSet :=
  if in_clique.getD u false then acc
  else
    let old := acc.1.getD u 0
    let tight := acc.1.set u (old - 1)
    if old = 1 then (tight, acc.2.1.Add u, acc.2.2.Remove u)
    else if old = 2 then (tight, acc.2.1, acc.2.2.Add u)
    else (tight, acc.2.1, acc.2.2)

/-- Method `RemoveFromClique(v)`. -/
def RemoveFromClique (s : State) (v : Nat) : State :=
  let p := s.pos_in_clique.getD v (-1)
  if p = -1 then s
  else
    let last := s.clique.getLastD 0
    let in_clique := s.in_clique.set v false
    let r := (s.non_neighbours.getD v []).foldl (removeStep in_clique)
      (s.tight.set v 0, s.C0.Add v, s.C1.Remove v)
    { s with
      clique := (s.clique.set p.toNat last).dropLast
      pos_in_clique := (s.pos_in_clique.set last p).set v (-1)
      in_clique := in_clique
      tight := r.1
      C0 := r.2.1
      C1 := r.2.2 }

/-- Method `CurrentTenure(base_tenure)`. -/
def CurrentTenure (s : State) (base_tenure : Int) : Int :=
  min 60 (max 5 (base_tenure + Int.tdiv (s.clique.length : Nat) 8))

/-- Method `IsTabuToInsert(v, iter)`. -/
def IsTabuToInsert (s : State) (v : Nat) (iter : Int) : Bool :=
  decide (s.tabu_until.getD v 0 > iter)

/-- Method `IsAspiration(v, iter, best_size, current_size)`. -/
def IsAspiration (s : State) (best_size current_size : Int) : Bool :=
  let target : Int := (s.clique.length : Nat) + 1
  if target > best_size then true
  else if target ≥ best_size ∧ current_size < best_size - 1 then true
  else false

/-- Method `HasAdmissibleAdd(iter, best_size, current_size)`. -/
def HasAdmissibleAdd (s : State) (iter best_size current_size : Int) : Bool :=
  if s.C0.Size = 0 then false
  else s.C0.items.any (fun v =>
    !IsTabuToInsert s v iter || IsAspiration s best_size current_size)

/-- The tournament loop of `ChooseFromC0Tournament`; the first argument is
the number of tries still to make, `best_v` is `none` for `-1`. -/
def chooseLoop (iter best_size current_size : Int) :
    Nat → State → Option Nat → Option (Option Nat × State)
  | 0, s, best_v => some (best_v, s)
  | tries + 1, s, best_v =>
    match RandInt 0 (s.C0.Size - 1) s with
    | none => none
    | some (idx, s1) =>
      match s1.C0.items.get? idx.toNat with
      | none => none
      | some v =>
        if IsTabuToInsert s1 v iter ∧ ¬ IsAspiration s1 best_size current_size then
          chooseLoop iter best_size current_size tries s1 best_v
        else
          match RandInt 0 1000000 s1 with
          | none => none
          | some (_, s2) =>
            let d := nextDecision s2
            chooseLoop iter best_size current_size tries d.2
              (if d.1 then some v else best_v)

/-- Method `ChooseFromC0Tournament(k, iter, best_size, current_size)`. -/
def ChooseFromC0Tournament (s : State) (k iter best_size current_size : Int) :
    Option (Option Nat × State) :=
  if s.C0.Size = 0 then some (none, s)
  else
    let k := min k s.C0.Size
    let tries := min s.C0.Size (max 50 (k * 15))
    chooseLoop iter best_size current_size tries.toNat s none

/-- Method `ExpandGreedy`; the first argument is `max_expansions - expansions`. -/
def expandLoop (randomization iter best_size : Int) : Nat → State → Int → Option State
  | 0, s, _ => some s
  | left + 1, s, current_size =>
    match ChooseFromC0Tournament s randomization iter best_size current_size with
    | none => none
    | some (none, s1) => some s1
    | some (some v, s1) =>
      expandLoop randomization iter best_size left (AddToClique s1 v)
        (((AddToClique s1 v).clique.length : Nat) : Int)

/-- Method `ExpandGreedy(randomization, iter, best_size, current_size)`. -/
def ExpandGreedy (s : State) (randomization iter best_size current_size : Int) :
    Option State :=
  expandLoop randomization iter best_size 1000 s current_size

/-- The tournament loop of `BuildInitialClique`. -/
def buildTries : Nat → State → Option Nat → Option (Option Nat × State)
  | 0, s, best_v => some (best_v, s)
  | tries + 1, s, best_v =>
    match RandInt 0 (s.C0.Size - 1) s with
    | none => none
    | some (idx, s1) =>
      match s1.C0.items.get? idx.toNat with
      | none => none
      | some v =>
        match RandInt 0 1000000 s1 with
        | none => none
        | some (_, s2) =>
          let d := nextDecision s2
          buildTries tries d.2 (if d.1 then some v else best_v)

/-- Method `BuildInitialClique(randomization)`; the first argument is the
fuel of its `while (C0.Size() > 0)` loop. -/
def BuildInitialClique (randomization : Int) : Nat → State → Option State
  | 0, s => if s.C0.Size > 0 then none else some s
  | fuel + 1, s =>
    if s.C0.Size > 0 then
      let k := min randomization s.C0.Size
      let tries := min s.C0.Size (max 60 (k * 12))
      match buildTries tries.toNat s none with
      | none => none
      | some (none, s1) => some s1
      | some (some best_v, s1) => BuildInitialClique randomization fuel (AddToClique s1 best_v)
    else some s

/-- Method `FindConflictVertexForC1(v)`; `none` for `-1`. -/
def FindConflictVertexForC1 (s : State) (v : Nat) : Option Nat :=
  s.clique.find? (fun u => !(s.neighbour_sets.getD v []).contains u)

/-- The tournament loop of `TrySwap`; `best` holds `best_v` and `best_u`,
`none` for `best_v == -1`. -/
def swapTries (iter best_size current_size : Int) :
    Nat → State → Option (Nat × Nat) → Option (Option (Nat × Nat) × State)
  | 0, s, best => some (best, s)
  | tries + 1, s, best =>
    match RandInt 0 (s.C1.Size - 1) s with
    | none => none
    | some (idx, s1) =>
      match s1.C1.items.get? idx.toNat with
      | none => none
      | some v =>
        if IsTabuToInsert s1 v iter ∧ ¬ IsAspiration s1 best_size current_size then
          swapTries iter best_size current_size tries s1 best
        else
          match FindConflictVertexForC1 s1 v with
          | none => swapTries iter best_size current_size tries s1 best
          | some u =>
            match RandInt 0 1000000 s1 with
            | none => none
            | some (_, s2) =>
              let d := nextDecision s2
              swapTries iter best_size current_size tries d.2
                (if d.1 then some (v, u) else best)

/-- The statement `tabu_until[u] = iter + mult * CurrentTenure(base_tenure) +
RandInt(0, span)`. -/
def setTabu (s : State) (u : Nat) (iter mult base_tenure span : Int) : Option State :=
  match RandInt 0 span s with
  | none => none
  | some (r, s1) =>
    some { s1 with
      tabu_until := s1.tabu_until.set u (iter + mult * CurrentTenure s1 base_tenure + r) }

/-- Method `TrySwap(iter, randomization, base_tenure, best_size, current_size)`. -/
def TrySwap (s : State) (iter randomization base_tenure best_size current_size : Int) :
    Option (Bool × State) :=
  if s.C1.Size = 0 ∨ s.clique.isEmpty then some (false, s)
  else
    let k := min randomization s.C1.Size
    let tries := min s.C1.Size (max 80 (k * 15))
    match swapTries iter best_size current_size tries.toNat s none with
    | none => none
    | some (none, s1) => some (false, s1)
    | some (some (best_v, best_u), s1) =>
      match setTabu (RemoveFromClique s1 best_u) best_u iter 1 base_tenure base_tenure with
      | none => none
      | some s2 => some (true, AddToClique s2 best_v)

/-- The loop of `DropOne` that looks for the vertex to drop. -/
def dropTries : Nat → State → Nat → Option (Nat × State)
  | 0, s, best_u => some (best_u, s)
  | tries + 1, s, best_u =>
    match RandInt 0 (((s.clique.length : Nat) : Int) - 1) s with
    | none => none
    | some (idx, s1) =>
      match s1.clique.get? idx.toNat with
      | none => none
      | some u =>
        match RandInt 0 1000000 s1 with
        | none => none
        | some (_, s2) =>
          let d := nextDecision s2
          dropTries tries d.2 (if d.1 then u else best_u)

/-- Method `DropOne(iter, base_tenure)`. -/
def DropOne (s : State) (iter base_tenure : Int) : Option State :=
  if s.clique.isEmpty then some s
  else
    let size : Int := (s.clique.length : Nat)
    let k := min (max 10 (Int.tdiv size 2)) size
    match RandInt 0 (size - 1) s with
    | none => none
    | some (idx, s1) =>
      match s1.clique.get? idx.toNat with
      | none => none
      | some first =>
        match dropTries k.toNat s1 first with
        | none => none
        | some (best_u, s2) =>
          setTabu (RemoveFromClique s2 best_u) best_u iter 1 base_tenure base_tenure

/-- The comparator `greater<pair<int, int>>` on the pairs (`freq`, vertex). -/
def pairGreater (a b : Int × Nat) : Bool :=
  decide (a.1 > b.1) || (a.1 == b.1 && decide (a.2 > b.2))

/-- The removal loop of `Diversify`; `i` is the loop counter and the first
argument the number of rounds still allowed by `i < candidates.size()`. -/
def diversifyLoop (candidates : List (Int × Nat)) (remove_cnt iter base_tenure : Int) :
    Nat → Int → State → Option State
  | 0, _, s => some s
  | left + 1, i, s =>
    if i < remove_cnt then
      let pick : Option (Int × State) :=
        if i < remove_cnt - 1 then
          match RandInt 0 100 s with
          | none => none
          | some (r, s1) =>
            if r < 30 then RandInt i (min (i + 3) (((candidates.length : Nat) : Int) - 1)) s1
            else some (i, s1)
        else some (i, s)
      match pick with
      | none => none
      | some (idx, s1) =>
        match candidates.get? idx.toNat with
        | none => none
        | some entry =>
          match setTabu (RemoveFromClique s1 entry.2) entry.2 iter 3 base_tenure
              (2 * base_tenure) with
          | none => none
          | some s2 =>
            if s2.clique.isEmpty then some s2
            else diversifyLoop candidates remove_cnt iter base_tenure left (i + 1) s2
    else some s

/-- Method `Diversify(iter, base_tenure)`. -/
def Diversify (s : State) (iter base_tenure : Int) : Option State :=
  if s.clique.isEmpty then some s
  else
    let size : Int := (s.clique.length : Nat)
    let remove_cnt := min (max 1 (Int.tdiv size 2)) size
    let candidates := (s.clique.map (fun v => (s.freq.getD v 0, v))).insertionSort
      (fun a b => pairGreater a b)
    diversifyLoop candidates remove_cnt iter base_tenure candidates.length 0 s

/-- The `int` and `bool` locals of a restart of `RunSearch` that live across
the tabu steps. -/
structure Locals where
  best_size : Int
  current_size : Int
  stall : Int
  base_tenure : Int
  last_improvement : Int
  intensification_count : Int
  in_intensification : Bool
  consecutive_swaps : Int
deriving DecidableEq

/-- The part of a tabu step that follows `ExpandGreedy`, up to the test of the
stall limit: the record of an improvement and the intensification flags. -/
def recordStep (it : Int) (l : Locals) (s1 : State) : Locals × State :=
  let current_size : Int := (s1.clique.length : Nat)
  let improved : Bool := decide (current_size > l.best_size)
  let best_size := if improved then current_size else l.best_size
  let s2 := if improved then { s1 with best_vector := s1.clique } else s1
  let stall := if improved then 0 else l.stall + 1
  let last_improvement := if improved then it else l.last_improvement
  let in_int0 := if improved then false else l.in_intensification
  let cnt0 := if improved then 0 else l.intensification_count
  let base_tenure := if improved then max 5 (l.base_tenure - 1) else l.base_tenure
  let enter : Bool :=
    decide (current_size ≥ best_size - 1) && !in_int0 && decide (it - last_improvement < 100)
  let in_int1 := if enter then true else in_int0
  let cnt1 := if enter then 0 else cnt0
  let cnt2 := if in_int1 then cnt1 + 1 else cnt1
  let leave : Bool := in_int1 && (decide (cnt2 > 200) || decide (current_size < best_size - 2))
  ({ best_size := best_size, current_size := current_size, stall := stall,
     base_tenure := base_tenure, last_improvement := last_improvement,
     intensification_count := if leave then 0 else cnt2,
     in_intensification := if leave then false else in_int1,
     consecutive_swaps := l.consecutive_swaps }, s2)

/-- The end of a tabu step: diversification when the search stalls, nothing
when a vertex can be added, else a swap or a drop. The test
`improvement_rate < 0.3` is a comparison of `double`s, read from `decisions`. -/
def moveStep (randomization iterations num_restarts stall_limit : Int) (it : Int)
    (l : Locals) (s : State) : Option (Locals × State) :=
  let d := nextDecision s
  let low_rate : Bool := d.1 && decide (it > Int.tdiv iterations (2 * num_restarts))
  let adaptive_stall_limit := if low_rate then Int.tdiv stall_limit 2 else stall_limit
  if l.stall ≥ adaptive_stall_limit then
    match Diversify d.2 it l.base_tenure with
    | none => none
    | some s3 =>
      some ({ l with stall := 0, base_tenure := min 30 (l.base_tenure + 2),
                     in_intensification := false }, s3)
  else if HasAdmissibleAdd d.2 it l.best_size l.current_size then
    some ({ l with consecutive_swaps := 0 }, d.2)
  else
    match TrySwap d.2 it randomization l.base_tenure l.best_size l.current_size with
    | none => none
    | some (true, s3) =>
      if l.consecutive_swaps + 1 > 50 then
        match DropOne s3 it l.base_tenure with
        | none => none
        | some s4 => some ({ l with consecutive_swaps := 0 }, s4)
      else some ({ l with consecutive_swaps := l.consecutive_swaps + 1 }, s3)
    | some (false, s3) =>
      match DropOne s3 it l.base_tenure with
      | none => none
      | some s4 => some ({ l with consecutive_swaps := 0 }, s4)

/-- Body of the loop `for (int it = 1; it <= iterations / num_restarts; ++it)`
of `RunSearch`. -/
def tabuStep (randomization iterations num_restarts stall_limit : Int) (it : Int)
    (l : Locals) (s : State) : Option (Locals × State) :=
  match ExpandGreedy s randomization it l.best_size l.current_size with
  | none => none
  | some s1 =>
    moveStep randomization iterations num_restarts stall_limit it
      (recordStep it l s1).1 (recordStep it l s1).2

/-- The loop over the tabu steps of a restart; the first argument is the
number of steps still to run, `it` the loop counter. -/
def tabuLoop (randomization iterations num_restarts stall_limit : Int) :
    Nat → Int → Locals → State → Option (Locals × State)
  | 0, _, l, s => some (l, s)
  | left + 1, it, l, s =>
    match tabuStep randomization iterations num_restarts stall_limit it l s with
    | none => none
    | some (l1, s1) =>
      tabuLoop randomization iterations num_restarts stall_limit left (it + 1) l1 s1

/-- One restart of `RunSearch`: returns the state and `best_size`. -/
def restart (randomization iterations num_restarts : Int) (n : Nat) (s : State) :
    Option (Int × State) :=
  match BuildInitialClique randomization n (InitializeState s n) with
  | none => none
  | some s1 =>
    let s2 := { s1 with best_vector := s1.clique }
    let best_size : Int := (s2.best_vector.length : Nat)
    match tabuLoop randomization iterations num_restarts (max 500 (5 * (n : Int)))
        (Int.tdiv iterations num_restarts).toNat 1
        { best_size := best_size, current_size := best_size, stall := 0, base_tenure := 7,
          last_improvement := 0, intensification_count := 0, in_intensification := false,
          consecutive_swaps := 0 } s2 with
    | none => none
    | some (l, s3) => some (l.best_size, s3)

/-- The loop over the restarts of `RunSearch`, with `global_best_size` and
`global_best_vector`. -/
def restarts (randomization iterations num_restarts : Int) (n : Nat) :
    Nat → Int → List Nat → State → Option (List Nat × State)
  | 0, _, global_best_vector, s => some (global_best_vector, s)
  | left + 1, global_best_size, global_best_vector, s =>
    match restart randomization iterations num_restarts n s with
    | none => none
    | some (best_size, s1) =>
      if best_size > global_best_size then
        restarts randomization iterations num_restarts n left best_size s1.best_vector s1
      else
        restarts randomization iterations num_restarts n left global_best_size
          global_best_vector s1

/-- Method `RunSearch(iterations, randomization)`. -/
def RunSearch (s : State) (iterations randomization : Int) : Option State :=
  if s.neighbour_sets.isEmpty then some s
  else
    let randomization := max 1 randomization
    let iterations := max 1 iterations
    let n := s.neighbour_sets.length
    let num_restarts : Int := min 3 (max 1 (Int.tdiv (n : Int) 200))
    match restarts randomization iterations num_restarts n num_restarts.toNat 0 [] s with
    | none => none
    | some (global_best_vector, s1) =>
      some { s1 with
        best_vector := global_best_vector
        best_clique := global_best_vector.foldl
          (fun acc v => if v ∈ acc then acc else acc ++ [v]) [] }

/-- Method `GetClique`. -/
def GetClique (s : State) : List Nat := s.best_clique

/-- Method `Check`. -/
def Check (s : State) : Bool :=
  s.best_clique.all (fun i =>
    s.best_clique.all (fun j => !(i != j && !(s.neighbour_sets.getD i []).contains j)))

/-- The invariant of `FastSet` for vertices `0 .. n-1`: `pos` has `n` entries,
`pos[items[i]] = i` for every place `i`, and a vertex whose `pos` is not `-1`
is in `items`. -/
def FastSet.WF (n : Nat) (f : FastSet) : Prop :=
  f.pos.length = n ∧
  (∀ i, i < f.items.length →
    f.items.getD i 0 < n ∧ f.pos.getD (f.items.getD i 0) (-1) = ((i : Nat) : Int)) ∧
  (∀ v, v < n → f.pos.getD v (-1) ≠ -1 → v ∈ f.items)

/-- The number of vertices `w` of `clique` that have `u` in their list
`non_neighbours[w]`. -/
def conflicts (nn : List (List Nat)) (clique : List Nat) (u : Nat) : Nat :=
  (clique.toFinset.filter (fun w => u ∈ nn.getD w [])).card

/-- The graph part of the state as `ReadGraphFile` leaves it: adjacency is
symmetric, and `non_neighbours[w]` lists without repetition the vertices of
`[0, n)` other than `w` that are not in the set of `w`. -/
structure TabuGraph (sets nn : List (List Nat)) : Prop where
  sym : ∀ w, w < sets.length → ∀ u ∈ sets.getD w [], w ∈ sets.getD u []
  nnSpec : ∀ w u, u ∈ nn.getD w [] ↔
    w < sets.length ∧ u < sets.length ∧ u ≠ w ∧ u ∉ sets.getD w []
  nnNodup : ∀ w, (nn.getD w []).Nodup

/-- The invariant of the search state of lab3 over the graph `sets`, `nn`
with `n` vertices. -/
structure SearchInv (sets nn : List (List Nat)) (s : State) : Prop where
  sets_eq : s.neighbour_sets = sets
  nn_eq : s.non_neighbours = nn
  cliqueWF : FastSet.WF sets.length ⟨s.clique, s.pos_in_clique⟩
  flagLen : s.in_clique.length = sets.length
  flag : ∀ v, s.in_clique.getD v false = true ↔ v ∈ s.clique
  adj : ∀ a ∈ s.clique, ∀ b ∈ s.clique, a ≠ b → b ∈ sets.getD a []
  tightLen : s.tight.length = sets.length
  tight : ∀ u, u < sets.length → u ∉ s.clique →
    s.tight.getD u 0 = ((conflicts nn s.clique u : Nat) : Int)
  c0WF : FastSet.WF sets.length s.C0
  c1WF : FastSet.WF sets.length s.C1
  c0 : ∀ v, v ∈ s.C0.items ↔ v < sets.length ∧ v ∉ s.clique ∧ s.tight.getD v 0 = 0
  c1 : ∀ v, v ∈ s.C1.items ↔ v < sets.length ∧ v ∉ s.clique ∧ s.tight.getD v 0 = 1

/-- The sets `C0` and `C1` agree with `tight` outside the clique `clq`: they
satisfy the invariant of `FastSet`, `C0` holds the vertices of `[0, n)` outside
`clq` with `tight = 0`, and `C1` those with `tight = 1`. -/
structure SetsMatch (n : Nat) (clq : List Nat) (tight : List Int) (C0 C1 : FastSet) :
    Prop where
  len : tight.length = n
  wf0 : C0.WF n
  wf1 : C1.WF n
  m0 : ∀ x, x ∈ C0.items ↔ x < n ∧ x ∉ clq ∧ tight.getD x 0 = 0
  m1 : ∀ x, x ∈ C1.items ↔ x < n ∧ x ∉ clq ∧ tight.getD x 0 = 1

/-- What every move of the search guarantees about the state `s1` it leaves
from `s`: the invariant holds, and `best_vector` and `best_clique` are those
of `s`. -/
structure Moved (sets nn : List (List Nat)) (s s1 : State) : Prop where
  inv : SearchInv sets nn s1
  best_vector : s1.best_vector = s.best_vector
  best_clique : s1.best_clique = s.best_clique

/-- The state `s1` differs from `s` at most in the generator, the comparison
outcomes, `tabu_until` and `freq`. -/
structure SameSearch (s s1 : State) : Prop where
  neighbour_sets : s1.neighbour_sets = s.neighbour_sets
  non_neighbours : s1.non_neighbours = s.non_neighbours
  best_clique : s1.best_clique = s.best_clique
  clique : s1.clique = s.clique
  best_vector : s1.best_vector = s.best_vector
  pos_in_clique : s1.pos_in_clique = s.pos_in_clique
  in_clique : s1.in_clique = s.in_clique
  tight : s1.tight = s.tight
  c0 : s1.C0 = s.C0
  c1 : s1.C1 = s.C1

/-- A file whose `p` lines never lower the vertex count `n` read so far. -/
def growingFile : Int → List Record → Bool
  | _, [] => true
  | n, Record.comment :: rest => growingFile n rest
  | n, Record.header vertices :: rest => decide (n ≤ vertices) && growingFile vertices rest
  | n, Record.edge _ _ :: rest => growingFile n rest

/-- The triangle `0, 1, 2` with the pendant vertex `3` on `2`, as
`ReadGraphFile` stores it in a fresh object. -/
def kite (rng : List Nat) (decisions : List Bool) : State :=
  { newSearch rng decisions with
    neighbour_sets := [[1, 2], [0, 2], [0, 1, 3], [2]]
    non_neighbours := [[3], [3], [], [0, 1]]
    degrees := [2, 2, 3, 1] }

/-- The invariant of `FastSet` for vertices `0 .. n-1`, in the words of the
comment on its fields: `pos` has `n` entries, `items` holds vertices of
`[0, n)` without repetition, `pos[items[i]] = i` for every place `i`, and
`pos[v] = -1` exactly when `v` is not in `items`. -/
def FastSet.IndexedInv (n : Nat) (f : FastSet) : Prop :=
  f.pos.length = n ∧ (∀ v ∈ f.items, v < n) ∧ f.items.Nodup ∧
  (∀ i, i < f.items.length → f.pos.getD (f.items.getD i 0) (-1) = ((i : Nat) : Int)) ∧
  (∀ v, v < n → (f.pos.getD v (-1) = -1 ↔ v ∉ f.items))

/-- A call of one of the two methods that change the clique of the search
state. -/
inductive CliqueOp where
  | add (v : Nat) : CliqueOp
  | remove (v : Nat) : CliqueOp
deriving DecidableEq

/-- The calls `ops` made in turn from the state `s`, `AddToClique(v)` being
called for a member `v` of `C0` and `RemoveFromClique(v)` for a member `v` of
the clique; `none` when a call is made outside these conditions. -/
def applyOps : State → List CliqueOp → Option State
  | s, [] => some s
  | s, CliqueOp.add v :: rest =>
    if v ∈ s.C0.items then applyOps (AddToClique s v) rest else none
  | s, CliqueOp.remove v :: rest =>
    if v ∈ s.clique then applyOps (RemoveFromClique s v) rest else none

end MaxCliqueTabuSearch

namespace Lab4TabuSearch

/-! ## The class `MaxCliqueTabuSearch` of lab4

The local search class at the top of `src/lab4/src/main.cpp`. Vector reads and
writes are checked: every method returns `none` as soon as an index is out of
range or `GetRandom(a, b)` is called with `a > b`, so a result `some _` is a
run without undefined behaviour. -/

/-- The fields of class `MaxCliqueTabuSearch` of lab4 (`src/lab4/src/main.cpp`),
with the two random sources of the class: `gen` is the stream of raw draws of
the static generator of `GetRandom`, and `shuffles` is the stream of the
outcomes of the calls of `shuffle` in `RunInitialHeuristic`. Each
`unordered_set<int>` is held as the list of its elements in iteration order. -/
structure State where
  neighbour_sets : List (List Nat)
  non_neighbours : List (List Nat)
  best_clique : List Nat
  qco : List Nat
  index : List Int
  q_border : Int
  c_border : Int
  gen : List Nat
  shuffles : List (List Nat)
deriving DecidableEq

/-- A freshly constructed object with the random sources `gen` and `shuffles`. -/
def newSearch (gen : List Nat) (shuffles : List (List Nat)) : State :=
  { neighbour_sets := [], non_neighbours := [], best_clique := [], qco := [], index := [],
    q_border := 0, c_border := 0, gen := gen, shuffles := shuffles }

/-- Checked read `v[i]` of a vector with an `int` index: `none` when the index
is out of range. -/
def rd {α : Type} (v : List α) (i : Int) : Option α :=
  if i < 0 then none else v.get? i.toNat

/-- Checked write `v[i] = x`: `none` when the index is out of range. -/
def wr {α : Type} (v : List α) (i : Int) (x : α) : Option (List α) :=
  if 0 ≤ i ∧ i.toNat < v.length then some (v.set i.toNat x) else none

/-- The call `v.resize(k, d)`. -/
def resize {α : Type} (v : List α) (k : Nat) (d : α) : List α :=
  v.take k ++ List.replicate (k - v.length) d

/-- The call `set.insert(x)` on the list of the elements of a set. -/
def setInsert (set : List Nat) (x : Nat) : List Nat :=
  if x ∈ set then set else set ++ [x]

/-- One line of the input file as `ReadGraphFile` sees it: a line starting
with `c`, a line starting with `p` with its vertex count, or any other line,
read as `command start finish`. -/
inductive Record where
  | comment : Record
  | header (vertices : Int) : Record
  | edge (start finish : Int) : Record
deriving DecidableEq

/-- The `while (getline(fin, line))` loop of `ReadGraphFile`; the first
argument is the local variable `vertices`. -/
def readLoop : Int → State → List Record → Option (Int × State)
  | vertices, s, [] => some (vertices, s)
  | vertices, s, Record.comment :: rest => readLoop vertices s rest
  | _, s, Record.header vertices :: rest =>
    if vertices < 0 then none
    else
      readLoop vertices
        { s with
          neighbour_sets := resize s.neighbour_sets vertices.toNat []
          qco := resize s.qco vertices.toNat 0
          index := resize s.index vertices.toNat (-1)
          non_neighbours := resize s.non_neighbours vertices.toNat [] } rest
  | vertices, s, Record.edge start finish :: rest =>
    match rd s.neighbour_sets (start - 1), rd s.neighbour_sets (finish - 1) with
    | some _, some _ =>
      let sets1 := s.neighbour_sets.set (start - 1).toNat
        (setInsert (s.neighbour_sets.getD (start - 1).toNat []) (finish - 1).toNat)
      let sets2 := sets1.set (finish - 1).toNat
        (setInsert (sets1.getD (finish - 1).toNat []) (start - 1).toNat)
      readLoop vertices { s with neighbour_sets := sets2 } rest
    | _, _ => none

/-- Method `ReadGraphFile`: the lines are read, then the sets `non_neighbours`
are filled for the vertices `0 .. vertices - 1`. -/
def ReadGraphFile (s : State) (recs : List Record) : Option State :=
  match readLoop 0 s recs with
  | none => none
  | some (vertices, s1) =>
    if vertices.toNat ≤ s1.neighbour_sets.length ∧ vertices.toNat ≤ s1.non_neighbours.length then
      some { s1 with
        non_neighbours := (List.range vertices.toNat).foldl
          (fun nn i => nn.set i
            ((List.range vertices.toNat).foldl
              (fun set j =>
                if !(s1.neighbour_sets.getD i []).contains j && i != j then setInsert set j
                else set)
              (nn.getD i [])))
          s1.non_neighbours }
    else none

/-- Method `GetRandom(a, b)`: the next raw draw reduced to `[a, b]`; `a > b` is
outside the contract of `uniform_int_distribution`, the model returns `none`. -/
def GetRandom (a b : Int) (s : State) : Option (Int × State) :=
  if b < a then none
  else some (a + ((s.gen.headD 0 % ((b - a).toNat + 1) : Nat) : Int),
    { s with gen := s.gen.tail })

/-- The call `shuffle(candidates.begin(), candidates.end(), generator)`: the
next outcome of the stream when it is a permutation of `candidates` (every
permutation is a possible outcome), else `candidates` as it is. -/
def shuffle (candidates : List Nat) (s : State) : List Nat × State :=
  (if decide ((s.shuffles.headD []).Perm candidates) then s.shuffles.headD [] else candidates,
    { s with shuffles := s.shuffles.tail })

/-- Method `ClearClique()`. -/
def ClearClique (s : State) : State :=
  { s with best_clique := [], q_border := 0, c_border := 0 }

/-- Method `ComputeTightness(vertex)`. -/
def ComputeTightness (s : State) (vertex : Nat) : Option Int :=
  (List.range s.q_border.toNat).foldlM
    (fun (tightness : Int) i =>
      match rd s.qco (i : Nat) with
      | none => none
      | some v =>
        match rd s.neighbour_sets (v : Nat) with
        | none => none
        | some set => some (if set.contains vertex then tightness else tightness + 1))
    0

/-- Method `SwapVertices(vertex, border)`. -/
def SwapVertices (s : State) (vertex : Nat) (border : Int) : Option State :=
  match rd s.qco border, rd s.index (vertex : Nat) with
  | some vertex_at_border, some iv =>
    match rd s.qco iv, rd s.index (vertex_at_border : Nat) with
    | some a, some ib =>
      match wr s.qco iv vertex_at_border with
      | none => none
      | some qco1 =>
        match wr qco1 border a, wr s.index (vertex : Nat) ib with
        | some qco2, some index1 =>
          match wr index1 (vertex_at_border : Nat) iv with
          | none => none
          | some index2 => some { s with qco := qco2, index := index2 }
        | _, _ => none
    | _, _ => none
  | _, _ => none

/-- Method `InsertToClique(i)`. -/
def InsertToClique (s : State) (i : Nat) : Option State :=
  match rd s.non_neighbours (i : Nat) with
  | none => none
  | some set =>
    match set.foldlM
        (fun (t : State) j =>
          match ComputeTightness t j with
          | none => none
          | some tightness =>
            if tightness = 0 then
              SwapVertices { t with c_border := t.c_border - 1 } j (t.c_border - 1)
            else some t)
        s with
    | none => none
    | some s1 =>
      match SwapVertices s1 i s1.q_border with
      | none => none
      | some s2 => some { s2 with q_border := s2.q_border + 1 }

/-- Method `RemoveFromClique(k)`. -/
def RemoveFromClique (s : State) (k : Nat) : Option State :=
  match rd s.non_neighbours (k : Nat) with
  | none => none
  | some set =>
    match set.foldlM
        (fun (t : State) j =>
          match ComputeTightness t j with
          | none => none
          | some tightness =>
            if tightness = 1 then
              match SwapVertices t j t.c_border with
              | none => none
              | some t1 => some { t1 with c_border := t1.c_border + 1 }
            else some t)
        s with
    | none => none
    | some s1 => SwapVertices { s1 with q_border := s1.q_border - 1 } k (s1.q_border - 1)

/-- The loop `for (int counter = 0; counter < q_border; ++counter)` of
`Swap1To1`; the first argument is the number of values of `counter` still to
try. Returns the value `Swap1To1` returns and the state. -/
def swapLoop (st : Int) : Nat → Int → State → Option (Bool × State)
  | 0, _, s => some (false, s)
  | k + 1, counter, s =>
    if counter < s.q_border then
      match rd s.qco (Int.emod (counter + st) s.q_border) with
      | none => none
      | some vertex =>
        match rd s.non_neighbours (vertex : Nat) with
        | none => none
        | some set =>
          match set.foldlM
              (fun (L : List Nat) i =>
                match ComputeTightness s i with
                | none => none
                | some tightness => some (if tightness = 1 then L ++ [i] else L))
              [] with
          | none => none
          | some L =>
            if L.isEmpty then swapLoop st k (counter + 1) s
            else
              match GetRandom 0 ((L.length : Int) - 1) s with
              | none => none
              | some (index_in_l, s1) =>
                match rd L index_in_l with
                | none => none
                | some change =>
                  match RemoveFromClique s1 vertex with
                  | none => none
                  | some s2 =>
                    match InsertToClique s2 change with
                    | none => none
                    | some s3 => some (true, s3)
    else some (false, s)

/-- Method `Swap1To1()`. -/
def Swap1To1 (s : State) : Option (Bool × State) :=
  match GetRandom 0 (s.q_border - 1) s with
  | none => none
  | some (st, s1) => swapLoop st s1.q_border.toNat 0 s1

/-- Method `Move()`. -/
def Move (s : State) : Option (Bool × State) :=
  if s.c_border = s.q_border then some (false, s)
  else
    match GetRandom s.q_border (s.c_border - 1) s with
    | none => none
    | some (index_in_qco, s1) =>
      match rd s1.qco index_in_qco with
      | none => none
      | some vertex =>
        match InsertToClique s1 vertex with
        | none => none
        | some s2 => some (true, s2)

/-- The loop `for (int c = 0; c < candidates.size(); ++c)` of
`RunInitialHeuristic`, which drops the candidates that are not neighbours of
`vertex`: a dropped entry is overwritten by the last one, the vector loses its
last entry and the same place is examined again. The first argument is the
fuel. -/
def pruneLoop (set : List Nat) : Nat → Nat → List Nat → Option (List Nat)
  | 0, _, _ => none
  | fuel + 1, c, candidates =>
    if c < candidates.length then
      if !set.contains (candidates.getD c 0) then
        pruneLoop set fuel c ((candidates.set c (candidates.getLastD 0)).dropLast)
      else pruneLoop set fuel (c + 1) candidates
    else some candidates

/-- The loop `while (!candidates.empty())` of `RunInitialHeuristic`; the first
argument is the fuel. -/
def heuristicLoop (randomization : Int) : Nat → List Nat → State → Option State
  | 0, candidates, s => if candidates.isEmpty then some s else none
  | fuel + 1, candidates, s =>
    if candidates.isEmpty then some s
    else
      let last : Int := (candidates.length : Int) - 1
      match GetRandom 0 (min (randomization - 1) last) s with
      | none => none
      | some (rnd, s1) =>
        match rd candidates rnd with
        | none => none
        | some vertex =>
          match SwapVertices s1 vertex s1.q_border, rd s1.neighbour_sets (vertex : Nat) with
          | some s2, some set =>
            match pruneLoop set (2 * candidates.length + 1) 0 candidates with
            | none => none
            | some candidates1 =>
              let r := shuffle candidates1 { s2 with q_border := s2.q_border + 1 }
              heuristicLoop randomization fuel r.1 r.2
          | _, _ => none

/-- Method `RunInitialHeuristic(randomization)`. -/
def RunInitialHeuristic (s : State) (randomization : Int) : Option State :=
  let r := shuffle (List.range s.neighbour_sets.length) s
  heuristicLoop randomization s.neighbour_sets.length r.1 r.2

/-- The loop `while (swaps < 100)` of `RunSearch`; the first argument is the
fuel. -/
def searchLoop : Nat → Int → State → Option State
  | 0, _, _ => none
  | fuel + 1, swaps, s =>
    if swaps < 100 then
      match Move s with
      | none => none
      | some (true, s1) => searchLoop fuel swaps s1
      | some (false, s1) =>
        match Swap1To1 s1 with
        | none => none
        | some (false, s2) => some s2
        | some (true, s2) => searchLoop fuel (swaps + 1) s2
    else some s

/-- The body of the loop `for (int iter = 0; iter < starts; ++iter)` of
`RunSearch`: one start. -/
def runStart (s : State) (randomization : Int) : Option State :=
  let s0 := ClearClique s
  let n := s0.neighbour_sets.length
  if n ≤ s0.qco.length ∧ n ≤ s0.index.length then
    let s1 : State :=
      { s0 with
        qco := (List.range n).foldl (fun q i => q.set i i) s0.qco
        index := (List.range n).foldl (fun x i => x.set i (i : Int)) s0.index }
    match RunInitialHeuristic s1 randomization with
    | none => none
    | some s2 =>
      match searchLoop (101 + n + 1) 0 { s2 with c_border := s2.q_border } with
      | none => none
      | some s3 =>
        if s3.q_border > (s3.best_clique.length : Int) then
          match (List.range s3.q_border.toNat).foldlM
              (fun (set : List Nat) i =>
                match rd s3.qco (i : Nat) with
                | none => none
                | some v => some (setInsert set v))
              [] with
          | none => none
          | some best => some { s3 with best_clique := best }
        else some s3
  else none

/-- Method `RunSearch(starts, randomization)`, returning in addition the value
of `q_border` at the end of each start, in the order of the starts; the first
argument is the number of starts still to run. -/
def runStarts (randomization : Int) : Nat → State → Option (State × List Int)
  | 0, s => some (s, [])
  | k + 1, s =>
    match runStart s randomization with
    | none => none
    | some s1 =>
      match runStarts randomization k s1 with
      | none => none
      | some (s2, sizes) => some (s2, s1.q_border :: sizes)

/-- Method `RunSearch(starts, randomization)`, with the record of `runStarts`. -/
def RunSearch (s : State) (starts randomization : Int) : Option (State × List Int) :=
  runStarts randomization starts.toNat s

/-- Method `GetClique()`. -/
def GetClique (s : State) : List Nat := s.best_clique

/-- The graph made of the triangle `0, 1, 2` and the edge `3 - 4`, as
`ReadGraphFile` stores it in a fresh object. -/
def triangleAndEdge (gen : List Nat) (shuffles : List (List Nat)) : State :=
  { newSearch gen shuffles with
    neighbour_sets := [[1, 2], [0, 2], [0, 1], [4], [3]]
    non_neighbours := [[3, 4], [3, 4], [3, 4], [0, 1, 2], [0, 1, 2]]
    qco := [0, 0, 0, 0, 0]
    index := [-1, -1, -1, -1, -1] }

end Lab4TabuSearch

namespace BnBSolver

/-! ## Bit vectors -/

theorem and_one_shiftLeft_ne_zero (x k : Nat) :
    ((x &&& (1 <<< k)) != 0) = x.testBit k := by
  rw [Nat.one_shiftLeft]
  cases h : x.testBit k
  · have h0 : x &&& 2 ^ k = 0 := by
      apply Nat.eq_of_testBit_eq
      intro j
      simp only [Nat.testBit_and, Nat.testBit_two_pow, Nat.zero_testBit]
      by_cases hj : k = j
      · subst hj; simp [h]
      · simp [hj]
    simp [h0]
  · have h1 : (x &&& 2 ^ k).testBit k = true := by
      simp [Nat.testBit_and, Nat.testBit_two_pow, h]
    have hne : x &&& 2 ^ k ≠ 0 := by
      intro h0; rw [h0] at h1; simp at h1
    simpa using hne

theorem shiftRight_six (v : Nat) : v >>> 6 = v / 64 := by
  rw [Nat.shiftRight_eq_div_pow]

theorem and_sixty_three (v : Nat) : v &&& 63 = v % 64 :=
  Nat.and_pow_two_sub_one_eq_mod v 6

theorem testBit_eq (bs : List Nat) (v : Nat) :
    TestBit bs v = (bs.getD (v / 64) 0).testBit (v % 64) := by
  unfold TestBit
  rw [and_one_shiftLeft_ne_zero, shiftRight_six, and_sixty_three]

theorem isAdjacent_eq (s : State) (u v : Nat) :
    IsAdjacent s u v = (AdjRow s u (v / 64)).testBit (v % 64) := by
  unfold IsAdjacent
  rw [and_one_shiftLeft_ne_zero, shiftRight_six, and_sixty_three]

theorem testBit_replicate_zero (w u : Nat) : TestBit (List.replicate w 0) u = false := by
  rw [testBit_eq]
  have h : (List.replicate w 0).getD (u / 64) 0 = 0 := by
    rw [List.getD_eq_getElem?_getD, List.getElem?_replicate]
    split <;> rfl
  rw [h, Nat.zero_testBit]

theorem length_SetBit (bs : List Nat) (v : Nat) : (SetBit bs v).length = bs.length := by
  simp [SetBit]

theorem getD_set (l : List Nat) (i j x : Nat) :
    (l.set i x).getD j 0 = if i = j ∧ i < l.length then x else l.getD j 0 := by
  simp only [List.getD_eq_getElem?_getD, List.getElem?_set]
  by_cases hij : i = j
  · subst hij
    by_cases hl : i < l.length
    · simp [hl]
    · simp [hl, List.getElem?_eq_none (Nat.le_of_not_lt hl)]
  · simp [hij]

theorem length_OrEq (a : List Nat) (b : Nat → Nat) (w : Nat) :
    (OrEq a b w).length = a.length := by
  unfold OrEq
  induction w with
  | zero => simp
  | succ w ih => rw [List.range_succ, List.foldl_append]; simpa using ih

theorem getD_OrEq (a : List Nat) (b : Nat → Nat) (w j : Nat) (hw : w ≤ a.length) :
    (OrEq a b w).getD j 0 = if j < w then a.getD j 0 ||| b j else a.getD j 0 := by
  induction w with
  | zero => simp [OrEq]
  | succ w ih =>
    have hw' : w ≤ a.length := Nat.le_of_succ_le hw
    have hstep : OrEq a b (w + 1) = (OrEq a b w).set w ((OrEq a b w).getD w 0 ||| b w) := by
      unfold OrEq
      rw [List.range_succ, List.foldl_append]
      rfl
    rw [hstep, getD_set, length_OrEq]
    by_cases hj : w = j
    · subst hj
      have hlt : w < a.length := hw
      rw [if_pos ⟨rfl, hlt⟩, ih hw', if_neg (Nat.lt_irrefl w), if_pos (Nat.lt_succ_self w)]
    · rw [if_neg (fun h => hj h.1), ih hw']
      by_cases hjw : j < w
      · rw [if_pos hjw, if_pos (Nat.lt_succ_of_lt hjw)]
      · have : ¬ j < w + 1 := by omega
        rw [if_neg hjw, if_neg this]

/-- The forbidden vector after a vertex `v` is placed: bit `u` is set iff it
was set before, or `u = v`, or `u` is a neighbour of `v`. -/
theorem testBit_place (s : State) (f : List Nat) (v u : Nat)
    (hf : f.length = s.words) (hv : v / 64 < s.words) (hu : u / 64 < s.words) :
    TestBit (OrEq (SetBit f v) (AdjRow s v) s.words) u
      = (TestBit f u || decide (u = v) || IsAdjacent s v u) := by
  rw [testBit_eq, testBit_eq, isAdjacent_eq,
    getD_OrEq _ _ _ _ (by rw [length_SetBit, hf]), if_pos hu, Nat.testBit_or]
  congr 1
  unfold SetBit
  rw [shiftRight_six, and_sixty_three, Nat.one_shiftLeft, getD_set]
  by_cases h : v / 64 = u / 64
  · rw [if_pos ⟨h, by rw [hf]; exact hv⟩, Nat.testBit_or, Nat.testBit_two_pow, h]
    congr 1
    by_cases h2 : v % 64 = u % 64
    · have : u = v := by omega
      simp [h2, this]
    · have : u ≠ v := by intro e; subst e; exact h2 rfl
      simp [h2, this]
  · rw [if_neg (fun e => h e.1)]
    have : u ≠ v := by intro e; subst e; exact h rfl
    simp [this]

/-! ## `ColorSort` -/

theorem IsClique.mono {s : State} {S T : Finset Nat} (h : IsClique s S) (hT : T ⊆ S) :
    IsClique s T :=
  fun i hi j hj hij => h i (hT hi) j (hT hj) hij

/-- A clique meets a set of pairwise independent vertices in at most one vertex. -/
theorem card_le_one_of_indep (s : State) (l : List Nat) (T : Finset Nat)
    (hl : l.Pairwise (Indep s)) (hT : T ⊆ l.toFinset) (hc : IsClique s T) : T.card ≤ 1 := by
  rw [Finset.card_le_one]
  intro a ha b hb
  by_contra hab
  have hsym : l.Pairwise (fun p q => Indep s p q ∨ Indep s q p) :=
    hl.imp (fun h => Or.inl h)
  have hS : Symmetric (fun p q => Indep s p q ∨ Indep s q p) := fun _ _ h => h.symm
  have ha' : a ∈ l := List.mem_toFinset.mp (hT ha)
  have hb' : b ∈ l := List.mem_toFinset.mp (hT hb)
  rcases hsym.forall hS ha' hb' hab with h | h
  · have := hc a ha b hb hab
    rw [h.2] at this; exact Bool.noConfusion this
  · have := hc b hb a ha (Ne.symm hab)
    rw [h.2] at this; exact Bool.noConfusion this

theorem ForbiddenInv.init (s : State) : ForbiddenInv s (List.replicate s.words 0) [] := by
  refine ⟨List.length_replicate _ _, fun u _ => ?_⟩
  rw [testBit_replicate_zero]
  simp

theorem ForbiddenInv.place {s : State} {f P : List Nat} {v : Nat}
    (h : ForbiddenInv s f P) (hv : v / 64 < s.words) :
    ForbiddenInv s (OrEq (SetBit f v) (AdjRow s v) s.words) (P ++ [v]) := by
  refine ⟨by rw [length_OrEq, length_SetBit, h.1], fun u hu => ?_⟩
  rw [testBit_place s f v u h.1 hv hu]
  have := h.2 u hu
  simp only [Bool.or_eq_true, decide_eq_true_eq, this, List.mem_append, List.mem_singleton]
  constructor
  · intro h0
    rcases h0 with (h1 | h2) | h3
    · rcases h1 with h1 | ⟨p, hp, hpu⟩
      · exact Or.inl (Or.inl h1)
      · exact Or.inr ⟨p, Or.inl hp, hpu⟩
    · exact Or.inl (Or.inr h2)
    · exact Or.inr ⟨v, Or.inr rfl, h3⟩
  · intro h0
    rcases h0 with (h1 | h2) | ⟨p, hp | hp, hpu⟩
    · exact Or.inl (Or.inl (Or.inl h1))
    · exact Or.inl (Or.inr h2)
    · exact Or.inl (Or.inl (Or.inr ⟨p, hp, hpu⟩))
    · subst hp; exact Or.inr hpu

theorem colorPass_spec (s : State) (color : Nat) (U : List Nat) :
    ∀ (P forbidden order bounds nextU : List Nat),
      ∃ placed skipped f,
        colorPass s color U forbidden order bounds nextU
          = (f, order ++ placed, bounds ++ List.replicate placed.length color,
              nextU ++ skipped) ∧
        (placed ++ skipped).Perm U ∧
        (∀ v U1, U = v :: U1 → TestBit forbidden v = false → placed ≠ []) ∧
        ((∀ u ∈ U, u / 64 < s.words) → ForbiddenInv s forbidden P →
          P.Pairwise (Indep s) → (P ++ placed).Pairwise (Indep s)) := by
  induction U with
  | nil =>
    intro P forbidden order bounds nextU
    exact ⟨[], [], forbidden, by simp [colorPass], by simp, fun _ _ h => by simp at h,
      fun _ _ h => by simpa using h⟩
  | cons v U ih =>
    intro P forbidden order bounds nextU
    by_cases hv : TestBit forbidden v = true
    · obtain ⟨placed, skipped, f, heq, hperm, -, hind⟩ :=
        ih P forbidden order bounds (nextU ++ [v])
      refine ⟨placed, v :: skipped, f, ?_, ?_, ?_, ?_⟩
      · simp only [colorPass, hv, Bool.not_true, Bool.false_eq_true, if_false, heq]
        simp
      · exact List.perm_middle.trans (List.Perm.cons v hperm)
      · intro w U1 hw hf
        rw [List.cons.injEq] at hw
        rw [← hw.1, hv] at hf
        exact Bool.noConfusion hf
      · intro hU hF hP
        exact hind (fun u hu => hU u (List.mem_cons_of_mem _ hu)) hF hP
    · have hv' : TestBit forbidden v = false := by simpa using hv
      obtain ⟨placed, skipped, f, heq, hperm, -, hind⟩ :=
        ih (P ++ [v]) (OrEq (SetBit forbidden v) (AdjRow s v) s.words)
          (order ++ [v]) (bounds ++ [color]) nextU
      refine ⟨v :: placed, skipped, f, ?_, ?_, ?_, ?_⟩
      · simp only [colorPass, hv', Bool.not_false, if_true, heq]
        simp [List.replicate_succ]
      · exact List.Perm.cons v hperm
      · intro _ _ _ _
        exact List.cons_ne_nil _ _
      · intro hU hF hP
        have hvw : v / 64 < s.words := hU v (List.mem_cons_self _ _)
        have hnot := (hF.2 v hvw).not.mp hv
        have hP' : (P ++ [v]).Pairwise (Indep s) := by
          rw [List.pairwise_append]
          refine ⟨hP, by simp, ?_⟩
          intro p hp q hq
          rw [List.mem_singleton] at hq
          subst hq
          refine ⟨?_, ?_⟩
          · intro e; subst e; exact hnot (Or.inl hp)
          · cases hadj : IsAdjacent s p q
            · rfl
            · exact absurd (Or.inr ⟨p, hp, hadj⟩) hnot
        have := hind (fun u hu => hU u (List.mem_cons_of_mem _ hu)) (hF.place hvw) hP'
        simpa using this

theorem ColorShape.shapeStep {color : Nat} {order bounds : List Nat}
    (h : ColorShape color order bounds) (placed : List Nat) :
    ColorShape (color + 1) (order ++ placed)
      (bounds ++ List.replicate placed.length (color + 1)) := by
  refine ⟨by simp [h.len], ?_, ?_⟩
  · intro b hb
    rcases List.mem_append.mp hb with hb | hb
    · have := h.range b hb; omega
    · have := List.eq_of_mem_replicate hb; omega
  · rw [List.pairwise_append]
    refine ⟨h.sorted, ?_, ?_⟩
    · rw [List.pairwise_replicate]
      exact Or.inr (Nat.le_refl _)
    · intro a ha b hb
      have h1 := h.range a ha
      have h2 := List.eq_of_mem_replicate hb
      omega

theorem card_le_succ_of_pass (s : State) (color : Nat) (order placed : List Nat)
    (htotal : ∀ T : Finset Nat, T ⊆ order.toFinset → IsClique s T → T.card ≤ color)
    (hplaced : placed.Pairwise (Indep s)) (T : Finset Nat)
    (hT : T ⊆ (order ++ placed).toFinset) (hc : IsClique s T) : T.card ≤ color + 1 := by
  have hsplit := Finset.filter_card_add_filter_neg_card_eq_card (s := T) (fun x => x ∈ order)
  have hA : (T.filter (fun x => x ∈ order)).card ≤ color := by
    apply htotal
    · intro x hx
      rw [Finset.mem_filter] at hx
      exact List.mem_toFinset.mpr hx.2
    · exact hc.mono (Finset.filter_subset _ _)
  have hB : (T.filter (fun x => ¬ x ∈ order)).card ≤ 1 := by
    apply card_le_one_of_indep s placed _ hplaced
    · intro x hx
      rw [Finset.mem_filter] at hx
      have := List.mem_toFinset.mp (hT hx.1)
      rcases List.mem_append.mp this with h | h
      · exact absurd h hx.2
      · exact List.mem_toFinset.mpr h
    · exact hc.mono (Finset.filter_subset _ _)
  omega

theorem ColorSound.soundStep {s : State} {color : Nat} {order bounds : List Nat}
    (hshape : ColorShape color order bounds) (h : ColorSound s color order bounds)
    (placed : List Nat) (hplaced : placed.Pairwise (Indep s)) :
    ColorSound s (color + 1) (order ++ placed)
      (bounds ++ List.replicate placed.length (color + 1)) := by
  refine ⟨fun T hT hc => card_le_succ_of_pass s color order placed h.total hplaced T hT hc, ?_⟩
  intro k hk T hT hc
  by_cases hko : k < order.length
  · rw [List.getD_append _ _ _ _ (by rw [hshape.len]; exact hko)]
    apply h.pre k hko T _ hc
    rwa [List.take_append_of_le_length (by omega)] at hT
  · have hkb : bounds.length ≤ k := by rw [hshape.len]; omega
    rw [List.length_append] at hk
    rw [List.getD_append_right _ _ _ _ hkb, List.getD_eq_getElem?_getD,
      List.getElem?_replicate, if_pos (by rw [hshape.len]; omega)]
    apply card_le_succ_of_pass s color order placed h.total hplaced T _ hc
    intro x hx
    have := List.mem_toFinset.mp (hT hx)
    exact List.mem_toFinset.mpr (List.mem_of_mem_take this)

theorem colorLoop_spec (s : State) :
    ∀ (fuel : Nat) (U : List Nat) (color : Nat) (order bounds : List Nat),
      U.length ≤ fuel →
      ∃ order1 bounds1 color1,
        colorLoop s fuel U color order bounds = some (order1, bounds1) ∧
        order1.Perm (order ++ U) ∧
        (ColorShape color order bounds → ColorShape color1 order1 bounds1) ∧
        ((∀ u ∈ U, u / 64 < s.words) → ColorShape color order bounds →
          ColorSound s color order bounds → ColorSound s color1 order1 bounds1) := by
  intro fuel
  induction fuel with
  | zero =>
    intro U color order bounds hU
    have : U = [] := List.length_eq_zero.mp (Nat.le_zero.mp hU)
    subst this
    exact ⟨order, bounds, color, by simp [colorLoop], by simp, id, fun _ _ h => h⟩
  | succ fuel ih =>
    intro U color order bounds hU
    cases U with
    | nil => exact ⟨order, bounds, color, by simp [colorLoop], by simp, id, fun _ _ h => h⟩
    | cons v U =>
      obtain ⟨placed, skipped, f, heq, hperm, hne, hind⟩ :=
        colorPass_spec s (color + 1) (v :: U) [] (List.replicate s.words 0) order bounds []
      have hplaced : placed ≠ [] := hne v U rfl (testBit_replicate_zero _ _)
      have hlen : placed.length + skipped.length = U.length + 1 := by
        have := hperm.length_eq
        simpa using this
      have hpos : 0 < placed.length := List.length_pos.mpr hplaced
      obtain ⟨order1, bounds1, color1, heq1, hperm1, hshape1, hsound1⟩ :=
        ih skipped (color + 1) (order ++ placed)
          (bounds ++ List.replicate placed.length (color + 1))
          (by simp only [List.length_cons] at hU; omega)
      refine ⟨order1, bounds1, color1, ?_, ?_, ?_, ?_⟩
      · simp only [colorLoop, heq, List.nil_append]
        exact heq1
      · refine hperm1.trans ?_
        rw [List.append_assoc]
        exact List.Perm.append_left order hperm
      · intro hs
        exact hshape1 (hs.shapeStep placed)
      · intro hU2 hs hsd
        have hpl : placed.Pairwise (Indep s) := by
          simpa using hind hU2 (ForbiddenInv.init s) List.Pairwise.nil
        apply hsound1 _ (hs.shapeStep placed) (hsd.soundStep hs placed hpl)
        intro u hu
        exact hU2 u (hperm.subset (List.mem_append_right _ hu))

theorem ColorShape.shapeZero : ColorShape 0 [] [] :=
  ⟨rfl, fun _ h => absurd h (List.not_mem_nil _), List.Pairwise.nil⟩

theorem ColorSound.soundZero (s : State) : ColorSound s 0 [] [] := by
  refine ⟨fun T hT _ => ?_, fun k hk => absurd hk (Nat.not_lt_zero _)⟩
  have : T = ∅ := Finset.subset_empty.mp (by simpa using hT)
  simp [this]

/-- Summary of `ColorSort`: it returns, the order is a permutation of the
candidates, the bounds are positive and sorted, and (for candidates inside the
bit vector) each bound limits the cliques of the corresponding initial part. -/
theorem ColorSort_spec (s : State) (candidates : List Nat) :
    ∃ order bounds color,
      ColorSort s candidates = some (order, bounds) ∧
      order.Perm candidates ∧
      ColorShape color order bounds ∧
      ((∀ u ∈ candidates, u / 64 < s.words) → ColorSound s color order bounds) := by
  obtain ⟨order, bounds, color, heq, hperm, hshape, hsound⟩ :=
    colorLoop_spec s candidates.length candidates 0 [] [] (Nat.le_refl _)
  exact ⟨order, bounds, color, heq, by simpa using hperm, hshape ColorShape.shapeZero,
    fun h => hsound h ColorShape.shapeZero (ColorSound.soundZero s)⟩

/-! ## The incumbent and the search nodes -/

theorem isAdjacent_congr {s s1 : State} (h : SameGraph s s1) (u v : Nat) :
    IsAdjacent s1 u v = IsAdjacent s u v := by
  unfold IsAdjacent AdjRow
  rw [h.2.1, h.2.2.1]

theorem IsClique.cliqueCongr {s s1 : State} (h : SameGraph s s1) {T : Finset Nat}
    (hc : IsClique s T) : IsClique s1 T := by
  intro i hi j hj hij
  rw [isAdjacent_congr h]
  exact hc i hi j hj hij

theorem SameGraph.graphRefl (s : State) : SameGraph s s := ⟨rfl, rfl, rfl, rfl⟩

theorem SameGraph.symm {s s1 : State} (h : SameGraph s s1) : SameGraph s1 s :=
  ⟨h.1.symm, h.2.1.symm, h.2.2.1.symm, h.2.2.2.symm⟩

theorem SameGraph.graphTrans {s s1 s2 : State} (h : SameGraph s s1) (h1 : SameGraph s1 s2) :
    SameGraph s s2 :=
  ⟨h1.1.trans h.1, h1.2.1.trans h.2.1, h1.2.2.1.trans h.2.2.1, h1.2.2.2.trans h.2.2.2⟩

theorem SameIncumbent.incumbentRefl (s : State) : SameIncumbent s s := ⟨rfl, rfl, rfl⟩

theorem SameIncumbent.incumbentTrans {s s1 s2 : State} (h : SameIncumbent s s1)
    (h1 : SameIncumbent s1 s2) : SameIncumbent s s2 :=
  ⟨h1.1.trans h.1, h1.2.1.trans h.2.1, h1.2.2.trans h.2.2⟩

theorem IncumbentOK.incumbentCongr {s s1 : State} (hg : SameGraph s s1) (hi : SameIncumbent s s1)
    (h : IncumbentOK s) : IncumbentOK s1 := by
  obtain ⟨h1, h2, h3, h4, h5⟩ := h
  unfold IncumbentOK
  rw [hi.1, hi.2.1, hi.2.2, hg.1]
  exact ⟨h1, h2, h3.cliqueCongr hg, h4, h5⟩

theorem NodeOK.nodeCongr {s s1 : State} (hg : SameGraph s s1) {cur candidates : List Nat}
    (h : NodeOK s cur candidates) : NodeOK s1 cur candidates := by
  obtain ⟨h1, h2, h3, h4, h5⟩ := h
  refine ⟨h1, ?_, h3.cliqueCongr hg, h4, ?_⟩
  · rw [hg.1]; exact h2
  · intro c hc
    obtain ⟨a, b, d⟩ := h5 c hc
    refine ⟨by rw [hg.1]; exact a, b, fun u hu => ?_⟩
    rw [isAdjacent_congr hg]; exact d u hu

theorem GraphSym.symCongr {s s1 : State} (hg : SameGraph s s1) (h : GraphSym s) : GraphSym s1 := by
  intro u hu v hv
  rw [isAdjacent_congr hg, isAdjacent_congr hg]
  rw [hg.1] at hu hv
  exact h u hu v hv

theorem SearchStep.stepRefl (s : State) : SearchStep s s :=
  ⟨SameGraph.graphRefl s, rfl, le_refl _, Or.inl (SameIncumbent.incumbentRefl s)⟩

theorem SearchStep.stepTrans {s s1 s2 : State} (h : SearchStep s s1) (h1 : SearchStep s1 s2) :
    SearchStep s s2 := by
  refine ⟨h.graph.graphTrans h1.graph, h1.cur.trans h.cur, le_trans h.mono h1.mono, ?_⟩
  rcases h.strict with a | a
  · rcases h1.strict with b | b
    · exact Or.inl (a.incumbentTrans b)
    · exact Or.inr (by rw [← a.1]; exact b)
  · exact Or.inr (lt_of_lt_of_le a h1.mono)

theorem foldl_insert_eq (l : List Nat) (A : Finset Nat) :
    l.foldl (fun acc v => insert v acc) A = A ∪ l.toFinset := by
  induction l generalizing A with
  | nil => simp
  | cons a l ih =>
    rw [List.foldl_cons, ih]
    ext x
    simp only [Finset.mem_union, Finset.mem_insert, List.toFinset_cons]
    tauto

theorem replaceBest_set (s : State) (clique : List Nat) :
    (replaceBest s clique).best_clique_set = clique.toFinset := by
  simp [replaceBest, foldl_insert_eq]

theorem replaceBest_graph (s : State) (clique : List Nat) : SameGraph s (replaceBest s clique) :=
  ⟨rfl, rfl, rfl, rfl⟩

theorem replaceBest_ok (s : State) (clique : List Nat) (h1 : clique.Nodup)
    (h2 : ∀ v ∈ clique, v < s.n) (h3 : IsClique s clique.toFinset) :
    IncumbentOK (replaceBest s clique) :=
  ⟨h1, h2, h3.cliqueCongr (replaceBest_graph s clique), replaceBest_set s clique, rfl⟩

theorem replaceBest_step (s : State) (clique : List Nat)
    (h : (clique.length : Int) > s.best_size) : SearchStep s (replaceBest s clique) :=
  ⟨replaceBest_graph s clique, rfl, le_of_lt h, Or.inr h⟩

/-- Pushing a candidate `v` on the partial clique and keeping, among other
candidates, those in the row of `v` gives a search node again. -/
theorem NodeOK.push {s : State} {cur order : List Nat} (hsym : GraphSym s)
    (h : NodeOK s cur order) (v : Nat) (hv : v ∈ order) (rest : List Nat)
    (hsub : rest.Sublist order) (hnotin : v ∉ rest) :
    NodeOK s (cur ++ [v]) (rest.filter (fun u => IsAdjacent s v u)) := by
  obtain ⟨h1, h2, h3, h4, h5⟩ := h
  obtain ⟨hvn, hvc, hva⟩ := h5 _ hv
  refine ⟨?_, ?_, ?_, ?_, ?_⟩
  · rw [List.nodup_append]
    refine ⟨h1, List.nodup_singleton _, ?_⟩
    intro a ha hb
    rw [List.mem_singleton] at hb
    subst hb; exact hvc ha
  · intro a ha
    rcases List.mem_append.mp ha with ha | ha
    · exact h2 a ha
    · rw [List.mem_singleton] at ha; subst ha; exact hvn
  · intro i hi j hj hij
    rw [List.mem_toFinset, List.mem_append, List.mem_singleton] at hi hj
    rcases hi with hi | hi <;> rcases hj with hj | hj
    · exact h3 i (List.mem_toFinset.mpr hi) j (List.mem_toFinset.mpr hj) hij
    · subst hj; exact hva i hi
    · subst hi
      rw [hsym _ hvn _ (h2 j hj)]
      exact hva j hj
    · subst hi; subst hj; exact absurd rfl hij
  · exact (hsub.nodup h4).filter _
  · intro c hc
    rw [List.mem_filter] at hc
    have hco : c ∈ order := hsub.subset hc.1
    obtain ⟨a, b, d⟩ := h5 c hco
    refine ⟨a, ?_, ?_⟩
    · intro hm
      rcases List.mem_append.mp hm with hm | hm
      · exact b hm
      · rw [List.mem_singleton] at hm
        subst hm; exact hnotin hc.1
    · intro u hu
      rcases List.mem_append.mp hu with hu | hu
      · exact d u hu
      · rw [List.mem_singleton] at hu
        subst hu; exact hc.2

theorem NodeOK.child {s : State} {cur order : List Nat} (hsym : GraphSym s)
    (h : NodeOK s cur order) (k : Nat) (hk : k < order.length) :
    NodeOK s (cur ++ [order.getD k 0])
      ((order.take k).filter (fun u => IsAdjacent s (order.getD k 0) u)) := by
  apply h.push hsym
  · rw [List.getD_eq_getElem _ _ hk]; exact List.getElem_mem _
  · exact List.take_sublist k order
  · rw [List.getD_eq_getElem _ _ hk]
    intro hm
    obtain ⟨i, hi, he⟩ := List.getElem_of_mem hm
    rw [List.length_take] at hi
    rw [List.getElem_take] at he
    have := (List.Nodup.getElem_inj_iff h.2.2.2.1).mp he
    omega

theorem NodeOK.pick {s : State} {cur cand : List Nat} (hsym : GraphSym s)
    (h : NodeOK s cur cand) (k : Nat) (hk : k < cand.length) :
    NodeOK s (cur ++ [cand.getD k 0])
      ((cand.eraseIdx k).filter (fun u => IsAdjacent s (cand.getD k 0) u)) := by
  apply h.push hsym
  · rw [List.getD_eq_getElem _ _ hk]; exact List.getElem_mem _
  · exact List.eraseIdx_sublist cand k
  · rw [List.getD_eq_getElem _ _ hk, List.mem_eraseIdx_iff_getElem]
    rintro ⟨i, hi, hne, he⟩
    exact hne ((List.Nodup.getElem_inj_iff h.2.2.2.1).mp he)

/-! ## `Expand` -/

theorem valid_trans {s s1 s2 : State} (hg : SameGraph s1 s2)
    (h : SameIncumbent s s1 ∨ IncumbentOK s1) (h1 : SameIncumbent s1 s2 ∨ IncumbentOK s2) :
    SameIncumbent s s2 ∨ IncumbentOK s2 := by
  rcases h1 with b | b
  · rcases h with a | a
    · exact Or.inl (a.incumbentTrans b)
    · exact Or.inr (a.incumbentCongr hg b)
  · exact Or.inr b

theorem expandLoop_spec (expand : State → List Nat → Option State) (L : Nat)
    (hrec : ∀ s c, c.length < L → ∃ s1, expand s c = some s1 ∧ ExpandPost s c s1)
    (order bounds : List Nat) (hL : order.length ≤ L) :
    ∀ k, k ≤ order.length → ∀ s : State,
      ∃ s1, expandLoop expand order bounds k s = some s1 ∧
        SearchStep s s1 ∧
        (GraphSym s → NodeOK s s.cur_clique order → SameIncumbent s s1 ∨ IncumbentOK s1) ∧
        ((∀ u ∈ order, u / 64 < s.words) →
          (∀ j, j < order.length → ∀ T : Finset Nat,
            T ⊆ (order.take (j + 1)).toFinset → IsClique s T → T.card ≤ bounds.getD j 0) →
          ∀ T : Finset Nat, T.Nonempty → T ⊆ (order.take k).toFinset → IsClique s T →
            (s.cur_clique.length : Int) + (T.card : Int) ≤ s1.best_size) := by
  intro k
  induction k with
  | zero =>
    intro _ s
    refine ⟨s, rfl, SearchStep.stepRefl s, fun _ _ => Or.inl (SameIncumbent.incumbentRefl s), ?_⟩
    intro _ _ T hne hT _
    rw [List.take_zero, List.toFinset_nil, Finset.subset_empty] at hT
    rw [hT] at hne
    exact absurd hne Finset.not_nonempty_empty
  | succ k ih =>
    intro hk s
    have hk' : k < order.length := hk
    by_cases hprune : (s.cur_clique.length : Int) + (bounds.getD k 0 : Int) ≤ s.best_size
    · refine ⟨s, by rw [expandLoop, if_pos hprune], SearchStep.stepRefl s,
        fun _ _ => Or.inl (SameIncumbent.incumbentRefl s), ?_⟩
      intro _ hsound T _ hT hc
      have := hsound k hk' T hT hc
      omega
    · -- the recursive call
      obtain ⟨s2, heq2, post2⟩ :=
        hrec { s with cur_clique := s.cur_clique ++ [order.getD k 0] }
          ((order.take k).filter (fun u => IsAdjacent s (order.getD k 0) u))
          (lt_of_le_of_lt ((List.length_filter_le _ _).trans (List.length_take_le _ _))
            (lt_of_lt_of_le hk' hL))
      obtain ⟨s1, heq1, step1, valid1, complete1⟩ :=
        ih (Nat.le_of_succ_le hk) { s2 with cur_clique := s2.cur_clique.dropLast }
      have hgc : SameGraph s { s with cur_clique := s.cur_clique ++ [order.getD k 0] } :=
        ⟨rfl, rfl, rfl, rfl⟩
      have hg2 : SameGraph s s2 := hgc.graphTrans post2.step.graph
      have hg3 : SameGraph s2 { s2 with cur_clique := s2.cur_clique.dropLast } :=
        ⟨rfl, rfl, rfl, rfl⟩
      have hcur3 : s2.cur_clique.dropLast = s.cur_clique := by
        rw [post2.step.cur]; simp
      have hstep3 : SearchStep s { s2 with cur_clique := s2.cur_clique.dropLast } := by
        refine ⟨hg2.graphTrans hg3, hcur3, post2.step.mono, ?_⟩
        rcases post2.step.strict with a | a
        · exact Or.inl ⟨a.1, a.2.1, a.2.2⟩
        · exact Or.inr a
      refine ⟨s1, ?_, hstep3.stepTrans step1, ?_, ?_⟩
      · simp only [expandLoop, hprune, if_false, heq2]
        exact heq1
      · intro hsym hnode
        have hv2 := post2.valid (hsym.symCongr hgc) ((hnode.child hsym k hk').nodeCongr hgc)
        have hv3 : SameIncumbent s { s2 with cur_clique := s2.cur_clique.dropLast } ∨
            IncumbentOK { s2 with cur_clique := s2.cur_clique.dropLast } := by
          rcases hv2 with a | a
          · exact Or.inl ⟨a.1, a.2.1, a.2.2⟩
          · exact Or.inr (a.incumbentCongr hg3 ⟨rfl, rfl, rfl⟩)
        have hnode3 : NodeOK { s2 with cur_clique := s2.cur_clique.dropLast }
            s2.cur_clique.dropLast order := by
          rw [hcur3]; exact hnode.nodeCongr (hg2.graphTrans hg3)
        exact valid_trans step1.graph hv3 (valid1 (hsym.symCongr (hg2.graphTrans hg3)) hnode3)
      · intro hrange hsound T hne hT hc
        by_cases hvT : order.getD k 0 ∈ T
        · -- `T` uses the vertex at index `k`
          have hsub : T.erase (order.getD k 0) ⊆
              ((order.take k).filter (fun u => IsAdjacent s (order.getD k 0) u)).toFinset := by
            intro t ht
            rw [Finset.mem_erase] at ht
            rw [List.mem_toFinset, List.mem_filter]
            have ht1 := List.mem_toFinset.mp (hT ht.2)
            rw [List.take_succ, List.mem_append] at ht1
            refine ⟨?_, hc _ hvT t ht.2 (Ne.symm ht.1)⟩
            rcases ht1 with h | h
            · exact h
            · rw [List.getElem?_eq_getElem hk', Option.toList_some, List.mem_singleton,
                ← List.getD_eq_getElem _ 0 hk'] at h
              exact absurd h ht.1
          have hchild := post2.complete
            (fun u hu => hrange u (List.mem_of_mem_take (List.mem_filter.mp hu).1))
            (T.erase (order.getD k 0)) hsub
            ((hc.mono (Finset.erase_subset _ _)).cliqueCongr hgc)
          have hcard : (T.erase (order.getD k 0)).card + 1 = T.card :=
            Finset.card_erase_add_one hvT
          have hm := step1.mono
          simp only [List.length_append, List.length_singleton] at hchild
          simp only at hm
          push_cast at hchild
          omega
        · -- `T` lies before index `k`
          have hsub : T ⊆ (order.take k).toFinset := by
            intro t ht
            have ht1 := List.mem_toFinset.mp (hT ht)
            rw [List.take_succ, List.mem_append] at ht1
            rcases ht1 with h | h
            · exact List.mem_toFinset.mpr h
            · rw [List.getElem?_eq_getElem hk', Option.toList_some, List.mem_singleton,
                ← List.getD_eq_getElem _ 0 hk'] at h
              rw [h] at ht
              exact absurd ht hvT
          have hrest := complete1 (fun u hu => by rw [hg2.2.1]; exact hrange u hu)
            (fun j hj T1 hT1 hc1 => hsound j hj T1 hT1 (hc1.cliqueCongr (hg2.graphTrans hg3).symm))
            T hne hsub (hc.cliqueCongr (hg2.graphTrans hg3))
          simp only [hcur3] at hrest
          exact hrest

theorem NodeOK.perm {s : State} {cur l l1 : List Nat} (h : NodeOK s cur l) (hp : l1.Perm l) :
    NodeOK s cur l1 :=
  ⟨h.1, h.2.1, h.2.2.1, hp.nodup_iff.mpr h.2.2.2.1, fun c hc => h.2.2.2.2 c (hp.subset hc)⟩

theorem Expand_leaf (fuel : Nat) (s : State) :
    ∃ s1, Expand (fuel + 1) s [] = some s1 ∧ ExpandPost s [] s1 := by
  by_cases h : (s.cur_clique.length : Int) > s.best_size
  · refine ⟨replaceBest s s.cur_clique, by simp [Expand, h], replaceBest_step s _ h, ?_, ?_⟩
    · intro _ hnode
      exact Or.inr (replaceBest_ok s _ hnode.1 hnode.2.1 hnode.2.2.1)
    · intro _ T hT _
      have : T = ∅ := Finset.subset_empty.mp (by simpa using hT)
      subst this
      simp [replaceBest]
  · refine ⟨s, by simp [Expand, h], SearchStep.stepRefl s,
      fun _ _ => Or.inl (SameIncumbent.incumbentRefl s), ?_⟩
    intro _ T hT _
    have : T = ∅ := Finset.subset_empty.mp (by simpa using hT)
    subst this
    simp only [Finset.card_empty, Nat.cast_zero, add_zero]
    omega

/-- The search `Expand` returns whenever the fuel exceeds the number of candidates, and
what it returns satisfies `ExpandPost`. -/
theorem Expand_spec :
    ∀ (fuel : Nat) (s : State) (candidates : List Nat), candidates.length < fuel →
      ∃ s1, Expand fuel s candidates = some s1 ∧ ExpandPost s candidates s1 := by
  intro fuel
  induction fuel with
  | zero => intro s c h; exact absurd h (Nat.not_lt_zero _)
  | succ fuel ih =>
    intro s candidates hlen
    cases candidates with
    | nil => exact Expand_leaf fuel s
    | cons c cs =>
      obtain ⟨order, bounds, color, heq, hperm, hshape, hsound⟩ := ColorSort_spec s (c :: cs)
      have holen : order.length = cs.length + 1 := by
        rw [hperm.length_eq]; rfl
      obtain ⟨s1, heq1, step1, valid1, complete1⟩ :=
        expandLoop_spec (Expand fuel) fuel ih order bounds
          (by rw [holen]; exact Nat.le_of_lt_succ hlen) order.length (Nat.le_refl _) s
      refine ⟨s1, ?_, step1, fun hsym hnode => valid1 hsym (hnode.perm hperm), ?_⟩
      · simp only [Expand, List.isEmpty_cons, Bool.false_eq_true, if_false, heq]
        exact heq1
      · intro hrange T hT hc
        have hrange1 : ∀ u ∈ order, u / 64 < s.words := fun u hu => hrange u (hperm.subset hu)
        have hpre := (hsound hrange).pre
        have htake : (order.take order.length).toFinset = (c :: cs).toFinset := by
          rw [List.take_length]
          exact List.toFinset_eq_of_perm _ _ hperm
        by_cases hne : T.Nonempty
        · exact complete1 hrange1 hpre T hne (by rw [htake]; exact hT) hc
        · rw [Finset.not_nonempty_iff_eq_empty] at hne
          subst hne
          have h0 : 0 < order.length := by omega
          have hsingle := complete1 hrange1 hpre {order.getD 0 0}
            (Finset.singleton_nonempty _)
            (by
              rw [List.take_length, Finset.singleton_subset_iff, List.mem_toFinset,
                List.getD_eq_getElem _ _ h0]
              exact List.getElem_mem _)
            (by
              intro i hi j hj hij
              rw [Finset.mem_singleton] at hi hj
              rw [hi, hj] at hij
              exact absurd rfl hij)
          simp only [Finset.card_singleton, Finset.card_empty] at hsingle ⊢
          push_cast at hsingle ⊢
          omega

/-! ## The greedy warm start -/

theorem greedyLoop_spec (s : State) (rcl : Int) :
    ∀ (fuel : Nat) (cand clique picks : List Nat), cand.length ≤ fuel →
      ∃ clique1 picks1,
        greedyLoop s rcl fuel cand clique picks = some (clique1, picks1) ∧
        (GraphSym s → NodeOK s clique cand →
          clique1.Nodup ∧ (∀ v ∈ clique1, v < s.n) ∧ IsClique s clique1.toFinset) := by
  intro fuel
  induction fuel with
  | zero =>
    intro cand clique picks h
    have : cand = [] := List.length_eq_zero.mp (Nat.le_zero.mp h)
    subst this
    exact ⟨clique, picks, by simp [greedyLoop], fun _ hn => ⟨hn.1, hn.2.1, hn.2.2.1⟩⟩
  | succ fuel ih =>
    intro cand clique picks h
    cases cand with
    | nil => exact ⟨clique, picks, by simp [greedyLoop], fun _ hn => ⟨hn.1, hn.2.1, hn.2.2.1⟩⟩
    | cons c cand =>
      have hidx : picks.headD 0 %
          ((min (rcl - 1) (((c :: cand).length : Int) - 1)).toNat + 1) < (c :: cand).length := by
        have h1 : (min (rcl - 1) (((c :: cand).length : Int) - 1)).toNat + 1
            ≤ (c :: cand).length := by
          simp only [List.length_cons]
          omega
        exact lt_of_lt_of_le (Nat.mod_lt _ (Nat.succ_pos _)) h1
      obtain ⟨clique1, picks1, heq, hprop⟩ :=
        ih (((c :: cand).eraseIdx (picks.headD 0 %
              ((min (rcl - 1) (((c :: cand).length : Int) - 1)).toNat + 1))).filter
            (fun u => IsAdjacent s ((c :: cand).getD (picks.headD 0 %
              ((min (rcl - 1) (((c :: cand).length : Int) - 1)).toNat + 1)) 0) u))
          (clique ++ [(c :: cand).getD (picks.headD 0 %
              ((min (rcl - 1) (((c :: cand).length : Int) - 1)).toNat + 1)) 0])
          picks.tail
          (by
            refine (List.length_filter_le _ _).trans ?_
            rw [List.length_eraseIdx, if_pos hidx]
            simp only [List.length_cons] at h ⊢
            omega)
      refine ⟨clique1, picks1, ?_, fun hsym hn => hprop hsym (hn.pick hsym _ hidx)⟩
      rw [greedyLoop]
      exact heq

theorem greedyStarts_spec (rcl : Int) (base : List Nat) :
    ∀ (k : Nat) (s : State) (picks : List Nat),
      ∃ s1 picks1,
        greedyStarts rcl base k s picks = some (s1, picks1) ∧
        SearchStep s s1 ∧
        (GraphSym s → NodeOK s [] base → SameIncumbent s s1 ∨ IncumbentOK s1) := by
  intro k
  induction k with
  | zero =>
    intro s picks
    exact ⟨s, picks, rfl, SearchStep.stepRefl s, fun _ _ => Or.inl (SameIncumbent.incumbentRefl s)⟩
  | succ k ih =>
    intro s picks
    obtain ⟨clique, picks1, heq, hprop⟩ :=
      greedyLoop_spec s rcl base.length base [] picks (Nat.le_refl _)
    by_cases hbig : (clique.length : Int) > s.best_size
    · obtain ⟨s1, picks2, heq1, step1, valid1⟩ := ih (replaceBest s clique) picks1
      refine ⟨s1, picks2, ?_, (replaceBest_step s clique hbig).stepTrans step1, ?_⟩
      · rw [greedyStarts, heq]
        simp only [hbig, if_true]
        exact heq1
      · intro hsym hn
        obtain ⟨a, b, c⟩ := hprop hsym hn
        exact valid_trans step1.graph (Or.inr (replaceBest_ok s clique a b c))
          (valid1 (hsym.symCongr (replaceBest_graph s clique))
            (hn.nodeCongr (replaceBest_graph s clique)))
    · obtain ⟨s1, picks2, heq1, step1, valid1⟩ := ih s picks1
      refine ⟨s1, picks2, ?_, step1, valid1⟩
      rw [greedyStarts, heq]
      simp only [hbig, if_false]
      exact heq1

theorem sortByDegree_perm (s : State) (l : List Nat) : (sortByDegree s l).Perm l :=
  List.perm_insertionSort _ l

theorem NodeOK.root (s : State) : NodeOK s [] (sortByDegree s (List.range s.n)) := by
  refine ⟨List.nodup_nil, fun _ h => absurd h (List.not_mem_nil _), ?_, ?_, ?_⟩
  · intro i hi; simp at hi
  · exact (sortByDegree_perm s _).nodup_iff.mpr (List.nodup_range _)
  · intro c hc
    have := (sortByDegree_perm s _).subset hc
    exact ⟨List.mem_range.mp this, List.not_mem_nil _, fun _ h => absurd h (List.not_mem_nil _)⟩

theorem InitBestCliqueGreedy_spec (s : State) (starts rcl : Int) (picks : List Nat) :
    ∃ s1 picks1,
      InitBestCliqueGreedy s starts rcl picks = some (s1, picks1) ∧
      SearchStep s s1 ∧
      (GraphSym s → SameIncumbent s s1 ∨ IncumbentOK s1) := by
  by_cases hn : s.n ≤ 0
  · exact ⟨s, picks, by simp [InitBestCliqueGreedy, hn], SearchStep.stepRefl s,
      fun _ => Or.inl (SameIncumbent.incumbentRefl s)⟩
  · obtain ⟨s1, picks1, heq, step1, valid1⟩ :=
      greedyStarts_spec (if rcl ≤ 0 then 1 else rcl) (sortByDegree s (List.range s.n))
        (if starts ≤ 0 then 1 else starts).toNat s picks
    refine ⟨s1, picks1, ?_, step1, fun hsym => valid1 hsym (NodeOK.root s)⟩
    rw [InitBestCliqueGreedy, if_neg hn]
    exact heq

/-! ## `RunBnB` -/

theorem range_of_words {s : State} (hw : s.words = (s.n + 63) / 64) (u : Nat) (hu : u < s.n) :
    u / 64 < s.words := by
  rw [hw]; omega

/-- Summary of `RunBnB`: it returns; the graph is untouched; the incumbent is
either untouched or strictly larger, and when replaced it is a clique of the
graph; afterwards no clique of the graph is larger than the incumbent. -/
theorem RunBnB_spec (s : State) (picks : List Nat) :
    ∃ s2 picks1,
      RunBnB s picks = some (s2, picks1) ∧
      SameGraph s s2 ∧
      s.best_size ≤ s2.best_size ∧
      (SameIncumbent s s2 ∨ s.best_size < s2.best_size) ∧
      (GraphSym s → SameIncumbent s s2 ∨ IncumbentOK s2) ∧
      (s.words = (s.n + 63) / 64 → ∀ T : Finset Nat, T ⊆ Finset.range s.n → IsClique s T →
        (T.card : Int) ≤ s2.best_size) := by
  obtain ⟨s1, picks1, heq1, step1, valid1⟩ := InitBestCliqueGreedy_spec s 8 10 picks
  obtain ⟨s2, heq2, post2⟩ :=
    Expand_spec ((sortByDegree s1 (List.range s1.n)).length + 1)
      { s1 with cur_clique := [] } (sortByDegree s1 (List.range s1.n)) (Nat.lt_succ_self _)
  have hg : SameGraph s1 { s1 with cur_clique := [] } := ⟨rfl, rfl, rfl, rfl⟩
  have hg2 : SameGraph s s2 := (step1.graph.graphTrans hg).graphTrans post2.step.graph
  refine ⟨s2, picks1, ?_, hg2, le_trans step1.mono post2.step.mono, ?_, ?_, ?_⟩
  · rw [RunBnB, heq1]
    simp only [heq2]
  · rcases step1.strict with a | a
    · rcases post2.step.strict with b | b
      · exact Or.inl (a.incumbentTrans ⟨b.1, b.2.1, b.2.2⟩)
      · exact Or.inr (by rw [← a.1]; exact b)
    · exact Or.inr (lt_of_lt_of_le a post2.step.mono)
  · intro hsym
    have hv := post2.valid (hsym.symCongr (step1.graph.graphTrans hg)) (NodeOK.root _)
    have hv1 : SameIncumbent s { s1 with cur_clique := [] } ∨
        IncumbentOK { s1 with cur_clique := [] } := by
      rcases valid1 hsym with a | a
      · exact Or.inl ⟨a.1, a.2.1, a.2.2⟩
      · exact Or.inr (a.incumbentCongr hg ⟨rfl, rfl, rfl⟩)
    exact valid_trans post2.step.graph hv1 hv
  · intro hw T hT hc
    have hcomp := post2.complete
      (fun u hu => by
        have hu1 := List.mem_range.mp ((sortByDegree_perm s1 _).subset hu)
        have e1 : s1.n = s.n := step1.graph.1
        have e2 : s1.words = s.words := step1.graph.2.1
        show u / 64 < s1.words
        rw [e2]
        exact range_of_words hw u (by rw [← e1]; exact hu1))
      T
      (by
        intro t ht
        rw [List.mem_toFinset]
        apply (sortByDegree_perm s1 _).symm.subset
        rw [List.mem_range, step1.graph.1]
        exact Finset.mem_range.mp (hT ht))
      (hc.cliqueCongr (step1.graph.graphTrans hg))
    simpa using hcomp

theorem IncumbentOK.clear (s : State) : IncumbentOK (ClearClique s) := by
  refine ⟨List.nodup_nil, fun _ h => absurd h (List.not_mem_nil _), ?_, rfl, rfl⟩
  intro i hi; simp [ClearClique] at hi

theorem ClearClique_graph (s : State) : SameGraph s (ClearClique s) := ⟨rfl, rfl, rfl, rfl⟩

/-- From a cleared incumbent `RunBnB` ends with a consistent incumbent that no
clique of the graph exceeds. -/
theorem RunBnB_cleared (s : State) (picks : List Nat) (hsym : GraphSym s) :
    ∃ s2 picks1,
      RunBnB (ClearClique s) picks = some (s2, picks1) ∧
      SameGraph s s2 ∧ IncumbentOK s2 ∧
      (s.words = (s.n + 63) / 64 → ∀ T : Finset Nat, T ⊆ Finset.range s.n → IsClique s T →
        (T.card : Int) ≤ s2.best_size) := by
  obtain ⟨s2, picks1, heq, hg, -, -, hvalid, hcomp⟩ := RunBnB_spec (ClearClique s) picks
  refine ⟨s2, picks1, heq, (ClearClique_graph s).graphTrans hg, ?_, ?_⟩
  · rcases hvalid (hsym.symCongr (ClearClique_graph s)) with a | a
    · exact (IncumbentOK.clear s).incumbentCongr hg a
    · exact a
  · intro hw T hT hc
    exact hcomp hw T hT (hc.cliqueCongr (ClearClique_graph s))

theorem IncumbentOK.card {s : State} (h : IncumbentOK s) :
    ((GetClique s).card : Int) = s.best_size := by
  unfold GetClique
  rw [h.2.2.2.1, List.toFinset_card_of_nodup h.1, h.2.2.2.2]

theorem IncumbentOK.subset_range {s : State} (h : IncumbentOK s) :
    GetClique s ⊆ Finset.range s.n := by
  intro v hv
  unfold GetClique at hv
  rw [h.2.2.2.1, List.mem_toFinset] at hv
  exact Finset.mem_range.mpr (h.2.1 v hv)

theorem IncumbentOK.isClique {s : State} (h : IncumbentOK s) : IsClique s (GetClique s) := by
  unfold GetClique
  rw [h.2.2.2.1]
  exact h.2.2.1

theorem le_bruteForce (s : State) (T : Finset Nat) (hT : T ⊆ Finset.range s.n)
    (hc : IsClique s T) : T.card ≤ bruteForceMaxClique s := by
  unfold bruteForceMaxClique
  exact Finset.le_sup (f := Finset.card)
    (Finset.mem_filter.mpr ⟨Finset.mem_powerset.mpr hT, hc⟩)

theorem bruteForce_le (s : State) (b : Nat)
    (h : ∀ T : Finset Nat, T ⊆ Finset.range s.n → IsClique s T → T.card ≤ b) :
    bruteForceMaxClique s ≤ b := by
  unfold bruteForceMaxClique
  apply Finset.sup_le
  intro T hT
  rw [Finset.mem_filter, Finset.mem_powerset] at hT
  exact h T hT.1 hT.2

/-- Some clique of the graph attains the brute-force maximum. -/
theorem bruteForce_attained (s : State) :
    ∃ T : Finset Nat, T ⊆ Finset.range s.n ∧ IsClique s T ∧ T.card = bruteForceMaxClique s := by
  have hne : ((Finset.range s.n).powerset.filter (fun S => IsClique s S)).Nonempty :=
    ⟨∅, Finset.mem_filter.mpr ⟨Finset.empty_mem_powerset _, fun i hi => by simp at hi⟩⟩
  obtain ⟨T, hT, he⟩ := Finset.exists_mem_eq_sup _ hne Finset.card
  rw [Finset.mem_filter, Finset.mem_powerset] at hT
  exact ⟨T, hT.1, hT.2, he.symm⟩

/-! ## The graphs of the scenarios -/

theorem header_zero_read :
    ReadGraphFile newSolver [Record.header 0 0] = some newSolver := by
  decide

theorem k5_read :
    ReadGraphFile newSolver
      [Record.header 5 10, Record.edge 1 2, Record.edge 1 3, Record.edge 1 4,
        Record.edge 1 5, Record.edge 2 3, Record.edge 2 4, Record.edge 2 5,
        Record.edge 3 4, Record.edge 3 5, Record.edge 4 5] = some k5 := by
  decide

theorem c4_read :
    ReadGraphFile newSolver
      [Record.comment, Record.header 4 4, Record.edge 1 2, Record.edge 2 3,
        Record.edge 3 4, Record.edge 4 1] = some c4 := by
  decide

theorem m6_read :
    ReadGraphFile newSolver
      [Record.header 6 3, Record.edge 1 2, Record.edge 3 4, Record.edge 5 6] = some m6 := by
  decide


/-! ## Optimality -/

/-- From a cleared incumbent, on an undirected graph whose rows have the width
`ReadGraphFile` gives them, `RunBnB` ends with a clique of the graph whose size
is the brute-force maximum. -/
theorem RunBnB_optimal (s : State) (picks : List Nat)
    (hw : s.words = (s.n + 63) / 64) (hsym : GraphSym s) :
    ∃ s2 picks1,
      RunBnB (ClearClique s) picks = some (s2, picks1) ∧
      SameGraph s s2 ∧ IncumbentOK s2 ∧
      s2.best_size = (bruteForceMaxClique s : Int) ∧
      (GetClique s2).card = bruteForceMaxClique s := by
  obtain ⟨s2, picks1, heq, hg, hok, hcomp⟩ := RunBnB_cleared s picks hsym
  have hcard := hok.card
  have h1 : (GetClique s2).card ≤ bruteForceMaxClique s := by
    apply le_bruteForce
    · rw [← hg.1]; exact hok.subset_range
    · exact hok.isClique.cliqueCongr hg.symm
  have h2 : bruteForceMaxClique s ≤ (GetClique s2).card := by
    apply bruteForce_le
    intro T hT hc
    have := hcomp hw T hT hc
    omega
  have h3 : (GetClique s2).card = bruteForceMaxClique s := le_antisymm h1 h2
  refine ⟨s2, picks1, heq, hg, hok, ?_, h3⟩
  rw [← hcard, h3]

/-- With any prior incumbent, on an undirected graph whose rows have the width
`ReadGraphFile` gives them: a prior `best_size` below the maximum clique size
is replaced by a maximum clique; otherwise the prior incumbent is kept. -/
theorem RunBnB_any_prior (s : State) (picks : List Nat)
    (hw : s.words = (s.n + 63) / 64) (hsym : GraphSym s) :
    ∃ s2 picks1,
      RunBnB s picks = some (s2, picks1) ∧
      SameGraph s s2 ∧
      (s.best_size < (bruteForceMaxClique s : Int) →
        IncumbentOK s2 ∧ s2.best_size = (bruteForceMaxClique s : Int)) ∧
      ((bruteForceMaxClique s : Int) ≤ s.best_size → SameIncumbent s s2) := by
  obtain ⟨s2, picks1, heq, hg, -, hstrict, hvalid, hcomp⟩ := RunBnB_spec s picks
  have hge : (bruteForceMaxClique s : Int) ≤ s2.best_size := by
    obtain ⟨T, hT, hc, he⟩ := bruteForce_attained s
    have := hcomp hw T hT hc
    rw [he] at this
    exact this
  have hle : IncumbentOK s2 → s2.best_size ≤ (bruteForceMaxClique s : Int) := by
    intro hok
    have h1 : (GetClique s2).card ≤ bruteForceMaxClique s := by
      apply le_bruteForce
      · rw [← hg.1]; exact hok.subset_range
      · exact hok.isClique.cliqueCongr hg.symm
    have := hok.card
    omega
  refine ⟨s2, picks1, heq, hg, ?_, ?_⟩
  · intro hlt
    rcases hvalid hsym with a | a
    · have := a.1
      omega
    · exact ⟨a, le_antisymm (hle a) hge⟩
  · intro hbig
    rcases hstrict with a | a
    · exact a
    · rcases hvalid hsym with b | b
      · exact b
      · have := hle b
        omega

/-! ## The properties of the specification -/

/-- C1. Clique validity of the exact solver: on an undirected graph and from an
incumbent cleared by `ClearClique`, `RunBnB` returns for every sequence of
random draws; every vertex of `GetClique()` lies in `[0, n)`, every two
distinct vertices of `GetClique()` are adjacent, and `Check()` returns `true`. -/
theorem C1_clique_validity (s : State) (picks : List Nat) (hsym : GraphSym s) :
    ∃ s1 picks1,
      RunBnB (ClearClique s) picks = some (s1, picks1) ∧
      (∀ v ∈ GetClique s1, v < s.n) ∧
      (∀ i ∈ GetClique s1, ∀ j ∈ GetClique s1, i ≠ j → IsAdjacent s i j = true) ∧
      Check s1 = true := by
  obtain ⟨s1, picks1, heq, hg, hok, -⟩ := RunBnB_cleared s picks hsym
  refine ⟨s1, picks1, heq, ?_, hok.isClique.cliqueCongr hg.symm, ?_⟩
  · intro v hv
    have := Finset.mem_range.mp (hok.subset_range hv)
    rw [hg.1] at this
    exact this
  · unfold Check
    rw [decide_eq_true_iff]
    intro i hi j hj hbad
    have := hok.isClique i hi j hj hbad.1
    rw [hbad.2] at this
    exact Bool.noConfusion this

theorem C1_clique_validity_witness :
    GraphSym c4 ∧
    ∃ s1 picks1,
      RunBnB (ClearClique c4) [3, 1, 4, 1, 5] = some (s1, picks1) ∧
      (∀ v ∈ GetClique s1, v < c4.n) ∧
      (∀ i ∈ GetClique s1, ∀ j ∈ GetClique s1, i ≠ j → IsAdjacent c4 i j = true) ∧
      Check s1 = true :=
  ⟨by decide, C1_clique_validity c4 [3, 1, 4, 1, 5] (by decide)⟩

/-- C2. Optimality of the exact solver: on an undirected graph on `n` vertices
(rows of `(n + 63) / 64` words) and from a cleared incumbent, after `RunBnB`
the size of `GetClique()` and `best_size` both equal the largest size of a
pairwise adjacent subset of `[0, n)`, the value brute-force enumeration
returns; so a graph with a clique of size `k` and none of size `k + 1` yields
exactly `k`. -/
theorem C2_optimality (s : State) (picks : List Nat)
    (hw : s.words = (s.n + 63) / 64) (hsym : GraphSym s) :
    ∃ s1 picks1,
      RunBnB (ClearClique s) picks = some (s1, picks1) ∧
      (GetClique s1).card = bruteForceMaxClique s ∧
      s1.best_size = (bruteForceMaxClique s : Int) ∧
      ∀ k : Nat,
        (∃ S : Finset Nat, S ⊆ Finset.range s.n ∧ IsClique s S ∧ S.card = k) →
        (¬ ∃ S : Finset Nat, S ⊆ Finset.range s.n ∧ IsClique s S ∧ S.card = k + 1) →
        s1.best_size = (k : Int) := by
  obtain ⟨s1, picks1, heq, -, -, hbest, hcard⟩ := RunBnB_optimal s picks hw hsym
  refine ⟨s1, picks1, heq, hcard, hbest, ?_⟩
  intro k hk hnone
  obtain ⟨S, hS, hc, he⟩ := hk
  have h1 : k ≤ bruteForceMaxClique s := by
    rw [← he]; exact le_bruteForce s S hS hc
  have h2 : bruteForceMaxClique s ≤ k := by
    by_contra hlt
    obtain ⟨T, hT, hcT, heT⟩ := bruteForce_attained s
    obtain ⟨B, hB, hBcard⟩ := Finset.exists_subset_card_eq (s := T) (n := k + 1) (by omega)
    exact hnone ⟨B, hB.trans hT, hcT.mono hB, hBcard⟩
  rw [hbest]
  omega

theorem C2_optimality_witness :
    (c4.words = (c4.n + 63) / 64 ∧ GraphSym c4) ∧
    ∃ s1 picks1,
      RunBnB (ClearClique c4) [2, 7, 1, 8] = some (s1, picks1) ∧
      (GetClique s1).card = bruteForceMaxClique c4 ∧
      s1.best_size = (bruteForceMaxClique c4 : Int) ∧
      ∀ k : Nat,
        (∃ S : Finset Nat, S ⊆ Finset.range c4.n ∧ IsClique c4 S ∧ S.card = k) →
        (¬ ∃ S : Finset Nat, S ⊆ Finset.range c4.n ∧ IsClique c4 S ∧ S.card = k + 1) →
        s1.best_size = (k : Int) :=
  ⟨⟨by decide, by decide⟩, C2_optimality c4 [2, 7, 1, 8] (by decide) (by decide)⟩

/-- C3. The final optimum does not depend on the random warm start: on an
undirected graph and from a cleared incumbent, `RunBnB` run with any two
sequences of random draws ends with the same `best_size`. -/
theorem C3_optimum_independent_of_draws (s : State) (picksA picksB : List Nat)
    (hw : s.words = (s.n + 63) / 64) (hsym : GraphSym s) :
    ∃ a restA b restB,
      RunBnB (ClearClique s) picksA = some (a, restA) ∧
      RunBnB (ClearClique s) picksB = some (b, restB) ∧
      a.best_size = b.best_size := by
  obtain ⟨a, restA, heqA, -, -, hA, -⟩ := RunBnB_optimal s picksA hw hsym
  obtain ⟨b, restB, heqB, -, -, hB, -⟩ := RunBnB_optimal s picksB hw hsym
  exact ⟨a, restA, b, restB, heqA, heqB, by rw [hA, hB]⟩

theorem C3_optimum_independent_of_draws_witness :
    (m6.words = (m6.n + 63) / 64 ∧ GraphSym m6) ∧
    ∃ a restA b restB,
      RunBnB (ClearClique m6) [0, 0, 0] = some (a, restA) ∧
      RunBnB (ClearClique m6) [5, 3, 9, 2, 6] = some (b, restB) ∧
      a.best_size = b.best_size :=
  ⟨⟨by decide, by decide⟩,
    C3_optimum_independent_of_draws m6 [0, 0, 0] [5, 3, 9, 2, 6] (by decide) (by decide)⟩

/-- C4. Degenerate graph: with `n = 0` and a cleared incumbent `RunBnB`
returns, consumes no random draw, and leaves `GetClique()` empty and
`best_size = 0`. -/
theorem C4_degenerate_graph (s : State) (picks : List Nat) (hn : s.n = 0) :
    ∃ s1,
      RunBnB (ClearClique s) picks = some (s1, picks) ∧
      GetClique s1 = ∅ ∧ s1.best_size = 0 := by
  obtain ⟨n, words, adj, degree, best_size, best_clique_vec, cur_clique, best_clique_set⟩ := s
  simp only at hn
  subst hn
  exact ⟨_, rfl, rfl, rfl⟩

theorem C4_degenerate_graph_witness :
    newSolver.n = 0 ∧
    ∃ s1,
      RunBnB (ClearClique newSolver) [4, 2] = some (s1, [4, 2]) ∧
      GetClique s1 = ∅ ∧ s1.best_size = 0 :=
  ⟨rfl, C4_degenerate_graph newSolver [4, 2] rfl⟩

/-- C5. Complete graphs: on the complete graph on `n` vertices (every two
distinct vertices of `[0, n)` adjacent) and from a cleared incumbent, `RunBnB`
returns `best_size = n` and `GetClique() = {0, ..., n - 1}`. -/
theorem C5_complete_graph (s : State) (picks : List Nat)
    (hw : s.words = (s.n + 63) / 64)
    (hcomplete : ∀ u, u < s.n → ∀ v, v < s.n → u ≠ v → IsAdjacent s u v = true) :
    ∃ s1 picks1,
      RunBnB (ClearClique s) picks = some (s1, picks1) ∧
      s1.best_size = (s.n : Int) ∧ GetClique s1 = Finset.range s.n := by
  have hsym : GraphSym s := by
    intro u hu v hv
    by_cases huv : u = v
    · rw [huv]
    · rw [hcomplete u hu v hv huv, hcomplete v hv u hu (Ne.symm huv)]
  obtain ⟨s1, picks1, heq, hg, hok, hbest, hcard⟩ := RunBnB_optimal s picks hw hsym
  have hall : IsClique s (Finset.range s.n) := fun i hi j hj hij =>
    hcomplete i (Finset.mem_range.mp hi) j (Finset.mem_range.mp hj) hij
  have hge : s.n ≤ bruteForceMaxClique s := by
    have := le_bruteForce s (Finset.range s.n) (Finset.Subset.refl _) hall
    simpa using this
  have hsub : GetClique s1 ⊆ Finset.range s.n := by
    rw [← hg.1]; exact hok.subset_range
  have heqset : GetClique s1 = Finset.range s.n :=
    Finset.eq_of_subset_of_card_le hsub (by rw [Finset.card_range, hcard]; exact hge)
  refine ⟨s1, picks1, heq, ?_, heqset⟩
  rw [← hok.card, heqset, Finset.card_range]

theorem C5_complete_graph_witness :
    (k5.words = (k5.n + 63) / 64 ∧
      ∀ u, u < k5.n → ∀ v, v < k5.n → u ≠ v → IsAdjacent k5 u v = true) ∧
    ∃ s1 picks1,
      RunBnB (ClearClique k5) [3, 1, 4, 1, 5, 9, 2, 6] = some (s1, picks1) ∧
      s1.best_size = (k5.n : Int) ∧ GetClique s1 = Finset.range k5.n :=
  ⟨⟨by decide, by decide⟩,
    C5_complete_graph k5 [3, 1, 4, 1, 5, 9, 2, 6] (by decide) (by decide)⟩

/-- C6. Triangle-free graphs: on an undirected graph with at least one edge
and no triangle, `RunBnB` from a cleared incumbent returns `best_size = 2` and
`GetClique()` consists of exactly two vertices, which are adjacent. -/
theorem C6_triangle_free (s : State) (picks : List Nat)
    (hw : s.words = (s.n + 63) / 64) (hsym : GraphSym s)
    (hedge : HasEdge s) (hfree : TriangleFree s) :
    ∃ s1 picks1,
      RunBnB (ClearClique s) picks = some (s1, picks1) ∧
      s1.best_size = 2 ∧
      ∃ a b, a ≠ b ∧ GetClique s1 = {a, b} ∧ IsAdjacent s a b = true := by
  obtain ⟨s1, picks1, heq, hg, hok, hbest, hcard⟩ := RunBnB_optimal s picks hw hsym
  have hsub : GetClique s1 ⊆ Finset.range s.n := by
    rw [← hg.1]; exact hok.subset_range
  have hcl : IsClique s (GetClique s1) := hok.isClique.cliqueCongr hg.symm
  have hge : 2 ≤ bruteForceMaxClique s := by
    obtain ⟨a, ha, b, hb, hab, hadj⟩ := hedge
    have hpair : IsClique s {a, b} := by
      intro i hi j hj hij
      rw [Finset.mem_insert, Finset.mem_singleton] at hi hj
      rcases hi with hi | hi <;> rcases hj with hj | hj
      · rw [hi, hj] at hij; exact absurd rfl hij
      · rw [hi, hj]; exact hadj
      · rw [hi, hj, hsym b hb a ha]; exact hadj
      · rw [hi, hj] at hij; exact absurd rfl hij
    have := le_bruteForce s {a, b}
      (by
        intro x hx
        rw [Finset.mem_insert, Finset.mem_singleton] at hx
        rcases hx with hx | hx <;> rw [hx, Finset.mem_range] <;> assumption)
      hpair
    rwa [Finset.card_pair hab] at this
  have hle : (GetClique s1).card ≤ 2 := by
    by_contra hgt
    obtain ⟨a, ha, b, hb, c, hc, hab, hac, hbc⟩ :=
      Finset.two_lt_card.mp (Nat.lt_of_not_le hgt)
    exact hfree a (Finset.mem_range.mp (hsub ha)) b (Finset.mem_range.mp (hsub hb)) c
      (Finset.mem_range.mp (hsub hc))
      ⟨hab, hac, hbc, hcl a ha b hb hab, hcl a ha c hc hac, hcl b hb c hc hbc⟩
  have htwo : (GetClique s1).card = 2 := by omega
  obtain ⟨a, b, hab, hset⟩ := Finset.card_eq_two.mp htwo
  refine ⟨s1, picks1, heq, ?_, a, b, hab, hset, ?_⟩
  · rw [← hok.card, htwo]; rfl
  · apply hcl a _ b _ hab <;> rw [hset] <;> simp

theorem C6_triangle_free_witness :
    ((c4.words = (c4.n + 63) / 64 ∧ GraphSym c4 ∧ HasEdge c4 ∧ TriangleFree c4) ∧
      ∃ s1 picks1,
        RunBnB (ClearClique c4) [1, 2, 3] = some (s1, picks1) ∧
        s1.best_size = 2 ∧
        ∃ a b, a ≠ b ∧ GetClique s1 = {a, b} ∧ IsAdjacent c4 a b = true) ∧
    ((m6.words = (m6.n + 63) / 64 ∧ GraphSym m6 ∧ HasEdge m6 ∧ TriangleFree m6) ∧
      ∃ s1 picks1,
        RunBnB (ClearClique m6) [6, 5, 4] = some (s1, picks1) ∧
        s1.best_size = 2 ∧
        ∃ a b, a ≠ b ∧ GetClique s1 = {a, b} ∧ IsAdjacent m6 a b = true) :=
  ⟨⟨⟨by decide, by decide, by decide, by decide⟩,
      C6_triangle_free c4 [1, 2, 3] (by decide) (by decide) (by decide) (by decide)⟩,
    ⟨⟨by decide, by decide, by decide, by decide⟩,
      C6_triangle_free m6 [6, 5, 4] (by decide) (by decide) (by decide) (by decide)⟩⟩

theorem staleC4_arises :
    (RunBnB (ClearClique k5) []).bind
      (fun r => ReadGraphFile r.1
        [Record.header 4 4, Record.edge 1 2, Record.edge 2 3, Record.edge 3 4,
          Record.edge 4 1]) = some staleC4 := by
  decide

/-- C7, as stated, fails: a solver that ran on K5 and then read the 4-cycle
without `ClearClique` keeps, after `RunBnB`, the incumbent of size 5 found on
K5, although the largest clique of the 4-cycle has 2 vertices and the five
vertices kept are neither pairwise adjacent in the 4-cycle nor all in `[0, 4)`. -/
theorem C7_stale_incumbent_counterexample :
    (staleC4.words = (staleC4.n + 63) / 64 ∧ GraphSym staleC4) ∧
    RunBnB staleC4 [] = some (staleC4, []) ∧
    staleC4.best_size = 5 ∧ bruteForceMaxClique staleC4 = 2 ∧
    ¬ IsClique staleC4 (GetClique staleC4) ∧
    ¬ GetClique staleC4 ⊆ Finset.range staleC4.n := by
  decide

/-- C7, amended. `RunBnB` never resets the incumbent. On an undirected graph,
for every prior incumbent and every sequence of random draws, `RunBnB` returns
and `best_size` becomes the larger of its prior value and the maximum clique
size of the graph. When the prior `best_size` is below that maximum,
`GetClique()` is a maximum clique of the graph; otherwise `best_size`,
`best_clique_vec` and `best_clique_set` keep their prior values. After
`ClearClique` the result is therefore determined by the graph alone. -/
theorem C7_incumbent_amended (s : State) (picks : List Nat)
    (hw : s.words = (s.n + 63) / 64) (hsym : GraphSym s) :
    ∃ s1 picks1,
      RunBnB s picks = some (s1, picks1) ∧
      s1.best_size = max s.best_size (bruteForceMaxClique s : Int) ∧
      (s.best_size < (bruteForceMaxClique s : Int) →
        GetClique s1 ⊆ Finset.range s.n ∧ IsClique s (GetClique s1) ∧
          (GetClique s1).card = bruteForceMaxClique s) ∧
      ((bruteForceMaxClique s : Int) ≤ s.best_size →
        s1.best_size = s.best_size ∧ s1.best_clique_vec = s.best_clique_vec ∧
          s1.best_clique_set = s.best_clique_set) := by
  obtain ⟨s1, picks1, heq, hg, hlow, hhigh⟩ := RunBnB_any_prior s picks hw hsym
  refine ⟨s1, picks1, heq, ?_, ?_, hhigh⟩
  · by_cases h : s.best_size < (bruteForceMaxClique s : Int)
    · rw [(hlow h).2, max_eq_right (le_of_lt h)]
    · have h1 : (bruteForceMaxClique s : Int) ≤ s.best_size := not_lt.mp h
      rw [(hhigh h1).1, max_eq_left h1]
  · intro h
    obtain ⟨hok, hbest⟩ := hlow h
    refine ⟨?_, hok.isClique.cliqueCongr hg.symm, ?_⟩
    · rw [← hg.1]; exact hok.subset_range
    · have := hok.card
      omega

theorem C7_incumbent_amended_witness :
    (staleC4.words = (staleC4.n + 63) / 64 ∧ GraphSym staleC4) ∧
    ∃ s1 picks1,
      RunBnB staleC4 [1, 2] = some (s1, picks1) ∧
      s1.best_size = max staleC4.best_size (bruteForceMaxClique staleC4 : Int) ∧
      (staleC4.best_size < (bruteForceMaxClique staleC4 : Int) →
        GetClique s1 ⊆ Finset.range staleC4.n ∧ IsClique staleC4 (GetClique s1) ∧
          (GetClique s1).card = bruteForceMaxClique staleC4) ∧
      ((bruteForceMaxClique staleC4 : Int) ≤ staleC4.best_size →
        s1.best_size = staleC4.best_size ∧
          s1.best_clique_vec = staleC4.best_clique_vec ∧
          s1.best_clique_set = staleC4.best_clique_set) :=
  ⟨⟨by decide, by decide⟩, C7_incumbent_amended staleC4 [1, 2] (by decide) (by decide)⟩

/-- C8. Monotonic incumbent: for every solver state, `InitBestCliqueGreedy`,
every call of `Expand` and `RunBnB` return with `best_size` at least its value
before the call, and either the incumbent (`best_size`, `best_clique_vec`,
`best_clique_set`) is exactly as before or `best_size` is strictly larger. -/
theorem C8_monotonic_incumbent :
    (∀ (s : State) (starts rcl : Int) (picks : List Nat),
      ∃ s1 picks1,
        InitBestCliqueGreedy s starts rcl picks = some (s1, picks1) ∧
        s.best_size ≤ s1.best_size ∧
        (SameIncumbent s s1 ∨ s.best_size < s1.best_size)) ∧
    (∀ (s : State) (candidates : List Nat) (extra : Nat),
      ∃ s1,
        Expand (candidates.length + 1 + extra) s candidates = some s1 ∧
        s.best_size ≤ s1.best_size ∧
        (SameIncumbent s s1 ∨ s.best_size < s1.best_size)) ∧
    (∀ (s : State) (picks : List Nat),
      ∃ s1 picks1,
        RunBnB s picks = some (s1, picks1) ∧
        s.best_size ≤ s1.best_size ∧
        (SameIncumbent s s1 ∨ s.best_size < s1.best_size)) := by
  refine ⟨?_, ?_, ?_⟩
  · intro s starts rcl picks
    obtain ⟨s1, picks1, heq, step, -⟩ := InitBestCliqueGreedy_spec s starts rcl picks
    exact ⟨s1, picks1, heq, step.mono, step.strict⟩
  · intro s candidates extra
    obtain ⟨s1, heq, post⟩ :=
      Expand_spec (candidates.length + 1 + extra) s candidates (by omega)
    exact ⟨s1, heq, post.step.mono, post.step.strict⟩
  · intro s picks
    obtain ⟨s1, picks1, heq, -, hmono, hstrict, -, -⟩ := RunBnB_spec s picks
    exact ⟨s1, picks1, heq, hmono, hstrict⟩

theorem getLastD_eq_getD (l : List Nat) : l.getLastD 0 = l.getD (l.length - 1) 0 := by
  rw [List.getLastD_eq_getLast?, List.getLast?_eq_getElem?, List.getD_eq_getElem?_getD]

/-- C9. Bound soundness of `ColorSort`: when the rows have `(n + 63) / 64`
words and `C` is a list of vertices of `[0, n)`, `ColorSort(C)` returns and
every pairwise adjacent subset of `C` has at most as many members as colours
were used (the last entry of `bounds`, or 0 when `C` is empty). -/
theorem C9_colorsort_bound_sound (s : State) (C : List Nat)
    (hw : s.words = (s.n + 63) / 64) (hC : ∀ u ∈ C, u < s.n) :
    ∃ order bounds,
      ColorSort s C = some (order, bounds) ∧
      ∀ S : Finset Nat, S ⊆ C.toFinset → IsClique s S → S.card ≤ bounds.getLastD 0 := by
  obtain ⟨order, bounds, color, heq, hperm, hshape, hsound⟩ := ColorSort_spec s C
  refine ⟨order, bounds, heq, ?_⟩
  intro S hS hc
  have hsd := hsound (fun u hu => range_of_words hw u (hC u hu))
  have hS1 : S ⊆ order.toFinset := by
    rw [List.toFinset_eq_of_perm _ _ hperm]; exact hS
  by_cases hnil : order = []
  · rw [hnil] at hS1
    have : S = ∅ := Finset.subset_empty.mp (by simpa using hS1)
    rw [this]; simp
  · have hpos : 0 < order.length := List.length_pos.mpr hnil
    rw [getLastD_eq_getD, hshape.len]
    apply hsd.pre (order.length - 1) (by omega) S _ hc
    rw [show order.length - 1 + 1 = order.length by omega, List.take_length]
    exact hS1

theorem C9_colorsort_bound_sound_witness :
    (c4.words = (c4.n + 63) / 64 ∧ ∀ u ∈ [0, 1, 2, 3], u < c4.n) ∧
    ∃ order bounds,
      ColorSort c4 [0, 1, 2, 3] = some (order, bounds) ∧
      ∀ S : Finset Nat, S ⊆ [0, 1, 2, 3].toFinset → IsClique c4 S →
        S.card ≤ bounds.getLastD 0 :=
  ⟨⟨by decide, by decide⟩, C9_colorsort_bound_sound c4 [0, 1, 2, 3] (by decide) (by decide)⟩

/-- C10. The bounds returned by `ColorSort` are non-decreasing over the whole
output order: for every state and every candidate list `ColorSort` returns,
`bounds` is as long as `order`, and `bounds[i] <= bounds[j]` for all indices
`i < j`. -/
theorem C10_bounds_nondecreasing (s : State) (candidates : List Nat) :
    ∃ order bounds,
      ColorSort s candidates = some (order, bounds) ∧
      bounds.length = order.length ∧
      ∀ i j, i < j → j < bounds.length → bounds.getD i 0 ≤ bounds.getD j 0 := by
  obtain ⟨order, bounds, color, heq, -, hshape, -⟩ := ColorSort_spec s candidates
  refine ⟨order, bounds, heq, hshape.len, ?_⟩
  intro i j hij hj
  have hi : i < bounds.length := lt_trans hij hj
  rw [List.getD_eq_getElem _ _ hi, List.getD_eq_getElem _ _ hj]
  exact List.pairwise_iff_getElem.mp hshape.sorted i j hi hj hij

/-! ## Colour classes -/

theorem ColorIndep.indepStep {s : State} {color : Nat} {order bounds : List Nat}
    (hshape : ColorShape color order bounds) (h : ColorIndep s order bounds)
    (placed : List Nat) (hplaced : placed.Pairwise (Indep s)) :
    ColorIndep s (order ++ placed) (bounds ++ List.replicate placed.length (color + 1)) := by
  intro i j hij hj heq
  rw [List.length_append] at hj
  have hlen := hshape.len
  by_cases hjo : j < order.length
  · have hio : i < order.length := lt_trans hij hjo
    rw [List.getD_append _ _ _ _ (by omega), List.getD_append _ _ _ _ (by omega)] at heq
    rw [List.getD_append _ _ _ _ hio, List.getD_append _ _ _ _ hjo]
    exact h i j hij hjo heq
  · have hjb : bounds.length ≤ j := by omega
    have hjv : (bounds ++ List.replicate placed.length (color + 1)).getD j 0 = color + 1 := by
      rw [List.getD_append_right _ _ _ _ hjb, List.getD_eq_getElem?_getD,
        List.getElem?_replicate, if_pos (by omega)]
      rfl
    by_cases hio : i < order.length
    · exfalso
      have hib : i < bounds.length := by omega
      rw [hjv, List.getD_append _ _ _ _ hib, List.getD_eq_getElem _ _ hib] at heq
      have := (hshape.range _ (List.getElem_mem hib)).2
      omega
    · have hi1 : order.length ≤ i := Nat.le_of_not_lt hio
      have hj1 : order.length ≤ j := Nat.le_of_not_lt hjo
      rw [List.getD_append_right _ _ _ _ hi1, List.getD_append_right _ _ _ _ hj1]
      have hjp : j - order.length < placed.length := by omega
      have hip : i - order.length < placed.length := by omega
      rw [List.getD_eq_getElem _ _ hip, List.getD_eq_getElem _ _ hjp]
      exact List.pairwise_iff_getElem.mp hplaced _ _ hip hjp (by omega)

theorem colorLoop_indep (s : State) :
    ∀ (fuel : Nat) (U : List Nat) (color : Nat) (order bounds order1 bounds1 : List Nat),
      colorLoop s fuel U color order bounds = some (order1, bounds1) →
      (∀ u ∈ U, u / 64 < s.words) → ColorShape color order bounds →
      ColorIndep s order bounds → ColorIndep s order1 bounds1 := by
  intro fuel
  induction fuel with
  | zero =>
    intro U color order bounds order1 bounds1 heq _ _ hind
    cases U with
    | nil =>
      simp only [colorLoop, Option.some.injEq, Prod.mk.injEq] at heq
      rw [← heq.1, ← heq.2]; exact hind
    | cons v U => simp [colorLoop] at heq
  | succ fuel ih =>
    intro U color order bounds order1 bounds1 heq hU hshape hind
    cases U with
    | nil =>
      simp only [colorLoop, Option.some.injEq, Prod.mk.injEq] at heq
      rw [← heq.1, ← heq.2]; exact hind
    | cons v U =>
      obtain ⟨placed, skipped, f, hpass, hperm, -, hpair⟩ :=
        colorPass_spec s (color + 1) (v :: U) [] (List.replicate s.words 0) order bounds []
      have hpl : placed.Pairwise (Indep s) := by
        simpa using hpair hU (ForbiddenInv.init s) List.Pairwise.nil
      simp only [colorLoop, hpass, List.nil_append] at heq
      exact ih skipped (color + 1) _ _ order1 bounds1 heq
        (fun u hu => hU u (hperm.subset (List.mem_append_right _ hu)))
        (hshape.shapeStep placed) (hind.indepStep hshape placed hpl)

theorem ColorSort_indep (s : State) (candidates order bounds : List Nat)
    (heq : ColorSort s candidates = some (order, bounds))
    (hrange : ∀ u ∈ candidates, u / 64 < s.words) : ColorIndep s order bounds :=
  colorLoop_indep s candidates.length candidates 0 [] [] order bounds heq hrange
    ColorShape.shapeZero (fun _ j _ hj => absurd hj (Nat.not_lt_zero j))

/-- C11. Each colour class of `ColorSort` is an independent set: on an
undirected graph whose rows have `(n + 63) / 64` words and for every list of
candidates of `[0, n)`, `ColorSort` returns, and for all indices `i != j` with
`bounds[i] = bounds[j]` the vertices `order[i]` and `order[j]` are different
and not adjacent. -/
theorem C11_colour_classes_independent (s : State) (candidates : List Nat)
    (hw : s.words = (s.n + 63) / 64) (hsym : GraphSym s)
    (hC : ∀ u ∈ candidates, u < s.n) :
    ∃ order bounds,
      ColorSort s candidates = some (order, bounds) ∧
      ∀ i j, i < order.length → j < order.length → i ≠ j →
        bounds.getD i 0 = bounds.getD j 0 →
        order.getD i 0 ≠ order.getD j 0 ∧
          IsAdjacent s (order.getD i 0) (order.getD j 0) = false := by
  obtain ⟨order, bounds, color, heq, hperm, -, -⟩ := ColorSort_spec s candidates
  have hind := ColorSort_indep s candidates order bounds heq
    (fun u hu => range_of_words hw u (hC u hu))
  have hlt : ∀ i, i < order.length → order.getD i 0 < s.n := by
    intro i hi
    rw [List.getD_eq_getElem _ _ hi]
    exact hC _ (hperm.subset (List.getElem_mem hi))
  refine ⟨order, bounds, heq, ?_⟩
  intro i j hi hj hij hb
  rcases Nat.lt_or_gt_of_ne hij with h | h
  · exact hind i j h hj hb
  · obtain ⟨hne, hadj⟩ := hind j i h hi hb.symm
    exact ⟨Ne.symm hne, by rw [hsym _ (hlt i hi) _ (hlt j hj)]; exact hadj⟩

theorem C11_colour_classes_independent_witness :
    (m6.words = (m6.n + 63) / 64 ∧ GraphSym m6 ∧ ∀ u ∈ [0, 1, 2, 3, 4, 5], u < m6.n) ∧
    ∃ order bounds,
      ColorSort m6 [0, 1, 2, 3, 4, 5] = some (order, bounds) ∧
      ∀ i j, i < order.length → j < order.length → i ≠ j →
        bounds.getD i 0 = bounds.getD j 0 →
        order.getD i 0 ≠ order.getD j 0 ∧
          IsAdjacent m6 (order.getD i 0) (order.getD j 0) = false :=
  ⟨⟨by decide, by decide, by decide⟩,
    C11_colour_classes_independent m6 [0, 1, 2, 3, 4, 5] (by decide) (by decide) (by decide)⟩

/-- C12. The method `ColorSort` only reorders its input: for every state and
every candidate list it returns, `order` is a permutation of `candidates`, and
`bounds` has the length of `order`. -/
theorem C12_colorsort_permutation (s : State) (candidates : List Nat) :
    ∃ order bounds,
      ColorSort s candidates = some (order, bounds) ∧
      order.Perm candidates ∧ bounds.length = order.length := by
  obtain ⟨order, bounds, color, heq, hperm, hshape, -⟩ := ColorSort_spec s candidates
  exact ⟨order, bounds, heq, hperm, hshape.len⟩

/-! ## Frame and termination of the search -/

/-- C18. The search never mutates the graph: for every state,
`InitBestCliqueGreedy`, every call of `Expand` and `RunBnB` return with `n`,
`words`, `adj` and `degree` equal to their values before the call (`ColorSort`
is a `const` method returning only `order` and `bounds`). -/
theorem C18_search_keeps_graph :
    (∀ (s : State) (starts rcl : Int) (picks : List Nat),
      ∃ s1 picks1,
        InitBestCliqueGreedy s starts rcl picks = some (s1, picks1) ∧
        s1.n = s.n ∧ s1.words = s.words ∧ s1.adj = s.adj ∧ s1.degree = s.degree) ∧
    (∀ (s : State) (candidates : List Nat) (extra : Nat),
      ∃ s1,
        Expand (candidates.length + 1 + extra) s candidates = some s1 ∧
        s1.n = s.n ∧ s1.words = s.words ∧ s1.adj = s.adj ∧ s1.degree = s.degree) ∧
    (∀ (s : State) (picks : List Nat),
      ∃ s1 picks1,
        RunBnB s picks = some (s1, picks1) ∧
        s1.n = s.n ∧ s1.words = s.words ∧ s1.adj = s.adj ∧ s1.degree = s.degree) := by
  refine ⟨?_, ?_, ?_⟩
  · intro s starts rcl picks
    obtain ⟨s1, picks1, heq, step, -⟩ := InitBestCliqueGreedy_spec s starts rcl picks
    exact ⟨s1, picks1, heq, step.graph⟩
  · intro s candidates extra
    obtain ⟨s1, heq, post⟩ :=
      Expand_spec (candidates.length + 1 + extra) s candidates (by omega)
    exact ⟨s1, heq, post.step.graph⟩
  · intro s picks
    obtain ⟨s1, picks1, heq, hg, -⟩ := RunBnB_spec s picks
    exact ⟨s1, picks1, heq, hg⟩

theorem colorPass_progress (s : State) (color v : Nat) (U order bounds : List Nat) :
    (colorPass s color (v :: U) (List.replicate s.words 0) order bounds []).2.2.2.length
        < (v :: U).length ∧
      order.length <
        (colorPass s color (v :: U) (List.replicate s.words 0) order bounds []).2.1.length := by
  obtain ⟨placed, skipped, f, heq, hperm, hne, -⟩ :=
    colorPass_spec s color (v :: U) [] (List.replicate s.words 0) order bounds []
  have hplaced : placed ≠ [] := hne v U rfl (testBit_replicate_zero _ _)
  have hpos : 0 < placed.length := List.length_pos.mpr hplaced
  have hlen : placed.length + skipped.length = U.length + 1 := by
    have := hperm.length_eq
    simpa using this
  rw [heq]
  simp only [List.nil_append, List.length_cons, List.length_append]
  omega

theorem expandLoopLog_spec
    (elog : State → List Nat → Option (State × List (State × List Nat)))
    (e : State → List Nat → Option State) (L : Nat)
    (hrec : ∀ s c, c.length < L →
      ∃ s1 log, elog s c = some (s1, log) ∧ e s c = some s1 ∧
        s1.cur_clique = s.cur_clique ∧
        ∀ node ∈ log, node.1.cur_clique.length + node.2.length
          ≤ s.cur_clique.length + c.length)
    (order bounds : List Nat) (hL : order.length ≤ L) :
    ∀ k, k ≤ order.length → ∀ s : State,
      ∃ s1 log, expandLoopLog elog order bounds k s = some (s1, log) ∧
        expandLoop e order bounds k s = some s1 ∧
        s1.cur_clique = s.cur_clique ∧
        ∀ node ∈ log, node.1.cur_clique.length + node.2.length
          ≤ s.cur_clique.length + order.length := by
  intro k
  induction k with
  | zero =>
    intro _ s
    exact ⟨s, [], rfl, rfl, rfl, fun _ h => absurd h (List.not_mem_nil _)⟩
  | succ k ih =>
    intro hk s
    have hk1 : k < order.length := hk
    by_cases hprune : (s.cur_clique.length : Int) + (bounds.getD k 0 : Int) ≤ s.best_size
    · exact ⟨s, [], by rw [expandLoopLog, if_pos hprune], by rw [expandLoop, if_pos hprune],
        rfl, fun _ h => absurd h (List.not_mem_nil _)⟩
    · have hnew : ((order.take k).filter (fun u => IsAdjacent s (order.getD k 0) u)).length
          ≤ k := (List.length_filter_le _ _).trans (List.length_take_le _ _)
      obtain ⟨s2, log1, hlog2, heq2, hcur2, hb2⟩ :=
        hrec { s with cur_clique := s.cur_clique ++ [order.getD k 0] }
          ((order.take k).filter (fun u => IsAdjacent s (order.getD k 0) u))
          (by omega)
      obtain ⟨s1, log2, hlog1, heq1, hcur1, hb1⟩ :=
        ih (Nat.le_of_succ_le hk) { s2 with cur_clique := s2.cur_clique.dropLast }
      have hcur3 : s2.cur_clique.dropLast = s.cur_clique := by
        rw [hcur2]; simp
      refine ⟨s1, log1 ++ log2, ?_, ?_, ?_, ?_⟩
      · simp only [expandLoopLog, hprune, if_false, hlog2, hlog1]
      · simp only [expandLoop, hprune, if_false, heq2]
        exact heq1
      · rw [hcur1]; exact hcur3
      · intro node hnode
        rcases List.mem_append.mp hnode with h | h
        · have := hb2 node h
          simp only [List.length_append, List.length_singleton] at this
          omega
        · have := hb1 node h
          simp only [hcur3] at this
          exact this

/-- The log version of `Expand` computes what `Expand` computes, and at every
call it records the partial clique and the candidates together have no more
members than at the first call. -/
theorem ExpandLog_spec :
    ∀ (fuel : Nat) (s : State) (candidates : List Nat), candidates.length < fuel →
      ∃ s1 log, ExpandLog fuel s candidates = some (s1, log) ∧
        Expand fuel s candidates = some s1 ∧
        s1.cur_clique = s.cur_clique ∧
        ∀ node ∈ log, node.1.cur_clique.length + node.2.length
          ≤ s.cur_clique.length + candidates.length := by
  intro fuel
  induction fuel with
  | zero => intro s c h; exact absurd h (Nat.not_lt_zero _)
  | succ fuel ih =>
    intro s candidates hlen
    cases candidates with
    | nil =>
      by_cases h : (s.cur_clique.length : Int) > s.best_size
      · refine ⟨replaceBest s s.cur_clique, [(s, [])], by simp [ExpandLog, h],
          by simp [Expand, h], rfl, ?_⟩
        intro node hnode
        rw [List.mem_singleton] at hnode
        rw [hnode]
      · refine ⟨s, [(s, [])], by simp [ExpandLog, h], by simp [Expand, h], rfl, ?_⟩
        intro node hnode
        rw [List.mem_singleton] at hnode
        rw [hnode]
    | cons c cs =>
      obtain ⟨order, bounds, color, heq, hperm, -, -⟩ := ColorSort_spec s (c :: cs)
      have holen : order.length = cs.length + 1 := by
        rw [hperm.length_eq]; rfl
      obtain ⟨s1, log, hlog1, heq1, hcur1, hb1⟩ :=
        expandLoopLog_spec (ExpandLog fuel) (Expand fuel) fuel ih order bounds
          (by rw [holen]; exact Nat.le_of_lt_succ hlen) order.length (Nat.le_refl _) s
      refine ⟨s1, (s, c :: cs) :: log, ?_, ?_, hcur1, ?_⟩
      · simp only [ExpandLog, List.isEmpty_cons, Bool.false_eq_true, if_false, heq, hlog1]
      · simp only [Expand, List.isEmpty_cons, Bool.false_eq_true, if_false, heq]
        exact heq1
      · intro node hnode
        rcases List.mem_cons.mp hnode with h | h
        · rw [h]
        · have := hb1 node h
          simp only [List.length_cons]
          omega

/-- C19. The search is total. A pass of `ColorSort` started on a non-empty `U`
places at least one vertex and leaves a shorter `U`, and `ColorSort` returns
on every input; every list `new_candidates` that `Expand(candidates)` can pass
down is shorter than `candidates`; `RunBnB` returns for every state and all
random draws; and at every call of `Expand` made by `RunBnB` the partial
clique and the candidates together have at most `n` members, so neither
`|cur_clique|` nor the recursion depth exceeds `n`. -/
theorem C19_search_total :
    (∀ (s : State) (color v : Nat) (U order bounds : List Nat),
      (colorPass s color (v :: U) (List.replicate s.words 0) order bounds []).2.2.2.length
          < (v :: U).length ∧
        order.length <
          (colorPass s color (v :: U) (List.replicate s.words 0) order bounds []).2.1.length) ∧
    (∀ (s : State) (candidates : List Nat),
      ∃ order bounds,
        ColorSort s candidates = some (order, bounds) ∧
        ∀ k v, k < order.length →
          ((order.take k).filter (fun u => IsAdjacent s v u)).length < candidates.length) ∧
    (∀ (s : State) (picks : List Nat), ∃ s1 picks1, RunBnB s picks = some (s1, picks1)) ∧
    (∀ s : State,
      ∃ s1 log,
        ExpandLog ((sortByDegree s (List.range s.n)).length + 1) { s with cur_clique := [] }
            (sortByDegree s (List.range s.n)) = some (s1, log) ∧
        Expand ((sortByDegree s (List.range s.n)).length + 1) { s with cur_clique := [] }
            (sortByDegree s (List.range s.n)) = some s1 ∧
        ∀ node ∈ log, node.1.cur_clique.length + node.2.length ≤ s.n) := by
  refine ⟨colorPass_progress, ?_, ?_, ?_⟩
  · intro s candidates
    obtain ⟨order, bounds, color, heq, hperm, -, -⟩ := ColorSort_spec s candidates
    refine ⟨order, bounds, heq, ?_⟩
    intro k v hk
    have h1 : ((order.take k).filter (fun u => IsAdjacent s v u)).length ≤ k :=
      (List.length_filter_le _ _).trans (List.length_take_le _ _)
    have h2 := hperm.length_eq
    omega
  · intro s picks
    obtain ⟨s1, picks1, heq, -⟩ := RunBnB_spec s picks
    exact ⟨s1, picks1, heq⟩
  · intro s
    obtain ⟨s1, log, hlog, heq, -, hb⟩ :=
      ExpandLog_spec ((sortByDegree s (List.range s.n)).length + 1)
        { s with cur_clique := [] } (sortByDegree s (List.range s.n)) (Nat.lt_succ_self _)
    refine ⟨s1, log, hlog, heq, ?_⟩
    intro node hnode
    have h1 := hb node hnode
    have h2 : (sortByDegree s (List.range s.n)).length = s.n := by
      rw [(sortByDegree_perm s _).length_eq, List.length_range]
    simp only [List.length_nil, Nat.zero_add] at h1
    omega

/-! ## The greedy seed -/

theorem isAdjacent_funext {s s1 : State} (h : SameGraph s s1) : IsAdjacent s1 = IsAdjacent s :=
  funext (fun u => funext (fun v => isAdjacent_congr h u v))

theorem greedyLoop_congr {s s1 : State} (h : SameGraph s s1) (rcl : Int) :
    ∀ (fuel : Nat) (cand clique picks : List Nat),
      greedyLoop s1 rcl fuel cand clique picks = greedyLoop s rcl fuel cand clique picks := by
  intro fuel
  induction fuel with
  | zero =>
    intro cand clique picks
    cases cand <;> rfl
  | succ fuel ih =>
    intro cand clique picks
    cases cand with
    | nil => rfl
    | cons c cand =>
      rw [greedyLoop, greedyLoop, isAdjacent_funext h]
      exact ih _ _ _

theorem greedyLoop_length (s : State) (rcl : Int) :
    ∀ (fuel : Nat) (cand clique picks clique1 picks1 : List Nat),
      greedyLoop s rcl fuel cand clique picks = some (clique1, picks1) →
      clique.length ≤ clique1.length ∧ (cand ≠ [] → clique.length < clique1.length) := by
  intro fuel
  induction fuel with
  | zero =>
    intro cand clique picks clique1 picks1 heq
    cases cand with
    | nil =>
      simp only [greedyLoop, Option.some.injEq, Prod.mk.injEq] at heq
      rw [← heq.1]
      exact ⟨Nat.le_refl _, fun h => absurd rfl h⟩
    | cons c cand => simp [greedyLoop] at heq
  | succ fuel ih =>
    intro cand clique picks clique1 picks1 heq
    cases cand with
    | nil =>
      simp only [greedyLoop, Option.some.injEq, Prod.mk.injEq] at heq
      rw [← heq.1]
      exact ⟨Nat.le_refl _, fun h => absurd rfl h⟩
    | cons c cand =>
      rw [greedyLoop] at heq
      have := (ih _ _ _ _ _ heq).1
      simp only [List.length_append, List.length_singleton] at this
      exact ⟨by omega, fun _ => by omega⟩

/-- The restarts of `InitBestCliqueGreedy` against the list of local cliques
they build: either no local clique is larger than the incumbent on entry,
which is kept, or the incumbent becomes the first local clique of maximum
size. -/
theorem greedyStarts_runs (s0 : State) (rcl : Int) (base : List Nat) :
    ∀ (k : Nat) (s : State) (picks : List Nat), SameGraph s0 s →
      ∃ s1 picks1 runs,
        greedyStarts rcl base k s picks = some (s1, picks1) ∧
        greedyRuns s0 rcl base k picks = some runs ∧
        runs.length = k ∧
        (((∀ x ∈ runs, (x.length : Int) ≤ s.best_size) ∧ SameIncumbent s s1) ∨
          ∃ pre c post, runs = pre ++ c :: post ∧
            (∀ x ∈ pre, x.length < c.length) ∧
            s.best_size < (c.length : Int) ∧
            (∀ x ∈ post, x.length ≤ c.length) ∧
            s1.best_size = (c.length : Int) ∧ s1.best_clique_vec = c ∧
            s1.best_clique_set = c.toFinset) := by
  intro k
  induction k with
  | zero =>
    intro s picks _
    exact ⟨s, picks, [], rfl, rfl, rfl,
      Or.inl ⟨fun _ h => absurd h (List.not_mem_nil _), SameIncumbent.incumbentRefl s⟩⟩
  | succ k ih =>
    intro s picks hg
    obtain ⟨c0, picks1, heq0, -⟩ :=
      greedyLoop_spec s0 rcl base.length base [] picks (Nat.le_refl _)
    have heq0s : greedyLoop s rcl base.length base [] picks = some (c0, picks1) := by
      rw [greedyLoop_congr hg]; exact heq0
    by_cases hbig : (c0.length : Int) > s.best_size
    · obtain ⟨s1, picks2, runs, heq1, hruns, hlen, hcase⟩ :=
        ih (replaceBest s c0) picks1 (hg.graphTrans (replaceBest_graph s c0))
      refine ⟨s1, picks2, c0 :: runs, ?_, ?_, by rw [List.length_cons, hlen], Or.inr ?_⟩
      · rw [greedyStarts, heq0s]
        simp only [hbig, if_true]
        exact heq1
      · rw [greedyRuns, heq0]
        simp only [hruns]
      · rcases hcase with ⟨hall, hsame⟩ | ⟨pre, c, post, hsplit, hpre, hlt, hpost, h1, h2, h3⟩
        · refine ⟨[], c0, runs, rfl, fun _ h => absurd h (List.not_mem_nil _), hbig, ?_,
            hsame.1, hsame.2.1, ?_⟩
          · intro x hx
            have := hall x hx
            simp only [replaceBest] at this
            omega
          · rw [hsame.2.2, replaceBest_set]
        · refine ⟨c0 :: pre, c, post, by rw [hsplit]; rfl, ?_, ?_, hpost, h1, h2, h3⟩
          · intro x hx
            rcases List.mem_cons.mp hx with h | h
            · rw [h]
              simp only [replaceBest] at hlt
              omega
            · exact hpre x h
          · simp only [replaceBest] at hlt
            omega
    · obtain ⟨s1, picks2, runs, heq1, hruns, hlen, hcase⟩ := ih s picks1 hg
      refine ⟨s1, picks2, c0 :: runs, ?_, ?_, by rw [List.length_cons, hlen], ?_⟩
      · rw [greedyStarts, heq0s]
        simp only [hbig, if_false]
        exact heq1
      · rw [greedyRuns, heq0]
        simp only [hruns]
      · rcases hcase with ⟨hall, hsame⟩ | ⟨pre, c, post, hsplit, hpre, hlt, hpost, h1, h2, h3⟩
        · refine Or.inl ⟨?_, hsame⟩
          intro x hx
          rcases List.mem_cons.mp hx with h | h
          · rw [h]; omega
          · exact hall x h
        · refine Or.inr ⟨c0 :: pre, c, post, by rw [hsplit]; rfl, ?_, hlt, hpost, h1, h2, h3⟩
          intro x hx
          rcases List.mem_cons.mp hx with h | h
          · rw [h]; omega
          · exact hpre x h

theorem greedyRuns_nonempty (s : State) (rcl : Int) (base : List Nat) (hbase : base ≠ []) :
    ∀ (k : Nat) (picks : List Nat) (runs : List (List Nat)),
      greedyRuns s rcl base k picks = some runs → ∀ x ∈ runs, 1 ≤ x.length := by
  intro k
  induction k with
  | zero =>
    intro picks runs heq x hx
    simp only [greedyRuns, Option.some.injEq] at heq
    rw [← heq] at hx
    exact absurd hx (List.not_mem_nil _)
  | succ k ih =>
    intro picks runs heq x hx
    obtain ⟨c0, picks1, heq0, -⟩ :=
      greedyLoop_spec s rcl base.length base [] picks (Nat.le_refl _)
    rw [greedyRuns, heq0] at heq
    cases hr : greedyRuns s rcl base k picks1 with
    | none => simp [hr] at heq
    | some rest =>
      simp only [hr, Option.some.injEq] at heq
      rw [← heq] at hx
      rcases List.mem_cons.mp hx with h | h
      · rw [h]
        have := (greedyLoop_length s rcl _ _ _ _ _ _ heq0).2 hbase
        simpa using this
      · exact ih picks1 rest hr x h

/-- C20. Greedy seed: on a graph with `n >= 1`, from a cleared incumbent and
for all random draws, `InitBestCliqueGreedy(starts, rcl)` returns after
`max(starts, 1)` restarts; `best_size` is then the maximum size of the local
cliques built by the restarts (at least the size of each of them, and at least
1), and `best_clique_vec`, `best_clique_set` hold the vertices of the first
restart that attains this size. -/
theorem C20_greedy_seed (s : State) (starts rcl : Int) (picks : List Nat) (hn : 1 ≤ s.n) :
    ∃ s1 picks1 runs,
      InitBestCliqueGreedy (ClearClique s) starts rcl picks = some (s1, picks1) ∧
      greedyRuns s (if rcl ≤ 0 then 1 else rcl) (sortByDegree s (List.range s.n))
        (if starts ≤ 0 then 1 else starts).toNat picks = some runs ∧
      runs.length = (if starts ≤ 0 then 1 else starts).toNat ∧
      ∃ pre c post, runs = pre ++ c :: post ∧
        (∀ x ∈ pre, x.length < c.length) ∧
        (∀ x ∈ runs, x.length ≤ c.length) ∧
        1 ≤ c.length ∧
        s1.best_size = (c.length : Int) ∧ s1.best_clique_vec = c ∧
        s1.best_clique_set = c.toFinset := by
  have hbase : sortByDegree s (List.range s.n) ≠ [] := by
    intro h
    have := (sortByDegree_perm s (List.range s.n)).length_eq
    rw [h, List.length_range] at this
    simp only [List.length_nil] at this
    omega
  obtain ⟨s1, picks1, runs, heq, hruns, hlen, hcase⟩ :=
    greedyStarts_runs s (if rcl ≤ 0 then 1 else rcl) (sortByDegree s (List.range s.n))
      (if starts ≤ 0 then 1 else starts).toNat (ClearClique s) picks (ClearClique_graph s)
  have hpos := greedyRuns_nonempty s _ _ hbase _ _ _ hruns
  have hk : 1 ≤ (if starts ≤ 0 then 1 else starts).toNat := by
    split <;> omega
  refine ⟨s1, picks1, runs, ?_, hruns, hlen, ?_⟩
  · have hn1 : ¬ (ClearClique s).n ≤ 0 := by
      show ¬ s.n ≤ 0
      omega
    rw [InitBestCliqueGreedy, if_neg hn1]
    exact heq
  · rcases hcase with ⟨hall, -⟩ | ⟨pre, c, post, hsplit, hpre, -, hpost, h1, h2, h3⟩
    · exfalso
      obtain ⟨x, hx⟩ := List.exists_mem_of_length_pos (l := runs) (by omega)
      have h1 := hall x hx
      have h2 := hpos x hx
      simp only [ClearClique] at h1
      omega
    · refine ⟨pre, c, post, hsplit, hpre, ?_, ?_, h1, h2, h3⟩
      · intro x hx
        rw [hsplit] at hx
        rcases List.mem_append.mp hx with h | h
        · exact Nat.le_of_lt (hpre x h)
        · rcases List.mem_cons.mp h with h | h
          · rw [h]
          · exact hpost x h
      · exact hpos c (by rw [hsplit]; simp)

theorem C20_greedy_seed_witness :
    1 ≤ c4.n ∧
    ∃ s1 picks1 runs,
      InitBestCliqueGreedy (ClearClique c4) 3 2 [1, 0, 1, 1, 0, 0] = some (s1, picks1) ∧
      greedyRuns c4 (if (2 : Int) ≤ 0 then (1 : Int) else 2) (sortByDegree c4 (List.range c4.n))
        (if (3 : Int) ≤ 0 then (1 : Int) else 3).toNat [1, 0, 1, 1, 0, 0] = some runs ∧
      runs.length = (if (3 : Int) ≤ 0 then (1 : Int) else 3).toNat ∧
      ∃ pre c post, runs = pre ++ c :: post ∧
        (∀ x ∈ pre, x.length < c.length) ∧
        (∀ x ∈ runs, x.length ≤ c.length) ∧
        1 ≤ c.length ∧
        s1.best_size = (c.length : Int) ∧ s1.best_clique_vec = c ∧
        s1.best_clique_set = c.toFinset :=
  ⟨by decide, C20_greedy_seed c4 3 2 [1, 0, 1, 1, 0, 0] (by decide)⟩

/-! ## `ReadGraphFile` -/

theorem getD_set_any {α : Type} (l : List α) (i j : Nat) (x d : α) :
    (l.set i x).getD j d = if i = j ∧ i < l.length then x else l.getD j d := by
  simp only [List.getD_eq_getElem?_getD, List.getElem?_set]
  by_cases hij : i = j
  · subst hij
    by_cases hl : i < l.length
    · simp [hl]
    · simp [hl, List.getElem?_eq_none (Nat.le_of_not_lt hl)]
  · simp [hij]

theorem row_index_inj {w a x p q : Nat} (hp : p < w) (hq : q < w)
    (h : a * w + p = x * w + q) : a = x ∧ p = q := by
  have hw : 0 < w := by omega
  have h1 : (a * w + p) / w = a := by
    rw [Nat.add_comm, Nat.add_mul_div_right _ _ hw, Nat.div_eq_of_lt hp, Nat.zero_add]
  have h2 : (x * w + q) / w = x := by
    rw [Nat.add_comm, Nat.add_mul_div_right _ _ hw, Nat.div_eq_of_lt hq, Nat.zero_add]
  have hax : a = x := by rw [← h1, ← h2, h]
  subst hax
  exact ⟨rfl, by omega⟩

theorem row_index_lt {n w a p : Nat} (ha : a < n) (hp : p < w) : a * w + p < n * w := by
  have h1 : a * w + p < (a + 1) * w := by
    rw [Nat.add_mul, Nat.one_mul]; omega
  exact lt_of_lt_of_le h1 (Nat.mul_le_mul_right w ha)

theorem SetEdge_fields (s : State) (a b : Nat) :
    (SetEdge s a b).n = s.n ∧ (SetEdge s a b).words = s.words ∧
      (SetEdge s a b).adj.length = s.adj.length ∧ (SetEdge s a b).degree = s.degree := by
  simp [SetEdge]

/-- The words of the rows after `SetEdge(a, b)`: only word `b >> 6` of row `a`
changes, by the bit `b & 63`. -/
theorem adjRow_SetEdge (s : State) (a b x i : Nat) (hlen : s.adj.length = s.n * s.words)
    (ha : a < s.n) (hb : b / 64 < s.words) (hi : i < s.words) :
    AdjRow (SetEdge s a b) x i =
      if x = a ∧ i = b / 64 then AdjRow s a (b / 64) ||| 2 ^ (b % 64) else AdjRow s x i := by
  unfold SetEdge
  simp only [AdjRow]
  rw [shiftRight_six, and_sixty_three, Nat.one_shiftLeft, getD_set]
  by_cases h : x = a ∧ i = b / 64
  · rw [if_pos h, if_pos]
    refine ⟨by rw [h.1, h.2], ?_⟩
    rw [hlen]
    exact row_index_lt ha hb
  · rw [if_neg h, if_neg]
    intro hc
    have := row_index_inj hb hi hc.1
    exact h ⟨this.1.symm, this.2.symm⟩

theorem isAdjacent_SetEdge (s : State) (a b x y : Nat) (hlen : s.adj.length = s.n * s.words)
    (ha : a < s.n) (hb : b / 64 < s.words) (hy : y / 64 < s.words) :
    IsAdjacent (SetEdge s a b) x y = (IsAdjacent s x y || (decide (x = a) && decide (y = b))) := by
  rw [isAdjacent_eq, isAdjacent_eq, adjRow_SetEdge s a b x (y / 64) hlen ha hb hy]
  by_cases h : x = a ∧ y / 64 = b / 64
  · rw [if_pos h, Nat.testBit_or, Nat.testBit_two_pow, h.1, h.2]
    congr 1
    by_cases h2 : b % 64 = y % 64
    · have : y = b := by have := h.2; omega
      simp [h2, this]
    · have : y ≠ b := by intro e; subst e; exact h2 rfl
      simp [h2, this]
  · rw [if_neg h]
    have : ¬ (x = a ∧ y = b) := by
      intro e; exact h ⟨e.1, by rw [e.2]⟩
    by_cases hx : x = a
    · have hyb : y ≠ b := fun e => this ⟨hx, e⟩
      simp [hx, hyb]
    · simp [hx]

theorem readEdge_rejected (s : State) (st fn : Int) (h : ¬ EdgeAccepted s st fn) :
    readEdge s st fn = s := by
  unfold EdgeAccepted at h
  rw [not_not] at h
  simp only [readEdge]
  rw [if_pos h]

theorem readEdge_present (s : State) (st fn : Int)
    (h : IsAdjacent s (st - 1).toNat (fn - 1).toNat = true) : readEdge s st fn = s := by
  simp only [readEdge, h, Bool.not_true, Bool.false_eq_true, if_false, ite_self]

theorem readEdge_new (s : State) (st fn : Int) (hacc : EdgeAccepted s st fn)
    (h : IsAdjacent s (st - 1).toNat (fn - 1).toNat = false) :
    readEdge s st fn = insertEdge s (st - 1).toNat (fn - 1).toNat := by
  unfold EdgeAccepted at hacc
  simp only [readEdge, h, Bool.not_false, if_true, if_neg hacc]
  rfl

theorem edge_range {s : State} {st fn : Int} (h : EdgeAccepted s st fn) :
    (st - 1).toNat < s.n ∧ (fn - 1).toNat < s.n ∧ (st - 1).toNat ≠ (fn - 1).toNat := by
  unfold EdgeAccepted at h
  omega

theorem insertEdge_fields (s : State) (u v : Nat) :
    (insertEdge s u v).n = s.n ∧ (insertEdge s u v).words = s.words ∧
      (insertEdge s u v).adj.length = s.adj.length ∧
      (insertEdge s u v).degree.length = s.degree.length ∧
      (insertEdge s u v).best_size = s.best_size ∧
      (insertEdge s u v).best_clique_vec = s.best_clique_vec ∧
      (insertEdge s u v).cur_clique = s.cur_clique ∧
      (insertEdge s u v).best_clique_set = s.best_clique_set := by
  simp [insertEdge, SetEdge]

theorem GraphShape.insertShape {s : State} (h : GraphShape s) (u v : Nat) :
    GraphShape (insertEdge s u v) := by
  obtain ⟨h1, h2, h3, h4, -⟩ := insertEdge_fields s u v
  exact ⟨by rw [h1, h2]; exact h.words_eq, by rw [h1, h2, h3]; exact h.adj_len,
    by rw [h1, h4]; exact h.deg_len⟩

theorem adjRow_insertEdge (s : State) (u v x i : Nat) (h : GraphShape s)
    (hu : u < s.n) (hv : v < s.n) (hi : i < s.words) :
    AdjRow (insertEdge s u v) x i =
      if x = v ∧ i = u / 64 then
        (if v = u ∧ u / 64 = v / 64 then AdjRow s u (v / 64) ||| 2 ^ (v % 64)
          else AdjRow s v (u / 64)) ||| 2 ^ (u % 64)
      else if x = u ∧ i = v / 64 then AdjRow s u (v / 64) ||| 2 ^ (v % 64)
      else AdjRow s x i := by
  have hu6 : u / 64 < s.words := range_of_words h.words_eq u hu
  have hv6 : v / 64 < s.words := range_of_words h.words_eq v hv
  have e : AdjRow (insertEdge s u v) x i = AdjRow (SetEdge (SetEdge s u v) v u) x i := rfl
  have hlen1 : (SetEdge s u v).adj.length = (SetEdge s u v).n * (SetEdge s u v).words := by
    obtain ⟨a, b, c, -⟩ := SetEdge_fields s u v
    rw [a, b, c]; exact h.adj_len
  rw [e, adjRow_SetEdge (SetEdge s u v) v u x i hlen1 hv hu6 hi,
    adjRow_SetEdge s u v v (u / 64) h.adj_len hu hv6 hu6,
    adjRow_SetEdge s u v x i h.adj_len hu hv6 hi]

theorem isAdjacent_insertEdge (s : State) (u v x y : Nat) (h : GraphShape s)
    (hu : u < s.n) (hv : v < s.n) (hy : y / 64 < s.words) :
    IsAdjacent (insertEdge s u v) x y =
      (IsAdjacent s x y || (decide (x = u) && decide (y = v)) ||
        (decide (x = v) && decide (y = u))) := by
  have hu6 : u / 64 < s.words := range_of_words h.words_eq u hu
  have hv6 : v / 64 < s.words := range_of_words h.words_eq v hv
  have e : IsAdjacent (insertEdge s u v) x y = IsAdjacent (SetEdge (SetEdge s u v) v u) x y :=
    rfl
  have hlen1 : (SetEdge s u v).adj.length = (SetEdge s u v).n * (SetEdge s u v).words := by
    obtain ⟨a, b, c, -⟩ := SetEdge_fields s u v
    rw [a, b, c]; exact h.adj_len
  rw [e, isAdjacent_SetEdge (SetEdge s u v) v u x y hlen1 hv hu6 hy,
    isAdjacent_SetEdge s u v x y h.adj_len hu hv6 hy]

theorem GraphSym.insertSym {s : State} (h : GraphShape s) (hsym : GraphSym s) (u v : Nat)
    (hu : u < s.n) (hv : v < s.n) : GraphSym (insertEdge s u v) := by
  intro x hx y hy
  rw [(insertEdge_fields s u v).1] at hx hy
  rw [isAdjacent_insertEdge s u v x y h hu hv (range_of_words h.words_eq y hy),
    isAdjacent_insertEdge s u v y x h hu hv (range_of_words h.words_eq x hx), hsym x hx y hy]
  by_cases h1 : x = u <;> by_cases h2 : y = v <;> by_cases h3 : x = v <;> by_cases h4 : y = u <;>
    simp [h1, h2, h3, h4]

theorem LoopFree.insertLoopFree {s : State} (h : GraphShape s) (hl : LoopFree s) (u v : Nat)
    (hu : u < s.n) (hv : v < s.n) (huv : u ≠ v) : LoopFree (insertEdge s u v) := by
  intro x hx
  rw [(insertEdge_fields s u v).1] at hx
  rw [isAdjacent_insertEdge s u v x x h hu hv (range_of_words h.words_eq x hx), hl x hx]
  by_cases h1 : x = u
  · have : x ≠ v := by rw [h1]; exact huv
    simp [this]
  · simp [h1]

theorem RowsClean.insertClean {s : State} (h : GraphShape s) (hc : RowsClean s) (u v : Nat)
    (hu : u < s.n) (hv : v < s.n) (huv : u ≠ v) : RowsClean (insertEdge s u v) := by
  intro x hx i hi b hb
  rw [(insertEdge_fields s u v).1] at hx ⊢
  rw [(insertEdge_fields s u v).2.1] at hi
  have hne : ¬ (v = u ∧ u / 64 = v / 64) := fun e => huv e.1.symm
  rw [adjRow_insertEdge s u v x i h hu hv hi, if_neg hne] at hb
  by_cases h1 : x = v ∧ i = u / 64
  · rw [if_pos h1, Nat.testBit_or, Nat.testBit_two_pow, Bool.or_eq_true,
      decide_eq_true_eq] at hb
    rcases hb with hb | hb
    · rw [← h1.1, ← h1.2] at hb
      exact hc x hx i hi b hb
    · rw [h1.2, ← hb]; omega
  · rw [if_neg h1] at hb
    by_cases h2 : x = u ∧ i = v / 64
    · rw [if_pos h2, Nat.testBit_or, Nat.testBit_two_pow, Bool.or_eq_true,
        decide_eq_true_eq] at hb
      rcases hb with hb | hb
      · rw [← h2.1, ← h2.2] at hb
        exact hc x hx i hi b hb
      · rw [h2.2, ← hb]; omega
    · rw [if_neg h2] at hb
      exact hc x hx i hi b hb

theorem degree_insertEdge (s : State) (u v x : Nat) (hu : u < s.degree.length)
    (hv : v < s.degree.length) (huv : u ≠ v) :
    (insertEdge s u v).degree.getD x 0 =
      s.degree.getD x 0 + (if x = u then 1 else 0) + (if x = v then 1 else 0) := by
  have e : (insertEdge s u v).degree =
      (s.degree.set u (s.degree.getD u 0 + 1)).set v
        ((s.degree.set u (s.degree.getD u 0 + 1)).getD v 0 + 1) := rfl
  rw [e, getD_set_any, getD_set_any, getD_set_any, List.length_set]
  have hvu : ¬ (u = v ∧ u < s.degree.length) := fun c => huv c.1
  rw [if_neg hvu]
  by_cases h1 : x = v
  · have hxu : x ≠ u := by rw [h1]; exact Ne.symm huv
    rw [if_pos ⟨h1.symm, hv⟩, if_neg hxu, if_pos h1, h1]
    omega
  · have h1' : ¬ (v = x ∧ v < s.degree.length) := fun c => h1 c.1.symm
    rw [if_neg h1', if_neg h1]
    by_cases h2 : x = u
    · rw [if_pos ⟨h2.symm, hu⟩, if_pos h2, h2]
      omega
    · have h2' : ¬ (u = x ∧ u < s.degree.length) := fun c => h2 c.1.symm
      rw [if_neg h2', if_neg h2]
      omega

theorem card_row_insertEdge (s : State) (u v x : Nat) (h : GraphShape s)
    (hu : u < s.n) (hv : v < s.n) (huv : u ≠ v)
    (h1 : IsAdjacent s u v = false) (h2 : IsAdjacent s v u = false) :
    ((Finset.range s.n).filter (fun y => IsAdjacent (insertEdge s u v) x y)).card =
      ((Finset.range s.n).filter (fun y => IsAdjacent s x y)).card
        + (if x = u then 1 else 0) + (if x = v then 1 else 0) := by
  have hform : ∀ y ∈ Finset.range s.n,
      (IsAdjacent (insertEdge s u v) x y = true ↔
        (IsAdjacent s x y = true ∨ (x = u ∧ y = v) ∨ (x = v ∧ y = u))) := by
    intro y hy
    rw [isAdjacent_insertEdge s u v x y h hu hv
      (range_of_words h.words_eq y (Finset.mem_range.mp hy))]
    simp only [Bool.or_eq_true, Bool.and_eq_true, decide_eq_true_eq]
    tauto
  rw [Finset.filter_congr hform]
  by_cases hxu : x = u
  · have hxv : x ≠ v := by rw [hxu]; exact huv
    have hset : (Finset.range s.n).filter
        (fun y => IsAdjacent s x y = true ∨ (x = u ∧ y = v) ∨ (x = v ∧ y = u)) =
        insert v ((Finset.range s.n).filter (fun y => IsAdjacent s x y)) := by
      ext y
      simp only [Finset.mem_filter, Finset.mem_range, Finset.mem_insert]
      constructor
      · rintro ⟨hy, hc | hc | hc⟩
        · exact Or.inr ⟨hy, hc⟩
        · exact Or.inl hc.2
        · exact absurd hc.1 hxv
      · rintro (hc | hc)
        · rw [hc]; exact ⟨hv, Or.inr (Or.inl ⟨hxu, rfl⟩)⟩
        · exact ⟨hc.1, Or.inl hc.2⟩
    have hnot : v ∉ (Finset.range s.n).filter (fun y => IsAdjacent s x y) := by
      rw [Finset.mem_filter, hxu, h1]
      exact fun c => Bool.noConfusion c.2
    rw [hset, Finset.card_insert_of_not_mem hnot, if_pos hxu, if_neg hxv]
  · by_cases hxv : x = v
    · have hset : (Finset.range s.n).filter
          (fun y => IsAdjacent s x y = true ∨ (x = u ∧ y = v) ∨ (x = v ∧ y = u)) =
          insert u ((Finset.range s.n).filter (fun y => IsAdjacent s x y)) := by
        ext y
        simp only [Finset.mem_filter, Finset.mem_range, Finset.mem_insert]
        constructor
        · rintro ⟨hy, hc | hc | hc⟩
          · exact Or.inr ⟨hy, hc⟩
          · exact absurd hc.1 hxu
          · exact Or.inl hc.2
        · rintro (hc | hc)
          · rw [hc]; exact ⟨hu, Or.inr (Or.inr ⟨hxv, rfl⟩)⟩
          · exact ⟨hc.1, Or.inl hc.2⟩
      have hnot : u ∉ (Finset.range s.n).filter (fun y => IsAdjacent s x y) := by
        rw [Finset.mem_filter, hxv, h2]
        exact fun c => Bool.noConfusion c.2
      rw [hset, Finset.card_insert_of_not_mem hnot, if_neg hxu, if_pos hxv]
    · have hset : (Finset.range s.n).filter
          (fun y => IsAdjacent s x y = true ∨ (x = u ∧ y = v) ∨ (x = v ∧ y = u)) =
          (Finset.range s.n).filter (fun y => IsAdjacent s x y) := by
        apply Finset.filter_congr
        intro y _
        constructor
        · rintro (hc | hc | hc)
          · exact hc
          · exact absurd hc.1 hxu
          · exact absurd hc.1 hxv
        · exact fun hc => Or.inl hc
      rw [hset, if_neg hxu, if_neg hxv]
      rfl

theorem DegreeOK.insertDeg {s : State} (h : GraphShape s) (hsym : GraphSym s)
    (hd : DegreeOK s) (u v : Nat) (hu : u < s.n) (hv : v < s.n) (huv : u ≠ v)
    (h1 : IsAdjacent s u v = false) : DegreeOK (insertEdge s u v) := by
  intro x hx
  rw [(insertEdge_fields s u v).1] at hx ⊢
  have h2 : IsAdjacent s v u = false := by rw [hsym v hv u hu]; exact h1
  rw [degree_insertEdge s u v x (by rw [h.deg_len]; exact hu) (by rw [h.deg_len]; exact hv) huv,
    card_row_insertEdge s u v x h hu hv huv h1 h2, hd x hx]
  push_cast
  rfl

theorem GraphWF.insertWF {s : State} (h : GraphWF s) (u v : Nat) (hu : u < s.n)
    (hv : v < s.n) (huv : u ≠ v) (h1 : IsAdjacent s u v = false) :
    GraphWF (insertEdge s u v) :=
  ⟨h.shape.insertShape u v, h.sym.insertSym h.shape u v hu hv,
    h.loopfree.insertLoopFree h.shape u v hu hv huv, h.clean.insertClean h.shape u v hu hv huv,
    h.deg.insertDeg h.shape h.sym u v hu hv huv h1⟩

theorem GraphWF.readEdgeWF {s : State} (h : GraphWF s) (st fn : Int) :
    GraphWF (readEdge s st fn) := by
  by_cases hacc : EdgeAccepted s st fn
  · obtain ⟨hu, hv, huv⟩ := edge_range hacc
    cases hadj : IsAdjacent s (st - 1).toNat (fn - 1).toNat
    · rw [readEdge_new s st fn hacc hadj]
      exact h.insertWF _ _ hu hv huv hadj
    · rw [readEdge_present s st fn hadj]
      exact h
  · rw [readEdge_rejected s st fn hacc]
    exact h

theorem adjRow_zero (s : State) (k : Nat) (h : s.adj = List.replicate k 0) (u i : Nat) :
    AdjRow s u i = 0 := by
  unfold AdjRow
  rw [h, List.getD_eq_getElem?_getD, List.getElem?_replicate]
  split <;> rfl

theorem isAdjacent_zero (s : State) (k : Nat) (h : s.adj = List.replicate k 0) (u v : Nat) :
    IsAdjacent s u v = false := by
  rw [isAdjacent_eq, adjRow_zero s k h, Nat.zero_testBit]

/-- Below the overflow the word count of the source is `(n + 63) / 64`. -/
theorem headerWords_small (n : Int) (h0 : 0 ≤ n) (h : n ≤ INT_MAX - 63) :
    headerWords n = ((n.toNat + 63) / 64 : Nat) := by
  unfold INT_MAX at h
  unfold headerWords wrapInt
  have hw : (n + 63 + 2147483648) % 4294967296 - 2147483648 = n + 63 := by omega
  rw [hw, Int.tdiv_eq_ediv (by omega) (by decide)]
  omega

/-- Above `INT_MAX - 63` the sum overflows and the word count is negative. -/
theorem headerWords_overflow (n : Int) (h : INT_MAX - 63 < n) (hmax : n ≤ INT_MAX) :
    headerWords n < 0 := by
  unfold INT_MAX at h hmax
  unfold headerWords wrapInt
  have hw : (n + 63 + 2147483648) % 4294967296 - 2147483648 = n + 63 - 4294967296 := by
    omega
  rw [hw]
  have hneg : Int.tdiv (n + 63 - 4294967296) 64 = -(Int.tdiv (4294967296 - (n + 63)) 64) := by
    rw [← Int.neg_tdiv]; congr 1; omega
  rw [hneg, Int.tdiv_eq_ediv (by omega) (by decide)]
  omega

/-- The header branch throws for a vertex count outside `[0, INT_MAX - 63]`. -/
theorem readHeader_none (s : State) (vert : Int) (h : vert < 0 ∨ INT_MAX - 63 < vert) :
    readHeader s vert = none := by
  unfold readHeader
  apply if_pos
  rcases h with h | h
  · exact Or.inl h
  · by_cases hmax : vert ≤ INT_MAX
    · exact Or.inr (Or.inr (headerWords_overflow vert h hmax))
    · exact Or.inr (Or.inl (not_le.mp hmax))

/-- The state the header branch returns for a vertex count of `[0, INT_MAX - 63]`. -/
theorem readHeader_some (s : State) (vert : Int) (h0 : 0 ≤ vert) (h : vert ≤ INT_MAX - 63) :
    readHeader s vert =
      some { s with
        n := vert.toNat
        words := (vert.toNat + 63) / 64
        adj := List.replicate (vert.toNat * ((vert.toNat + 63) / 64)) 0
        degree := List.replicate vert.toNat 0 } := by
  have hw := headerWords_small vert h0 h
  have hmax : ¬ INT_MAX < vert := by unfold INT_MAX at h ⊢; omega
  have hcond : ¬ (vert < 0 ∨ INT_MAX < vert ∨ headerWords vert < 0) := by
    rw [hw]
    rintro (h1 | h1 | h1)
    · omega
    · exact hmax h1
    · omega
  unfold readHeader
  rw [if_neg hcond, hw, Int.toNat_ofNat]

theorem readHeader_range (s s1 : State) (vert : Int) (h : readHeader s vert = some s1) :
    0 ≤ vert ∧ vert ≤ INT_MAX - 63 := by
  by_contra hc
  have hbad : vert < 0 ∨ INT_MAX - 63 < vert := by
    by_cases h0 : vert < 0
    · exact Or.inl h0
    · right
      by_contra h1
      exact hc ⟨not_lt.mp h0, not_lt.mp h1⟩
  rw [readHeader_none s vert hbad] at h
  exact Option.noConfusion h

theorem readHeader_wf (s s1 : State) (vert : Int) (h : readHeader s vert = some s1) :
    GraphWF s1 := by
  have hr := readHeader_range s s1 vert h
  rw [readHeader_some s vert hr.1 hr.2] at h
  · rw [Option.some.injEq] at h
    have hadj : s1.adj = List.replicate (vert.toNat * ((vert.toNat + 63) / 64)) 0 := by
      rw [← h]
    have hn : s1.n = vert.toNat := by rw [← h]
    have hwd : s1.words = (vert.toNat + 63) / 64 := by rw [← h]
    have hdeg : s1.degree = List.replicate vert.toNat 0 := by rw [← h]
    refine ⟨⟨by rw [hwd, hn], by rw [hadj, hn, hwd, List.length_replicate],
      by rw [hdeg, hn, List.length_replicate]⟩, ?_, ?_, ?_, ?_⟩
    · intro u _ v _
      rw [isAdjacent_zero s1 _ hadj, isAdjacent_zero s1 _ hadj]
    · intro v _
      exact isAdjacent_zero s1 _ hadj v v
    · intro v _ i _ b hb
      rw [adjRow_zero s1 _ hadj, Nat.zero_testBit] at hb
      exact Bool.noConfusion hb
    · intro v hv
      have hf : (Finset.range s1.n).filter (fun u => IsAdjacent s1 v u) = ∅ := by
        apply Finset.filter_false_of_mem
        intro u _
        rw [isAdjacent_zero s1 _ hadj]
        exact Bool.false_ne_true
      rw [hf, hdeg, List.getD_eq_getElem?_getD, List.getElem?_replicate]
      split <;> rfl

theorem newSolver_wf : GraphWF newSolver := by
  refine ⟨⟨rfl, rfl, rfl⟩, ?_, ?_, ?_, ?_⟩
  · intro u hu; exact absurd hu (Nat.not_lt_zero _)
  · intro u hu; exact absurd hu (Nat.not_lt_zero _)
  · intro u hu; exact absurd hu (Nat.not_lt_zero _)
  · intro u hu; exact absurd hu (Nat.not_lt_zero _)

/-- The graph invariant is kept by `ReadGraphFile`. -/
theorem ReadGraphFile_wf :
    ∀ (recs : List Record) (s0 s : State), GraphWF s0 → ReadGraphFile s0 recs = some s →
      GraphWF s := by
  intro recs
  induction recs with
  | nil =>
    intro s0 s h0 h
    rw [ReadGraphFile, Option.some.injEq] at h
    rw [← h]; exact h0
  | cons r rest ih =>
    intro s0 s h0 h
    cases r with
    | comment => rw [ReadGraphFile] at h; exact ih s0 s h0 h
    | other => rw [ReadGraphFile] at h; exact ih s0 s h0 h
    | edge st fn => rw [ReadGraphFile] at h; exact ih _ s (h0.readEdgeWF st fn) h
    | header vert edges =>
      rw [ReadGraphFile] at h
      cases hh : readHeader s0 vert with
      | none => rw [hh] at h; exact Option.noConfusion h
      | some s1 =>
        rw [hh] at h
        exact ih s1 s (readHeader_wf s0 s1 vert hh) h

/-- After a header the invariant holds whatever the state was before. -/
theorem ReadGraphFile_header_wf (s0 s : State) (vert edges : Int) (rest : List Record)
    (h : ReadGraphFile s0 (Record.header vert edges :: rest) = some s) : GraphWF s := by
  rw [ReadGraphFile] at h
  cases hh : readHeader s0 vert with
  | none => rw [hh] at h; exact Option.noConfusion h
  | some s1 =>
    rw [hh] at h
    exact ReadGraphFile_wf rest s1 s (readHeader_wf s0 s1 vert hh) h

/-- The reader returns when every header has a vertex count of
`[0, INT_MAX - 63]`. -/
theorem ReadGraphFile_total :
    ∀ (recs : List Record) (s0 : State),
      (∀ vert edges, Record.header vert edges ∈ recs → 0 ≤ vert ∧ vert ≤ INT_MAX - 63) →
      ∃ s, ReadGraphFile s0 recs = some s := by
  intro recs
  induction recs with
  | nil => intro s0 _; exact ⟨s0, rfl⟩
  | cons r rest ih =>
    intro s0 h
    have hrest : ∀ vert edges, Record.header vert edges ∈ rest →
        0 ≤ vert ∧ vert ≤ INT_MAX - 63 :=
      fun vert edges hm => h vert edges (List.mem_cons_of_mem _ hm)
    cases r with
    | comment => rw [ReadGraphFile]; exact ih s0 hrest
    | other => rw [ReadGraphFile]; exact ih s0 hrest
    | edge st fn => rw [ReadGraphFile]; exact ih _ hrest
    | header vert edges =>
      have hv := h vert edges (List.mem_cons_self _ _)
      rw [ReadGraphFile, readHeader_some s0 vert hv.1 hv.2]
      exact ih _ hrest

/-- The reader fails at the first header whose vertex count is negative or
above `INT_MAX - 63`. -/
theorem ReadGraphFile_bad_header :
    ∀ (recs : List Record) (s0 : State) (vert edges : Int),
      Record.header vert edges ∈ recs → (vert < 0 ∨ INT_MAX - 63 < vert) →
      ReadGraphFile s0 recs = none := by
  intro recs
  induction recs with
  | nil => intro s0 vert edges hm; exact absurd hm (List.not_mem_nil _)
  | cons r rest ih =>
    intro s0 vert edges hm hbad
    cases r with
    | comment =>
      rw [ReadGraphFile]
      exact ih s0 vert edges ((List.mem_cons.mp hm).resolve_left (fun e => by cases e)) hbad
    | other =>
      rw [ReadGraphFile]
      exact ih s0 vert edges ((List.mem_cons.mp hm).resolve_left (fun e => by cases e)) hbad
    | edge st fn =>
      rw [ReadGraphFile]
      exact ih _ vert edges ((List.mem_cons.mp hm).resolve_left (fun e => by cases e)) hbad
    | header vert1 edges1 =>
      rw [ReadGraphFile]
      cases hh : readHeader s0 vert1 with
      | none => rfl
      | some s1 =>
        rcases List.mem_cons.mp hm with e | hm1
        · cases e
          rw [readHeader_none s0 vert hbad] at hh
          exact Option.noConfusion hh
        · exact ih s1 vert edges hm1 hbad

theorem rowBitCount_eq {s : State} (h : GraphShape s) (hc : RowsClean s) (v : Nat)
    (hv : v < s.n) :
    RowBitCount s v = ((Finset.range s.n).filter (fun u => IsAdjacent s v u)).card := by
  unfold RowBitCount
  congr 1
  ext p
  simp only [Finset.mem_filter, Finset.mem_range]
  constructor
  · rintro ⟨hp, hadj⟩
    refine ⟨?_, hadj⟩
    rw [isAdjacent_eq] at hadj
    have := hc v hv (p / 64) (by omega) (p % 64) hadj
    omega
  · rintro ⟨hp, hadj⟩
    refine ⟨?_, hadj⟩
    have := h.words_eq
    omega

/-- C13. Graph invariant: after `ReadGraphFile` has processed any list of
records (started on a default-constructed solver, or on any state when the
list begins with a header, or on any state that satisfies the invariant
`GraphWF` already), `IsAdjacent(u, v)` holds iff `IsAdjacent(v, u)` holds for
all `u`, `v` of `[0, n)`, and `IsAdjacent(v, v)` never holds. -/
theorem C13_graph_symmetric_loopfree :
    (∀ (recs : List Record) (s : State), ReadGraphFile newSolver recs = some s →
      (∀ u, u < s.n → ∀ v, v < s.n → IsAdjacent s u v = IsAdjacent s v u) ∧
        ∀ v, v < s.n → IsAdjacent s v v = false) ∧
    (∀ (s0 : State) (vert edges : Int) (rest : List Record) (s : State),
      ReadGraphFile s0 (Record.header vert edges :: rest) = some s →
      (∀ u, u < s.n → ∀ v, v < s.n → IsAdjacent s u v = IsAdjacent s v u) ∧
        ∀ v, v < s.n → IsAdjacent s v v = false) ∧
    (∀ (s0 : State) (recs : List Record) (s : State), GraphWF s0 →
      ReadGraphFile s0 recs = some s →
      (∀ u, u < s.n → ∀ v, v < s.n → IsAdjacent s u v = IsAdjacent s v u) ∧
        ∀ v, v < s.n → IsAdjacent s v v = false) := by
  refine ⟨?_, ?_, ?_⟩
  · intro recs s h
    have hwf := ReadGraphFile_wf recs newSolver s newSolver_wf h
    exact ⟨hwf.sym, hwf.loopfree⟩
  · intro s0 vert edges rest s h
    have hwf := ReadGraphFile_header_wf s0 s vert edges rest h
    exact ⟨hwf.sym, hwf.loopfree⟩
  · intro s0 recs s h0 h
    have hwf := ReadGraphFile_wf recs s0 s h0 h
    exact ⟨hwf.sym, hwf.loopfree⟩

theorem degree_facts {s : State} (hwf : GraphWF s) : DegreeInv s := by
  refine ⟨fun v hv => ⟨?_, hwf.deg v hv⟩, hwf.clean, ?_⟩
  · rw [rowBitCount_eq hwf.shape hwf.clean v hv]
    exact hwf.deg v hv
  · intro v hv p hp hpw
    cases hadj : IsAdjacent s v p
    · rfl
    · exfalso
      rw [isAdjacent_eq] at hadj
      have := hwf.clean v hv (p / 64) (by omega) (p % 64) hadj
      omega

/-- C14. Degree invariant: after `ReadGraphFile` has processed any list of
records (started on a default-constructed solver, or on any state when the
list begins with a header, or on any state that satisfies `GraphWF` already),
for every `v` of `[0, n)` the entry `degree[v]` equals the number of set bits
in row `v` and the number of `u` of `[0, n)` with `IsAdjacent(v, u)`, and no
bit at a position `>= n` is set in any row. -/
theorem C14_degree_invariant :
    (∀ (recs : List Record) (s : State), ReadGraphFile newSolver recs = some s →
      DegreeInv s) ∧
    (∀ (s0 : State) (vert edges : Int) (rest : List Record) (s : State),
      ReadGraphFile s0 (Record.header vert edges :: rest) = some s → DegreeInv s) ∧
    (∀ (s0 : State) (recs : List Record) (s : State), GraphWF s0 →
      ReadGraphFile s0 recs = some s → DegreeInv s) := by
  refine ⟨?_, ?_, ?_⟩
  · intro recs s h
    exact degree_facts (ReadGraphFile_wf recs newSolver s newSolver_wf h)
  · intro s0 vert edges rest s h
    exact degree_facts (ReadGraphFile_header_wf s0 s vert edges rest h)
  · intro s0 recs s h0 h
    exact degree_facts (ReadGraphFile_wf recs s0 s h0 h)

theorem readEdge_adj (s : State) (st fn : Int) (h : GraphShape s) (hacc : EdgeAccepted s st fn)
    (x y : Nat) (hy : y < s.n) :
    IsAdjacent (readEdge s st fn) x y =
      (IsAdjacent s x y ||
        (!IsAdjacent s (st - 1).toNat (fn - 1).toNat &&
          ((decide (x = (st - 1).toNat) && decide (y = (fn - 1).toNat)) ||
            (decide (x = (fn - 1).toNat) && decide (y = (st - 1).toNat))))) := by
  obtain ⟨hu, hv, -⟩ := edge_range hacc
  cases hadj : IsAdjacent s (st - 1).toNat (fn - 1).toNat
  · rw [readEdge_new s st fn hacc hadj,
      isAdjacent_insertEdge s _ _ x y h hu hv (range_of_words h.words_eq y hy)]
    simp [Bool.or_assoc]
  · rw [readEdge_present s st fn hadj]
    simp

/-- C16. An accepted edge sets exactly its own two bits: on a state with the
sizes `ReadGraphFile` gives and symmetric adjacency, after an edge record with
1-indexed endpoints `1 <= st, fn <= n`, `st != fn`, both
`IsAdjacent(st-1, fn-1)` and `IsAdjacent(fn-1, st-1)` hold, `IsAdjacent(x, y)`
is unchanged for every other ordered pair of `[0, n) x [0, n)`, and `n` and
`words` are unchanged. -/
theorem C16_accepted_edge (s : State) (st fn : Int) (hshape : GraphShape s)
    (hsym : GraphSym s) (h1 : 1 ≤ st) (h2 : st ≤ (s.n : Int)) (h3 : 1 ≤ fn)
    (h4 : fn ≤ (s.n : Int)) (hne : st ≠ fn) :
    IsAdjacent (readEdge s st fn) (st - 1).toNat (fn - 1).toNat = true ∧
    IsAdjacent (readEdge s st fn) (fn - 1).toNat (st - 1).toNat = true ∧
    (∀ x y, x < s.n → y < s.n →
      ¬ (x = (st - 1).toNat ∧ y = (fn - 1).toNat) →
      ¬ (x = (fn - 1).toNat ∧ y = (st - 1).toNat) →
      IsAdjacent (readEdge s st fn) x y = IsAdjacent s x y) ∧
    (readEdge s st fn).n = s.n ∧ (readEdge s st fn).words = s.words := by
  have hacc : EdgeAccepted s st fn := by
    unfold EdgeAccepted
    omega
  obtain ⟨hu, hv, huv⟩ := edge_range hacc
  have hfields : (readEdge s st fn).n = s.n ∧ (readEdge s st fn).words = s.words := by
    cases hadj : IsAdjacent s (st - 1).toNat (fn - 1).toNat
    · rw [readEdge_new s st fn hacc hadj]
      exact ⟨(insertEdge_fields s _ _).1, (insertEdge_fields s _ _).2.1⟩
    · rw [readEdge_present s st fn hadj]
      exact ⟨rfl, rfl⟩
  refine ⟨?_, ?_, ?_, hfields⟩
  · rw [readEdge_adj s st fn hshape hacc _ _ hv]
    cases hadj : IsAdjacent s (st - 1).toNat (fn - 1).toNat <;> simp
  · rw [readEdge_adj s st fn hshape hacc _ _ hu, hsym _ hv _ hu]
    cases hadj : IsAdjacent s (st - 1).toNat (fn - 1).toNat <;> simp
  · intro x y _ hy hn1 hn2
    rw [readEdge_adj s st fn hshape hacc x y hy]
    have e1 : (decide (x = (st - 1).toNat) && decide (y = (fn - 1).toNat)) = false := by
      simpa using hn1
    have e2 : (decide (x = (fn - 1).toNat) && decide (y = (st - 1).toNat)) = false := by
      simpa using hn2
    rw [e1, e2]
    simp

theorem c4_shape : GraphShape c4 := ⟨by decide, by decide, by decide⟩

theorem C16_accepted_edge_witness :
    (GraphShape c4 ∧ GraphSym c4 ∧ (1 : Int) ≤ 1 ∧ (1 : Int) ≤ (c4.n : Int) ∧ (1 : Int) ≤ 3 ∧
        (3 : Int) ≤ (c4.n : Int) ∧ (1 : Int) ≠ 3) ∧
    (IsAdjacent (readEdge c4 1 3) ((1 : Int) - 1).toNat ((3 : Int) - 1).toNat = true ∧
      IsAdjacent (readEdge c4 1 3) ((3 : Int) - 1).toNat ((1 : Int) - 1).toNat = true ∧
      (∀ x y, x < c4.n → y < c4.n →
        ¬ (x = ((1 : Int) - 1).toNat ∧ y = ((3 : Int) - 1).toNat) →
        ¬ (x = ((3 : Int) - 1).toNat ∧ y = ((1 : Int) - 1).toNat) →
        IsAdjacent (readEdge c4 1 3) x y = IsAdjacent c4 x y) ∧
      (readEdge c4 1 3).n = c4.n ∧ (readEdge c4 1 3).words = c4.words) :=
  ⟨⟨c4_shape, by decide, by decide, by decide, by decide, by decide, by decide⟩,
    C16_accepted_edge c4 1 3 c4_shape (by decide) (by decide) (by decide) (by decide)
      (by decide) (by decide)⟩

/-! ## Repeated edges -/

theorem readEdge_n (s : State) (st fn : Int) :
    (readEdge s st fn).n = s.n ∧ (readEdge s st fn).words = s.words := by
  by_cases hacc : EdgeAccepted s st fn
  · cases hadj : IsAdjacent s (st - 1).toNat (fn - 1).toNat
    · rw [readEdge_new s st fn hacc hadj]
      exact ⟨(insertEdge_fields s _ _).1, (insertEdge_fields s _ _).2.1⟩
    · rw [readEdge_present s st fn hadj]
      exact ⟨rfl, rfl⟩
  · rw [readEdge_rejected s st fn hacc]
    exact ⟨rfl, rfl⟩

theorem EdgeAccepted.of_n {s s1 : State} {a b : Int} (h : EdgeAccepted s a b)
    (hn : s1.n = s.n) : EdgeAccepted s1 a b := by
  unfold EdgeAccepted at h ⊢
  rw [hn]; exact h

theorem EdgeAccepted.swap {s : State} {a b : Int} (h : EdgeAccepted s a b) :
    EdgeAccepted s b a := by
  unfold EdgeAccepted at h ⊢
  omega

theorem readEdge_shape_sym (s : State) (st fn : Int) (h : GraphShape s) (hsym : GraphSym s) :
    GraphShape (readEdge s st fn) ∧ GraphSym (readEdge s st fn) := by
  by_cases hacc : EdgeAccepted s st fn
  · obtain ⟨hu, hv, -⟩ := edge_range hacc
    cases hadj : IsAdjacent s (st - 1).toNat (fn - 1).toNat
    · rw [readEdge_new s st fn hacc hadj]
      exact ⟨h.insertShape _ _, hsym.insertSym h _ _ hu hv⟩
    · rw [readEdge_present s st fn hadj]
      exact ⟨h, hsym⟩
  · rw [readEdge_rejected s st fn hacc]
    exact ⟨h, hsym⟩

theorem readEdge_mono (s : State) (st fn : Int) (h : GraphShape s) (x y : Nat)
    (hy : y < s.n) (hadj : IsAdjacent s x y = true) :
    IsAdjacent (readEdge s st fn) x y = true := by
  by_cases hacc : EdgeAccepted s st fn
  · rw [readEdge_adj s st fn h hacc x y hy, hadj]
    rfl
  · rw [readEdge_rejected s st fn hacc]
    exact hadj

/-- After an accepted edge record both of its bits are set. -/
theorem readEdge_sets (s : State) (st fn : Int) (h : GraphShape s) (hsym : GraphSym s)
    (hacc : EdgeAccepted s st fn) :
    IsAdjacent (readEdge s st fn) (st - 1).toNat (fn - 1).toNat = true ∧
      IsAdjacent (readEdge s st fn) (fn - 1).toNat (st - 1).toNat = true := by
  obtain ⟨hu, hv, -⟩ := edge_range hacc
  constructor
  · rw [readEdge_adj s st fn h hacc _ _ hv]
    cases hadj : IsAdjacent s (st - 1).toNat (fn - 1).toNat <;> simp
  · rw [readEdge_adj s st fn h hacc _ _ hu, hsym _ hv _ hu]
    cases hadj : IsAdjacent s (st - 1).toNat (fn - 1).toNat <;> simp

theorem readEdges_cons (s : State) (e : Int × Int) (rest : List (Int × Int)) :
    readEdges s (e :: rest) = readEdges (readEdge s e.1 e.2) rest := rfl

theorem readEdges_n (es : List (Int × Int)) :
    ∀ s : State, (readEdges s es).n = s.n := by
  induction es with
  | nil => intro s; rfl
  | cons e rest ih =>
    intro s
    rw [readEdges_cons, ih, (readEdge_n s e.1 e.2).1]

theorem readEdges_shape_sym (es : List (Int × Int)) :
    ∀ s : State, GraphShape s → GraphSym s →
      GraphShape (readEdges s es) ∧ GraphSym (readEdges s es) := by
  induction es with
  | nil => intro s h hsym; exact ⟨h, hsym⟩
  | cons e rest ih =>
    intro s h hsym
    rw [readEdges_cons]
    obtain ⟨a, b⟩ := readEdge_shape_sym s e.1 e.2 h hsym
    exact ih _ a b

theorem readEdges_mono (es : List (Int × Int)) :
    ∀ s : State, GraphShape s → GraphSym s → ∀ x y, y < s.n → IsAdjacent s x y = true →
      IsAdjacent (readEdges s es) x y = true := by
  induction es with
  | nil => intro s _ _ x y _ hadj; exact hadj
  | cons e rest ih =>
    intro s h hsym x y hy hadj
    rw [readEdges_cons]
    obtain ⟨a, b⟩ := readEdge_shape_sym s e.1 e.2 h hsym
    exact ih _ a b x y (by rw [(readEdge_n s e.1 e.2).1]; exact hy)
      (readEdge_mono s e.1 e.2 h x y hy hadj)

/-- An accepted edge that occurs in a list of edge records, in either
direction, is present after the list has been processed. -/
theorem readEdges_seen (a b : Int) (es : List (Int × Int)) :
    ∀ s : State, GraphShape s → GraphSym s → EdgeAccepted s a b →
      ((a, b) ∈ es ∨ (b, a) ∈ es) →
      IsAdjacent (readEdges s es) (a - 1).toNat (b - 1).toNat = true := by
  induction es with
  | nil =>
    intro s _ _ _ hmem
    rcases hmem with h | h <;> exact absurd h (List.not_mem_nil _)
  | cons e rest ih =>
    intro s h hsym hacc hmem
    rw [readEdges_cons]
    obtain ⟨hs1, hsym1⟩ := readEdge_shape_sym s e.1 e.2 h hsym
    have hn1 := (readEdge_n s e.1 e.2).1
    obtain ⟨-, hv, -⟩ := edge_range hacc
    have hhead : e = (a, b) ∨ e = (b, a) →
        IsAdjacent (readEdges (readEdge s e.1 e.2) rest) (a - 1).toNat (b - 1).toNat = true := by
      intro he
      apply readEdges_mono rest _ hs1 hsym1 _ _ (by rw [hn1]; exact hv)
      rcases he with he | he
      · rw [he]
        exact (readEdge_sets s a b h hsym hacc).1
      · rw [he]
        exact (readEdge_sets s b a h hsym hacc.swap).2
    rcases hmem with hm | hm
    · rcases List.mem_cons.mp hm with he | hr
      · exact hhead (Or.inl he.symm)
      · exact ih _ hs1 hsym1 (hacc.of_n hn1) (Or.inl hr)
    · rcases List.mem_cons.mp hm with he | hr
      · exact hhead (Or.inr he.symm)
      · exact ih _ hs1 hsym1 (hacc.of_n hn1) (Or.inr hr)

theorem ReadGraphFile_edges (es : List (Int × Int)) :
    ∀ (s : State) (rest : List Record),
      ReadGraphFile s (es.map (fun e => Record.edge e.1 e.2) ++ rest) =
        ReadGraphFile (readEdges s es) rest := by
  induction es with
  | nil => intro s rest; rfl
  | cons e more ih =>
    intro s rest
    rw [List.map_cons, List.cons_append, ReadGraphFile, ih, readEdges_cons]

/-- C17. Duplicate edge insertion is idempotent: on a state with the sizes
`ReadGraphFile` gives and symmetric adjacency, an edge record `(st, fn)` or
its reverse `(fn, st)` leaves the whole state, `adj` and `degree` included,
unchanged when the edge is already present; processing a record twice, or a
record and then its reverse, gives the state reached after the first; and an
edge list gives the same state with or without a record that repeats, in
either direction, an earlier record of the list. -/
theorem C17_duplicate_edge (s : State) (hshape : GraphShape s) (hsym : GraphSym s) :
    (∀ st fn : Int, IsAdjacent s (st - 1).toNat (fn - 1).toNat = true →
      readEdge s st fn = s ∧ readEdge s fn st = s) ∧
    (∀ st fn : Int,
      readEdge (readEdge s st fn) st fn = readEdge s st fn ∧
        readEdge (readEdge s st fn) fn st = readEdge s st fn) ∧
    (∀ (pre : List (Int × Int)) (a b : Int) (post : List Record),
      ((a, b) ∈ pre ∨ (b, a) ∈ pre) →
      ReadGraphFile s (pre.map (fun e => Record.edge e.1 e.2) ++ Record.edge a b :: post) =
        ReadGraphFile s (pre.map (fun e => Record.edge e.1 e.2) ++ post)) := by
  have hpresent : ∀ (t : State), GraphSym t → ∀ st fn : Int,
      IsAdjacent t (st - 1).toNat (fn - 1).toNat = true →
      readEdge t st fn = t ∧ readEdge t fn st = t := by
    intro t ht st fn hadj
    refine ⟨readEdge_present t st fn hadj, ?_⟩
    by_cases hacc : EdgeAccepted t fn st
    · obtain ⟨hv, hu, -⟩ := edge_range hacc
      apply readEdge_present
      rw [ht _ hv _ hu]
      exact hadj
    · exact readEdge_rejected t fn st hacc
  refine ⟨hpresent s hsym, ?_, ?_⟩
  · intro st fn
    by_cases hacc : EdgeAccepted s st fn
    · obtain ⟨hs1, hsym1⟩ := readEdge_shape_sym s st fn hshape hsym
      exact hpresent _ hsym1 st fn (readEdge_sets s st fn hshape hsym hacc).1
    · have hrej := readEdge_rejected s st fn hacc
      rw [hrej]
      refine ⟨hrej, ?_⟩
      apply readEdge_rejected
      intro hc
      exact hacc hc.swap
  · intro pre a b post hmem
    rw [ReadGraphFile_edges, ReadGraphFile_edges, ReadGraphFile]
    congr 1
    obtain ⟨hs1, hsym1⟩ := readEdges_shape_sym pre s hshape hsym
    by_cases hacc : EdgeAccepted s a b
    · exact readEdge_present _ a b (readEdges_seen a b pre s hshape hsym hacc hmem)
    · apply readEdge_rejected
      intro hc
      exact hacc (hc.of_n (readEdges_n pre s).symm)

theorem C17_duplicate_edge_witness :
    (GraphShape c4 ∧ GraphSym c4) ∧
    ((∀ st fn : Int, IsAdjacent c4 (st - 1).toNat (fn - 1).toNat = true →
      readEdge c4 st fn = c4 ∧ readEdge c4 fn st = c4) ∧
    (∀ st fn : Int,
      readEdge (readEdge c4 st fn) st fn = readEdge c4 st fn ∧
        readEdge (readEdge c4 st fn) fn st = readEdge c4 st fn) ∧
    (∀ (pre : List (Int × Int)) (a b : Int) (post : List Record),
      ((a, b) ∈ pre ∨ (b, a) ∈ pre) →
      ReadGraphFile c4 (pre.map (fun e => Record.edge e.1 e.2) ++ Record.edge a b :: post) =
        ReadGraphFile c4 (pre.map (fun e => Record.edge e.1 e.2) ++ post))) :=
  ⟨⟨c4_shape, by decide⟩, C17_duplicate_edge c4 c4_shape (by decide)⟩

/-! ## The pruning test -/

/-- C24. Prefix bound soundness: when the rows have `(n + 63) / 64` words and
the candidates are vertices of `[0, n)`, `ColorSort` returns, and for every
index `i` each pairwise adjacent subset of `order[0..i]` has at most
`bounds[i]` members; hence, when `|cur_clique| + bounds[i] <= best_size`, no
clique made of vertices of `cur_clique` and of `order[0..i]` is larger than
`best_size`. -/
theorem C24_prefix_bound_sound (s : State) (candidates : List Nat)
    (hw : s.words = (s.n + 63) / 64) (hC : ∀ u ∈ candidates, u < s.n) :
    ∃ order bounds,
      ColorSort s candidates = some (order, bounds) ∧
      ∀ i, i < order.length →
        (∀ S : Finset Nat, S ⊆ (order.take (i + 1)).toFinset → IsClique s S →
          S.card ≤ bounds.getD i 0) ∧
        ((s.cur_clique.length : Int) + (bounds.getD i 0 : Int) ≤ s.best_size →
          ∀ K : Finset Nat,
            K ⊆ s.cur_clique.toFinset ∪ (order.take (i + 1)).toFinset → IsClique s K →
            (K.card : Int) ≤ s.best_size) := by
  obtain ⟨order, bounds, color, heq, -, -, hsound⟩ := ColorSort_spec s candidates
  have hpre := (hsound (fun u hu => range_of_words hw u (hC u hu))).pre
  refine ⟨order, bounds, heq, fun i hi => ⟨hpre i hi, ?_⟩⟩
  intro htest K hK hc
  have h1 : (K \ s.cur_clique.toFinset).card ≤ bounds.getD i 0 := by
    apply hpre i hi _ _ (hc.mono Finset.sdiff_subset)
    intro x hx
    rw [Finset.mem_sdiff] at hx
    rcases Finset.mem_union.mp (hK hx.1) with h | h
    · exact absurd h hx.2
    · exact h
  have h2 : K.card ≤ (K \ s.cur_clique.toFinset).card + s.cur_clique.toFinset.card :=
    Finset.card_le_card_sdiff_add_card
  have h3 : s.cur_clique.toFinset.card ≤ s.cur_clique.length := List.toFinset_card_le _
  omega

theorem C24_prefix_bound_sound_witness :
    (c4.words = (c4.n + 63) / 64 ∧ ∀ u ∈ [0, 1, 2, 3], u < c4.n) ∧
    ∃ order bounds,
      ColorSort c4 [0, 1, 2, 3] = some (order, bounds) ∧
      ∀ i, i < order.length →
        (∀ S : Finset Nat, S ⊆ (order.take (i + 1)).toFinset → IsClique c4 S →
          S.card ≤ bounds.getD i 0) ∧
        ((c4.cur_clique.length : Int) + (bounds.getD i 0 : Int) ≤ c4.best_size →
          ∀ K : Finset Nat,
            K ⊆ c4.cur_clique.toFinset ∪ (order.take (i + 1)).toFinset → IsClique c4 K →
            (K.card : Int) ≤ c4.best_size) :=
  ⟨⟨by decide, by decide⟩, C24_prefix_bound_sound c4 [0, 1, 2, 3] (by decide) (by decide)⟩

/-- C26. Leaf step of `Expand`: called with an empty candidate list, `Expand`
returns after the single call (no recursive call is logged); when
`|cur_clique| > best_size` it leaves `best_size = |cur_clique|`,
`best_clique_vec = cur_clique` and `best_clique_set` the set of vertices of
`cur_clique`, otherwise the three are unchanged; the graph and `cur_clique`
are unchanged in both cases. -/
theorem C26_leaf_step (fuel : Nat) (s : State) :
    ∃ s1,
      Expand (fuel + 1) s [] = some s1 ∧
      ExpandLog (fuel + 1) s [] = some (s1, [(s, [])]) ∧
      ((s.cur_clique.length : Int) > s.best_size →
        s1.best_size = (s.cur_clique.length : Int) ∧ s1.best_clique_vec = s.cur_clique ∧
          s1.best_clique_set = s.cur_clique.toFinset) ∧
      (¬ (s.cur_clique.length : Int) > s.best_size →
        s1.best_size = s.best_size ∧ s1.best_clique_vec = s.best_clique_vec ∧
          s1.best_clique_set = s.best_clique_set) ∧
      s1.n = s.n ∧ s1.words = s.words ∧ s1.adj = s.adj ∧ s1.degree = s.degree ∧
      s1.cur_clique = s.cur_clique := by
  by_cases h : (s.cur_clique.length : Int) > s.best_size
  · exact ⟨replaceBest s s.cur_clique, by simp [Expand, h], by simp [ExpandLog, h],
      fun _ => ⟨rfl, rfl, replaceBest_set s _⟩, fun hn => absurd h hn, rfl, rfl, rfl, rfl, rfl⟩
  · exact ⟨s, by simp [Expand, h], by simp [ExpandLog, h], fun hp => absurd hp h,
      fun _ => ⟨rfl, rfl, rfl⟩, rfl, rfl, rfl, rfl, rfl⟩

/-- C27. Pruning stops the whole scan. The loop of `Expand` visits the index
`k` before the indices below it; when it reaches an index `k` with
`|cur_clique| + bounds[k] <= best_size` (in the state reached so far) it
returns that state without any call of `Expand`, whatever lies below `k`; and
when the test holds at the last index, `Expand` on a non-empty candidate list
returns with the whole state unchanged, having made no recursive call. -/
theorem C27_pruning_stops_scan (s : State) (candidates order bounds : List Nat) (fuel : Nat)
    (hne : candidates ≠ []) (hcs : ColorSort s candidates = some (order, bounds)) :
    (∀ (k : Nat) (st : State) (expand : State → List Nat → Option State)
        (elog : State → List Nat → Option (State × List (State × List Nat))),
      (st.cur_clique.length : Int) + (bounds.getD k 0 : Int) ≤ st.best_size →
      expandLoop expand order bounds (k + 1) st = some st ∧
        expandLoopLog elog order bounds (k + 1) st = some (st, [])) ∧
    (∀ (k : Nat) (st : State) (expand : State → List Nat → Option State),
      ¬ (st.cur_clique.length : Int) + (bounds.getD k 0 : Int) ≤ st.best_size →
      expandLoop expand order bounds (k + 1) st =
        (expand { st with cur_clique := st.cur_clique ++ [order.getD k 0] }
          ((order.take k).filter (fun u => IsAdjacent st (order.getD k 0) u))).bind
          (fun s1 => expandLoop expand order bounds k
            { s1 with cur_clique := s1.cur_clique.dropLast })) ∧
    ((s.cur_clique.length : Int) + (bounds.getD (order.length - 1) 0 : Int) ≤ s.best_size →
      Expand (fuel + 1) s candidates = some s ∧
        ExpandLog (fuel + 1) s candidates = some (s, [(s, candidates)])) := by
  refine ⟨?_, ?_, ?_⟩
  · intro k st expand elog htest
    exact ⟨by rw [expandLoop, if_pos htest], by rw [expandLoopLog, if_pos htest]⟩
  · intro k st expand htest
    simp only [expandLoop, htest, if_false]
    split
    · rename_i h0; rw [h0]; rfl
    · rename_i s1 h0; rw [h0]; rfl
  · intro htest
    obtain ⟨order1, bounds1, color, heq, hperm, -, -⟩ := ColorSort_spec s candidates
    rw [hcs, Option.some.injEq, Prod.mk.injEq] at heq
    have hlen : order.length = candidates.length := by
      rw [heq.1]; exact hperm.length_eq
    have hpos : 0 < candidates.length := List.length_pos.mpr hne
    obtain ⟨k, hk⟩ : ∃ k, order.length = k + 1 := ⟨order.length - 1, by omega⟩
    have hk1 : order.length - 1 = k := by omega
    rw [hk1] at htest
    have hemp : candidates.isEmpty = false := by
      cases candidates with
      | nil => exact absurd rfl hne
      | cons c cs => rfl
    constructor
    · rw [Expand]
      simp only [hemp, Bool.false_eq_true, if_false, hcs]
      rw [hk, expandLoop, if_pos htest]
    · rw [ExpandLog]
      simp only [hemp, Bool.false_eq_true, if_false, hcs]
      rw [hk, expandLoopLog, if_pos htest]

theorem C27_pruning_stops_scan_witness :
    (([0, 1, 2, 3] : List Nat) ≠ [] ∧
      ColorSort staleC4 [0, 1, 2, 3] = some ([0, 2, 1, 3], [1, 1, 2, 2])) ∧
    ((∀ (k : Nat) (st : State) (expand : State → List Nat → Option State)
        (elog : State → List Nat → Option (State × List (State × List Nat))),
      (st.cur_clique.length : Int) + (([1, 1, 2, 2] : List Nat).getD k 0 : Int)
          ≤ st.best_size →
      expandLoop expand [0, 2, 1, 3] [1, 1, 2, 2] (k + 1) st = some st ∧
        expandLoopLog elog [0, 2, 1, 3] [1, 1, 2, 2] (k + 1) st = some (st, [])) ∧
    (∀ (k : Nat) (st : State) (expand : State → List Nat → Option State),
      ¬ (st.cur_clique.length : Int) + (([1, 1, 2, 2] : List Nat).getD k 0 : Int)
          ≤ st.best_size →
      expandLoop expand [0, 2, 1, 3] [1, 1, 2, 2] (k + 1) st =
        (expand { st with cur_clique := st.cur_clique ++ [([0, 2, 1, 3] : List Nat).getD k 0] }
          ((([0, 2, 1, 3] : List Nat).take k).filter
            (fun u => IsAdjacent st (([0, 2, 1, 3] : List Nat).getD k 0) u))).bind
          (fun s1 => expandLoop expand [0, 2, 1, 3] [1, 1, 2, 2] k
            { s1 with cur_clique := s1.cur_clique.dropLast })) ∧
    ((staleC4.cur_clique.length : Int) +
        (([1, 1, 2, 2] : List Nat).getD (([0, 2, 1, 3] : List Nat).length - 1) 0 : Int)
          ≤ staleC4.best_size →
      Expand (4 + 1) staleC4 [0, 1, 2, 3] = some staleC4 ∧
        ExpandLog (4 + 1) staleC4 [0, 1, 2, 3] = some (staleC4, [(staleC4, [0, 1, 2, 3])]))) :=
  ⟨⟨by decide, by decide⟩,
    C27_pruning_stops_scan staleC4 [0, 1, 2, 3] [0, 2, 1, 3] [1, 1, 2, 2] 4 (by decide)
      (by decide)⟩

/-- C28. Backtracking restores the partial clique: for every state and every
candidate list `Expand` returns with `cur_clique` equal to its value before the
call, and after `RunBnB` `cur_clique` is empty. -/
theorem C28_backtracking_restores :
    (∀ (s : State) (candidates : List Nat) (extra : Nat),
      ∃ s1,
        Expand (candidates.length + 1 + extra) s candidates = some s1 ∧
        s1.cur_clique = s.cur_clique) ∧
    (∀ (s : State) (picks : List Nat),
      ∃ s1 picks1, RunBnB s picks = some (s1, picks1) ∧ s1.cur_clique = []) := by
  refine ⟨?_, ?_⟩
  · intro s candidates extra
    obtain ⟨s1, heq, post⟩ :=
      Expand_spec (candidates.length + 1 + extra) s candidates (by omega)
    exact ⟨s1, heq, post.step.cur⟩
  · intro s picks
    obtain ⟨s1, picks1, heq1, -, -⟩ := InitBestCliqueGreedy_spec s 8 10 picks
    obtain ⟨s2, heq2, post2⟩ :=
      Expand_spec ((sortByDegree s1 (List.range s1.n)).length + 1)
        { s1 with cur_clique := [] } (sortByDegree s1 (List.range s1.n)) (Nat.lt_succ_self _)
    refine ⟨s2, picks1, ?_, post2.step.cur⟩
    rw [RunBnB, heq1]
    simp only [heq2]

/-! ## Growth of the bounds -/

theorem getD_append_replicate (l : List Nat) (m c j : Nat) :
    (l ++ List.replicate m c).getD j 0 =
      if j < l.length then l.getD j 0 else if j < l.length + m then c else 0 := by
  by_cases h : j < l.length
  · rw [if_pos h, List.getD_append _ _ _ _ h]
  · rw [if_neg h, List.getD_append_right _ _ _ _ (Nat.le_of_not_lt h),
      List.getD_eq_getElem?_getD, List.getElem?_replicate]
    by_cases h2 : j < l.length + m
    · rw [if_pos (by omega), if_pos h2]; rfl
    · rw [if_neg (by omega), if_neg h2]; rfl

theorem ColorSteps.stepsStep {color : Nat} {bounds : List Nat} (h : ColorSteps color bounds)
    (m : Nat) (hm : 0 < m) :
    ColorSteps (color + 1) (bounds ++ List.replicate m (color + 1)) := by
  obtain ⟨hlast, hfirst, hstep⟩ := h
  rw [getLastD_eq_getD] at hlast
  refine ⟨?_, ?_, ?_⟩
  · rw [getLastD_eq_getD, getD_append_replicate, List.length_append, List.length_replicate,
      if_neg (by omega), if_pos (by omega)]
  · intro _
    rw [getD_append_replicate]
    by_cases hb : bounds = []
    · rw [hb] at hlast ⊢
      simp only [List.length_nil, Nat.lt_irrefl, if_false, Nat.zero_add, if_pos hm]
      simp at hlast
      omega
    · have hpos : 0 < bounds.length := List.length_pos.mpr hb
      rw [if_pos hpos]
      exact hfirst hb
  · intro i hi
    rw [List.length_append, List.length_replicate] at hi
    rw [getD_append_replicate, getD_append_replicate]
    by_cases h1 : i + 1 < bounds.length
    · rw [if_pos h1, if_pos (by omega)]
      exact hstep i h1
    · rw [if_neg h1, if_pos hi]
      by_cases h2 : i < bounds.length
      · rw [if_pos h2]
        have : i = bounds.length - 1 := by omega
        rw [this, hlast]
        exact Or.inr rfl
      · rw [if_neg h2, if_pos (by omega)]
        exact Or.inl rfl

theorem colorLoop_steps (s : State) :
    ∀ (fuel : Nat) (U : List Nat) (color : Nat) (order bounds order1 bounds1 : List Nat),
      colorLoop s fuel U color order bounds = some (order1, bounds1) →
      ColorSteps color bounds → ∃ color1, ColorSteps color1 bounds1 := by
  intro fuel
  induction fuel with
  | zero =>
    intro U color order bounds order1 bounds1 heq hsteps
    cases U with
    | nil =>
      simp only [colorLoop, Option.some.injEq, Prod.mk.injEq] at heq
      rw [← heq.2]; exact ⟨color, hsteps⟩
    | cons v U => simp [colorLoop] at heq
  | succ fuel ih =>
    intro U color order bounds order1 bounds1 heq hsteps
    cases U with
    | nil =>
      simp only [colorLoop, Option.some.injEq, Prod.mk.injEq] at heq
      rw [← heq.2]; exact ⟨color, hsteps⟩
    | cons v U =>
      obtain ⟨placed, skipped, f, hpass, -, hne, -⟩ :=
        colorPass_spec s (color + 1) (v :: U) [] (List.replicate s.words 0) order bounds []
      have hplaced : placed ≠ [] := hne v U rfl (testBit_replicate_zero _ _)
      simp only [colorLoop, hpass, List.nil_append] at heq
      exact ih skipped (color + 1) _ _ order1 bounds1 heq
        (hsteps.stepsStep placed.length (List.length_pos.mpr hplaced))

theorem ColorSteps.stepsZero : ColorSteps 0 [] :=
  ⟨rfl, fun h => absurd rfl h, fun _ hi => absurd hi (Nat.not_lt_zero _)⟩

theorem ColorSteps.le_succ_index {color : Nat} {bounds : List Nat}
    (h : ColorSteps color bounds) : ∀ i, i < bounds.length → bounds.getD i 0 ≤ i + 1 := by
  intro i
  induction i with
  | zero =>
    intro hi
    have := h.2.1 (List.length_pos.mp hi)
    omega
  | succ i ih =>
    intro hi
    have h1 := ih (by omega)
    rcases h.2.2 i hi with h2 | h2 <;> omega

/-- C29. The colouring bound is never worse than the cardinality bound: for
every state and every candidate list `ColorSort` returns; when the list is not
empty `bounds[0] = 1`; each `bounds[i+1]` is `bounds[i]` or `bounds[i] + 1`;
so `bounds[i] <= i + 1`, and the number of colours used (the last bound, or 0)
is at most the number of candidates. -/
theorem C29_bounds_at_most_cardinality (s : State) (candidates : List Nat) :
    ∃ order bounds,
      ColorSort s candidates = some (order, bounds) ∧
      bounds.length = candidates.length ∧
      (candidates ≠ [] → bounds.getD 0 0 = 1) ∧
      (∀ i, i + 1 < bounds.length →
        bounds.getD (i + 1) 0 = bounds.getD i 0 ∨
          bounds.getD (i + 1) 0 = bounds.getD i 0 + 1) ∧
      (∀ i, i < bounds.length → bounds.getD i 0 ≤ i + 1) ∧
      bounds.getLastD 0 ≤ candidates.length := by
  obtain ⟨order, bounds, color, heq, hperm, hshape, -⟩ := ColorSort_spec s candidates
  obtain ⟨color1, hsteps⟩ :=
    colorLoop_steps s candidates.length candidates 0 [] [] order bounds heq
      ColorSteps.stepsZero
  have hlen : bounds.length = candidates.length := by
    rw [hshape.len, hperm.length_eq]
  refine ⟨order, bounds, heq, hlen, ?_, hsteps.2.2, hsteps.le_succ_index, ?_⟩
  · intro hne
    apply hsteps.2.1
    intro hb
    rw [hb] at hlen
    exact hne (List.length_eq_zero.mp hlen.symm)
  · rw [getLastD_eq_getD]
    by_cases hb : bounds = []
    · rw [hb]; simp
    · have hpos : 0 < bounds.length := List.length_pos.mpr hb
      have := hsteps.le_succ_index (bounds.length - 1) (by omega)
      omega

/-! ## The search-node invariant -/

theorem expandLoopLog_node (s0 : State)
    (elog : State → List Nat → Option (State × List (State × List Nat))) (L : Nat)
    (hrec : ∀ s c, c.length < L →
      ∃ s1 log, elog s c = some (s1, log) ∧ SearchStep s s1 ∧
        (SameGraph s0 s → GraphSym s → NodeOK s s.cur_clique c →
          ∀ node ∈ log, SameGraph s0 node.1 ∧ NodeOK node.1 node.1.cur_clique node.2))
    (order bounds : List Nat) (hL : order.length ≤ L) :
    ∀ k, k ≤ order.length → ∀ s : State,
      ∃ s1 log, expandLoopLog elog order bounds k s = some (s1, log) ∧ SearchStep s s1 ∧
        (SameGraph s0 s → GraphSym s → NodeOK s s.cur_clique order →
          ∀ node ∈ log, SameGraph s0 node.1 ∧ NodeOK node.1 node.1.cur_clique node.2) := by
  intro k
  induction k with
  | zero =>
    intro _ s
    exact ⟨s, [], rfl, SearchStep.stepRefl s, fun _ _ _ _ h => absurd h (List.not_mem_nil _)⟩
  | succ k ih =>
    intro hk s
    have hk1 : k < order.length := hk
    by_cases hprune : (s.cur_clique.length : Int) + (bounds.getD k 0 : Int) ≤ s.best_size
    · exact ⟨s, [], by rw [expandLoopLog, if_pos hprune], SearchStep.stepRefl s,
        fun _ _ _ _ h => absurd h (List.not_mem_nil _)⟩
    · have hnew : ((order.take k).filter (fun u => IsAdjacent s (order.getD k 0) u)).length
          ≤ k := (List.length_filter_le _ _).trans (List.length_take_le _ _)
      obtain ⟨s2, log1, hlog2, step2, hnode2⟩ :=
        hrec { s with cur_clique := s.cur_clique ++ [order.getD k 0] }
          ((order.take k).filter (fun u => IsAdjacent s (order.getD k 0) u))
          (by omega)
      obtain ⟨s1, log2, hlog1, step1, hnode1⟩ :=
        ih (Nat.le_of_succ_le hk) { s2 with cur_clique := s2.cur_clique.dropLast }
      have hgc : SameGraph s { s with cur_clique := s.cur_clique ++ [order.getD k 0] } :=
        ⟨rfl, rfl, rfl, rfl⟩
      have hg2 : SameGraph s s2 := hgc.graphTrans step2.graph
      have hg3 : SameGraph s2 { s2 with cur_clique := s2.cur_clique.dropLast } :=
        ⟨rfl, rfl, rfl, rfl⟩
      have hcur3 : s2.cur_clique.dropLast = s.cur_clique := by
        rw [step2.cur]; simp
      have hstep3 : SearchStep s { s2 with cur_clique := s2.cur_clique.dropLast } := by
        refine ⟨hg2.graphTrans hg3, hcur3, step2.mono, ?_⟩
        rcases step2.strict with a | a
        · exact Or.inl ⟨a.1, a.2.1, a.2.2⟩
        · exact Or.inr a
      refine ⟨s1, log1 ++ log2, ?_, hstep3.stepTrans step1, ?_⟩
      · simp only [expandLoopLog, hprune, if_false, hlog2, hlog1]
      · intro h0 hsym hnode node hmem
        rcases List.mem_append.mp hmem with h | h
        · exact hnode2 (h0.graphTrans hgc) (hsym.symCongr hgc)
            ((hnode.child hsym k hk1).nodeCongr hgc) node h
        · refine hnode1 (h0.graphTrans (hg2.graphTrans hg3))
            (hsym.symCongr (hg2.graphTrans hg3)) ?_ node h
          have : NodeOK { s2 with cur_clique := s2.cur_clique.dropLast }
              s2.cur_clique.dropLast order := by
            rw [hcur3]; exact hnode.nodeCongr (hg2.graphTrans hg3)
          exact this

/-- Every call recorded by `ExpandLog` started at a search node of a symmetric
graph is a search node of the same graph. -/
theorem ExpandLog_node (s0 : State) :
    ∀ (fuel : Nat) (s : State) (candidates : List Nat), candidates.length < fuel →
      ∃ s1 log, ExpandLog fuel s candidates = some (s1, log) ∧ SearchStep s s1 ∧
        (SameGraph s0 s → GraphSym s → NodeOK s s.cur_clique candidates →
          ∀ node ∈ log, SameGraph s0 node.1 ∧ NodeOK node.1 node.1.cur_clique node.2) := by
  intro fuel
  induction fuel with
  | zero => intro s c h; exact absurd h (Nat.not_lt_zero _)
  | succ fuel ih =>
    intro s candidates hlen
    cases candidates with
    | nil =>
      by_cases h : (s.cur_clique.length : Int) > s.best_size
      · refine ⟨replaceBest s s.cur_clique, [(s, [])], by simp [ExpandLog, h],
          replaceBest_step s _ h, ?_⟩
        intro h0 _ hn node hnode
        rw [List.mem_singleton] at hnode
        rw [hnode]; exact ⟨h0, hn⟩
      · refine ⟨s, [(s, [])], by simp [ExpandLog, h], SearchStep.stepRefl s, ?_⟩
        intro h0 _ hn node hnode
        rw [List.mem_singleton] at hnode
        rw [hnode]; exact ⟨h0, hn⟩
    | cons c cs =>
      obtain ⟨order, bounds, color, heq, hperm, -, -⟩ := ColorSort_spec s (c :: cs)
      have holen : order.length = cs.length + 1 := by
        rw [hperm.length_eq]; rfl
      obtain ⟨s1, log, hlog1, step1, hnode1⟩ :=
        expandLoopLog_node s0 (ExpandLog fuel) fuel ih order bounds
          (by rw [holen]; exact Nat.le_of_lt_succ hlen) order.length (Nat.le_refl _) s
      refine ⟨s1, (s, c :: cs) :: log, ?_, step1, ?_⟩
      · simp only [ExpandLog, List.isEmpty_cons, Bool.false_eq_true, if_false, heq, hlog1]
      · intro h0 hsym hn node hnode
        rcases List.mem_cons.mp hnode with h | h
        · rw [h]; exact ⟨h0, hn⟩
        · exact hnode1 h0 hsym (hn.perm hperm) node h

/-- C25. Search-node invariant. On a graph with symmetric adjacency (a
loop-free one in particular) `RunBnB` returns, and its search is the run of
`Expand` whose calls `ExpandLog` lists; at every call in that list the graph is
the one `RunBnB` was given, `cur_clique` has no repeated vertex, holds vertices
of `[0, n)` and is pairwise adjacent, and `candidates` has no repeated vertex,
each candidate being in `[0, n)`, outside `cur_clique` and in the row of every
vertex of `cur_clique`; so each list given to `ColorSort` is free of
duplicates and of out-of-range entries. -/
theorem C25_search_node_invariant (s : State) (picks : List Nat) (hsym : GraphSym s) :
    ∃ s1 picks1 s2 log,
      InitBestCliqueGreedy s 8 10 picks = some (s1, picks1) ∧
      ExpandLog ((sortByDegree s1 (List.range s1.n)).length + 1)
        { s1 with cur_clique := [] } (sortByDegree s1 (List.range s1.n)) = some (s2, log) ∧
      RunBnB s picks = some (s2, picks1) ∧
      ∀ node ∈ log,
        SameGraph s node.1 ∧
        node.1.cur_clique.Nodup ∧
        (∀ v ∈ node.1.cur_clique, v < s.n) ∧
        (∀ a ∈ node.1.cur_clique, ∀ b ∈ node.1.cur_clique, a ≠ b →
          IsAdjacent s a b = true) ∧
        node.2.Nodup ∧
        (∀ c ∈ node.2, c < s.n ∧ c ∉ node.1.cur_clique ∧
          ∀ u ∈ node.1.cur_clique, IsAdjacent s u c = true) ∧
        ∀ order bounds, ColorSort node.1 node.2 = some (order, bounds) →
          order.Nodup ∧ ∀ c ∈ order, c < s.n := by
  obtain ⟨s1, picks1, hinit, step1, -⟩ := InitBestCliqueGreedy_spec s 8 10 picks
  have hg1 : SameGraph s { s1 with cur_clique := [] } :=
    step1.graph.graphTrans ⟨rfl, rfl, rfl, rfl⟩
  obtain ⟨s2, log, hlog, -, hnodes⟩ :=
    ExpandLog_node s ((sortByDegree s1 (List.range s1.n)).length + 1)
      { s1 with cur_clique := [] } (sortByDegree s1 (List.range s1.n)) (Nat.lt_succ_self _)
  obtain ⟨s2', log', hlog', hexp, -, -⟩ :=
    ExpandLog_spec ((sortByDegree s1 (List.range s1.n)).length + 1)
      { s1 with cur_clique := [] } (sortByDegree s1 (List.range s1.n)) (Nat.lt_succ_self _)
  have hsame : s2' = s2 := by
    rw [hlog] at hlog'
    simp only [Option.some.injEq, Prod.mk.injEq] at hlog'
    exact hlog'.1.symm
  rw [hsame] at hexp
  refine ⟨s1, picks1, s2, log, hinit, hlog, ?_, ?_⟩
  · simp only [RunBnB, hinit, hexp]
  · intro node hmem
    have hroot : NodeOK { s1 with cur_clique := [] }
        ({ s1 with cur_clique := [] } : State).cur_clique
        (sortByDegree s1 (List.range s1.n)) :=
      (NodeOK.root s1).nodeCongr ⟨rfl, rfl, rfl, rfl⟩
    obtain ⟨hg, h1, h2, h3, h4, h5⟩ := hnodes hg1 (hsym.symCongr hg1) hroot node hmem
    have hn : node.1.n = s.n := hg.1
    refine ⟨hg, h1, fun v hv => hn ▸ h2 v hv, ?_, h4, ?_, ?_⟩
    · intro a ha b hb hab
      rw [← isAdjacent_congr hg]
      exact h3 a (List.mem_toFinset.mpr ha) b (List.mem_toFinset.mpr hb) hab
    · intro c hc
      obtain ⟨x, y, z⟩ := h5 c hc
      refine ⟨hn ▸ x, y, fun u hu => ?_⟩
      rw [← isAdjacent_congr hg]
      exact z u hu
    · intro order bounds hcs
      obtain ⟨order1, bounds1, color, heq, hperm, -, -⟩ := ColorSort_spec node.1 node.2
      rw [hcs] at heq
      simp only [Option.some.injEq, Prod.mk.injEq] at heq
      rw [heq.1]
      exact ⟨hperm.nodup_iff.mpr h4, fun c hc => hn ▸ (h5 c (hperm.subset hc)).1⟩

theorem C25_search_node_invariant_witness :
    GraphSym c4 ∧
    ∃ s1 picks1 s2 log,
      InitBestCliqueGreedy c4 8 10 [] = some (s1, picks1) ∧
      ExpandLog ((sortByDegree s1 (List.range s1.n)).length + 1)
        { s1 with cur_clique := [] } (sortByDegree s1 (List.range s1.n)) = some (s2, log) ∧
      RunBnB c4 [] = some (s2, picks1) ∧
      ∀ node ∈ log,
        SameGraph c4 node.1 ∧
        node.1.cur_clique.Nodup ∧
        (∀ v ∈ node.1.cur_clique, v < c4.n) ∧
        (∀ a ∈ node.1.cur_clique, ∀ b ∈ node.1.cur_clique, a ≠ b →
          IsAdjacent c4 a b = true) ∧
        node.2.Nodup ∧
        (∀ c ∈ node.2, c < c4.n ∧ c ∉ node.1.cur_clique ∧
          ∀ u ∈ node.1.cur_clique, IsAdjacent c4 u c = true) ∧
        ∀ order bounds, ColorSort node.1 node.2 = some (order, bounds) →
          order.Nodup ∧ ∀ c ∈ order, c < c4.n :=
  ⟨by decide, C25_search_node_invariant c4 [] (by decide)⟩

/-! ## The restarts of the greedy warm start -/

theorem orderedInsert_sorted {α : Type} (key : α → Int) (a : α) :
    ∀ l : List α, l.Pairwise (fun x y => key x ≥ key y) →
      (l.orderedInsert (fun x y => key x > key y) a).Pairwise (fun x y => key x ≥ key y) := by
  intro l
  induction l with
  | nil => intro _; simp
  | cons b l ih =>
    intro h
    rw [List.pairwise_cons] at h
    rw [List.orderedInsert]
    by_cases hab : key a > key b
    · rw [if_pos hab, List.pairwise_cons, List.pairwise_cons]
      refine ⟨?_, h.1, h.2⟩
      intro x hx
      rcases List.mem_cons.mp hx with hx | hx
      · rw [hx]; exact le_of_lt hab
      · exact le_trans (h.1 x hx) (le_of_lt hab)
    · rw [if_neg hab, List.pairwise_cons]
      refine ⟨?_, ih h.2⟩
      intro x hx
      rcases List.mem_cons.mp ((List.perm_orderedInsert _ a l).subset hx) with hx | hx
      · rw [hx]; exact not_lt.mp hab
      · exact h.1 x hx

theorem insertionSort_sorted {α : Type} (key : α → Int) (l : List α) :
    (l.insertionSort (fun x y => key x > key y)).Pairwise (fun x y => key x ≥ key y) := by
  induction l with
  | nil => simp
  | cons a l ih =>
    rw [List.insertionSort]
    exact orderedInsert_sorted key a _ ih

theorem sortByDegree_sorted (s : State) (l : List Nat) :
    (sortByDegree s l).Pairwise (fun a b => s.degree.getD a 0 ≥ s.degree.getD b 0) :=
  insertionSort_sorted (fun v => s.degree.getD v 0) l

theorem filter_eraseIdx_of_false (p : Nat → Bool) :
    ∀ (l : List Nat) (k : Nat), k < l.length → p (l.getD k 0) = false →
      (l.eraseIdx k).filter p = l.filter p := by
  intro l
  induction l with
  | nil => intro k hk; exact absurd hk (Nat.not_lt_zero _)
  | cons a l ih =>
    intro k hk hp
    cases k with
    | zero =>
      simp only [List.getD_cons_zero] at hp
      simp [List.filter_cons, hp]
    | succ k =>
      simp only [List.getD_cons_succ] at hp
      simp only [List.eraseIdx_cons_succ, List.filter_cons]
      rw [ih k (by simpa using hk) hp]

theorem greedyLoopLog_congr {s s1 : State} (h : SameGraph s s1) (rcl : Int) :
    ∀ (fuel : Nat) (cand clique picks : List Nat),
      greedyLoopLog s1 rcl fuel cand clique picks = greedyLoopLog s rcl fuel cand clique picks := by
  intro fuel
  induction fuel with
  | zero =>
    intro cand clique picks
    cases cand <;> rfl
  | succ fuel ih =>
    intro cand clique picks
    cases cand with
    | nil => rfl
    | cons c cand =>
      rw [greedyLoopLog, greedyLoopLog, isAdjacent_funext h, ih]

theorem filter_all_snoc (s : State) (base clique : List Nat) (v : Nat) :
    (base.filter (fun u => clique.all (fun p => IsAdjacent s p u))).filter
        (fun u => IsAdjacent s v u) =
      base.filter (fun u => (clique ++ [v]).all (fun p => IsAdjacent s p u)) := by
  rw [List.filter_filter]
  congr 1
  funext u
  simp only [List.all_append, List.all_cons, List.all_nil, Bool.and_true]
  exact Bool.and_comm _ _

/-- The record of one restart: the log version computes what `greedyLoop`
computes, and every recorded pair is a search node whose candidates are the
base list filtered to the common neighbours of the local clique. -/
theorem greedyLoopLog_spec (s : State) (rcl : Int) (base : List Nat) :
    ∀ (fuel : Nat) (cand clique picks : List Nat), cand.length ≤ fuel →
      ∃ r log,
        greedyLoopLog s rcl fuel cand clique picks = some (r, log) ∧
        greedyLoop s rcl fuel cand clique picks = some r ∧
        (cand ≠ [] → log ≠ []) ∧
        (GraphSym s → LoopFree s → NodeOK s clique cand →
          cand = base.filter (fun u => clique.all (fun p => IsAdjacent s p u)) →
          ∀ entry ∈ log, NodeOK s entry.2 entry.1 ∧
            entry.1 = base.filter (fun u => entry.2.all (fun p => IsAdjacent s p u))) := by
  intro fuel
  induction fuel with
  | zero =>
    intro cand clique picks h
    have : cand = [] := List.length_eq_zero.mp (Nat.le_zero.mp h)
    subst this
    exact ⟨(clique, picks), [], by simp [greedyLoopLog], by simp [greedyLoop],
      fun h => absurd rfl h, fun _ _ _ _ _ h => absurd h (List.not_mem_nil _)⟩
  | succ fuel ih =>
    intro cand clique picks h
    cases cand with
    | nil =>
      exact ⟨(clique, picks), [], by simp [greedyLoopLog], by simp [greedyLoop],
        fun h => absurd rfl h, fun _ _ _ _ _ h => absurd h (List.not_mem_nil _)⟩
    | cons c cand =>
      have hidx : picks.headD 0 %
          ((min (rcl - 1) (((c :: cand).length : Int) - 1)).toNat + 1) < (c :: cand).length := by
        have h1 : (min (rcl - 1) (((c :: cand).length : Int) - 1)).toNat + 1
            ≤ (c :: cand).length := by
          simp only [List.length_cons]
          omega
        exact lt_of_lt_of_le (Nat.mod_lt _ (Nat.succ_pos _)) h1
      obtain ⟨r, log, hlog, heq, -, hprop⟩ :=
        ih (((c :: cand).eraseIdx (picks.headD 0 %
              ((min (rcl - 1) (((c :: cand).length : Int) - 1)).toNat + 1))).filter
            (fun u => IsAdjacent s ((c :: cand).getD (picks.headD 0 %
              ((min (rcl - 1) (((c :: cand).length : Int) - 1)).toNat + 1)) 0) u))
          (clique ++ [(c :: cand).getD (picks.headD 0 %
              ((min (rcl - 1) (((c :: cand).length : Int) - 1)).toNat + 1)) 0])
          picks.tail
          (by
            refine (List.length_filter_le _ _).trans ?_
            rw [List.length_eraseIdx, if_pos hidx]
            simp only [List.length_cons] at h ⊢
            omega)
      refine ⟨r, (((c :: cand).eraseIdx (picks.headD 0 %
              ((min (rcl - 1) (((c :: cand).length : Int) - 1)).toNat + 1))).filter
            (fun u => IsAdjacent s ((c :: cand).getD (picks.headD 0 %
              ((min (rcl - 1) (((c :: cand).length : Int) - 1)).toNat + 1)) 0) u),
          clique ++ [(c :: cand).getD (picks.headD 0 %
              ((min (rcl - 1) (((c :: cand).length : Int) - 1)).toNat + 1)) 0]) :: log,
        ?_, ?_, fun _ => List.cons_ne_nil _ _, ?_⟩
      · rw [greedyLoopLog]
        simp only [hlog]
      · rw [greedyLoop]
        exact heq
      · intro hsym hloop hn hcand entry hmem
        have hnext := hn.pick hsym _ hidx
        have hvmem : (c :: cand).getD (picks.headD 0 %
            ((min (rcl - 1) (((c :: cand).length : Int) - 1)).toNat + 1)) 0 ∈ c :: cand := by
          rw [List.getD_eq_getElem _ _ hidx]; exact List.getElem_mem _
        have hvn := (hn.2.2.2.2 _ hvmem).1
        have hfilter := filter_eraseIdx_of_false
          (fun u => IsAdjacent s ((c :: cand).getD (picks.headD 0 %
            ((min (rcl - 1) (((c :: cand).length : Int) - 1)).toNat + 1)) 0) u)
          (c :: cand) _ hidx (hloop _ hvn)
        have hbase : ((c :: cand).eraseIdx (picks.headD 0 %
              ((min (rcl - 1) (((c :: cand).length : Int) - 1)).toNat + 1))).filter
            (fun u => IsAdjacent s ((c :: cand).getD (picks.headD 0 %
              ((min (rcl - 1) (((c :: cand).length : Int) - 1)).toNat + 1)) 0) u) =
            base.filter (fun u => (clique ++ [(c :: cand).getD (picks.headD 0 %
              ((min (rcl - 1) (((c :: cand).length : Int) - 1)).toNat + 1)) 0]).all
                (fun p => IsAdjacent s p u)) := by
          rw [hfilter, hcand, filter_all_snoc]
        rcases List.mem_cons.mp hmem with he | he
        · rw [he]; exact ⟨hnext, hbase⟩
        · exact hprop hsym hloop hnext hbase entry he

theorem greedyStartsLog_spec (s0 : State) (rcl : Int) (base : List Nat) :
    ∀ (k : Nat) (s : State) (picks : List Nat), SameGraph s0 s →
      ∃ r logs,
        greedyStartsLog rcl base k s picks = some (r, logs) ∧
        greedyStarts rcl base k s picks = some r ∧
        logs.length = k ∧
        (base ≠ [] → ∀ log ∈ logs, log ≠ []) ∧
        (GraphSym s0 → LoopFree s0 → NodeOK s0 [] base →
          ∀ log ∈ logs, ∀ entry ∈ log, NodeOK s0 entry.2 entry.1 ∧
            entry.1 = base.filter (fun u => entry.2.all (fun p => IsAdjacent s0 p u))) := by
  intro k
  induction k with
  | zero =>
    intro s picks _
    exact ⟨(s, picks), [], rfl, rfl, rfl, fun _ _ h => absurd h (List.not_mem_nil _),
      fun _ _ _ _ h => absurd h (List.not_mem_nil _)⟩
  | succ k ih =>
    intro s picks hg
    obtain ⟨r0, log0, hlog0, heq0, hne0, hprop0⟩ :=
      greedyLoopLog_spec s0 rcl base base.length base [] picks (Nat.le_refl _)
    obtain ⟨clique, picks1⟩ := r0
    have hlog0s : greedyLoopLog s rcl base.length base [] picks = some ((clique, picks1), log0) := by
      rw [greedyLoopLog_congr hg]; exact hlog0
    have heq0s : greedyLoop s rcl base.length base [] picks = some (clique, picks1) := by
      rw [greedyLoop_congr hg]; exact heq0
    have hrest : ∃ r logs,
        (if (clique.length : Int) > s.best_size then
          greedyStartsLog rcl base k (replaceBest s clique) picks1
        else greedyStartsLog rcl base k s picks1) = some (r, logs) ∧
        (if (clique.length : Int) > s.best_size then
          greedyStarts rcl base k (replaceBest s clique) picks1
        else greedyStarts rcl base k s picks1) = some r ∧
        logs.length = k ∧
        (base ≠ [] → ∀ log ∈ logs, log ≠ []) ∧
        (GraphSym s0 → LoopFree s0 → NodeOK s0 [] base →
          ∀ log ∈ logs, ∀ entry ∈ log, NodeOK s0 entry.2 entry.1 ∧
            entry.1 = base.filter (fun u => entry.2.all (fun p => IsAdjacent s0 p u))) := by
      by_cases hbig : (clique.length : Int) > s.best_size
      · rw [if_pos hbig, if_pos hbig]
        exact ih (replaceBest s clique) picks1 (hg.graphTrans (replaceBest_graph s clique))
      · rw [if_neg hbig, if_neg hbig]
        exact ih s picks1 hg
    obtain ⟨r, logs, hlogs, hstarts, hlen, hne, hprop⟩ := hrest
    refine ⟨r, log0 :: logs, ?_, ?_, by rw [List.length_cons, hlen], ?_, ?_⟩
    · rw [greedyStartsLog, hlog0s]
      simp only [hlogs]
    · rw [greedyStarts, heq0s]
      exact hstarts
    · intro hb log hmem
      rcases List.mem_cons.mp hmem with h | h
      · rw [h]; exact hne0 hb
      · exact hne hb log h
    · intro hsym hloop hn log hmem
      rcases List.mem_cons.mp hmem with h | h
      · rw [h]
        exact hprop0 hsym hloop hn (by simp)
      · exact hprop hsym hloop hn log h

/-- C30. Greedy restart invariant. On a symmetric loop-free graph (every graph
`ReadGraphFile` builds is one) `InitBestCliqueGreedy` returns, and its restarts
are those `InitBestCliqueGreedyLog` records; the base list is in non-increasing
degree order; and after each pick of each restart `cand` is the base list
filtered, in order, to the vertices in the row of every vertex picked so far,
so `cand` is in non-increasing degree order and holds no picked vertex, and the
local clique has no repeated vertex and is pairwise adjacent. -/
theorem C30_greedy_restart_invariant (s : State) (starts rcl : Int) (picks : List Nat)
    (hsym : GraphSym s) (hloop : LoopFree s) :
    ∃ r logs,
      InitBestCliqueGreedyLog s starts rcl picks = some (r, logs) ∧
      InitBestCliqueGreedy s starts rcl picks = some r ∧
      (1 ≤ s.n → logs.length = (if starts ≤ 0 then 1 else starts).toNat ∧
        ∀ log ∈ logs, log ≠ []) ∧
      (sortByDegree s (List.range s.n)).Pairwise
        (fun a b => s.degree.getD a 0 ≥ s.degree.getD b 0) ∧
      ∀ log ∈ logs, ∀ entry ∈ log,
        entry.1 = (sortByDegree s (List.range s.n)).filter
          (fun u => entry.2.all (fun p => IsAdjacent s p u)) ∧
        entry.1.Pairwise (fun a b => s.degree.getD a 0 ≥ s.degree.getD b 0) ∧
        (∀ p ∈ entry.2, p ∉ entry.1) ∧
        entry.2.Nodup ∧
        (∀ a ∈ entry.2, ∀ b ∈ entry.2, a ≠ b → IsAdjacent s a b = true) := by
  have hsorted := sortByDegree_sorted s (List.range s.n)
  by_cases hn : s.n ≤ 0
  · refine ⟨(s, picks), [], by simp [InitBestCliqueGreedyLog, hn],
      by simp [InitBestCliqueGreedy, hn], fun h => absurd h (by omega), hsorted,
      fun _ h => absurd h (List.not_mem_nil _)⟩
  · obtain ⟨r, logs, hlogs, hstarts, hlen, hne, hprop⟩ :=
      greedyStartsLog_spec s (if rcl ≤ 0 then 1 else rcl) (sortByDegree s (List.range s.n))
        (if starts ≤ 0 then 1 else starts).toNat s picks (SameGraph.graphRefl s)
    have hbase : sortByDegree s (List.range s.n) ≠ [] := by
      intro h0
      have := (sortByDegree_perm s (List.range s.n)).length_eq
      rw [h0, List.length_range] at this
      simp only [List.length_nil] at this
      omega
    refine ⟨r, logs, ?_, ?_, fun _ => ⟨hlen, hne hbase⟩, hsorted, ?_⟩
    · rw [InitBestCliqueGreedyLog, if_neg hn]
      exact hlogs
    · rw [InitBestCliqueGreedy, if_neg hn]
      exact hstarts
    · intro log hlog entry hentry
      obtain ⟨hnode, hfilter⟩ := hprop hsym hloop (NodeOK.root s) log hlog entry hentry
      refine ⟨hfilter, ?_, ?_, hnode.1, ?_⟩
      · rw [hfilter]; exact hsorted.filter _
      · intro p hp hmem
        exact (hnode.2.2.2.2 p hmem).2.1 hp
      · intro a ha b hb hab
        exact hnode.2.2.1 a (List.mem_toFinset.mpr ha) b (List.mem_toFinset.mpr hb) hab

theorem C30_greedy_restart_invariant_witness :
    GraphSym c4 ∧ LoopFree c4 ∧
    ∃ r logs,
      InitBestCliqueGreedyLog c4 8 10 [] = some (r, logs) ∧
      InitBestCliqueGreedy c4 8 10 [] = some r ∧
      (1 ≤ c4.n → logs.length = (if (8 : Int) ≤ 0 then (1 : Int) else 8).toNat ∧
        ∀ log ∈ logs, log ≠ []) ∧
      (sortByDegree c4 (List.range c4.n)).Pairwise
        (fun a b => c4.degree.getD a 0 ≥ c4.degree.getD b 0) ∧
      ∀ log ∈ logs, ∀ entry ∈ log,
        entry.1 = (sortByDegree c4 (List.range c4.n)).filter
          (fun u => entry.2.all (fun p => IsAdjacent c4 p u)) ∧
        entry.1.Pairwise (fun a b => c4.degree.getD a 0 ≥ c4.degree.getD b 0) ∧
        (∀ p ∈ entry.2, p ∉ entry.1) ∧
        entry.2.Nodup ∧
        (∀ a ∈ entry.2, ∀ b ∈ entry.2, a ≠ b → IsAdjacent c4 a b = true) :=
  ⟨by decide, by unfold LoopFree; decide,
    C30_greedy_restart_invariant c4 8 10 [] (by decide) (by unfold LoopFree; decide)⟩

end BnBSolver

namespace ColoringProblem

/-! ## Week 1: the greedy colouring -/

theorem selectStep_mem (sets : List (List Nat)) (colors saturation : List Nat)
    (a : Selection) (vertex x : Nat)
    (hx : x ∈ (selectStep sets colors saturation a vertex).candidate_list) :
    x ∈ a.candidate_list ∨ x = vertex := by
  simp only [selectStep] at hx
  split_ifs at hx <;> simp_all

theorem selectStep_nonempty (sets : List (List Nat)) (colors saturation : List Nat)
    (a : Selection) (vertex : Nat) (h : a.candidate_list ≠ [] ∨ a.max_saturation < 0) :
    (selectStep sets colors saturation a vertex).candidate_list ≠ [] := by
  simp only [selectStep]
  split_ifs with h1 <;> simp
  all_goals
    rcases h with h | h
    · exact h
    · exfalso
      have : (0 : Int) ≤ ((saturation.getD vertex 0 : Nat) : Int) := Int.ofNat_nonneg _
      omega

theorem select_fold (sets : List (List Nat)) (colors saturation : List Nat) (U : List Nat) :
    ∀ (l : List Nat) (a : Selection),
      (∀ x ∈ a.candidate_list, x ∈ U) → (∀ x ∈ l, x ∈ U) →
      (a.candidate_list ≠ [] ∨ (a.max_saturation < 0 ∧ l ≠ [])) →
      (l.foldl (selectStep sets colors saturation) a).candidate_list ≠ [] ∧
        ∀ x ∈ (l.foldl (selectStep sets colors saturation) a).candidate_list, x ∈ U := by
  intro l
  induction l with
  | nil =>
    intro a ha _ hne
    rcases hne with h | h
    · exact ⟨h, ha⟩
    · exact absurd rfl h.2
  | cons v l ih =>
    intro a ha hl hne
    rw [List.foldl_cons]
    apply ih
    · intro x hx
      rcases selectStep_mem _ _ _ _ _ _ hx with h | h
      · exact ha x h
      · rw [h]; exact hl v (List.mem_cons_self _ _)
    · intro x hx; exact hl x (List.mem_cons_of_mem _ hx)
    · left
      apply selectStep_nonempty
      rcases hne with h | h
      · exact Or.inl h
      · exact Or.inr h.1

/-- The vertex selected in a round is one of the uncoloured vertices. -/
theorem selectVertex_mem (sets : List (List Nat)) (colors saturation : List Nat)
    (U : List Nat) (hU : U ≠ []) : selectVertex sets colors saturation U ∈ U := by
  obtain ⟨hne, hsub⟩ := select_fold sets colors saturation U U ⟨-1, -1, -1, -1, []⟩
    (fun _ h => absurd h (List.not_mem_nil _)) (fun _ h => h) (Or.inr ⟨by decide, hU⟩)
  apply hsub
  unfold selectVertex
  rw [List.getD_eq_getElem _ _ (List.length_pos.mpr hne)]
  exact List.getElem_mem _

theorem markUsed_fold (colors : List Nat) (c : Nat) :
    ∀ (l : List Nat) (used : List Bool), c < used.length →
      (used.getD c false = true ∨ ∃ nb ∈ l, colors.getD nb 0 ≠ 0 ∧ colors.getD nb 0 = c) →
      (l.foldl (fun used neighbour =>
        if colors.getD neighbour 0 ≠ 0 then used.set (colors.getD neighbour 0) true else used)
        used).getD c false = true := by
  intro l
  induction l with
  | nil =>
    intro used _ h
    rcases h with h | ⟨nb, hnb, _⟩
    · exact h
    · exact absurd hnb (List.not_mem_nil _)
  | cons a l ih =>
    intro used hlen h
    rw [List.foldl_cons]
    by_cases ha : colors.getD a 0 ≠ 0
    · rw [if_pos ha]
      apply ih _ (by rw [List.length_set]; exact hlen)
      by_cases hac : colors.getD a 0 = c
      · left
        rw [BnBSolver.getD_set_any, if_pos ⟨hac, hac ▸ hlen⟩]
      · rcases h with h | ⟨nb, hnb, h1, h2⟩
        · left
          rw [BnBSolver.getD_set_any, if_neg (fun e => hac e.1)]
          exact h
        · rcases List.mem_cons.mp hnb with e | e
          · rw [e] at h2; exact absurd h2 hac
          · exact Or.inr ⟨nb, e, h1, h2⟩
    · rw [if_neg ha]
      apply ih _ hlen
      rcases h with h | ⟨nb, hnb, h1, h2⟩
      · exact Or.inl h
      · rcases List.mem_cons.mp hnb with e | e
        · rw [e] at h1; exact absurd h1 ha
        · exact Or.inr ⟨nb, e, h1, h2⟩

/-- A colour carried by a coloured neighbour of `vertex` is marked in
`used_colors`, provided it is at most `maxcolor + 1`. -/
theorem markUsed_spec (sets : List (List Nat)) (colors : List Nat) (maxcolor vertex nb : Nat)
    (hnb : nb ∈ sets.getD vertex []) (h0 : colors.getD nb 0 ≠ 0)
    (hle : colors.getD nb 0 < maxcolor + 2) :
    (markUsed sets colors maxcolor vertex).getD (colors.getD nb 0) false = true := by
  unfold markUsed
  apply markUsed_fold
  · rw [List.length_replicate]; exact hle
  · exact Or.inr ⟨nb, hnb, h0, rfl⟩

theorem colorStep_inv (sets : List (List Nat)) (colors : List Nat) (used : List Bool)
    (maxcolor vertex : Nat) (c : Choice) (color : Nat) (h1 : 1 ≤ color) (h2 : color ≤ maxcolor)
    (h : (c.found_zero_increase = false ∧ c.min_saturation_increase = INT_MAX) ∨
      (1 ≤ c.best_color ∧ c.best_color ≤ maxcolor ∧ used.getD c.best_color false = false)) :
    ((colorStep sets colors used vertex c color).found_zero_increase = false ∧
        (colorStep sets colors used vertex c color).min_saturation_increase = INT_MAX) ∨
      (1 ≤ (colorStep sets colors used vertex c color).best_color ∧
        (colorStep sets colors used vertex c color).best_color ≤ maxcolor ∧
        used.getD (colorStep sets colors used vertex c color).best_color false = false) := by
  unfold colorStep
  by_cases hu : used.getD color false = true
  · rw [if_pos hu]; exact h
  · rw [if_neg hu]
    have hu' : used.getD color false = false := by simpa using hu
    simp only
    split_ifs with a b d e f
    · exact Or.inr ⟨h1, h2, hu'⟩
    · rcases h with h | h
      · simp [h.1] at b
      · exact Or.inr h
    · exact Or.inr ⟨h1, h2, hu'⟩
    · exact Or.inr ⟨h1, h2, hu'⟩
    · exact h
    · exact h

theorem chooseColor_fold (sets : List (List Nat)) (colors : List Nat) (used : List Bool)
    (maxcolor vertex : Nat) :
    ∀ (l : List Nat) (c : Choice), (∀ x ∈ l, 1 ≤ x ∧ x ≤ maxcolor) →
      ((c.found_zero_increase = false ∧ c.min_saturation_increase = INT_MAX) ∨
        (1 ≤ c.best_color ∧ c.best_color ≤ maxcolor ∧ used.getD c.best_color false = false)) →
      (((l.foldl (colorStep sets colors used vertex) c).found_zero_increase = false ∧
          (l.foldl (colorStep sets colors used vertex) c).min_saturation_increase = INT_MAX) ∨
        (1 ≤ (l.foldl (colorStep sets colors used vertex) c).best_color ∧
          (l.foldl (colorStep sets colors used vertex) c).best_color ≤ maxcolor ∧
          used.getD (l.foldl (colorStep sets colors used vertex) c).best_color false
            = false)) := by
  intro l
  induction l with
  | nil => intro c _ h; exact h
  | cons a l ih =>
    intro c hl h
    rw [List.foldl_cons]
    apply ih
    · intro x hx; exact hl x (List.mem_cons_of_mem _ hx)
    · exact colorStep_inv sets colors used maxcolor vertex c a
        (hl a (List.mem_cons_self _ _)).1 (hl a (List.mem_cons_self _ _)).2 h

/-- The colour choice loop ends either with no colour found (`best_color` is
then replaced by `maxcolor + 1`) or with a colour of `[1, maxcolor]` that is
not marked in `used_colors`. -/
theorem chooseColor_spec (sets : List (List Nat)) (colors : List Nat) (used : List Bool)
    (maxcolor vertex : Nat) :
    ((chooseColor sets colors used maxcolor vertex).found_zero_increase = false ∧
        (chooseColor sets colors used maxcolor vertex).min_saturation_increase = INT_MAX) ∨
      (1 ≤ (chooseColor sets colors used maxcolor vertex).best_color ∧
        (chooseColor sets colors used maxcolor vertex).best_color ≤ maxcolor ∧
        used.getD (chooseColor sets colors used maxcolor vertex).best_color false = false) := by
  unfold chooseColor
  apply chooseColor_fold
  · intro x hx
    rw [List.mem_range'_1] at hx
    omega
  · exact Or.inl ⟨rfl, rfl⟩

/-- What one round writes: the selected vertex gets a colour `best` of
`[1, maxcolor]` (for the new value of `maxcolor`) that no coloured neighbour
of the vertex has. -/
theorem round_fields (sets : List (List Nat)) (l : Loop)
    (hle : ∀ v, l.colors.getD v 0 ≤ l.maxcolor) :
    ∃ best maxc,
      (round sets l).colors =
        l.colors.set (selectVertex sets l.colors l.saturation l.uncolored_vertices) best ∧
      (round sets l).maxcolor = maxc ∧
      (round sets l).uncolored_vertices = l.uncolored_vertices.erase
        (selectVertex sets l.colors l.saturation l.uncolored_vertices) ∧
      1 ≤ best ∧ best ≤ maxc ∧ l.maxcolor ≤ maxc ∧
      ∀ nb ∈ sets.getD (selectVertex sets l.colors l.saturation l.uncolored_vertices) [],
        l.colors.getD nb 0 ≠ 0 → l.colors.getD nb 0 ≠ best := by
  have hspec := chooseColor_spec sets l.colors
    (markUsed sets l.colors l.maxcolor
      (selectVertex sets l.colors l.saturation l.uncolored_vertices))
    l.maxcolor (selectVertex sets l.colors l.saturation l.uncolored_vertices)
  by_cases hf : (!(chooseColor sets l.colors
      (markUsed sets l.colors l.maxcolor
        (selectVertex sets l.colors l.saturation l.uncolored_vertices))
      l.maxcolor (selectVertex sets l.colors l.saturation
        l.uncolored_vertices)).found_zero_increase &&
      (chooseColor sets l.colors
        (markUsed sets l.colors l.maxcolor
          (selectVertex sets l.colors l.saturation l.uncolored_vertices))
        l.maxcolor (selectVertex sets l.colors l.saturation
          l.uncolored_vertices)).min_saturation_increase == INT_MAX) = true
  · refine ⟨l.maxcolor + 1, l.maxcolor + 1, ?_, ?_, ?_, by omega, Nat.le_refl _, by omega, ?_⟩
    · simp only [round, hf, if_true]
    · simp only [round, hf, if_true]
    · simp only [round]
    · intro nb _ _
      have := hle nb
      omega
  · have hright : 1 ≤ (chooseColor sets l.colors
          (markUsed sets l.colors l.maxcolor
            (selectVertex sets l.colors l.saturation l.uncolored_vertices))
          l.maxcolor (selectVertex sets l.colors l.saturation
            l.uncolored_vertices)).best_color ∧
        (chooseColor sets l.colors
          (markUsed sets l.colors l.maxcolor
            (selectVertex sets l.colors l.saturation l.uncolored_vertices))
          l.maxcolor (selectVertex sets l.colors l.saturation
            l.uncolored_vertices)).best_color ≤ l.maxcolor ∧
        (markUsed sets l.colors l.maxcolor
          (selectVertex sets l.colors l.saturation l.uncolored_vertices)).getD
          (chooseColor sets l.colors
            (markUsed sets l.colors l.maxcolor
              (selectVertex sets l.colors l.saturation l.uncolored_vertices))
            l.maxcolor (selectVertex sets l.colors l.saturation
              l.uncolored_vertices)).best_color false = false := by
      rcases hspec with h | h
      · exfalso
        apply hf
        rw [h.1, h.2]
        rfl
      · exact h
    refine ⟨_, l.maxcolor, ?_, ?_, ?_, hright.1, hright.2.1, Nat.le_refl _, ?_⟩
    · simp only [round, hf, Bool.false_eq_true, if_false]
    · simp only [round, hf, Bool.false_eq_true, if_false]
    · simp only [round]
    · intro nb hnb h0 heq
      have hm := markUsed_spec sets l.colors l.maxcolor _ nb hnb h0
        (by have := hle nb; omega)
      rw [heq, hright.2.2] at hm
      exact absurd hm (by decide)

/-- One round of the loop keeps the loop invariant and colours exactly one
more vertex. -/
theorem round_inv (sets : List (List Nat)) (hg : GraphOK sets) (l : Loop)
    (hinv : LoopInv sets l) (hne : l.uncolored_vertices ≠ []) :
    LoopInv sets (round sets l) ∧
      (round sets l).uncolored_vertices.length + 1 = l.uncolored_vertices.length := by
  obtain ⟨best, maxc, hcol, hmax, hunc, hb1, hb2, hmono, hfree⟩ :=
    round_fields sets l hinv.le
  have hv := selectVertex_mem sets l.colors l.saturation l.uncolored_vertices hne
  generalize selectVertex sets l.colors l.saturation l.uncolored_vertices = vertex at *
  obtain ⟨hvn, hv0⟩ := (hinv.unc vertex).mp hv
  have hvlen : vertex < l.colors.length := by rw [hinv.len]; exact hvn
  have hget : ∀ x, (round sets l).colors.getD x 0 =
      if x = vertex then best else l.colors.getD x 0 := by
    intro x
    rw [hcol, BnBSolver.getD_set]
    by_cases hx : x = vertex
    · rw [if_pos hx, if_pos ⟨hx.symm, hvlen⟩]
    · rw [if_neg hx, if_neg (fun e => hx e.1.symm)]
  refine ⟨⟨?_, ?_, ?_, ?_, ?_⟩, ?_⟩
  · rw [hcol, List.length_set]; exact hinv.len
  · rw [hunc]; exact hinv.nodup.erase _
  · intro x
    rw [hunc, hinv.nodup.mem_erase_iff, hinv.unc x, hget x]
    by_cases hx : x = vertex
    · rw [if_pos hx]
      constructor
      · intro h; exact absurd hx h.1
      · intro h; omega
    · rw [if_neg hx]
      exact ⟨fun h => h.2, fun h => ⟨hx, h⟩⟩
  · intro x
    rw [hget x, hmax]
    by_cases hx : x = vertex
    · rw [if_pos hx]; exact hb2
    · rw [if_neg hx]; exact le_trans (hinv.le x) hmono
  · intro v hvl u hu hvc
    rw [hget v] at hvc ⊢
    rw [hget u]
    by_cases hvv : v = vertex
    · rw [if_pos hvv]
      subst hvv
      have huv : u ≠ v := fun e => hg.loopFree v hvl (e ▸ hu)
      rw [if_neg huv]
      by_cases hu0 : l.colors.getD u 0 = 0
      · rw [hu0]; omega
      · exact hfree u hu hu0
    · rw [if_neg hvv] at hvc ⊢
      by_cases huv : u = vertex
      · rw [if_pos huv]
        subst huv
        have := hfree v (hg.sym v hvl u hu) hvc
        exact fun e => this e.symm
      · rw [if_neg huv]
        exact hinv.proper v hvl u hu hvc
  · rw [hunc, List.length_erase_of_mem hv]
    have := List.length_pos.mpr hne
    omega

/-- The loop terminates within as many rounds as there are uncoloured
vertices, with the invariant and no uncoloured vertex left. -/
theorem whileLoop_spec (sets : List (List Nat)) (hg : GraphOK sets) :
    ∀ (fuel : Nat) (l : Loop), l.uncolored_vertices.length ≤ fuel → LoopInv sets l →
      ∃ l1, whileLoop sets fuel l = some l1 ∧ LoopInv sets l1 ∧ l1.uncolored_vertices = [] := by
  intro fuel
  induction fuel with
  | zero =>
    intro l hlen hinv
    have h0 : l.uncolored_vertices = [] := List.length_eq_zero.mp (Nat.le_zero.mp hlen)
    exact ⟨l, by simp [whileLoop, h0], hinv, h0⟩
  | succ fuel ih =>
    intro l hlen hinv
    by_cases h0 : l.uncolored_vertices = []
    · exact ⟨l, by simp [whileLoop, h0], hinv, h0⟩
    · obtain ⟨hinv1, hlen1⟩ := round_inv sets hg l hinv h0
      obtain ⟨l1, heq, hinv2, hemp⟩ := ih (round sets l) (by omega) hinv1
      refine ⟨l1, ?_, hinv2, hemp⟩
      rw [whileLoop, if_neg (by simpa using h0)]
      exact heq

theorem loopInv_init (sets : List (List Nat)) (order : List Nat)
    (hord : order.Perm (List.range sets.length)) :
    LoopInv sets ⟨List.replicate sets.length 0, 1, List.replicate sets.length 0, order⟩ := by
  have hz : ∀ v, (List.replicate sets.length 0).getD v 0 = 0 := by
    intro v
    rw [List.getD_eq_getElem?_getD, List.getElem?_replicate]
    split_ifs <;> rfl
  refine ⟨List.length_replicate _ _, hord.nodup_iff.mpr (List.nodup_range _), ?_, ?_, ?_⟩
  · intro v
    simp only [hz, and_true]
    rw [hord.mem_iff, List.mem_range]
  · intro v; simp only [hz]; omega
  · intro v _ u _ h
    simp only [hz] at h
    exact absurd rfl h

/-! ## Week 1: the reader -/

theorem length_insertAt (sets : List (List Nat)) (u v : Nat) :
    (insertAt sets u v).length = sets.length := by
  unfold insertAt
  split_ifs
  · rfl
  · exact List.length_set _ _ _

theorem mem_insertAt (sets : List (List Nat)) (u v w x : Nat) (hu : u < sets.length) :
    x ∈ (insertAt sets u v).getD w [] ↔ x ∈ sets.getD w [] ∨ (w = u ∧ x = v) := by
  unfold insertAt
  by_cases hv : v ∈ sets.getD u []
  · rw [if_pos hv]
    constructor
    · exact Or.inl
    · rintro (h | ⟨h1, h2⟩)
      · exact h
      · rw [h1, h2]; exact hv
  · rw [if_neg hv, BnBSolver.getD_set_any]
    by_cases hw : u = w
    · rw [if_pos ⟨hw, hu⟩, List.mem_append, List.mem_singleton, ← hw]
      constructor
      · rintro (h | h)
        · exact Or.inl h
        · exact Or.inr ⟨rfl, h⟩
      · rintro (h | h)
        · exact Or.inl h
        · exact Or.inr h.2
    · rw [if_neg (fun e => hw e.1)]
      constructor
      · exact Or.inl
      · rintro (h | h)
        · exact h
        · exact absurd h.1.symm hw

theorem GraphOK.insertEdgeOK {sets : List (List Nat)} (h : GraphOK sets) (a b : Nat)
    (ha : a < sets.length) (hb : b < sets.length) (hab : a ≠ b) :
    GraphOK (insertAt (insertAt sets a b) b a) := by
  have hmem : ∀ w x, x ∈ (insertAt (insertAt sets a b) b a).getD w [] ↔
      x ∈ sets.getD w [] ∨ (w = a ∧ x = b) ∨ (w = b ∧ x = a) := by
    intro w x
    rw [mem_insertAt _ _ _ _ _ (by rw [length_insertAt]; exact hb),
      mem_insertAt _ _ _ _ _ ha, or_assoc]
  have hlen : (insertAt (insertAt sets a b) b a).length = sets.length := by
    rw [length_insertAt, length_insertAt]
  refine ⟨?_, ?_, ?_⟩
  · intro v hv u hu
    rw [hlen] at hv ⊢
    rcases (hmem v u).mp hu with h1 | h1 | h1
    · exact h.inRange v hv u h1
    · rw [h1.2]; exact hb
    · rw [h1.2]; exact ha
  · intro v hv u hu
    rw [hlen] at hv
    rw [hmem]
    rcases (hmem v u).mp hu with h1 | h1 | h1
    · exact Or.inl (h.sym v hv u h1)
    · exact Or.inr (Or.inr ⟨h1.2, h1.1⟩)
    · exact Or.inr (Or.inl ⟨h1.2, h1.1⟩)
  · intro v hv hmm
    rw [hlen] at hv
    rcases (hmem v v).mp hmm with h1 | h1 | h1
    · exact h.loopFree v hv h1
    · exact hab (h1.1.symm.trans h1.2)
    · exact hab (h1.2.symm.trans h1.1)

theorem length_resize (sets : List (List Nat)) (k : Nat) : (resize sets k).length = k := by
  unfold resize
  rw [List.length_append, List.length_take, List.length_replicate]
  omega

theorem getD_resize (sets : List (List Nat)) (k w : Nat) (hk : sets.length ≤ k) :
    (resize sets k).getD w [] = sets.getD w [] := by
  unfold resize
  rw [List.take_of_length_le hk]
  by_cases hw : w < sets.length
  · rw [List.getD_append _ _ _ _ hw]
  · rw [List.getD_append_right _ _ _ _ (Nat.le_of_not_lt hw),
      List.getD_eq_default _ _ (Nat.le_of_not_lt hw), List.getD_eq_getElem?_getD,
      List.getElem?_replicate]
    split_ifs <;> rfl

theorem GraphOK.resizeOK {sets : List (List Nat)} (h : GraphOK sets) (k : Nat)
    (hk : sets.length ≤ k) : GraphOK (resize sets k) := by
  have hnil : ∀ w, sets.length ≤ w → sets.getD w [] = [] :=
    fun w hw => List.getD_eq_default _ _ hw
  refine ⟨?_, ?_, ?_⟩
  · intro v _ u hu
    rw [getD_resize _ _ _ hk] at hu
    rw [length_resize]
    by_cases hv : v < sets.length
    · exact lt_of_lt_of_le (h.inRange v hv u hu) hk
    · rw [hnil v (Nat.le_of_not_lt hv)] at hu
      exact absurd hu (List.not_mem_nil _)
  · intro v _ u hu
    rw [getD_resize _ _ _ hk] at hu ⊢
    by_cases hv : v < sets.length
    · exact h.sym v hv u hu
    · rw [hnil v (Nat.le_of_not_lt hv)] at hu
      exact absurd hu (List.not_mem_nil _)
  · intro v _ hmm
    rw [getD_resize _ _ _ hk] at hmm
    by_cases hv : v < sets.length
    · exact h.loopFree v hv hmm
    · rw [hnil v (Nat.le_of_not_lt hv)] at hmm
      exact absurd hmm (List.not_mem_nil _)

/-- Reading a file without self-loops whose `p` lines never lower the vertex
count keeps `neighbour_sets` a simple undirected graph. -/
theorem ReadGraphFile_graphOK :
    ∀ (recs : List Record) (s s1 : State), GraphOK s.neighbour_sets →
      simpleFile s.neighbour_sets.length recs = true → ReadGraphFile s recs = some s1 →
      GraphOK s1.neighbour_sets := by
  intro recs
  induction recs with
  | nil =>
    intro s s1 h _ heq
    simp only [ReadGraphFile, Option.some.injEq] at heq
    rw [← heq]; exact h
  | cons r recs ih =>
    intro s s1 h hfile heq
    cases r with
    | comment =>
      rw [ReadGraphFile] at heq
      rw [simpleFile] at hfile
      exact ih s s1 h hfile heq
    | header vertices =>
      rw [simpleFile, Bool.and_eq_true, decide_eq_true_eq] at hfile
      have hv : ¬ vertices < 0 := by omega
      rw [ReadGraphFile, if_neg hv] at heq
      refine ih _ s1 ?_ ?_ heq
      · exact h.resizeOK _ (by omega)
      · simp only [length_resize]; exact hfile.2
    | edge start finish =>
      rw [simpleFile, Bool.and_eq_true, decide_eq_true_eq] at hfile
      by_cases hr : start - 1 < 0 ∨ start - 1 ≥ (s.neighbour_sets.length : Int) ∨
          finish - 1 < 0 ∨ finish - 1 ≥ (s.neighbour_sets.length : Int)
      · rw [ReadGraphFile, if_pos hr] at heq
        exact absurd heq (by simp)
      · rw [ReadGraphFile, if_neg hr] at heq
        refine ih _ s1 ?_ ?_ heq
        · exact h.insertEdgeOK _ _ (by omega) (by omega) (by omega)
        · simp only [length_insertAt]; exact hfile.2

theorem graphOK_nil : GraphOK ([] : List (List Nat)) :=
  ⟨fun _ h => absurd h (Nat.not_lt_zero _), fun _ h => absurd h (Nat.not_lt_zero _),
    fun _ h => absurd h (Nat.not_lt_zero _)⟩

/-- The greedy colouring on a simple undirected graph: `GreedyGraphColoring`
returns, every vertex has a colour of `[1, maxcolor]`, and no vertex has the
colour of one of its neighbours. -/
theorem GreedyGraphColoring_spec (s : State) (order : List Nat)
    (hg : GraphOK s.neighbour_sets)
    (hord : order.Perm (List.range s.neighbour_sets.length)) :
    ∃ s1, GreedyGraphColoring s order = some s1 ∧
      s1.neighbour_sets = s.neighbour_sets ∧
      s1.colors.length = s.neighbour_sets.length ∧
      (∀ v, v < s.neighbour_sets.length →
        1 ≤ s1.colors.getD v 0 ∧ s1.colors.getD v 0 ≤ s1.maxcolor) ∧
      (∀ v, v < s.neighbour_sets.length → ∀ u ∈ s.neighbour_sets.getD v [],
        s1.colors.getD u 0 ≠ s1.colors.getD v 0) := by
  obtain ⟨l1, heq, hinv, hemp⟩ :=
    whileLoop_spec s.neighbour_sets hg order.length
      ⟨List.replicate s.neighbour_sets.length 0, 1,
        List.replicate s.neighbour_sets.length 0, order⟩
      (Nat.le_refl _) (loopInv_init s.neighbour_sets order hord)
  have hcol : ∀ v, v < s.neighbour_sets.length → l1.colors.getD v 0 ≠ 0 := by
    intro v hv h0
    have := (hinv.unc v).mpr ⟨hv, h0⟩
    rw [hemp] at this
    exact absurd this (List.not_mem_nil _)
  refine ⟨{ s with colors := l1.colors, maxcolor := l1.maxcolor }, ?_, rfl, hinv.len, ?_, ?_⟩
  · simp only [GreedyGraphColoring, heq]
  · intro v hv
    exact ⟨Nat.one_le_iff_ne_zero.mpr (hcol v hv), hinv.le v⟩
  · intro v hv u hu
    exact hinv.proper v hv u hu (hcol v hv)

/-- C21. The colouring of week1 is proper. For every graph read by
`ReadGraphFile` into a fresh `ColoringProblem` from a file without self-loops
(whose `p` lines never lower the vertex count), and for every iteration order
of `uncolored_vertices`, `GreedyGraphColoring` returns; afterwards every vertex
has a colour in `[1, maxcolor]`, no vertex has the colour of a neighbour, and
`Check()` is true, so `main` does not print the warning. -/
theorem C21_week1_coloring_proper (recs : List Record) (s : State) (order : List Nat)
    (hfile : simpleFile 0 recs = true)
    (hread : ReadGraphFile newProblem recs = some s)
    (hord : order.Perm (List.range s.neighbour_sets.length)) :
    ∃ s1, GreedyGraphColoring s order = some s1 ∧
      s1.neighbour_sets = s.neighbour_sets ∧
      (∀ v, v < s.neighbour_sets.length →
        1 ≤ s1.colors.getD v 0 ∧ s1.colors.getD v 0 ≤ GetNumberOfColors s1) ∧
      (∀ v, v < s.neighbour_sets.length → ∀ u ∈ s.neighbour_sets.getD v [],
        s1.colors.getD u 0 ≠ s1.colors.getD v 0) ∧
      Check s1 = true := by
  have hg : GraphOK s.neighbour_sets :=
    ReadGraphFile_graphOK recs newProblem s graphOK_nil hfile hread
  obtain ⟨s1, heq, hsets, -, hrange, hproper⟩ := GreedyGraphColoring_spec s order hg hord
  refine ⟨s1, heq, hsets, hrange, hproper, ?_⟩
  unfold Check
  rw [List.all_eq_true]
  intro i hi
  rw [hsets] at hi ⊢
  have hi' := List.mem_range.mp hi
  rw [Bool.and_eq_true, List.all_eq_true]
  refine ⟨?_, ?_⟩
  · have := (hrange i hi').1
    simp only [bne_iff_ne, ne_eq]
    omega
  · intro u hu
    simp only [bne_iff_ne, ne_eq]
    exact hproper i hi' u hu

theorem C21_week1_coloring_proper_witness :
    simpleFile 0 [Record.comment, Record.header 3, Record.edge 1 2, Record.edge 2 3] = true ∧
    ReadGraphFile newProblem
      [Record.comment, Record.header 3, Record.edge 1 2, Record.edge 2 3] = some path3 ∧
    [2, 0, 1].Perm (List.range path3.neighbour_sets.length) ∧
    ∃ s1, GreedyGraphColoring path3 [2, 0, 1] = some s1 ∧
      s1.neighbour_sets = path3.neighbour_sets ∧
      (∀ v, v < path3.neighbour_sets.length →
        1 ≤ s1.colors.getD v 0 ∧ s1.colors.getD v 0 ≤ GetNumberOfColors s1) ∧
      (∀ v, v < path3.neighbour_sets.length → ∀ u ∈ path3.neighbour_sets.getD v [],
        s1.colors.getD u 0 ≠ s1.colors.getD v 0) ∧
      Check s1 = true :=
  ⟨by decide, by decide, by decide,
    C21_week1_coloring_proper
      [Record.comment, Record.header 3, Record.edge 1 2, Record.edge 2 3] path3 [2, 0, 1]
      (by decide) (by decide) (by decide)⟩

end ColoringProblem

namespace MaxCliqueProblem

/-! ## Lab 2: the choice of the next vertex -/

theorem contains_true_iff (l : List Nat) (c : Nat) : l.contains c = true ↔ c ∈ l :=
  List.elem_iff

theorem GraphOK.nodupAll {sets : List (List Nat)} (h : GraphOK sets) (v : Nat) :
    (sets.getD v []).Nodup := by
  by_cases hv : v < sets.length
  · exact h.nodup v hv
  · rw [List.getD_eq_default _ _ (Nat.le_of_not_lt hv)]
    exact List.nodup_nil

theorem nodup_insertAt (sets : List (List Nat)) (u v : Nat)
    (h : ∀ w, (sets.getD w []).Nodup) :
    ∀ w, ((ColoringProblem.insertAt sets u v).getD w []).Nodup := by
  intro w
  unfold ColoringProblem.insertAt
  by_cases hv : v ∈ sets.getD u []
  · rw [if_pos hv]; exact h w
  · rw [if_neg hv, BnBSolver.getD_set_any]
    by_cases hw : u = w ∧ u < sets.length
    · rw [if_pos hw, List.nodup_append]
      refine ⟨h u, List.nodup_singleton _, ?_⟩
      intro a ha hb
      rw [List.mem_singleton] at hb
      rw [hb] at ha
      exact hv ha
    · rw [if_neg hw]; exact h w

theorem GraphOK.insertPair {sets : List (List Nat)} (h : GraphOK sets) (a b : Nat)
    (ha : a < sets.length) (hb : b < sets.length) :
    GraphOK (ColoringProblem.insertAt (ColoringProblem.insertAt sets a b) b a) := by
  have hmem : ∀ w x,
      x ∈ (ColoringProblem.insertAt (ColoringProblem.insertAt sets a b) b a).getD w [] ↔
        x ∈ sets.getD w [] ∨ (w = a ∧ x = b) ∨ (w = b ∧ x = a) := by
    intro w x
    rw [ColoringProblem.mem_insertAt _ _ _ _ _
        (by rw [ColoringProblem.length_insertAt]; exact hb),
      ColoringProblem.mem_insertAt _ _ _ _ _ ha, or_assoc]
  have hlen : (ColoringProblem.insertAt (ColoringProblem.insertAt sets a b) b a).length
      = sets.length := by
    rw [ColoringProblem.length_insertAt, ColoringProblem.length_insertAt]
  refine ⟨?_, ?_, ?_⟩
  · intro v _
    exact nodup_insertAt _ _ _ (nodup_insertAt _ _ _ h.nodupAll) v
  · intro v hv u hu
    rw [hlen] at hv ⊢
    rcases (hmem v u).mp hu with h1 | h1 | h1
    · exact h.inRange v hv u h1
    · rw [h1.2]; exact hb
    · rw [h1.2]; exact ha
  · intro v hv u hu
    rw [hlen] at hv
    rw [hmem]
    rcases (hmem v u).mp hu with h1 | h1 | h1
    · exact Or.inl (h.sym v hv u h1)
    · exact Or.inr (Or.inr ⟨h1.2, h1.1⟩)
    · exact Or.inr (Or.inl ⟨h1.2, h1.1⟩)

theorem GraphOK.resizeGrow {sets : List (List Nat)} (h : GraphOK sets) (k : Nat)
    (hk : sets.length ≤ k) : GraphOK (ColoringProblem.resize sets k) := by
  have hnil : ∀ w, sets.length ≤ w → sets.getD w [] = [] :=
    fun w hw => List.getD_eq_default _ _ hw
  refine ⟨?_, ?_, ?_⟩
  · intro v _
    rw [ColoringProblem.getD_resize _ _ _ hk]
    exact h.nodupAll v
  · intro v _ u hu
    rw [ColoringProblem.getD_resize _ _ _ hk] at hu
    rw [ColoringProblem.length_resize]
    by_cases hv : v < sets.length
    · exact lt_of_lt_of_le (h.inRange v hv u hu) hk
    · rw [hnil v (Nat.le_of_not_lt hv)] at hu
      exact absurd hu (List.not_mem_nil _)
  · intro v _ u hu
    rw [ColoringProblem.getD_resize _ _ _ hk] at hu ⊢
    by_cases hv : v < sets.length
    · exact h.sym v hv u hu
    · rw [hnil v (Nat.le_of_not_lt hv)] at hu
      exact absurd hu (List.not_mem_nil _)

theorem graphOK_empty : GraphOK ([] : List (List Nat)) :=
  ⟨fun _ h => absurd h (Nat.not_lt_zero _), fun _ h => absurd h (Nat.not_lt_zero _),
    fun _ h => absurd h (Nat.not_lt_zero _)⟩

end MaxCliqueProblem

namespace MaxCliqueTabuSearch

/-! ## Lab 3: the indexed set -/

theorem getD_dropLast {α : Type} (l : List α) (i : Nat) (d : α) (h : i + 1 < l.length) :
    l.dropLast.getD i d = l.getD i d := by
  rw [List.dropLast_eq_take, List.getD_eq_getElem?_getD, List.getD_eq_getElem?_getD,
    List.getElem?_take]
  rw [if_pos (by omega)]

theorem FastSet.WF.mem_iff {n : Nat} {f : FastSet} (h : f.WF n) (v : Nat) :
    v ∈ f.items ↔ v < n ∧ f.pos.getD v (-1) ≠ -1 := by
  constructor
  · intro hv
    obtain ⟨i, hi, he⟩ := List.getElem_of_mem hv
    have := h.2.1 i hi
    rw [List.getD_eq_getElem _ _ hi, he] at this
    exact ⟨this.1, by rw [this.2]; omega⟩
  · rintro ⟨h1, h2⟩
    exact h.2.2 v h1 h2

theorem FastSet.WF.index {n : Nat} {f : FastSet} (h : f.WF n) (v : Nat) (hv : v ∈ f.items) :
    0 ≤ f.pos.getD v (-1) ∧ (f.pos.getD v (-1)).toNat < f.items.length ∧
      f.items.getD (f.pos.getD v (-1)).toNat 0 = v := by
  obtain ⟨i, hi, he⟩ := List.getElem_of_mem hv
  have := h.2.1 i hi
  rw [List.getD_eq_getElem _ _ hi, he] at this
  rw [this.2]
  refine ⟨by omega, by simpa using hi, ?_⟩
  simp only [Int.toNat_ofNat]
  rw [List.getD_eq_getElem _ _ hi, he]

theorem FastSet.WF.nodup {n : Nat} {f : FastSet} (h : f.WF n) : f.items.Nodup := by
  rw [List.Nodup, List.pairwise_iff_getElem]
  intro i j hi hj hij heq
  have h1 := (h.2.1 i hi).2
  have h2 := (h.2.1 j hj).2
  rw [List.getD_eq_getElem _ _ hi] at h1
  rw [List.getD_eq_getElem _ _ hj, ← heq, h1] at h2
  omega

theorem FastSet.initOK (n : Nat) : (FastSet.Init n).WF n := by
  have hz : ∀ v, (List.replicate n (-1 : Int)).getD v (-1) = -1 := by
    intro v
    rw [List.getD_eq_getElem?_getD, List.getElem?_replicate]
    split_ifs <;> rfl
  refine ⟨List.length_replicate _ _, fun i hi => absurd hi (Nat.not_lt_zero _), ?_⟩
  intro v _ hv
  exact absurd (hz v) hv

/-- The call `Add(v)` keeps the invariant and adds `v` to the members. -/
theorem FastSet.WF.addOK {n : Nat} {f : FastSet} (h : f.WF n) (v : Nat) (hv : v < n) :
    (f.Add v).WF n ∧ ∀ x, x ∈ (f.Add v).items ↔ x ∈ f.items ∨ x = v := by
  unfold FastSet.Add
  by_cases hp : f.pos.getD v (-1) ≠ -1
  · rw [if_pos hp]
    refine ⟨h, fun x => ⟨Or.inl, ?_⟩⟩
    rintro (hx | hx)
    · exact hx
    · rw [hx]; exact h.2.2 v hv hp
  · rw [if_neg hp]
    have hp' : f.pos.getD v (-1) = -1 := by simpa using hp
    have hvn : v ∉ f.items := fun hm => ((h.mem_iff v).mp hm).2 hp'
    have hvl : v < f.pos.length := by rw [h.1]; exact hv
    refine ⟨⟨?_, ?_, ?_⟩, fun x => ?_⟩
    · rw [List.length_set]; exact h.1
    · intro i hi
      simp only [List.length_append, List.length_singleton] at hi
      by_cases hlt : i < f.items.length
      · have hit := h.2.1 i hlt
        have hne : f.items.getD i 0 ≠ v := by
          intro e
          apply hvn
          rw [← e, List.getD_eq_getElem _ _ hlt]
          exact List.getElem_mem _
        simp only
        rw [List.getD_append _ _ _ _ hlt, BnBSolver.getD_set_any,
          if_neg (fun e => hne e.1.symm)]
        exact hit
      · have hi' : i = f.items.length := by omega
        subst hi'
        simp only
        rw [List.getD_append_right _ _ _ _ (Nat.le_refl _), Nat.sub_self,
          List.getD_cons_zero, BnBSolver.getD_set_any, if_pos ⟨rfl, hvl⟩]
        exact ⟨hv, rfl⟩
    · intro x hx hpx
      simp only at hpx ⊢
      rw [BnBSolver.getD_set_any] at hpx
      by_cases hxv : v = x
      · rw [← hxv]; exact List.mem_append_right _ (List.mem_singleton_self _)
      · rw [if_neg (fun e => hxv e.1)] at hpx
        exact List.mem_append_left _ (h.2.2 x hx hpx)
    · simp only [List.mem_append, List.mem_singleton]

theorem getD_mem_of_lt (l : List Nat) (i : Nat) (hi : i < l.length) : l.getD i 0 ∈ l := by
  rw [List.getD_eq_getElem _ _ hi]; exact List.getElem_mem _

/-- The entries of `pos` after the body of `Remove(v)`. -/
theorem getD_pos_Remove (pos : List Int) (last v x : Nat) (p : Int) (hv : v < pos.length) :
    ((pos.set last p).set v (-1)).getD x (-1) =
      if x = v then -1 else if x = last ∧ last < pos.length then p else pos.getD x (-1) := by
  rw [BnBSolver.getD_set_any, List.length_set, BnBSolver.getD_set_any]
  by_cases hxv : x = v
  · rw [if_pos ⟨hxv.symm, hv⟩, if_pos hxv]
  · rw [if_neg (fun e => hxv e.1.symm), if_neg hxv]
    by_cases hxl : x = last ∧ last < pos.length
    · rw [if_pos ⟨hxl.1.symm, hxl.2⟩, if_pos hxl]
    · rw [if_neg (fun e => hxl ⟨e.1.symm, e.2⟩), if_neg hxl]

/-- The swap-with-last removal on a vector `items` indexed by `pos`, the body
of `FastSet::Remove` and of the clique part of `RemoveFromClique`, keeps the
invariant and removes exactly `v`. -/
theorem FastSet.WF.removeOK {n : Nat} {f : FastSet} (h : f.WF n) (v : Nat) (hv : v < n) :
    (f.Remove v).WF n ∧ ∀ x, x ∈ (f.Remove v).items ↔ x ∈ f.items ∧ x ≠ v := by
  unfold FastSet.Remove
  by_cases hp : f.pos.getD v (-1) = -1
  · simp only [if_pos hp]
    refine ⟨h, fun x => ⟨fun hx => ⟨hx, ?_⟩, fun hx => hx.1⟩⟩
    intro e
    rw [e] at hx
    exact ((h.mem_iff v).mp hx).2 hp
  · simp only [if_neg hp]
    have hvm : v ∈ f.items := h.2.2 v hv hp
    obtain ⟨hp0, hk, hkv⟩ := h.index v hvm
    have hlen : 0 < f.items.length := List.length_pos_of_mem hvm
    have hlast := h.2.1 (f.items.length - 1) (by omega)
    rw [← BnBSolver.getLastD_eq_getD] at hlast
    have hvl : v < f.pos.length := by rw [h.1]; exact hv
    have hll : f.items.getLastD 0 < f.pos.length := by rw [h.1]; exact hlast.1
    have hpk : f.pos.getD v (-1) = (((f.pos.getD v (-1)).toNat : Nat) : Int) := by omega
    have hitem : ∀ i, i + 1 < f.items.length →
        ((f.items.set (f.pos.getD v (-1)).toNat (f.items.getLastD 0)).dropLast).getD i 0 =
          if (f.pos.getD v (-1)).toNat = i then f.items.getLastD 0 else f.items.getD i 0 := by
      intro i hi
      rw [getD_dropLast _ _ _ (by rw [List.length_set]; exact hi), BnBSolver.getD_set]
      by_cases hki : (f.pos.getD v (-1)).toNat = i
      · rw [if_pos ⟨hki, hk⟩, if_pos hki]
      · rw [if_neg (fun e => hki e.1), if_neg hki]
    have hlen' : ((f.items.set (f.pos.getD v (-1)).toNat (f.items.getLastD 0)).dropLast).length
        = f.items.length - 1 := by
      rw [List.length_dropLast, List.length_set]
    have hwf : FastSet.WF n
        { items := (f.items.set (f.pos.getD v (-1)).toNat (f.items.getLastD 0)).dropLast
          pos := (f.pos.set (f.items.getLastD 0) (f.pos.getD v (-1))).set v (-1) } := by
      refine ⟨?_, ?_, ?_⟩
      · simp only [List.length_set]; exact h.1
      · intro i hi
        simp only at hi ⊢
        rw [hlen'] at hi
        rw [hitem i (by omega), getD_pos_Remove _ _ _ _ _ hvl]
        by_cases hki : (f.pos.getD v (-1)).toNat = i
        · rw [if_pos hki]
          have hne : f.items.getLastD 0 ≠ v := by
            intro e
            rw [e] at hlast
            omega
          rw [if_neg hne, if_pos ⟨rfl, hll⟩]
          exact ⟨hlast.1, by omega⟩
        · rw [if_neg hki]
          have hi2 := h.2.1 i (by omega)
          have hne : f.items.getD i 0 ≠ v := by
            intro e
            rw [e] at hi2
            omega
          have hnl : f.items.getD i 0 ≠ f.items.getLastD 0 := by
            intro e
            rw [e] at hi2
            omega
          rw [if_neg hne, if_neg (fun e => hnl e.1)]
          exact hi2
      · intro x hx hpx
        simp only at hpx ⊢
        rw [getD_pos_Remove _ _ _ _ _ hvl] at hpx
        by_cases hxv : x = v
        · rw [if_pos hxv] at hpx; exact absurd rfl hpx
        · rw [if_neg hxv] at hpx
          by_cases hxl : x = f.items.getLastD 0
          · have hkl : (f.pos.getD v (-1)).toNat + 1 < f.items.length := by
              by_contra hc
              have hkeq : (f.pos.getD v (-1)).toNat = f.items.length - 1 := by omega
              rw [hkeq, ← BnBSolver.getLastD_eq_getD] at hkv
              exact hxv (hxl.trans hkv)
            have hm := getD_mem_of_lt _ (f.pos.getD v (-1)).toNat
              (by rw [hlen']; omega :
                (f.pos.getD v (-1)).toNat <
                  ((f.items.set (f.pos.getD v (-1)).toNat
                    (f.items.getLastD 0)).dropLast).length)
            rw [hitem _ hkl, if_pos rfl] at hm
            rw [hxl]; exact hm
          · rw [if_neg (fun e => hxl e.1)] at hpx
            have hxm : x ∈ f.items := h.2.2 x hx hpx
            obtain ⟨hj0, hj, hjx⟩ := h.index x hxm
            have hjk : (f.pos.getD x (-1)).toNat ≠ (f.pos.getD v (-1)).toNat := by
              intro e
              rw [e, hkv] at hjx
              exact hxv hjx.symm
            have hjl : (f.pos.getD x (-1)).toNat + 1 < f.items.length := by
              by_contra hc
              have hjeq : (f.pos.getD x (-1)).toNat = f.items.length - 1 := by omega
              rw [hjeq, ← BnBSolver.getLastD_eq_getD] at hjx
              exact hxl hjx.symm
            have hm := getD_mem_of_lt _ (f.pos.getD x (-1)).toNat
              (by rw [hlen']; omega :
                (f.pos.getD x (-1)).toNat <
                  ((f.items.set (f.pos.getD v (-1)).toNat
                    (f.items.getLastD 0)).dropLast).length)
            rw [hitem _ hjl, if_neg (fun e => hjk e.symm), hjx] at hm
            exact hm
    refine ⟨hwf, fun x => ?_⟩
    rw [hwf.mem_iff x, h.mem_iff x]
    simp only
    rw [getD_pos_Remove _ _ _ _ _ hvl]
    by_cases hxv : x = v
    · rw [if_pos hxv]
      exact ⟨fun hh => absurd rfl hh.2, fun hh => absurd hxv hh.2⟩
    · rw [if_neg hxv]
      by_cases hxl : x = f.items.getLastD 0 ∧ f.items.getLastD 0 < f.pos.length
      · rw [if_pos hxl]
        have hpl : f.pos.getD x (-1) ≠ -1 := by
          rw [hxl.1, hlast.2]; omega
        exact ⟨fun hh => ⟨⟨hh.1, hpl⟩, hxv⟩, fun hh => ⟨hh.1.1, hp⟩⟩
      · rw [if_neg hxl]
        exact ⟨fun hh => ⟨hh, hxv⟩, fun hh => hh.1⟩

/-! ## Lab 3: the tightness loops -/

theorem getD_tight_set (tight : List Int) (u x : Nat) (a : Int) (hu : u < tight.length) :
    (tight.set u a).getD x 0 = if x = u then a else tight.getD x 0 := by
  rw [BnBSolver.getD_set_any]
  by_cases hx : x = u
  · rw [if_pos ⟨hx.symm, hu⟩, if_pos hx]
  · rw [if_neg (fun e => hx e.1.symm), if_neg hx]

/-- One round of the loop of `AddToClique`: the tightness of `u` goes up by
one when `u` is outside the clique, and `C0`, `C1` follow. -/
theorem addStep_spec (n : Nat) (clq : List Nat) (in_clique : List Bool)
    (hflag : ∀ x, in_clique.getD x false = true ↔ x ∈ clq)
    (acc : List Int × FastSet × FastSet) (u : Nat) (hu : u < n)
    (hm : SetsMatch n clq acc.1 acc.2.1 acc.2.2)
    (h0 : u ∉ clq → 0 ≤ acc.1.getD u 0) :
    SetsMatch n clq (addStep in_clique acc u).1 (addStep in_clique acc u).2.1
        (addStep in_clique acc u).2.2 ∧
      ∀ x, (addStep in_clique acc u).1.getD x 0 =
        if x = u ∧ u ∉ clq then acc.1.getD x 0 + 1 else acc.1.getD x 0 := by
  unfold addStep
  by_cases hin : in_clique.getD u false = true
  · rw [if_pos hin]
    have huc := (hflag u).mp hin
    exact ⟨hm, fun x => by rw [if_neg (fun e => e.2 huc)]⟩
  · rw [if_neg hin]
    have huc : u ∉ clq := fun e => hin ((hflag u).mpr e)
    have hul : u < acc.1.length := by rw [hm.len]; exact hu
    have hge := h0 huc
    have ht : ∀ x, (acc.1.set u (acc.1.getD u 0 + 1)).getD x 0 =
        if x = u ∧ u ∉ clq then acc.1.getD x 0 + 1 else acc.1.getD x 0 := by
      intro x
      rw [getD_tight_set _ _ _ _ hul]
      by_cases hx : x = u
      · rw [if_pos hx, if_pos ⟨hx, huc⟩, hx]
      · rw [if_neg hx, if_neg (fun e => hx e.1)]
    have ht' : ∀ x, (acc.1.set u (acc.1.getD u 0 + 1)).getD x 0 =
        if x = u then acc.1.getD u 0 + 1 else acc.1.getD x 0 :=
      fun x => getD_tight_set _ _ _ _ hul
    have hlen : (acc.1.set u (acc.1.getD u 0 + 1)).length = n := by
      rw [List.length_set]; exact hm.len
    simp only
    by_cases hz : acc.1.getD u 0 = 0
    · rw [if_pos hz]
      obtain ⟨w0, r0⟩ := hm.wf0.removeOK u hu
      obtain ⟨w1, r1⟩ := hm.wf1.addOK u hu
      refine ⟨⟨hlen, w0, w1, fun x => ?_, fun x => ?_⟩, ht⟩
      · rw [r0 x, hm.m0 x, ht' x]
        by_cases hx : x = u
        · rw [if_pos hx, hz]
          exact ⟨fun hh => absurd hx hh.2, fun hh => absurd hh.2.2 (by decide)⟩
        · rw [if_neg hx]
          exact ⟨fun hh => hh.1, fun hh => ⟨hh, hx⟩⟩
      · rw [r1 x, hm.m1 x, ht' x]
        by_cases hx : x = u
        · rw [if_pos hx, hz, hx]
          exact ⟨fun _ => ⟨hu, huc, rfl⟩, fun _ => Or.inr rfl⟩
        · rw [if_neg hx]
          exact ⟨fun hh => hh.resolve_right hx, fun hh => Or.inl hh⟩
    · rw [if_neg hz]
      by_cases ho : acc.1.getD u 0 = 1
      · rw [if_pos ho]
        obtain ⟨w1, r1⟩ := hm.wf1.removeOK u hu
        refine ⟨⟨hlen, hm.wf0, w1, fun x => ?_, fun x => ?_⟩, ht⟩
        · rw [hm.m0 x, ht' x]
          by_cases hx : x = u
          · rw [if_pos hx, ho, hx]
            exact ⟨fun hh => absurd (ho.symm.trans hh.2.2) (by decide),
              fun hh => absurd hh.2.2 (by decide)⟩
          · rw [if_neg hx]
        · rw [r1 x, hm.m1 x, ht' x]
          by_cases hx : x = u
          · rw [if_pos hx, ho]
            exact ⟨fun hh => absurd hx hh.2, fun hh => absurd hh.2.2 (by decide)⟩
          · rw [if_neg hx]
            exact ⟨fun hh => hh.1, fun hh => ⟨hh, hx⟩⟩
      · rw [if_neg ho]
        refine ⟨⟨hlen, hm.wf0, hm.wf1, fun x => ?_, fun x => ?_⟩, ht⟩
        · rw [hm.m0 x, ht' x]
          by_cases hx : x = u
          · rw [if_pos hx, hx]
            exact ⟨fun hh => absurd hh.2.2 hz, fun hh => by omega⟩
          · rw [if_neg hx]
        · rw [hm.m1 x, ht' x]
          by_cases hx : x = u
          · rw [if_pos hx, hx]
            exact ⟨fun hh => absurd hh.2.2 ho, fun hh => by omega⟩
          · rw [if_neg hx]

theorem addLoop_spec (n : Nat) (clq : List Nat) (in_clique : List Bool)
    (hflag : ∀ x, in_clique.getD x false = true ↔ x ∈ clq) :
    ∀ (l : List Nat) (acc : List Int × FastSet × FastSet), l.Nodup → (∀ x ∈ l, x < n) →
      SetsMatch n clq acc.1 acc.2.1 acc.2.2 →
      (∀ x ∈ l, x ∉ clq → 0 ≤ acc.1.getD x 0) →
      SetsMatch n clq (l.foldl (addStep in_clique) acc).1
          (l.foldl (addStep in_clique) acc).2.1 (l.foldl (addStep in_clique) acc).2.2 ∧
        ∀ x, (l.foldl (addStep in_clique) acc).1.getD x 0 =
          if x ∈ l ∧ x ∉ clq then acc.1.getD x 0 + 1 else acc.1.getD x 0 := by
  intro l
  induction l with
  | nil =>
    intro acc _ _ hm _
    exact ⟨hm, fun x => by rw [if_neg (fun e => absurd e.1 (List.not_mem_nil _))]; rfl⟩
  | cons u l ih =>
    intro acc hnd hl hm h0
    rw [List.foldl_cons]
    obtain ⟨hm1, ht1⟩ := addStep_spec n clq in_clique hflag acc u
      (hl u (List.mem_cons_self _ _)) hm (h0 u (List.mem_cons_self _ _))
    have hul : u ∉ l := (List.nodup_cons.mp hnd).1
    obtain ⟨hm2, ht2⟩ := ih (addStep in_clique acc u) (List.nodup_cons.mp hnd).2
      (fun x hx => hl x (List.mem_cons_of_mem _ hx)) hm1
      (fun x hx hxc => by
        rw [ht1 x, if_neg (fun (e : x = u ∧ u ∉ clq) => hul (e.1 ▸ hx))]
        exact h0 x (List.mem_cons_of_mem _ hx) hxc)
    refine ⟨hm2, fun x => ?_⟩
    rw [ht2 x, ht1 x]
    by_cases hxl : x ∈ l ∧ x ∉ clq
    · have hxu : x ≠ u := fun e => hul (e ▸ hxl.1)
      rw [if_pos hxl, if_neg (fun e => hxu e.1), if_pos ⟨List.mem_cons_of_mem _ hxl.1, hxl.2⟩]
    · rw [if_neg hxl]
      by_cases hxu : x = u ∧ u ∉ clq
      · rw [if_pos hxu, if_pos ⟨hxu.1 ▸ List.mem_cons_self _ _, hxu.1 ▸ hxu.2⟩]
      · rw [if_neg hxu, if_neg]
        rintro ⟨h1, h2⟩
        rcases List.mem_cons.mp h1 with e | e
        · exact hxu ⟨e, e ▸ h2⟩
        · exact hxl ⟨e, h2⟩

/-- One round of the loop of `RemoveFromClique`: the tightness of `u` goes
down by one when `u` is outside the clique, and `C0`, `C1` follow. -/
theorem removeStep_spec (n : Nat) (clq : List Nat) (in_clique : List Bool)
    (hflag : ∀ x, in_clique.getD x false = true ↔ x ∈ clq)
    (acc : List Int × FastSet × FastSet) (u : Nat) (hu : u < n)
    (hm : SetsMatch n clq acc.1 acc.2.1 acc.2.2)
    (h0 : u ∉ clq → 1 ≤ acc.1.getD u 0) :
    SetsMatch n clq (removeStep in_clique acc u).1 (removeStep in_clique acc u).2.1
        (removeStep in_clique acc u).2.2 ∧
      ∀ x, (removeStep in_clique acc u).1.getD x 0 =
        if x = u ∧ u ∉ clq then acc.1.getD x 0 - 1 else acc.1.getD x 0 := by
  unfold removeStep
  by_cases hin : in_clique.getD u false = true
  · rw [if_pos hin]
    have huc := (hflag u).mp hin
    exact ⟨hm, fun x => by rw [if_neg (fun e => e.2 huc)]⟩
  · rw [if_neg hin]
    have huc : u ∉ clq := fun e => hin ((hflag u).mpr e)
    have hul : u < acc.1.length := by rw [hm.len]; exact hu
    have hge := h0 huc
    have ht : ∀ x, (acc.1.set u (acc.1.getD u 0 - 1)).getD x 0 =
        if x = u ∧ u ∉ clq then acc.1.getD x 0 - 1 else acc.1.getD x 0 := by
      intro x
      rw [getD_tight_set _ _ _ _ hul]
      by_cases hx : x = u
      · rw [if_pos hx, if_pos ⟨hx, huc⟩, hx]
      · rw [if_neg hx, if_neg (fun e => hx e.1)]
    have ht' : ∀ x, (acc.1.set u (acc.1.getD u 0 - 1)).getD x 0 =
        if x = u then acc.1.getD u 0 - 1 else acc.1.getD x 0 :=
      fun x => getD_tight_set _ _ _ _ hul
    have hlen : (acc.1.set u (acc.1.getD u 0 - 1)).length = n := by
      rw [List.length_set]; exact hm.len
    simp only
    by_cases ho : acc.1.getD u 0 = 1
    · rw [if_pos ho]
      obtain ⟨w0, r0⟩ := hm.wf0.addOK u hu
      obtain ⟨w1, r1⟩ := hm.wf1.removeOK u hu
      refine ⟨⟨hlen, w0, w1, fun x => ?_, fun x => ?_⟩, ht⟩
      · rw [r0 x, hm.m0 x, ht' x]
        by_cases hx : x = u
        · rw [if_pos hx, ho, hx]
          exact ⟨fun _ => ⟨hu, huc, rfl⟩, fun _ => Or.inr rfl⟩
        · rw [if_neg hx]
          exact ⟨fun hh => hh.resolve_right hx, fun hh => Or.inl hh⟩
      · rw [r1 x, hm.m1 x, ht' x]
        by_cases hx : x = u
        · rw [if_pos hx, ho]
          exact ⟨fun hh => absurd hx hh.2, fun hh => absurd hh.2.2 (by decide)⟩
        · rw [if_neg hx]
          exact ⟨fun hh => hh.1, fun hh => ⟨hh, hx⟩⟩
    · rw [if_neg ho]
      by_cases h2 : acc.1.getD u 0 = 2
      · rw [if_pos h2]
        obtain ⟨w1, r1⟩ := hm.wf1.addOK u hu
        refine ⟨⟨hlen, hm.wf0, w1, fun x => ?_, fun x => ?_⟩, ht⟩
        · rw [hm.m0 x, ht' x]
          by_cases hx : x = u
          · rw [if_pos hx, h2, hx]
            exact ⟨fun hh => absurd (h2.symm.trans hh.2.2) (by decide),
              fun hh => absurd hh.2.2 (by decide)⟩
          · rw [if_neg hx]
        · rw [r1 x, hm.m1 x, ht' x]
          by_cases hx : x = u
          · rw [if_pos hx, h2, hx]
            exact ⟨fun _ => ⟨hu, huc, rfl⟩, fun _ => Or.inr rfl⟩
          · rw [if_neg hx]
            exact ⟨fun hh => hh.resolve_right hx, fun hh => Or.inl hh⟩
      · rw [if_neg h2]
        refine ⟨⟨hlen, hm.wf0, hm.wf1, fun x => ?_, fun x => ?_⟩, ht⟩
        · rw [hm.m0 x, ht' x]
          by_cases hx : x = u
          · rw [if_pos hx, hx]
            exact ⟨fun hh => by omega, fun hh => by omega⟩
          · rw [if_neg hx]
        · rw [hm.m1 x, ht' x]
          by_cases hx : x = u
          · rw [if_pos hx, hx]
            exact ⟨fun hh => absurd hh.2.2 ho, fun hh => by omega⟩
          · rw [if_neg hx]

theorem removeLoop_spec (n : Nat) (clq : List Nat) (in_clique : List Bool)
    (hflag : ∀ x, in_clique.getD x false = true ↔ x ∈ clq) :
    ∀ (l : List Nat) (acc : List Int × FastSet × FastSet), l.Nodup → (∀ x ∈ l, x < n) →
      SetsMatch n clq acc.1 acc.2.1 acc.2.2 →
      (∀ x ∈ l, x ∉ clq → 1 ≤ acc.1.getD x 0) →
      SetsMatch n clq (l.foldl (removeStep in_clique) acc).1
          (l.foldl (removeStep in_clique) acc).2.1
          (l.foldl (removeStep in_clique) acc).2.2 ∧
        ∀ x, (l.foldl (removeStep in_clique) acc).1.getD x 0 =
          if x ∈ l ∧ x ∉ clq then acc.1.getD x 0 - 1 else acc.1.getD x 0 := by
  intro l
  induction l with
  | nil =>
    intro acc _ _ hm _
    exact ⟨hm, fun x => by rw [if_neg (fun e => absurd e.1 (List.not_mem_nil _))]; rfl⟩
  | cons u l ih =>
    intro acc hnd hl hm h0
    rw [List.foldl_cons]
    obtain ⟨hm1, ht1⟩ := removeStep_spec n clq in_clique hflag acc u
      (hl u (List.mem_cons_self _ _)) hm (h0 u (List.mem_cons_self _ _))
    have hul : u ∉ l := (List.nodup_cons.mp hnd).1
    obtain ⟨hm2, ht2⟩ := ih (removeStep in_clique acc u) (List.nodup_cons.mp hnd).2
      (fun x hx => hl x (List.mem_cons_of_mem _ hx)) hm1
      (fun x hx hxc => by
        rw [ht1 x, if_neg (fun (e : x = u ∧ u ∉ clq) => hul (e.1 ▸ hx))]
        exact h0 x (List.mem_cons_of_mem _ hx) hxc)
    refine ⟨hm2, fun x => ?_⟩
    rw [ht2 x, ht1 x]
    by_cases hxl : x ∈ l ∧ x ∉ clq
    · have hxu : x ≠ u := fun e => hul (e ▸ hxl.1)
      rw [if_pos hxl, if_neg (fun e => hxu e.1), if_pos ⟨List.mem_cons_of_mem _ hxl.1, hxl.2⟩]
    · rw [if_neg hxl]
      by_cases hxu : x = u ∧ u ∉ clq
      · rw [if_pos hxu, if_pos ⟨hxu.1 ▸ List.mem_cons_self _ _, hxu.1 ▸ hxu.2⟩]
      · rw [if_neg hxu, if_neg]
        rintro ⟨h1, h2⟩
        rcases List.mem_cons.mp h1 with e | e
        · exact hxu ⟨e, e ▸ h2⟩
        · exact hxl ⟨e, h2⟩

/-! ## Lab 3: `AddToClique` and `RemoveFromClique` -/

theorem conflicts_push (nn : List (List Nat)) (clique : List Nat) (v u : Nat)
    (hv : v ∉ clique) :
    conflicts nn (clique ++ [v]) u =
      conflicts nn clique u + (if u ∈ nn.getD v [] then 1 else 0) := by
  unfold conflicts
  have hset : (clique ++ [v]).toFinset = insert v clique.toFinset := by
    ext x
    simp only [List.toFinset_append, List.toFinset_cons, List.toFinset_nil, Finset.mem_union,
      List.mem_toFinset, Finset.mem_insert, Finset.mem_singleton, insert_emptyc_eq]
    tauto
  have hvf : v ∉ clique.toFinset := fun e => hv (List.mem_toFinset.mp e)
  rw [hset, Finset.filter_insert]
  by_cases hu : u ∈ nn.getD v []
  · rw [if_pos hu, if_pos hu, Finset.card_insert_of_not_mem]
    intro e
    exact hvf (Finset.mem_filter.mp e).1
  · rw [if_neg hu, if_neg hu, Nat.add_zero]

theorem conflicts_drop (nn : List (List Nat)) (clique clique1 : List Nat) (v u : Nat)
    (hv : v ∈ clique) (hmem : ∀ x, x ∈ clique1 ↔ x ∈ clique ∧ x ≠ v) :
    conflicts nn clique u =
      conflicts nn clique1 u + (if u ∈ nn.getD v [] then 1 else 0) := by
  unfold conflicts
  have hset : clique.toFinset = insert v clique1.toFinset := by
    ext x
    simp only [List.mem_toFinset, Finset.mem_insert, hmem x]
    constructor
    · intro hx
      by_cases hxv : x = v
      · exact Or.inl hxv
      · exact Or.inr ⟨hx, hxv⟩
    · rintro (hx | hx)
      · rw [hx]; exact hv
      · exact hx.1
  have hvf : v ∉ clique1.toFinset := fun e => ((hmem v).mp (List.mem_toFinset.mp e)).2 rfl
  rw [hset, Finset.filter_insert]
  by_cases hu : u ∈ nn.getD v []
  · rw [if_pos hu, if_pos hu, Finset.card_insert_of_not_mem]
    intro e
    exact hvf (Finset.mem_filter.mp e).1
  · rw [if_neg hu, if_neg hu, Nat.add_zero]

theorem conflicts_eq_zero (nn : List (List Nat)) (clique : List Nat) (u : Nat) :
    conflicts nn clique u = 0 ↔ ∀ w ∈ clique, u ∉ nn.getD w [] := by
  unfold conflicts
  rw [Finset.card_eq_zero, Finset.filter_eq_empty_iff]
  constructor
  · intro h w hw; exact h (List.mem_toFinset.mpr hw)
  · intro h w hw; exact h w (List.mem_toFinset.mp hw)

theorem conflicts_pos (nn : List (List Nat)) (clique : List Nat) (u w : Nat)
    (hw : w ∈ clique) (hu : u ∈ nn.getD w []) : 1 ≤ conflicts nn clique u := by
  rw [Nat.one_le_iff_ne_zero]
  intro h0
  exact (conflicts_eq_zero nn clique u).mp h0 w hw hu

theorem SearchInv.clique_lt {sets nn : List (List Nat)} {s : State}
    (h : SearchInv sets nn s) (a : Nat) (ha : a ∈ s.clique) : a < sets.length :=
  ((h.cliqueWF.mem_iff a).mp ha).1

theorem getD_flag_set (l : List Bool) (v x : Nat) (b : Bool) (hv : v < l.length) :
    (l.set v b).getD x false = if x = v then b else l.getD x false := by
  rw [BnBSolver.getD_set_any]
  by_cases hx : x = v
  · rw [if_pos ⟨hx.symm, hv⟩, if_pos hx]
  · rw [if_neg (fun e => hx e.1.symm), if_neg hx]

/-- The call `AddToClique(v)` for a vertex `v` outside the clique with
`tight[v] = 0` keeps the invariant of the search state. -/
theorem AddToClique_inv {sets nn : List (List Nat)} (hg : TabuGraph sets nn) {s : State}
    (h : SearchInv sets nn s) (v : Nat) (hv : v < sets.length) (hvc : v ∉ s.clique)
    (ht : s.tight.getD v 0 = 0) :
    Moved sets nn s (AddToClique s v) ∧ (AddToClique s v).clique = s.clique ++ [v] := by
  have hposv : s.pos_in_clique.getD v (-1) = -1 := by
    by_contra hc
    exact hvc (h.cliqueWF.2.2 v hv hc)
  have hAdd : (⟨s.clique, s.pos_in_clique⟩ : FastSet).Add v =
      ⟨s.clique ++ [v], s.pos_in_clique.set v (s.clique.length : Nat)⟩ := by
    unfold FastSet.Add
    rw [if_neg (by simpa using hposv)]
  obtain ⟨wfc, memc⟩ := h.cliqueWF.addOK v hv
  rw [hAdd] at wfc memc
  have hvf : v < s.in_clique.length := by rw [h.flagLen]; exact hv
  have hvt : v < s.tight.length := by rw [h.tightLen]; exact hv
  have hflag : ∀ x, (s.in_clique.set v true).getD x false = true ↔ x ∈ s.clique ++ [v] := by
    intro x
    rw [getD_flag_set _ _ _ _ hvf, List.mem_append, List.mem_singleton]
    by_cases hx : x = v
    · rw [if_pos hx]; exact ⟨fun _ => Or.inr hx, fun _ => rfl⟩
    · rw [if_neg hx, h.flag x]
      exact ⟨Or.inl, fun hh => hh.resolve_right hx⟩
  have hnotin : ∀ x, x ∉ s.clique ++ [v] ↔ x ∉ s.clique ∧ x ≠ v := by
    intro x
    rw [List.mem_append, List.mem_singleton, not_or]
  obtain ⟨w0, r0⟩ := h.c0WF.removeOK v hv
  obtain ⟨w1, r1⟩ := h.c1WF.removeOK v hv
  have hm0 : SetsMatch sets.length (s.clique ++ [v]) (s.tight.set v 0) (s.C0.Remove v)
      (s.C1.Remove v) := by
    refine ⟨by rw [List.length_set]; exact h.tightLen, w0, w1, fun x => ?_, fun x => ?_⟩
    · rw [r0 x, h.c0 x, hnotin x, getD_tight_set _ _ _ _ hvt]
      by_cases hx : x = v
      · rw [if_pos hx]
        exact ⟨fun hh => absurd hx hh.2, fun hh => absurd hx hh.2.1.2⟩
      · rw [if_neg hx]
        exact ⟨fun hh => ⟨hh.1.1, ⟨hh.1.2.1, hx⟩, hh.1.2.2⟩,
          fun hh => ⟨⟨hh.1, hh.2.1.1, hh.2.2⟩, hx⟩⟩
    · rw [r1 x, h.c1 x, hnotin x, getD_tight_set _ _ _ _ hvt]
      by_cases hx : x = v
      · rw [if_pos hx]
        exact ⟨fun hh => absurd hx hh.2, fun hh => absurd hx hh.2.1.2⟩
      · rw [if_neg hx]
        exact ⟨fun hh => ⟨hh.1.1, ⟨hh.1.2.1, hx⟩, hh.1.2.2⟩,
          fun hh => ⟨⟨hh.1, hh.2.1.1, hh.2.2⟩, hx⟩⟩
  have hnnv : ∀ x ∈ nn.getD v [], x < sets.length ∧ x ≠ v :=
    fun x hx => ⟨((hg.nnSpec v x).mp hx).2.1, ((hg.nnSpec v x).mp hx).2.2.1⟩
  obtain ⟨hm, htl⟩ := addLoop_spec sets.length (s.clique ++ [v]) (s.in_clique.set v true)
    hflag (nn.getD v []) (s.tight.set v 0, s.C0.Remove v, s.C1.Remove v) (hg.nnNodup v)
    (fun x hx => (hnnv x hx).1) hm0
    (fun x hx hxc => by
      simp only
      rw [getD_tight_set _ _ _ _ hvt, if_neg (hnnv x hx).2,
        h.tight x (hnnv x hx).1 ((hnotin x).mp hxc).1]
      exact Int.ofNat_nonneg _)
  have hadj : ∀ a ∈ s.clique ++ [v], ∀ b ∈ s.clique ++ [v], a ≠ b → b ∈ sets.getD a [] := by
    have hz : conflicts nn s.clique v = 0 := by
      have := h.tight v hv hvc
      rw [ht] at this
      exact_mod_cast this.symm
    have hva : ∀ a ∈ s.clique, v ∈ sets.getD a [] := by
      intro a ha
      have hna := (conflicts_eq_zero nn s.clique v).mp hz a ha
      by_contra hc
      exact hna ((hg.nnSpec a v).mpr ⟨h.clique_lt a ha, hv, fun e => hvc (e ▸ ha), hc⟩)
    intro a ha b hb hab
    rw [List.mem_append, List.mem_singleton] at ha hb
    rcases ha with ha | ha <;> rcases hb with hb | hb
    · exact h.adj a ha b hb hab
    · rw [hb]; exact hva a ha
    · rw [ha]; exact hg.sym b (h.clique_lt b hb) v (hva b hb)
    · exact absurd (ha.trans hb.symm) hab
  have htight : ∀ u, u < sets.length → u ∉ s.clique ++ [v] →
      ((nn.getD v []).foldl (addStep (s.in_clique.set v true))
        (s.tight.set v 0, s.C0.Remove v, s.C1.Remove v)).1.getD u 0 =
        ((conflicts nn (s.clique ++ [v]) u : Nat) : Int) := by
    intro u hu huc
    obtain ⟨huc1, huv⟩ := (hnotin u).mp huc
    rw [htl u, conflicts_push nn s.clique v u hvc]
    simp only
    rw [getD_tight_set _ _ _ _ hvt, if_neg huv, h.tight u hu huc1]
    by_cases hun : u ∈ nn.getD v []
    · rw [if_pos ⟨hun, huc⟩, if_pos hun]; push_cast; rfl
    · rw [if_neg (fun e => hun e.1), if_neg hun]; push_cast; rfl
  have hst : AddToClique s v =
      { s with
        in_clique := s.in_clique.set v true
        pos_in_clique := s.pos_in_clique.set v (s.clique.length : Nat)
        clique := s.clique ++ [v]
        freq := s.freq.set v (s.freq.getD v 0 + 1)
        tight := ((nn.getD v []).foldl (addStep (s.in_clique.set v true))
          (s.tight.set v 0, s.C0.Remove v, s.C1.Remove v)).1
        C0 := ((nn.getD v []).foldl (addStep (s.in_clique.set v true))
          (s.tight.set v 0, s.C0.Remove v, s.C1.Remove v)).2.1
        C1 := ((nn.getD v []).foldl (addStep (s.in_clique.set v true))
          (s.tight.set v 0, s.C0.Remove v, s.C1.Remove v)).2.2 } := by
    unfold AddToClique
    rw [h.nn_eq]
  rw [hst]
  exact ⟨⟨⟨h.sets_eq, h.nn_eq, wfc, by simp only [List.length_set]; exact h.flagLen, hflag,
    hadj, hm.len, htight, hm.wf0, hm.wf1, hm.m0, hm.m1⟩, rfl, rfl⟩, rfl⟩

/-- The call `RemoveFromClique(v)` keeps the invariant of the search state and
leaves in the clique exactly its other vertices. -/
theorem RemoveFromClique_inv {sets nn : List (List Nat)} (hg : TabuGraph sets nn) {s : State}
    (h : SearchInv sets nn s) (v : Nat) (hv : v < sets.length) :
    Moved sets nn s (RemoveFromClique s v) ∧
      ∀ x, x ∈ (RemoveFromClique s v).clique ↔ x ∈ s.clique ∧ x ≠ v := by
  by_cases hp : s.pos_in_clique.getD v (-1) = -1
  · have hst : RemoveFromClique s v = s := by
      unfold RemoveFromClique
      simp only [if_pos hp]
    rw [hst]
    refine ⟨⟨h, rfl, rfl⟩, fun x => ⟨fun hx => ⟨hx, ?_⟩, fun hx => hx.1⟩⟩
    intro e
    rw [e] at hx
    exact ((h.cliqueWF.mem_iff v).mp hx).2 hp
  · have hvm : v ∈ s.clique := h.cliqueWF.2.2 v hv hp
    have hRem : (⟨s.clique, s.pos_in_clique⟩ : FastSet).Remove v =
        ⟨(s.clique.set (s.pos_in_clique.getD v (-1)).toNat (s.clique.getLastD 0)).dropLast,
          (s.pos_in_clique.set (s.clique.getLastD 0) (s.pos_in_clique.getD v (-1))).set v
            (-1)⟩ := by
      unfold FastSet.Remove
      simp only [if_neg hp]
    obtain ⟨wfc, memc⟩ := h.cliqueWF.removeOK v hv
    rw [hRem] at wfc memc
    simp only at memc
    generalize hclq : (s.clique.set (s.pos_in_clique.getD v (-1)).toNat
      (s.clique.getLastD 0)).dropLast = clq at wfc memc
    have hvf : v < s.in_clique.length := by rw [h.flagLen]; exact hv
    have hvt : v < s.tight.length := by rw [h.tightLen]; exact hv
    have hflag : ∀ x, (s.in_clique.set v false).getD x false = true ↔ x ∈ clq := by
      intro x
      rw [getD_flag_set _ _ _ _ hvf, memc x]
      by_cases hx : x = v
      · rw [if_pos hx]; exact ⟨fun hh => absurd hh (by decide), fun hh => absurd hx hh.2⟩
      · rw [if_neg hx, h.flag x]
        exact ⟨fun hh => ⟨hh, hx⟩, fun hh => hh.1⟩
    have hnotin : ∀ x, x ≠ v → (x ∉ clq ↔ x ∉ s.clique) := by
      intro x hx
      rw [memc x]
      exact ⟨fun hh e => hh ⟨e, hx⟩, fun hh e => hh e.1⟩
    have hvclq : v ∉ clq := fun e => ((memc v).mp e).2 rfl
    obtain ⟨w0, r0⟩ := h.c0WF.addOK v hv
    obtain ⟨w1, r1⟩ := h.c1WF.removeOK v hv
    have hm0 : SetsMatch sets.length clq (s.tight.set v 0) (s.C0.Add v) (s.C1.Remove v) := by
      refine ⟨by rw [List.length_set]; exact h.tightLen, w0, w1, fun x => ?_, fun x => ?_⟩
      · rw [r0 x, h.c0 x, getD_tight_set _ _ _ _ hvt]
        by_cases hx : x = v
        · rw [if_pos hx, hx]
          exact ⟨fun _ => ⟨hv, hvclq, rfl⟩, fun _ => Or.inr rfl⟩
        · rw [if_neg hx, hnotin x hx]
          exact ⟨fun hh => hh.resolve_right hx, Or.inl⟩
      · rw [r1 x, h.c1 x, getD_tight_set _ _ _ _ hvt]
        by_cases hx : x = v
        · rw [if_pos hx]
          exact ⟨fun hh => absurd hx hh.2, fun hh => absurd hh.2.2 (by decide)⟩
        · rw [if_neg hx, hnotin x hx]
          exact ⟨fun hh => hh.1, fun hh => ⟨hh, hx⟩⟩
    have hnnv : ∀ x ∈ nn.getD v [], x < sets.length ∧ x ≠ v :=
      fun x hx => ⟨((hg.nnSpec v x).mp hx).2.1, ((hg.nnSpec v x).mp hx).2.2.1⟩
    obtain ⟨hm, htl⟩ := removeLoop_spec sets.length clq (s.in_clique.set v false)
      hflag (nn.getD v []) (s.tight.set v 0, s.C0.Add v, s.C1.Remove v) (hg.nnNodup v)
      (fun x hx => (hnnv x hx).1) hm0
      (fun x hx hxc => by
        simp only
        rw [getD_tight_set _ _ _ _ hvt, if_neg (hnnv x hx).2,
          h.tight x (hnnv x hx).1 ((hnotin x (hnnv x hx).2).mp hxc)]
        exact_mod_cast conflicts_pos nn s.clique x v hvm hx)
    have hadj : ∀ a ∈ clq, ∀ b ∈ clq, a ≠ b → b ∈ sets.getD a [] :=
      fun a ha b hb hab => h.adj a ((memc a).mp ha).1 b ((memc b).mp hb).1 hab
    have htight : ∀ u, u < sets.length → u ∉ clq →
        ((nn.getD v []).foldl (removeStep (s.in_clique.set v false))
          (s.tight.set v 0, s.C0.Add v, s.C1.Remove v)).1.getD u 0 =
          ((conflicts nn clq u : Nat) : Int) := by
      intro u hu huc
      rw [htl u]
      simp only
      rw [getD_tight_set _ _ _ _ hvt]
      by_cases huv : u = v
      · have hvn : v ∉ nn.getD v [] := fun e => (hnnv v e).2 rfl
        rw [huv, if_neg (fun e => hvn e.1), if_pos rfl]
        have hz : conflicts nn clq v = 0 := by
          rw [conflicts_eq_zero]
          intro w hw hvw
          obtain ⟨hw1, hw2⟩ := (memc w).mp hw
          exact ((hg.nnSpec w v).mp hvw).2.2.2 (h.adj w hw1 v hvm hw2)
        rw [hz]; rfl
      · have huc1 := (hnotin u huv).mp huc
        rw [if_neg huv, h.tight u hu huc1, conflicts_drop nn s.clique clq v u hvm memc]
        by_cases hun : u ∈ nn.getD v []
        · rw [if_pos ⟨hun, huc⟩, if_pos hun]; push_cast; omega
        · rw [if_neg (fun e => hun e.1), if_neg hun]; push_cast; omega
    have hst : RemoveFromClique s v =
        { s with
          clique := clq
          pos_in_clique :=
            (s.pos_in_clique.set (s.clique.getLastD 0) (s.pos_in_clique.getD v (-1))).set v
              (-1)
          in_clique := s.in_clique.set v false
          tight := ((nn.getD v []).foldl (removeStep (s.in_clique.set v false))
            (s.tight.set v 0, s.C0.Add v, s.C1.Remove v)).1
          C0 := ((nn.getD v []).foldl (removeStep (s.in_clique.set v false))
            (s.tight.set v 0, s.C0.Add v, s.C1.Remove v)).2.1
          C1 := ((nn.getD v []).foldl (removeStep (s.in_clique.set v false))
            (s.tight.set v 0, s.C0.Add v, s.C1.Remove v)).2.2 } := by
      unfold RemoveFromClique
      simp only [if_neg hp]
      rw [h.nn_eq, hclq]
    rw [hst]
    exact ⟨⟨⟨h.sets_eq, h.nn_eq, wfc, by simp only [List.length_set]; exact h.flagLen, hflag,
      hadj, hm.len, htight, hm.wf0, hm.wf1, hm.m0, hm.m1⟩, rfl, rfl⟩, memc⟩

/-! ## Lab 3: the moves of the search -/

theorem SameSearch.inv {sets nn : List (List Nat)} {s s1 : State} (h : SameSearch s s1)
    (hi : SearchInv sets nn s) : SearchInv sets nn s1 := by
  obtain ⟨a1, a2, a3, a4, a5, a6, a7, a8, a9, a10, a11, a12⟩ := hi
  refine ⟨?_, ?_, ?_, ?_, ?_, ?_, ?_, ?_, ?_, ?_, ?_, ?_⟩
  · rw [h.neighbour_sets]; exact a1
  · rw [h.non_neighbours]; exact a2
  · rw [h.clique, h.pos_in_clique]; exact a3
  · rw [h.in_clique]; exact a4
  · rw [h.in_clique, h.clique]; exact a5
  · rw [h.clique]; exact a6
  · rw [h.tight]; exact a7
  · rw [h.tight, h.clique]; exact a8
  · rw [h.c0]; exact a9
  · rw [h.c1]; exact a10
  · rw [h.c0, h.clique, h.tight]; exact a11
  · rw [h.c1, h.clique, h.tight]; exact a12

theorem foldl_Add_spec (n : Nat) :
    ∀ (l : List Nat) (f : FastSet), f.WF n → (∀ x ∈ l, x < n) →
      (l.foldl (fun f v => f.Add v) f).WF n ∧
        ∀ x, x ∈ (l.foldl (fun f v => f.Add v) f).items ↔ x ∈ f.items ∨ x ∈ l := by
  intro l
  induction l with
  | nil =>
    intro f h _
    exact ⟨h, fun x => ⟨Or.inl, fun hh => hh.resolve_right (List.not_mem_nil _)⟩⟩
  | cons a l ih =>
    intro f h hl
    rw [List.foldl_cons]
    obtain ⟨w, r⟩ := h.addOK a (hl a (List.mem_cons_self _ _))
    obtain ⟨w1, r1⟩ := ih (f.Add a) w (fun x hx => hl x (List.mem_cons_of_mem _ hx))
    refine ⟨w1, fun x => ?_⟩
    rw [r1 x, r x, List.mem_cons]
    tauto

theorem getD_replicate_default {α : Type} (n v : Nat) (d : α) :
    (List.replicate n d).getD v d = d := by
  rw [List.getD_eq_getElem?_getD, List.getElem?_replicate]
  split_ifs <;> rfl

/-- The state `InitializeState(n)` leaves satisfies the invariant: the clique
is empty and every vertex is in `C0`. -/
theorem InitializeState_inv (s : State) :
    SearchInv s.neighbour_sets s.non_neighbours
      (InitializeState s s.neighbour_sets.length) ∧
    (InitializeState s s.neighbour_sets.length).best_clique = s.best_clique ∧
    (InitializeState s s.neighbour_sets.length).C0.items.length
      ≤ s.neighbour_sets.length := by
  obtain ⟨w0, r0⟩ := foldl_Add_spec s.neighbour_sets.length
    (List.range s.neighbour_sets.length) (FastSet.Init s.neighbour_sets.length)
    (FastSet.initOK _) (fun x hx => List.mem_range.mp hx)
  have hsub : ((List.range s.neighbour_sets.length).foldl (fun f v => f.Add v)
      (FastSet.Init s.neighbour_sets.length)).items ⊆ List.range s.neighbour_sets.length := by
    intro x hx
    rcases (r0 x).mp hx with hh | hh
    · exact absurd hh (List.not_mem_nil _)
    · exact hh
  refine ⟨⟨rfl, rfl, FastSet.initOK _, List.length_replicate _ _, fun v => ?_,
    fun a ha => absurd ha (List.not_mem_nil _), List.length_replicate _ _, fun u _ _ => ?_,
    w0, FastSet.initOK _, fun v => ?_, fun v => ?_⟩, rfl, ?_⟩
  · show (List.replicate s.neighbour_sets.length false).getD v false = true ↔ v ∈ []
    rw [getD_replicate_default]
    exact ⟨fun hh => absurd hh (by decide), fun hh => absurd hh (List.not_mem_nil _)⟩
  · show (List.replicate s.neighbour_sets.length (0 : Int)).getD u 0 =
      ((conflicts s.non_neighbours [] u : Nat) : Int)
    rw [getD_replicate_default]
    rfl
  · show v ∈ ((List.range s.neighbour_sets.length).foldl (fun f v => f.Add v)
        (FastSet.Init s.neighbour_sets.length)).items ↔
      v < s.neighbour_sets.length ∧ v ∉ [] ∧
        (List.replicate s.neighbour_sets.length (0 : Int)).getD v 0 = 0
    rw [r0 v, getD_replicate_default, List.mem_range]
    exact ⟨fun hh => ⟨hh.resolve_left (List.not_mem_nil _), List.not_mem_nil _, rfl⟩,
      fun hh => Or.inr hh.1⟩
  · show v ∈ (FastSet.Init s.neighbour_sets.length).items ↔
      v < s.neighbour_sets.length ∧ v ∉ [] ∧
        (List.replicate s.neighbour_sets.length (0 : Int)).getD v 0 = 1
    rw [getD_replicate_default]
    exact ⟨fun hh => absurd hh (List.not_mem_nil _), fun hh => absurd hh.2.2 (by decide)⟩
  · have hle := (List.subperm_of_subset w0.nodup hsub).length_le
    rw [List.length_range] at hle
    exact hle

theorem readLoop_spec :
    ∀ (recs : List Record) (vertices : Int) (s : State) (v1 : Int) (s1 : State),
      MaxCliqueProblem.GraphOK s.neighbour_sets →
      vertices = (s.neighbour_sets.length : Int) →
      s.non_neighbours = List.replicate vertices.toNat [] →
      growingFile vertices recs = true →
      readLoop vertices s recs = some (v1, s1) →
      MaxCliqueProblem.GraphOK s1.neighbour_sets ∧
        v1 = (s1.neighbour_sets.length : Int) ∧
        s1.non_neighbours = List.replicate v1.toNat [] ∧
        s1.best_clique = s.best_clique := by
  intro recs
  induction recs with
  | nil =>
    intro vertices s v1 s1 h hv hnn _ heq
    simp only [readLoop, Option.some.injEq, Prod.mk.injEq] at heq
    rw [← heq.1, ← heq.2]
    exact ⟨h, hv, hnn, rfl⟩
  | cons r recs ih =>
    intro vertices s v1 s1 h hv hnn hfile heq
    cases r with
    | comment =>
      rw [readLoop] at heq
      rw [growingFile] at hfile
      exact ih vertices s v1 s1 h hv hnn hfile heq
    | header v =>
      rw [growingFile, Bool.and_eq_true, decide_eq_true_eq] at hfile
      have hv0 : ¬ v < 0 := by omega
      rw [readLoop, if_neg hv0] at heq
      exact ih v
        { s with
          neighbour_sets := ColoringProblem.resize s.neighbour_sets v.toNat
          non_neighbours := List.replicate v.toNat []
          degrees := List.replicate v.toNat 0 } v1 s1
        (MaxCliqueProblem.GraphOK.resizeGrow h _ (by omega))
        (by simp only [ColoringProblem.length_resize]; omega) rfl hfile.2 heq
    | edge start finish =>
      rw [growingFile] at hfile
      by_cases hr : start - 1 < 0 ∨ start - 1 ≥ (s.neighbour_sets.length : Int) ∨
          finish - 1 < 0 ∨ finish - 1 ≥ (s.neighbour_sets.length : Int)
      · rw [readLoop, if_pos hr] at heq
        exact absurd heq (by simp)
      · rw [readLoop, if_neg hr] at heq
        exact ih vertices
          { s with
            neighbour_sets :=
              ColoringProblem.insertAt
                (ColoringProblem.insertAt s.neighbour_sets (start - 1).toNat
                  (finish - 1).toNat)
                (finish - 1).toNat (start - 1).toNat } v1 s1
          (MaxCliqueProblem.GraphOK.insertPair h _ _ (by omega) (by omega))
          (by simp only [ColoringProblem.length_insertAt]; exact hv) hnn hfile heq

theorem getD_nn_fold (g : Nat → List Nat) :
    ∀ (l : List Nat) (nn0 : List (List Nat)), l.Nodup → ∀ w,
      (l.foldl (fun nn i => nn.set i (nn.getD i [] ++ g i)) nn0).getD w [] =
        if w ∈ l ∧ w < nn0.length then nn0.getD w [] ++ g w else nn0.getD w [] := by
  intro l
  induction l with
  | nil =>
    intro nn0 _ w
    rw [if_neg (fun e => absurd e.1 (List.not_mem_nil _))]
    rfl
  | cons a l ih =>
    intro nn0 hnd w
    have hal : a ∉ l := (List.nodup_cons.mp hnd).1
    rw [List.foldl_cons, ih _ (List.nodup_cons.mp hnd).2 w, List.length_set,
      BnBSolver.getD_set_any]
    by_cases hwl : w ∈ l ∧ w < nn0.length
    · have hwa : a ≠ w := fun e => hal (e ▸ hwl.1)
      rw [if_pos hwl, if_neg (fun e => hwa e.1), if_pos ⟨List.mem_cons_of_mem _ hwl.1, hwl.2⟩]
    · rw [if_neg hwl]
      by_cases haw : a = w ∧ a < nn0.length
      · rw [if_pos haw, if_pos ⟨haw.1 ▸ List.mem_cons_self _ _, haw.1 ▸ haw.2⟩, haw.1]
      · rw [if_neg haw, if_neg]
        rintro ⟨h1, h2⟩
        rcases List.mem_cons.mp h1 with e | e
        · exact haw ⟨e.symm, e ▸ h2⟩
        · exact hwl ⟨e, h2⟩

/-- The graph `ReadGraphFile` leaves in a fresh object, for a file whose `p`
lines never lower the vertex count: adjacency is symmetric and the lists
`non_neighbours` are the complements of the sets. -/
theorem ReadGraphFile_graph (rng : List Nat) (decisions : List Bool) (recs : List Record)
    (s : State) (hfile : growingFile 0 recs = true)
    (hread : ReadGraphFile (newSearch rng decisions) recs = some s) :
    TabuGraph s.neighbour_sets s.non_neighbours ∧ s.best_clique = [] := by
  unfold ReadGraphFile at hread
  cases hrl : readLoop 0 (newSearch rng decisions) recs with
  | none => rw [hrl] at hread; exact absurd hread (by simp)
  | some r =>
    obtain ⟨v1, s1⟩ := r
    rw [hrl] at hread
    simp only [Option.some.injEq] at hread
    obtain ⟨hg, hv1, hnn, hbc⟩ := readLoop_spec recs 0 (newSearch rng decisions) v1 s1
      MaxCliqueProblem.graphOK_empty rfl rfl hfile hrl
    have hn : v1.toNat = s1.neighbour_sets.length := by omega
    rw [hn] at hread hnn
    rw [← hread]
    refine ⟨⟨hg.sym, fun w u => ?_, fun w => ?_⟩, hbc⟩
    · show u ∈ ((List.range s1.neighbour_sets.length).foldl
          (fun nn i => nn.set i
            (nn.getD i [] ++ (List.range s1.neighbour_sets.length).filter
              (fun j => i != j && !(s1.neighbour_sets.getD i []).contains j)))
          s1.non_neighbours).getD w [] ↔
        w < s1.neighbour_sets.length ∧ u < s1.neighbour_sets.length ∧ u ≠ w ∧
          u ∉ s1.neighbour_sets.getD w []
      rw [getD_nn_fold (fun i => (List.range s1.neighbour_sets.length).filter
        (fun j => i != j && !(s1.neighbour_sets.getD i []).contains j)) _ _
        (List.nodup_range _) w, hnn, List.length_replicate, getD_replicate_default]
      by_cases hw : w < s1.neighbour_sets.length
      · rw [if_pos ⟨List.mem_range.mpr hw, hw⟩, List.nil_append, List.mem_filter,
          List.mem_range, Bool.and_eq_true, bne_iff_ne, Bool.not_eq_true',
          ← Bool.not_eq_true, MaxCliqueProblem.contains_true_iff]
        exact ⟨fun hh => ⟨hw, hh.1, fun e => hh.2.1 e.symm, hh.2.2⟩,
          fun hh => ⟨hh.2.1, fun e => hh.2.2.1 e.symm, hh.2.2.2⟩⟩
      · rw [if_neg (fun e => hw e.2)]
        exact ⟨fun hh => absurd hh (List.not_mem_nil _), fun hh => absurd hh.1 hw⟩
    · show (((List.range s1.neighbour_sets.length).foldl
          (fun nn i => nn.set i
            (nn.getD i [] ++ (List.range s1.neighbour_sets.length).filter
              (fun j => i != j && !(s1.neighbour_sets.getD i []).contains j)))
          s1.non_neighbours).getD w []).Nodup
      rw [getD_nn_fold (fun i => (List.range s1.neighbour_sets.length).filter
        (fun j => i != j && !(s1.neighbour_sets.getD i []).contains j)) _ _
        (List.nodup_range _) w, hnn, getD_replicate_default]
      split_ifs
      · rw [List.nil_append]
        exact (List.nodup_range _).filter _
      · exact List.nodup_nil

end MaxCliqueTabuSearch

namespace BnBSolver

/-! ## Words and bit positions -/

/-- The number of words of a row is the ceiling of `n / 64`. -/
theorem words_eq_ceil (n : Nat) : (n + 63) / 64 = ⌈(n : ℚ) / 64⌉₊ := by
  symm
  by_cases h0 : n = 0
  · subst h0; simp
  · have hw : (n + 63) / 64 ≠ 0 := by omega
    rw [Nat.ceil_eq_iff hw]
    have h1 : 64 * ((n + 63) / 64 - 1) < n := by omega
    have h2 : n ≤ 64 * ((n + 63) / 64) := by omega
    have h1q : (64 : ℚ) * (((n + 63) / 64 - 1 : Nat) : ℚ) < (n : ℚ) := by exact_mod_cast h1
    have h2q : (n : ℚ) ≤ (64 : ℚ) * (((n + 63) / 64 : Nat) : ℚ) := by exact_mod_cast h2
    constructor
    · rw [lt_div_iff₀ (by norm_num : (0 : ℚ) < 64)]
      linarith
    · rw [div_le_iff₀ (by norm_num : (0 : ℚ) < 64)]
      linarith

/-- In a state with the sizes `ReadGraphFile` gives its vectors, every bit
access on vertices of `[0, n)` stays inside its row of `words` words. -/
theorem row_access_in_range (s : State) (hshape : GraphShape s) :
    s.words = ⌈(s.n : ℚ) / 64⌉₊ ∧
    (s.n ≤ 64 * s.words ∧ ∀ w, s.n ≤ 64 * w → s.words ≤ w) ∧
    ∀ v, v < s.n →
      v >>> 6 < s.words ∧ v &&& 63 < 64 ∧ 64 * (v >>> 6) + (v &&& 63) = v ∧
      (∀ u, u < s.n →
        u * s.words ≤ u * s.words + (v >>> 6) ∧
        u * s.words + (v >>> 6) < (u + 1) * s.words ∧
        u * s.words + (v >>> 6) < s.adj.length ∧
        (SetEdge s u v).adj.length = s.adj.length ∧
        ∀ j, (j < u * s.words ∨ (u + 1) * s.words ≤ j) →
          (SetEdge s u v).adj.getD j 0 = s.adj.getD j 0) ∧
      (∀ bs : List Nat, bs.length = s.words →
        v >>> 6 < bs.length ∧ (SetBit bs v).length = bs.length) := by
  have hw := hshape.words_eq
  refine ⟨?_, ⟨by omega, fun w hw1 => by omega⟩, ?_⟩
  · rw [hw]; exact words_eq_ceil s.n
  intro v hv
  have h6 : v >>> 6 = v / 64 := shiftRight_six v
  have h63 : v &&& 63 = v % 64 := and_sixty_three v
  have hlt : v / 64 < s.words := by omega
  refine ⟨by omega, by omega, by omega, ?_, ?_⟩
  · intro u hu
    have hrow : u * s.words + v / 64 < (u + 1) * s.words := by
      rw [Nat.add_mul, Nat.one_mul]; omega
    have hadj : u * s.words + v / 64 < s.adj.length := by
      rw [hshape.adj_len]
      exact row_index_lt hu hlt
    rw [h6]
    refine ⟨Nat.le_add_right _ _, hrow, hadj, ?_, ?_⟩
    · simp [SetEdge]
    · intro j hj
      have hne : u * s.words + v / 64 ≠ j := by
        rcases hj with hj | hj
        · omega
        · omega
      simp only [SetEdge, h6]
      rw [getD_set, if_neg (fun e => hne e.1)]
  · intro bs hbs
    exact ⟨by rw [hbs]; omega, length_SetBit bs v⟩

/-- The reader keeps the vertex count at most `INT_MAX - 63`. -/
theorem ReadGraphFile_bound :
    ∀ (recs : List Record) (s0 s : State), (s0.n : Int) ≤ INT_MAX - 63 →
      ReadGraphFile s0 recs = some s → (s.n : Int) ≤ INT_MAX - 63 := by
  intro recs
  induction recs with
  | nil =>
    intro s0 s h0 h
    rw [ReadGraphFile, Option.some.injEq] at h
    rw [← h]; exact h0
  | cons r rest ih =>
    intro s0 s h0 h
    cases r with
    | comment => rw [ReadGraphFile] at h; exact ih s0 s h0 h
    | other => rw [ReadGraphFile] at h; exact ih s0 s h0 h
    | edge st fn =>
      rw [ReadGraphFile] at h
      exact ih _ s (by rw [(readEdge_n s0 st fn).1]; exact h0) h
    | header vert edges =>
      rw [ReadGraphFile] at h
      cases hh : readHeader s0 vert with
      | none => rw [hh] at h; exact Option.noConfusion h
      | some s1 =>
        rw [hh] at h
        have hr := readHeader_range s0 s1 vert hh
        rw [readHeader_some s0 vert hr.1 hr.2, Option.some.injEq] at hh
        refine ih s1 s ?_ h
        rw [← hh]
        show ((vert.toNat : Nat) : Int) ≤ INT_MAX - 63
        rw [Int.toNat_of_nonneg hr.1]
        exact hr.2

/-- Below the overflow the word count of the source is the ceiling of `n / 64`. -/
theorem headerWords_ceil (n : Int) (h0 : 0 ≤ n) (h : n ≤ INT_MAX - 63) :
    headerWords n = (n + 63) / 64 ∧ headerWords n = (⌈(n : ℚ) / 64⌉₊ : Int) := by
  obtain ⟨k, rfl⟩ := Int.eq_ofNat_of_zero_le h0
  have hw := headerWords_small (k : Int) h0 h
  rw [Int.toNat_ofNat] at hw
  refine ⟨by rw [hw]; omega, ?_⟩
  rw [hw, words_eq_ceil k, Int.cast_natCast]

/-- C31, counterexample. The vertex count `n = INT_MAX` is `>= 0`, and the
`int` sum `n + 63` overflows on it: the source computes `words = -33554431`
where the ceiling of `n / 64` is `33554432`, `adj.assign` throws and
`ReadGraphFile` returns no state. So `words = (n + 63) / 64` is not the
ceiling of `n / 64` for every `n >= 0`; the same happens for every vertex
count above `INT_MAX - 63`. -/
theorem C31_header_overflow_counterexample :
    (0 : Int) ≤ INT_MAX ∧ headerWords INT_MAX = -33554431 ∧
    (⌈((INT_MAX : Int) : ℚ) / 64⌉₊ : Int) = 33554432 ∧
    ReadGraphFile newSolver [Record.header INT_MAX 0] = none ∧
    ¬ (∀ n : Int, 0 ≤ n → n ≤ INT_MAX → headerWords n = (⌈(n : ℚ) / 64⌉₊ : Int)) ∧
    ∀ m : Int, INT_MAX - 63 < m → m ≤ INT_MAX →
      headerWords m < 0 ∧ ReadGraphFile newSolver [Record.header m 0] = none := by
  have hceil : (⌈((INT_MAX : Int) : ℚ) / 64⌉₊ : Int) = 33554432 := by
    have h := words_eq_ceil 2147483647
    have hc : ((INT_MAX : Int) : ℚ) = ((2147483647 : Nat) : ℚ) := by
      unfold INT_MAX; norm_num
    rw [hc, ← h]
    rfl
  have hwords : headerWords INT_MAX = -33554431 := by decide
  refine ⟨by decide, hwords, hceil, by decide, ?_, ?_⟩
  · intro hall
    have h := hall INT_MAX (by decide) (le_refl _)
    rw [hwords, hceil] at h
    exact absurd h (by decide)
  · intro m hm hmax
    refine ⟨headerWords_overflow m hm hmax, ?_⟩
    rw [ReadGraphFile, readHeader_none newSolver m (Or.inr hm)]

/-- C31 (amended). Word count and in-row indexing, for every vertex count
`n` with `0 <= n <= INT_MAX - 63`. The word count `(n + 63) / 64` the source
computes in `int` arithmetic is the exact quotient and equals the ceiling of
`n / 64`; for every `v` of `[0, n)` the word index `v >> 6` is below it, the
bit index `v & 63` is below 64, and `64 * (v >> 6) + (v & 63) = v`. In every
state with this vertex count that `ReadGraphFile` reads into a fresh solver,
`words` is that word count (the least `w` with `n <= 64 * w`) and `adj` has
`n` rows of `words` words; the word that `IsAdjacent(u, v)` reads and
`SetEdge(u, v)` writes lies inside row `u` of `adj` (for `u`, `v` in
`[0, n)`), `SetEdge(u, v)` leaves every word outside that row as it was, and
the word that `TestBit(bs, v)` reads and `SetBit(bs, v)` writes lies inside a
bit vector `bs` of `words` words. -/
theorem C31_word_indexing_amended (n : Int) (h0 : 0 ≤ n) (hmax : n ≤ INT_MAX - 63) :
    (headerWords n = (n + 63) / 64 ∧ headerWords n = (⌈(n : ℚ) / 64⌉₊ : Int)) ∧
    (∀ v : Nat, (v : Int) < n →
      ((v >>> 6 : Nat) : Int) < headerWords n ∧ v &&& 63 < 64 ∧
        64 * (v >>> 6) + (v &&& 63) = v) ∧
    ∀ (recs : List Record) (s : State), ReadGraphFile newSolver recs = some s →
      (s.n : Int) = n →
      ((s.words : Int) = headerWords n ∧ s.words = (s.n + 63) / 64 ∧
        s.adj.length = s.n * s.words) ∧
      s.words = ⌈(s.n : ℚ) / 64⌉₊ ∧
      (s.n ≤ 64 * s.words ∧ ∀ w, s.n ≤ 64 * w → s.words ≤ w) ∧
      ∀ v, v < s.n →
        v >>> 6 < s.words ∧ v &&& 63 < 64 ∧ 64 * (v >>> 6) + (v &&& 63) = v ∧
        (∀ u, u < s.n →
          u * s.words ≤ u * s.words + (v >>> 6) ∧
          u * s.words + (v >>> 6) < (u + 1) * s.words ∧
          u * s.words + (v >>> 6) < s.adj.length ∧
          (SetEdge s u v).adj.length = s.adj.length ∧
          ∀ j, (j < u * s.words ∨ (u + 1) * s.words ≤ j) →
            (SetEdge s u v).adj.getD j 0 = s.adj.getD j 0) ∧
        (∀ bs : List Nat, bs.length = s.words →
          v >>> 6 < bs.length ∧ (SetBit bs v).length = bs.length) := by
  have hsmall := headerWords_small n h0 hmax
  refine ⟨headerWords_ceil n h0 hmax, ?_, ?_⟩
  · intro v hv
    have h6 : v >>> 6 = v / 64 := shiftRight_six v
    have h63 : v &&& 63 = v % 64 := and_sixty_three v
    rw [hsmall, h6, h63]
    refine ⟨?_, by omega, by omega⟩
    omega
  · intro recs s hread hn
    have hshape := (ReadGraphFile_wf recs newSolver s newSolver_wf hread).shape
    have hw := hshape.words_eq
    refine ⟨⟨?_, hw, hshape.adj_len⟩, row_access_in_range s hshape⟩
    rw [hsmall, hw, ← hn, Int.toNat_ofNat]

theorem C31_word_indexing_amended_witness :
    ((0 : Int) ≤ 70 ∧ (70 : Int) ≤ INT_MAX - 63) ∧
    headerWords 70 = 2 ∧
    (ReadGraphFile newSolver [Record.header 70 1, Record.edge 1 70]).map
        (fun s => (s.n, s.words, s.adj.length, IsAdjacent s 0 69, IsAdjacent s 69 0)) =
      some (70, 2, 140, true, true) ∧
    ((headerWords 70 = ((70 : Int) + 63) / 64 ∧
        headerWords 70 = (⌈((70 : Int) : ℚ) / 64⌉₊ : Int)) ∧
    (∀ v : Nat, (v : Int) < 70 →
      ((v >>> 6 : Nat) : Int) < headerWords 70 ∧ v &&& 63 < 64 ∧
        64 * (v >>> 6) + (v &&& 63) = v) ∧
    ∀ (recs : List Record) (s : State), ReadGraphFile newSolver recs = some s →
      (s.n : Int) = 70 →
      ((s.words : Int) = headerWords 70 ∧ s.words = (s.n + 63) / 64 ∧
        s.adj.length = s.n * s.words) ∧
      s.words = ⌈(s.n : ℚ) / 64⌉₊ ∧
      (s.n ≤ 64 * s.words ∧ ∀ w, s.n ≤ 64 * w → s.words ≤ w) ∧
      ∀ v, v < s.n →
        v >>> 6 < s.words ∧ v &&& 63 < 64 ∧ 64 * (v >>> 6) + (v &&& 63) = v ∧
        (∀ u, u < s.n →
          u * s.words ≤ u * s.words + (v >>> 6) ∧
          u * s.words + (v >>> 6) < (u + 1) * s.words ∧
          u * s.words + (v >>> 6) < s.adj.length ∧
          (SetEdge s u v).adj.length = s.adj.length ∧
          ∀ j, (j < u * s.words ∨ (u + 1) * s.words ≤ j) →
            (SetEdge s u v).adj.getD j 0 = s.adj.getD j 0) ∧
        (∀ bs : List Nat, bs.length = s.words →
          v >>> 6 < bs.length ∧ (SetBit bs v).length = bs.length)) :=
  ⟨by decide, by decide, by rfl,
    C31_word_indexing_amended 70 (by decide) (by decide)⟩

/-! ## `ColorSort` as first-fit colouring -/

theorem colourOf_append_left (order bounds placed extra : List Nat) (v : Nat)
    (hlen : bounds.length = order.length) (hv : v ∈ order) :
    colourOf (order ++ placed) (bounds ++ extra) v = colourOf order bounds v := by
  unfold colourOf
  rw [List.indexOf_append_of_mem hv,
    List.getD_append _ _ _ _ (by rw [hlen]; exact List.indexOf_lt_length.mpr hv)]

theorem colourOf_append_right (order bounds placed : List Nat) (c v : Nat)
    (hlen : bounds.length = order.length) (hv : v ∉ order) (hp : v ∈ placed) :
    colourOf (order ++ placed) (bounds ++ List.replicate placed.length c) v = c := by
  unfold colourOf
  rw [List.indexOf_append_of_not_mem hv,
    List.getD_append_right _ _ _ _ (by rw [hlen]; exact Nat.le_add_right _ _), hlen,
    Nat.add_sub_cancel_left, List.getD_eq_getElem?_getD, List.getElem?_replicate,
    if_pos (List.indexOf_lt_length.mpr hp)]
  rfl

theorem colourOf_mem (order bounds : List Nat) (v : Nat)
    (hlen : bounds.length = order.length) (hv : v ∈ order) :
    colourOf order bounds v ∈ bounds := by
  unfold colourOf
  have h : order.indexOf v < bounds.length := by
    rw [hlen]; exact List.indexOf_lt_length.mpr hv
  rw [List.getD_eq_getElem _ _ h]
  exact List.getElem_mem _

theorem colourOf_getD (order bounds : List Nat) (hnd : order.Nodup) (i : Nat)
    (hi : i < order.length) : colourOf order bounds (order.getD i 0) = bounds.getD i 0 := by
  unfold colourOf
  rw [List.getD_eq_getElem _ _ hi, List.indexOf_getElem hnd i hi]

/-- A sublist of a list without repetition is that list filtered to the
members of the sublist. -/
theorem sublist_eq_filter {U l : List Nat} (h : U.Sublist l) (hnd : l.Nodup) :
    U = l.filter (fun x => decide (x ∈ U)) := by
  induction h with
  | slnil => rfl
  | @cons U l a h ih =>
    have hal : a ∉ l := (List.nodup_cons.mp hnd).1
    have haU : a ∉ U := fun e => hal (h.subset e)
    rw [List.filter_cons_of_neg (by simpa using haU)]
    exact ih (List.nodup_cons.mp hnd).2
  | @cons₂ U l a h ih =>
    have hal : a ∉ l := (List.nodup_cons.mp hnd).1
    rw [List.filter_cons_of_pos (by simp)]
    congr 1
    have := ih (List.nodup_cons.mp hnd).2
    calc U = l.filter (fun x => decide (x ∈ U)) := this
      _ = l.filter (fun x => decide (x ∈ a :: U)) := by
        apply List.filter_congr
        intro x hx
        have hxa : x ≠ a := fun e => hal (e ▸ hx)
        simp [hxa]

theorem sublist_ext {l1 l2 l : List Nat} (h1 : l1.Sublist l) (h2 : l2.Sublist l)
    (hnd : l.Nodup) (hmem : ∀ x, x ∈ l1 ↔ x ∈ l2) : l1 = l2 := by
  rw [sublist_eq_filter h1 hnd, sublist_eq_filter h2 hnd]
  apply List.filter_congr
  intro x _
  simp [hmem x]

/-- The order of two members of a sublist, read in the list, is their order in
the sublist. -/
theorem pair_sublist_restrict {U l : List Nat} (h : U.Sublist l) (hnd : l.Nodup) (p q : Nat)
    (hp : p ∈ U) (hq : q ∈ U) (hpq : [p, q].Sublist l) : [p, q].Sublist U := by
  have h1 := hpq.filter (fun x => decide (x ∈ U))
  rw [← sublist_eq_filter h hnd] at h1
  have h2 : [p, q].filter (fun x => decide (x ∈ U)) = [p, q] := by
    simp [List.filter_cons, hp, hq]
  rw [h2] at h1
  exact h1

theorem pair_sublist_of_lt (l : List Nat) (j i : Nat) (hji : j < i) (hi : i < l.length) :
    [l.getD j 0, l.getD i 0].Sublist l := by
  rw [List.cons_sublist_iff]
  refine ⟨l.take i, l.drop i, (List.take_append_drop i l).symm, ?_, ?_⟩
  · rw [List.getD_eq_getElem _ _ (by omega), List.mem_take_iff_getElem]
    exact ⟨j, by rw [Nat.lt_min]; exact ⟨hji, by omega⟩, rfl⟩
  · rw [List.singleton_sublist, List.getD_eq_getElem _ _ hi, List.mem_drop_iff_getElem]
    exact ⟨0, by simpa using hi, by simp⟩

theorem pair_sublist_index (l : List Nat) (p q : Nat) (h : [p, q].Sublist l) :
    ∃ j i, j < i ∧ i < l.length ∧ l.getD j 0 = p ∧ l.getD i 0 = q := by
  rw [List.cons_sublist_iff] at h
  obtain ⟨r1, r2, hl, hp, hq⟩ := h
  rw [List.singleton_sublist] at hq
  obtain ⟨j, hj, hje⟩ := List.getElem_of_mem hp
  obtain ⟨i, hi, hie⟩ := List.getElem_of_mem hq
  refine ⟨j, r1.length + i, by omega, by rw [hl, List.length_append]; omega, ?_, ?_⟩
  · rw [hl, List.getD_append _ _ _ _ hj, List.getD_eq_getElem _ _ hj, hje]
  · rw [hl, List.getD_append_right _ _ _ _ (Nat.le_add_right _ _), Nat.add_sub_cancel_left,
      List.getD_eq_getElem _ _ hi, hie]

/-- One pass of `ColorSort` over `U`: the vertices it places and those it
skips, each in the order of `U`; no placed vertex is in the row of a vertex
placed before it, and every skipped vertex is in the row of a vertex placed
before it. -/
theorem colorPass_fit (s : State) (color : Nat) (U : List Nat) :
    ∀ (P forbidden order bounds nextU : List Nat),
      ∃ placed skipped f,
        colorPass s color U forbidden order bounds nextU
          = (f, order ++ placed, bounds ++ List.replicate placed.length color,
              nextU ++ skipped) ∧
        (placed ++ skipped).Perm U ∧ placed.Sublist U ∧ skipped.Sublist U ∧
        (∀ v U1, U = v :: U1 → TestBit forbidden v = false → placed ≠ []) ∧
        ((∀ u ∈ U, u / 64 < s.words) → ForbiddenInv s forbidden P → U.Nodup →
          (∀ u ∈ U, u ∉ P) →
          (∀ q ∈ placed, ∀ p ∈ P, IsAdjacent s p q = false) ∧
          (∀ p ∈ placed, ∀ q ∈ placed, [p, q].Sublist U → IsAdjacent s p q = false) ∧
          (∀ w ∈ skipped, ∃ p, (p ∈ P ∨ (p ∈ placed ∧ [p, w].Sublist U)) ∧
            IsAdjacent s p w = true)) := by
  induction U with
  | nil =>
    intro P forbidden order bounds nextU
    refine ⟨[], [], forbidden, by simp [colorPass], by simp, List.Sublist.refl _,
      List.Sublist.refl _, fun _ _ h => by simp at h, fun _ _ _ _ => ⟨?_, ?_, ?_⟩⟩
    · intro q hq; exact absurd hq (List.not_mem_nil _)
    · intro q hq; exact absurd hq (List.not_mem_nil _)
    · intro q hq; exact absurd hq (List.not_mem_nil _)
  | cons v U ih =>
    intro P forbidden order bounds nextU
    by_cases hv : TestBit forbidden v = true
    · obtain ⟨placed, skipped, f, heq, hperm, hps, hss, -, hprop⟩ :=
        ih P forbidden order bounds (nextU ++ [v])
      refine ⟨placed, v :: skipped, f, ?_, ?_, hps.cons v, hss.cons₂ v, ?_, ?_⟩
      · simp only [colorPass, hv, Bool.not_true, Bool.false_eq_true, if_false, heq]
        simp
      · exact List.perm_middle.trans (List.Perm.cons v hperm)
      · intro w U1 hw hf
        rw [List.cons.injEq] at hw
        rw [← hw.1, hv] at hf
        exact Bool.noConfusion hf
      · intro hU hF hnd hdis
        have hvU : v ∉ U := (List.nodup_cons.mp hnd).1
        obtain ⟨ha, hb, hc⟩ := hprop (fun u hu => hU u (List.mem_cons_of_mem _ hu)) hF
          (List.nodup_cons.mp hnd).2 (fun u hu => hdis u (List.mem_cons_of_mem _ hu))
        refine ⟨ha, ?_, ?_⟩
        · intro p hp q hq hpq
          rcases List.sublist_cons_iff.mp hpq with h | ⟨r, hr, -⟩
          · exact hb p hp q hq h
          · rw [List.cons.injEq] at hr
            exact absurd (hr.1 ▸ hps.subset hp) hvU
        · intro w hw
          rcases List.mem_cons.mp hw with e | e
          · rw [e]
            rcases (hF.2 v (hU v (List.mem_cons_self _ _))).mp hv with h | ⟨p, hp, hadj⟩
            · exact absurd h (hdis v (List.mem_cons_self _ _))
            · exact ⟨p, Or.inl hp, hadj⟩
          · obtain ⟨p, hp, hadj⟩ := hc w e
            refine ⟨p, ?_, hadj⟩
            rcases hp with h | ⟨h1, h2⟩
            · exact Or.inl h
            · exact Or.inr ⟨h1, h2.cons v⟩
    · have hv' : TestBit forbidden v = false := by simpa using hv
      obtain ⟨placed, skipped, f, heq, hperm, hps, hss, -, hprop⟩ :=
        ih (P ++ [v]) (OrEq (SetBit forbidden v) (AdjRow s v) s.words)
          (order ++ [v]) (bounds ++ [color]) nextU
      refine ⟨v :: placed, skipped, f, ?_, ?_, hps.cons₂ v, hss.cons v, ?_, ?_⟩
      · simp only [colorPass, hv', Bool.not_false, if_true, heq]
        simp [List.replicate_succ]
      · exact List.Perm.cons v hperm
      · intro _ _ _ _
        exact List.cons_ne_nil _ _
      · intro hU hF hnd hdis
        have hvU : v ∉ U := (List.nodup_cons.mp hnd).1
        have hvw : v / 64 < s.words := hU v (List.mem_cons_self _ _)
        have hnot := (hF.2 v hvw).not.mp hv
        obtain ⟨ha, hb, hc⟩ := hprop (fun u hu => hU u (List.mem_cons_of_mem _ hu))
          (hF.place hvw) (List.nodup_cons.mp hnd).2
          (by
            intro u hu hm
            rcases List.mem_append.mp hm with h | h
            · exact hdis u (List.mem_cons_of_mem _ hu) h
            · rw [List.mem_singleton] at h
              exact hvU (h ▸ hu))
        have hvP : ∀ p ∈ P, IsAdjacent s p v = false := by
          intro p hp
          cases hadj : IsAdjacent s p v
          · rfl
          · exact absurd (Or.inr ⟨p, hp, hadj⟩) hnot
        refine ⟨?_, ?_, ?_⟩
        · intro q hq p hp
          rcases List.mem_cons.mp hq with e | e
          · rw [e]; exact hvP p hp
          · exact ha q e p (List.mem_append_left _ hp)
        · intro p hp q hq hpq
          have hqU : q ∈ v :: U := hpq.subset (by simp)
          rcases List.mem_cons.mp hp with e | e
          · rcases List.mem_cons.mp hq with e2 | e2
            · exfalso
              rw [e, e2] at hpq
              rcases List.sublist_cons_iff.mp hpq with h | ⟨r, hr, hr2⟩
              · exact hvU (h.subset (by simp))
              · rw [List.cons.injEq] at hr
                rw [← hr.2] at hr2
                exact hvU (hr2.subset (by simp))
            · rw [e]
              exact ha q e2 v (List.mem_append_right _ (List.mem_singleton.mpr rfl))
          · have hpv : p ≠ v := fun h => hvU (h ▸ hps.subset e)
            have hpqU : [p, q].Sublist U := by
              rcases List.sublist_cons_iff.mp hpq with h | ⟨r, hr, -⟩
              · exact h
              · rw [List.cons.injEq] at hr
                exact absurd hr.1 hpv
            have hq2 : q ∈ placed := by
              rcases List.mem_cons.mp hq with e2 | e2
              · exact absurd (e2 ▸ hpqU.subset (by simp)) hvU
              · exact e2
            exact hb p e q hq2 hpqU
        · intro w hw
          have hwU : w ∈ U := hss.subset hw
          obtain ⟨p, hp, hadj⟩ := hc w hw
          refine ⟨p, ?_, hadj⟩
          rcases hp with h | ⟨h1, h2⟩
          · rcases List.mem_append.mp h with h | h
            · exact Or.inl h
            · rw [List.mem_singleton] at h
              rw [h]
              exact Or.inr ⟨List.mem_cons_self _ _,
                (List.singleton_sublist.mpr hwU).cons₂ v⟩
          · exact Or.inr ⟨List.mem_cons_of_mem _ h1, h2.cons v⟩

/-- One pass of the `while` loop of `ColorSort` keeps the loop invariant. -/
theorem FitInv.fitStep {s : State} {cand U : List Nat} {color : Nat} {order bounds : List Nat}
    (hnd : cand.Nodup) (h : FitInv s cand U color order bounds) (placed skipped : List Nat)
    (hperm : (placed ++ skipped).Perm U) (hps : placed.Sublist U) (hss : skipped.Sublist U)
    (hb : ∀ p ∈ placed, ∀ q ∈ placed, [p, q].Sublist U → IsAdjacent s p q = false)
    (hc : ∀ w ∈ skipped, ∃ p, (p ∈ placed ∧ [p, w].Sublist U) ∧ IsAdjacent s p w = true) :
    FitInv s cand skipped (color + 1) (order ++ placed)
      (bounds ++ List.replicate placed.length (color + 1)) := by
  have hlen := h.shape.len
  have hndOU : (order ++ U).Nodup := h.perm.nodup_iff.mpr hnd
  have hdis : ∀ x, x ∈ U → x ∉ order := by
    intro x hx ho
    exact (List.nodup_append.mp hndOU).2.2 ho hx
  have hold : ∀ x ∈ order, colourOf (order ++ placed)
      (bounds ++ List.replicate placed.length (color + 1)) x = colourOf order bounds x :=
    fun x hx => colourOf_append_left order bounds placed _ x hlen hx
  have hnew : ∀ x ∈ placed, colourOf (order ++ placed)
      (bounds ++ List.replicate placed.length (color + 1)) x = color + 1 :=
    fun x hx => colourOf_append_right order bounds placed _ x hlen (hdis x (hps.subset hx)) hx
  have hrange : ∀ x ∈ order, 1 ≤ colourOf order bounds x ∧ colourOf order bounds x ≤ color :=
    fun x hx => h.shape.range _ (colourOf_mem order bounds x hlen hx)
  refine ⟨h.shape.shapeStep placed, ?_, hss.trans h.sub, ?_, ?_, ?_, ?_⟩
  · rw [List.append_assoc]
    exact (List.Perm.append_left order hperm).trans h.perm
  · intro p hp q hq hpq hcol
    rcases List.mem_append.mp hp with hp | hp <;> rcases List.mem_append.mp hq with hq | hq
    · rw [hold p hp, hold q hq] at hcol
      exact h.free p hp q hq hpq hcol
    · rw [hold p hp, hnew q hq] at hcol
      have := (hrange p hp).2
      omega
    · rw [hnew p hp, hold q hq] at hcol
      have := (hrange q hq).2
      omega
    · exact hb p hp q hq
        (pair_sublist_restrict h.sub hnd p q (hps.subset hp) (hps.subset hq) hpq)
  · intro v hv c hc1 hc2
    rcases List.mem_append.mp hv with hv | hv
    · rw [hold v hv] at hc2
      obtain ⟨p, hp, h1, h2, h3⟩ := h.minimal v hv c hc1 hc2
      exact ⟨p, List.mem_append_left _ hp, h1, by rw [hold p hp]; exact h2, h3⟩
    · rw [hnew v hv] at hc2
      obtain ⟨p, hp, h1, h2, h3⟩ := h.blocked v (hps.subset hv) c hc1 (by omega)
      exact ⟨p, List.mem_append_left _ hp, h1, by rw [hold p hp]; exact h2, h3⟩
  · intro v hv c hc1 hc2
    by_cases hcc : c ≤ color
    · obtain ⟨p, hp, h1, h2, h3⟩ := h.blocked v (hss.subset hv) c hc1 hcc
      exact ⟨p, List.mem_append_left _ hp, h1, by rw [hold p hp]; exact h2, h3⟩
    · have hce : c = color + 1 := by omega
      obtain ⟨p, ⟨hp, hpw⟩, hadj⟩ := hc v hv
      exact ⟨p, List.mem_append_right _ hp, hpw.trans h.sub, by rw [hnew p hp, hce], hadj⟩
  · intro c
    rw [List.filter_append]
    by_cases hce : c = color + 1
    · have h1 : order.filter (fun v => colourOf (order ++ placed)
          (bounds ++ List.replicate placed.length (color + 1)) v == c) = [] := by
        rw [List.filter_eq_nil_iff]
        intro x hx
        rw [hold x hx, hce]
        have := (hrange x hx).2
        simp only [beq_iff_eq]
        omega
      have h2 : placed.filter (fun v => colourOf (order ++ placed)
          (bounds ++ List.replicate placed.length (color + 1)) v == c) = placed := by
        rw [List.filter_eq_self]
        intro x hx
        rw [hnew x hx, hce]
        simp
      rw [h1, h2, List.nil_append]
      exact hps.trans h.sub
    · have h1 : order.filter (fun v => colourOf (order ++ placed)
          (bounds ++ List.replicate placed.length (color + 1)) v == c) =
          order.filter (fun v => colourOf order bounds v == c) := by
        apply List.filter_congr
        intro x hx
        rw [hold x hx]
      have h2 : placed.filter (fun v => colourOf (order ++ placed)
          (bounds ++ List.replicate placed.length (color + 1)) v == c) = [] := by
        rw [List.filter_eq_nil_iff]
        intro x hx
        rw [hnew x hx]
        simp only [beq_iff_eq]
        exact fun e => hce e.symm
      rw [h1, h2, List.append_nil]
      exact h.stable c

theorem colorLoop_fit (s : State) (cand : List Nat) (hnd : cand.Nodup)
    (hrange : ∀ u ∈ cand, u / 64 < s.words) :
    ∀ (fuel : Nat) (U : List Nat) (color : Nat) (order bounds : List Nat),
      U.length ≤ fuel → FitInv s cand U color order bounds →
      ∃ order1 bounds1 color1,
        colorLoop s fuel U color order bounds = some (order1, bounds1) ∧
        FitInv s cand [] color1 order1 bounds1 := by
  intro fuel
  induction fuel with
  | zero =>
    intro U color order bounds hU hinv
    have : U = [] := List.length_eq_zero.mp (Nat.le_zero.mp hU)
    subst this
    exact ⟨order, bounds, color, by simp [colorLoop], hinv⟩
  | succ fuel ih =>
    intro U color order bounds hU hinv
    cases U with
    | nil => exact ⟨order, bounds, color, by simp [colorLoop], hinv⟩
    | cons v U =>
      obtain ⟨placed, skipped, f, heq, hperm, hps, hss, hne, hprop⟩ :=
        colorPass_fit s (color + 1) (v :: U) [] (List.replicate s.words 0) order bounds []
      have hplaced : placed ≠ [] := hne v U rfl (testBit_replicate_zero _ _)
      have hlen : placed.length + skipped.length = U.length + 1 := by
        have := hperm.length_eq
        simpa using this
      have hpos : 0 < placed.length := List.length_pos.mpr hplaced
      have hndU : (v :: U).Nodup := hinv.sub.nodup hnd
      obtain ⟨-, hb, hc⟩ := hprop (fun u hu => hrange u (hinv.sub.subset hu))
        (ForbiddenInv.init s) hndU (fun _ _ h => absurd h (List.not_mem_nil _))
      have hstep := hinv.fitStep hnd placed skipped hperm hps hss hb
        (by
          intro w hw
          obtain ⟨p, hp, hadj⟩ := hc w hw
          rcases hp with h | h
          · exact absurd h (List.not_mem_nil _)
          · exact ⟨p, h, hadj⟩)
      obtain ⟨order1, bounds1, color1, heq1, hinv1⟩ :=
        ih skipped (color + 1) (order ++ placed)
          (bounds ++ List.replicate placed.length (color + 1))
          (by simp only [List.length_cons] at hU; omega) hstep
      refine ⟨order1, bounds1, color1, ?_, hinv1⟩
      simp only [colorLoop, heq, List.nil_append]
      exact heq1

theorem FitInv.fitZero (s : State) (cand : List Nat) : FitInv s cand cand 0 [] [] := by
  refine ⟨ColorShape.shapeZero, by simp, List.Sublist.refl _, ?_, ?_, ?_, ?_⟩
  · intro p hp; exact absurd hp (List.not_mem_nil _)
  · intro p hp; exact absurd hp (List.not_mem_nil _)
  · intro v _ c h1 h2; omega
  · intro c; simp

/-! ### The first-fit colouring as a function -/

theorem firstFreeFrom_eq (taken : List Nat) :
    ∀ (fuel c m : Nat), c ≤ m → m ≤ c + fuel → m ∉ taken →
      (∀ x, c ≤ x → x < m → x ∈ taken) → firstFreeFrom taken fuel c = m := by
  intro fuel
  induction fuel with
  | zero =>
    intro c m h1 h2 _ _
    simp only [firstFreeFrom]
    omega
  | succ fuel ih =>
    intro c m h1 h2 h3 h4
    rw [firstFreeFrom]
    by_cases hc : c ∈ taken
    · rw [if_pos (List.elem_iff.mpr hc)]
      have hcm : c ≠ m := fun e => h3 (e ▸ hc)
      exact ih (c + 1) m (by omega) (by omega) h3 (fun x hx1 hx2 => h4 x (by omega) hx2)
    · rw [if_neg (fun e => hc (List.elem_iff.mp e))]
      by_contra hne
      exact hc (h4 c (Nat.le_refl _) (by omega))

/-- A list that holds every colour of `[1, m]` has at least `m` entries. -/
theorem length_ge_of_colours (taken : List Nat) (m : Nat)
    (h : ∀ c, 1 ≤ c → c ≤ m → c ∈ taken) : m ≤ taken.length := by
  have hsub : Finset.Icc 1 m ⊆ taken.toFinset := by
    intro c hc
    rw [Finset.mem_Icc] at hc
    exact List.mem_toFinset.mpr (h c hc.1 hc.2)
  have h1 := Finset.card_le_card hsub
  have h2 := List.toFinset_card_le taken
  rw [Nat.card_Icc] at h1
  omega

/-- The colour `m` is `firstFree taken` as soon as it is at least 1, not
taken, and every smaller colour is taken. -/
theorem firstFree_eq (taken : List Nat) (m : Nat) (h1 : 1 ≤ m) (hfree : m ∉ taken)
    (hmin : ∀ c, 1 ≤ c → c < m → c ∈ taken) : firstFree taken = m := by
  unfold firstFree
  apply firstFreeFrom_eq taken _ 1 m h1 _ hfree hmin
  have := length_ge_of_colours taken (m - 1) (fun c hc1 hc2 => hmin c hc1 (by omega))
  omega

theorem firstFreeFrom_spec (taken : List Nat) :
    ∀ (fuel c : Nat), (∀ x, 1 ≤ x → x < c → x ∈ taken) → taken.length + 1 ≤ c + fuel →
      firstFreeFrom taken fuel c ∉ taken ∧ c ≤ firstFreeFrom taken fuel c ∧
        ∀ x, 1 ≤ x → x < firstFreeFrom taken fuel c → x ∈ taken := by
  intro fuel
  induction fuel with
  | zero =>
    intro c hall hlen
    simp only [firstFreeFrom]
    refine ⟨?_, Nat.le_refl _, hall⟩
    intro hc
    have := length_ge_of_colours taken c (fun x hx1 hx2 => by
      by_cases hxc : x = c
      · rw [hxc]; exact hc
      · exact hall x hx1 (by omega))
    omega
  | succ fuel ih =>
    intro c hall hlen
    rw [firstFreeFrom]
    by_cases hc : c ∈ taken
    · rw [if_pos (List.elem_iff.mpr hc)]
      obtain ⟨h1, h2, h3⟩ := ih (c + 1) (fun x hx1 hx2 => by
        by_cases hxc : x = c
        · rw [hxc]; exact hc
        · exact hall x hx1 (by omega)) (by omega)
      exact ⟨h1, by omega, h3⟩
    · rw [if_neg (fun e => hc (List.elem_iff.mp e))]
      exact ⟨hc, Nat.le_refl _, hall⟩

/-- The function `firstFree` returns the smallest colour `c >= 1` not in
`taken`. -/
theorem firstFree_spec (taken : List Nat) :
    1 ≤ firstFree taken ∧ firstFree taken ∉ taken ∧
      ∀ c, 1 ≤ c → c < firstFree taken → c ∈ taken := by
  obtain ⟨h1, h2, h3⟩ := firstFreeFrom_spec taken taken.length 1
    (fun x hx1 hx2 => by omega) (by omega)
  exact ⟨h2, h1, h3⟩

theorem firstFitColouring_snoc (s : State) (l : List Nat) (v : Nat) :
    firstFitColouring s (l ++ [v]) =
      firstFitColouring s l ++ [(v, firstFitColour s (firstFitColouring s l) v)] := by
  unfold firstFitColouring
  rw [List.foldl_append]
  rfl

/-- A colouring that is first-fit on `candidates` is the one
`firstFitColouring` computes. -/
theorem firstFitColouring_eq (s : State) (col : Nat → Nat) :
    ∀ (candidates : List Nat), FirstFit s candidates col →
      firstFitColouring s candidates = candidates.map (fun v => (v, col v)) := by
  intro candidates
  induction candidates using List.reverseRecOn with
  | nil => intro _; rfl
  | append_singleton l v ih =>
    intro hfit
    have hl : FirstFit s l col := by
      intro i hi
      have := hfit i (by rw [List.length_append]; omega)
      rw [List.getD_append _ _ _ _ hi] at this
      refine ⟨this.1, ?_, ?_⟩
      · intro j hj hc
        have h2 := this.2.1 j hj
        rw [List.getD_append _ _ _ _ (by omega)] at h2
        exact h2 hc
      · intro c hc1 hc2
        obtain ⟨j, hj, h3⟩ := this.2.2 c hc1 hc2
        rw [List.getD_append _ _ _ _ (by omega)] at h3
        exact ⟨j, hj, h3⟩
    rw [firstFitColouring_snoc, ih hl, List.map_append, List.map_singleton]
    have hv := hfit l.length (by rw [List.length_append]; simp)
    have hlast : (l ++ [v]).getD l.length 0 = v := by
      rw [List.getD_append_right _ _ _ _ (Nat.le_refl _)]
      simp
    rw [hlast] at hv
    have hpre : ∀ j, j < l.length → (l ++ [v]).getD j 0 = l.getD j 0 :=
      fun j hj => List.getD_append _ _ _ _ hj
    have hcolour : firstFitColour s (l.map (fun v => (v, col v))) v = col v := by
      unfold firstFitColour
      apply firstFree_eq _ _ hv.1
      · intro hm
        rw [List.mem_map] at hm
        obtain ⟨p, hp, hpc⟩ := hm
        rw [List.mem_filter, List.mem_map] at hp
        obtain ⟨⟨u, hu, hpu⟩, hadj⟩ := hp
        obtain ⟨j, hj, hje⟩ := List.getElem_of_mem hu
        have := hv.2.1 j hj
        rw [hpre j hj, List.getD_eq_getElem _ _ hj, hje] at this
        rw [← hpu] at hpc hadj
        rw [this hpc] at hadj
        exact Bool.noConfusion hadj
      · intro c hc1 hc2
        obtain ⟨j, hj, hcj, hadj⟩ := hv.2.2 c hc1 hc2
        rw [hpre j hj] at hcj hadj
        rw [List.mem_map]
        refine ⟨(l.getD j 0, col (l.getD j 0)), ?_, hcj⟩
        rw [List.mem_filter, List.mem_map]
        refine ⟨⟨l.getD j 0, ?_, rfl⟩, hadj⟩
        rw [List.getD_eq_getElem _ _ hj]
        exact List.getElem_mem _
    rw [hcolour]

theorem orderedInsert_filter_key {α : Type} (key : α → Nat) (c : Nat) (a : α) :
    ∀ l : List α,
      (l.orderedInsert (fun x y => key x ≤ key y) a).filter (fun x => key x == c) =
        (a :: l).filter (fun x => key x == c) := by
  intro l
  induction l with
  | nil => rfl
  | cons b l ih =>
    rw [List.orderedInsert]
    by_cases hab : key a ≤ key b
    · rw [if_pos hab]
    · rw [if_neg hab, List.filter_cons, ih]
      by_cases hb : key b = c
      · have ha : key a ≠ c := by omega
        simp [List.filter_cons, hb, ha]
      · by_cases ha : key a = c
        · simp [List.filter_cons, hb, ha]
        · simp [List.filter_cons, hb, ha]

/-- Insertion sort by a key is stable: the entries of each key keep their
order. -/
theorem insertionSort_filter_key {α : Type} (key : α → Nat) (c : Nat) (l : List α) :
    (l.insertionSort (fun x y => key x ≤ key y)).filter (fun x => key x == c) =
      l.filter (fun x => key x == c) := by
  induction l with
  | nil => rfl
  | cons a l ih =>
    rw [List.insertionSort, orderedInsert_filter_key, List.filter_cons, List.filter_cons, ih]

theorem orderedInsert_sorted_key {α : Type} (key : α → Nat) (a : α) :
    ∀ l : List α, l.Pairwise (fun x y => key x ≤ key y) →
      (l.orderedInsert (fun x y => key x ≤ key y) a).Pairwise (fun x y => key x ≤ key y) := by
  intro l
  induction l with
  | nil => intro _; simp
  | cons b l ih =>
    intro h
    rw [List.orderedInsert]
    by_cases hab : key a ≤ key b
    · rw [if_pos hab, List.pairwise_cons]
      refine ⟨?_, h⟩
      intro x hx
      rcases List.mem_cons.mp hx with e | e
      · rw [e]; exact hab
      · exact le_trans hab ((List.pairwise_cons.mp h).1 x e)
    · rw [if_neg hab, List.pairwise_cons]
      refine ⟨?_, ih (List.pairwise_cons.mp h).2⟩
      intro x hx
      rcases List.mem_cons.mp ((List.perm_orderedInsert _ a l).subset hx) with e | e
      · rw [e]; omega
      · exact (List.pairwise_cons.mp h).1 x e

theorem insertionSort_sorted_key {α : Type} (key : α → Nat) (l : List α) :
    (l.insertionSort (fun x y => key x ≤ key y)).Pairwise (fun x y => key x ≤ key y) := by
  induction l with
  | nil => simp
  | cons a l ih =>
    rw [List.insertionSort]
    exact orderedInsert_sorted_key key a _ ih

/-- Two lists sorted by a key whose entries of each key are the same lists are
equal. -/
theorem sorted_stable_unique {α : Type} (key : α → Nat) :
    ∀ (l1 l2 : List α), l1.Pairwise (fun x y => key x ≤ key y) →
      l2.Pairwise (fun x y => key x ≤ key y) →
      (∀ c, l1.filter (fun x => key x == c) = l2.filter (fun x => key x == c)) → l1 = l2 := by
  intro l1
  induction l1 with
  | nil =>
    intro l2 _ _ hf
    cases l2 with
    | nil => rfl
    | cons b l2 =>
      have := hf (key b)
      simp [List.filter_cons] at this
  | cons a t1 ih =>
    intro l2 h1 h2 hf
    have ha := hf (key a)
    rw [List.filter_cons_of_pos (by simp)] at ha
    obtain ⟨pre, post, hl2, hpre, -, hrest⟩ := List.filter_eq_cons_iff.mp ha.symm
    have hempty : pre = [] := by
      cases pre with
      | nil => rfl
      | cons x pre =>
        exfalso
        have hxa : key x ≠ key a := by
          have := hpre x (List.mem_cons_self _ _)
          simpa using this
        have hle : key x ≤ key a := by
          rw [hl2] at h2
          have := (List.pairwise_append.mp h2).2.2 x (List.mem_cons_self _ _) a
            (List.mem_cons_self _ _)
          exact this
        have hx2 : x ∈ l2.filter (fun y => key y == key x) := by
          rw [List.mem_filter, hl2]
          exact ⟨by simp, by simp⟩
        rw [← hf (key x), List.mem_filter] at hx2
        rcases List.mem_cons.mp hx2.1 with e | e
        · exact hxa (by rw [e])
        · have := (List.pairwise_cons.mp h1).1 x e
          omega
    rw [hempty, List.nil_append] at hl2
    rw [hl2]
    congr 1
    apply ih post (List.pairwise_cons.mp h1).2
    · rw [hl2] at h2
      exact (List.pairwise_cons.mp h2).2
    · intro c
      have hc := hf c
      rw [hl2, List.filter_cons, List.filter_cons] at hc
      by_cases hac : (key a == c) = true
      · rw [if_pos hac, if_pos hac] at hc
        exact (List.cons.inj hc).2
      · rw [if_neg hac, if_neg hac] at hc
        exact hc
/-- The output of `ColorSort` described by predicates: `bounds[k]` is the
colour of `order[k]`, the colours are a first-fit colouring of `candidates`,
and `order` is `candidates` stably sorted by colour. -/
theorem ColorSort_fit (s : State) (candidates : List Nat)
    (hw : s.words = (s.n + 63) / 64) (hC : ∀ u ∈ candidates, u < s.n)
    (hnd : candidates.Nodup) :
    ∃ order bounds,
      ColorSort s candidates = some (order, bounds) ∧
      bounds = order.map (colourOf order bounds) ∧
      FirstFit s candidates (colourOf order bounds) ∧
      StableSortedBy (colourOf order bounds) candidates order := by
  obtain ⟨order, bounds, color, heq, hinv⟩ :=
    colorLoop_fit s candidates hnd (fun u hu => range_of_words hw u (hC u hu))
      candidates.length candidates 0 [] [] (Nat.le_refl _) (FitInv.fitZero s candidates)
  have hperm : order.Perm candidates := by simpa using hinv.perm
  have hndo : order.Nodup := hperm.nodup_iff.mpr hnd
  have hlen := hinv.shape.len
  have hmem : ∀ i, i < candidates.length → candidates.getD i 0 ∈ order := by
    intro i hi
    rw [hperm.mem_iff, List.getD_eq_getElem _ _ hi]
    exact List.getElem_mem _
  refine ⟨order, bounds, heq, ?_, ?_, hperm, ?_, ?_⟩
  · apply List.ext_getElem
    · rw [List.length_map, hlen]
    · intro i h1 h2
      rw [List.getElem_map]
      have hi : i < order.length := by rw [← hlen]; exact h1
      have := colourOf_getD order bounds hndo i hi
      rw [List.getD_eq_getElem _ _ hi, List.getD_eq_getElem _ _ h1] at this
      exact this.symm
  · intro i hi
    refine ⟨(hinv.shape.range _ (colourOf_mem order bounds _ hlen (hmem i hi))).1, ?_, ?_⟩
    · intro j hj hcol
      exact hinv.free _ (hmem j (by omega)) _ (hmem i hi)
        (pair_sublist_of_lt candidates j i hj hi) hcol
    · intro c hc1 hc2
      obtain ⟨p, -, hpv, hcp, hadj⟩ := hinv.minimal _ (hmem i hi) c hc1 hc2
      obtain ⟨j, i1, hji, hi1, hj1, hi2⟩ := pair_sublist_index candidates p _ hpv
      have hii : i1 = i := by
        rw [List.getD_eq_getElem _ _ hi1, List.getD_eq_getElem _ _ hi] at hi2
        exact (List.Nodup.getElem_inj_iff hnd).mp hi2
      rw [hii] at hji
      exact ⟨j, hji, by rw [hj1]; exact hcp, by rw [hj1]; exact hadj⟩
  · rw [List.pairwise_iff_getElem]
    intro i j hi hj hij
    have h1 := colourOf_getD order bounds hndo i hi
    have h2 := colourOf_getD order bounds hndo j hj
    rw [List.getD_eq_getElem _ _ hi] at h1
    rw [List.getD_eq_getElem _ _ hj] at h2
    rw [h1, h2, List.getD_eq_getElem _ _ (by rw [hlen]; exact hi),
      List.getD_eq_getElem _ _ (by rw [hlen]; exact hj)]
    exact (List.pairwise_iff_getElem.mp hinv.shape.sorted) i j _ _ hij
  · intro c
    apply sublist_ext (hinv.stable c) (List.filter_sublist _) hnd
    intro x
    rw [List.mem_filter, List.mem_filter, hperm.mem_iff]

/-- A first-fit colouring with its stable sort is what `firstFitSort`
computes. -/
theorem firstFitSort_eq (s : State) (candidates order : List Nat) (col : Nat → Nat)
    (hfit : FirstFit s candidates col) (hst : StableSortedBy col candidates order) :
    firstFitSort s candidates = (order, order.map col) := by
  have hsorted : (firstFitColouring s candidates).insertionSort (fun a b => a.2 ≤ b.2) =
      order.map (fun v => (v, col v)) := by
    rw [firstFitColouring_eq s col candidates hfit]
    apply sorted_stable_unique (fun p : Nat × Nat => p.2)
    · exact insertionSort_sorted_key (fun p : Nat × Nat => p.2) _
    · rw [List.pairwise_map]
      exact hst.2.1
    · intro c
      rw [insertionSort_filter_key (fun p : Nat × Nat => p.2) c, List.filter_map,
        List.filter_map]
      have := hst.2.2 c
      show List.map (fun v => (v, col v)) (candidates.filter (fun v => col v == c)) =
        List.map (fun v => (v, col v)) (order.filter (fun v => col v == c))
      rw [this]
  unfold firstFitSort
  rw [hsorted, List.map_map, List.map_map]
  congr 1
  exact List.map_id _

/-- C34. `ColorSort` computes the first-fit sequential colouring. For every
list of distinct candidates of `[0, n)` (on the graph of any state whose rows
have `(n + 63) / 64` words, a symmetric loop-free graph read by
`ReadGraphFile` in particular), `ColorSort` returns what `firstFitSort`
computes: the candidates coloured in turn by first fit and then stably sorted
by colour. In terms of the output: `bounds[k]` is the colour of `order[k]`;
the colour given to a vertex `v` is the smallest `c >= 1` such that no vertex
earlier than `v` in `candidates` with colour `c` has `v` in its row (the
colour is at least 1, no earlier vertex of the same colour is adjacent to `v`,
and every smaller colour is that of an earlier vertex adjacent to `v`); and
`order` is `candidates` stably sorted by that colour: a permutation of
`candidates` with non-decreasing colours in which the vertices of one colour
keep their relative order from `candidates`. -/
theorem C34_colorsort_first_fit (s : State) (candidates : List Nat)
    (hw : s.words = (s.n + 63) / 64) (hC : ∀ u ∈ candidates, u < s.n)
    (hnd : candidates.Nodup) :
    ColorSort s candidates = some (firstFitSort s candidates) ∧
    ∃ order bounds,
      ColorSort s candidates = some (order, bounds) ∧
      bounds = order.map (colourOf order bounds) ∧
      FirstFit s candidates (colourOf order bounds) ∧
      StableSortedBy (colourOf order bounds) candidates order := by
  obtain ⟨order, bounds, heq, hb, hfit, hst⟩ := ColorSort_fit s candidates hw hC hnd
  refine ⟨?_, order, bounds, heq, hb, hfit, hst⟩
  rw [heq, firstFitSort_eq s candidates order _ hfit hst, ← hb]

theorem C34_colorsort_first_fit_witness :
    c4.words = (c4.n + 63) / 64 ∧ (∀ u ∈ [0, 1, 2, 3], u < c4.n) ∧ [0, 1, 2, 3].Nodup ∧
    firstFitSort c4 [0, 1, 2, 3] = ([0, 2, 1, 3], [1, 1, 2, 2]) ∧
    (ColorSort c4 [0, 1, 2, 3] = some (firstFitSort c4 [0, 1, 2, 3]) ∧
    ∃ order bounds,
      ColorSort c4 [0, 1, 2, 3] = some (order, bounds) ∧
      bounds = order.map (colourOf order bounds) ∧
      FirstFit c4 [0, 1, 2, 3] (colourOf order bounds) ∧
      StableSortedBy (colourOf order bounds) [0, 1, 2, 3] order) :=
  ⟨by decide, by decide, by decide, by decide,
    C34_colorsort_first_fit c4 [0, 1, 2, 3] (by decide) (by decide) (by decide)⟩

/-! ## Maximality of the local cliques -/

theorem mem_eraseIdx_of_ne (l : List Nat) (k : Nat) (hk : k < l.length) (u : Nat)
    (hu : u ∈ l) (hne : u ≠ l.getD k 0) : u ∈ l.eraseIdx k := by
  rw [List.mem_eraseIdx_iff_getElem]
  obtain ⟨i, hi, he⟩ := List.getElem_of_mem hu
  refine ⟨i, hi, ?_, he⟩
  intro hik
  apply hne
  rw [List.getD_eq_getElem _ _ hk, ← he]
  simp only [hik]

/-- A restart ends with a clique nothing can be added to: every vertex of the
base list is in the local clique or outside the row of one of its members. -/
theorem greedyLoop_maximal (s : State) (rcl : Int) (base : List Nat) :
    ∀ (fuel : Nat) (cand clique picks clique1 picks1 : List Nat),
      greedyLoop s rcl fuel cand clique picks = some (clique1, picks1) →
      (∀ u ∈ base, u ∈ cand ∨ u ∈ clique ∨ ∃ v ∈ clique, IsAdjacent s v u = false) →
      ∀ u ∈ base, u ∈ clique1 ∨ ∃ v ∈ clique1, IsAdjacent s v u = false := by
  intro fuel
  induction fuel with
  | zero =>
    intro cand clique picks clique1 picks1 heq hinv u hu
    cases cand with
    | nil =>
      simp only [greedyLoop, Option.some.injEq, Prod.mk.injEq] at heq
      rw [← heq.1]
      rcases hinv u hu with h | h | h
      · exact absurd h (List.not_mem_nil _)
      · exact Or.inl h
      · exact Or.inr h
    | cons c cand => simp [greedyLoop] at heq
  | succ fuel ih =>
    intro cand clique picks clique1 picks1 heq hinv u hu
    cases cand with
    | nil =>
      simp only [greedyLoop, Option.some.injEq, Prod.mk.injEq] at heq
      rw [← heq.1]
      rcases hinv u hu with h | h | h
      · exact absurd h (List.not_mem_nil _)
      · exact Or.inl h
      · exact Or.inr h
    | cons c cand =>
      rw [greedyLoop] at heq
      have hidx : picks.headD 0 %
          ((min (rcl - 1) (((c :: cand).length : Int) - 1)).toNat + 1) < (c :: cand).length := by
        have h1 : (min (rcl - 1) (((c :: cand).length : Int) - 1)).toNat + 1
            ≤ (c :: cand).length := by
          simp only [List.length_cons]
          omega
        exact lt_of_lt_of_le (Nat.mod_lt _ (Nat.succ_pos _)) h1
      refine ih _ _ _ _ _ heq ?_ u hu
      intro x hx
      rcases hinv x hx with h | h | ⟨v, hv, hadj⟩
      · by_cases hxv : x = (c :: cand).getD (picks.headD 0 %
            ((min (rcl - 1) (((c :: cand).length : Int) - 1)).toNat + 1)) 0
        · exact Or.inr (Or.inl (List.mem_append_right _ (by rw [← hxv]; simp)))
        · have hmem := mem_eraseIdx_of_ne (c :: cand) _ hidx x h hxv
          cases hadj : IsAdjacent s ((c :: cand).getD (picks.headD 0 %
            ((min (rcl - 1) (((c :: cand).length : Int) - 1)).toNat + 1)) 0) x
          · exact Or.inr (Or.inr ⟨_, List.mem_append_right _ (List.mem_singleton.mpr rfl), hadj⟩)
          · exact Or.inl (List.mem_filter.mpr ⟨hmem, hadj⟩)
      · exact Or.inr (Or.inl (List.mem_append_left _ h))
      · exact Or.inr (Or.inr ⟨v, List.mem_append_left _ hv, hadj⟩)

theorem greedyRuns_forall (s : State) (rcl : Int) (base : List Nat) (P : List Nat → Prop)
    (hP : ∀ picks c picks1, greedyLoop s rcl base.length base [] picks = some (c, picks1) →
      P c) :
    ∀ (k : Nat) (picks : List Nat) (runs : List (List Nat)),
      greedyRuns s rcl base k picks = some runs → ∀ x ∈ runs, P x := by
  intro k
  induction k with
  | zero =>
    intro picks runs heq x hx
    simp only [greedyRuns, Option.some.injEq] at heq
    rw [← heq] at hx
    exact absurd hx (List.not_mem_nil _)
  | succ k ih =>
    intro picks runs heq x hx
    rw [greedyRuns] at heq
    cases h0 : greedyLoop s rcl base.length base [] picks with
    | none => simp [h0] at heq
    | some r =>
      obtain ⟨c0, picks1⟩ := r
      simp only [h0] at heq
      cases hr : greedyRuns s rcl base k picks1 with
      | none => simp [hr] at heq
      | some rest =>
        simp only [hr, Option.some.injEq] at heq
        rw [← heq] at hx
        rcases List.mem_cons.mp hx with h | h
        · rw [h]; exact hP picks c0 picks1 h0
        · exact ih picks1 rest hr x h

/-- C35. Every greedy restart ends with a maximal clique. On a graph with
`n >= 1` and symmetric adjacency (every graph `ReadGraphFile` builds is one),
for every `starts`, `rcl` and every outcome of the random picks,
`InitBestCliqueGreedy` returns after `max(starts, 1)` restarts, and the local
clique built by each restart is non-empty, has no repeated vertex, holds
vertices of `[0, n)`, is pairwise adjacent, and every vertex of `[0, n)`
outside it is non-adjacent to at least one of its vertices. -/
theorem C35_greedy_restart_maximal (s : State) (starts rcl : Int) (picks : List Nat)
    (hn : 1 ≤ s.n) (hsym : GraphSym s) :
    ∃ s1 picks1 runs,
      InitBestCliqueGreedy s starts rcl picks = some (s1, picks1) ∧
      greedyRuns s (if rcl ≤ 0 then 1 else rcl) (sortByDegree s (List.range s.n))
        (if starts ≤ 0 then 1 else starts).toNat picks = some runs ∧
      runs.length = (if starts ≤ 0 then 1 else starts).toNat ∧
      1 ≤ runs.length ∧
      ∀ clique ∈ runs,
        clique ≠ [] ∧ clique.Nodup ∧ (∀ v ∈ clique, v < s.n) ∧
        (∀ a ∈ clique, ∀ b ∈ clique, a ≠ b → IsAdjacent s a b = true) ∧
        ∀ u, u < s.n → u ∉ clique →
          ∃ v ∈ clique, IsAdjacent s v u = false ∧ IsAdjacent s u v = false := by
  have hbase : sortByDegree s (List.range s.n) ≠ [] := by
    intro h
    have := (sortByDegree_perm s (List.range s.n)).length_eq
    rw [h, List.length_range] at this
    simp only [List.length_nil] at this
    omega
  obtain ⟨s1, picks1, runs, heq, hruns, hlen, -⟩ :=
    greedyStarts_runs s (if rcl ≤ 0 then 1 else rcl) (sortByDegree s (List.range s.n))
      (if starts ≤ 0 then 1 else starts).toNat s picks (SameGraph.graphRefl s)
  have hk : 1 ≤ (if starts ≤ 0 then 1 else starts).toNat := by
    split <;> omega
  refine ⟨s1, picks1, runs, ?_, hruns, hlen, by omega, ?_⟩
  · have hn1 : ¬ s.n ≤ 0 := by omega
    rw [InitBestCliqueGreedy, if_neg hn1]
    exact heq
  · refine greedyRuns_forall s _ _
      (fun clique => clique ≠ [] ∧ clique.Nodup ∧ (∀ v ∈ clique, v < s.n) ∧
        (∀ a ∈ clique, ∀ b ∈ clique, a ≠ b → IsAdjacent s a b = true) ∧
        ∀ u, u < s.n → u ∉ clique →
          ∃ v ∈ clique, IsAdjacent s v u = false ∧ IsAdjacent s u v = false)
      ?_ _ _ _ hruns
    intro pk c pk1 hloop
    obtain ⟨c', pk1', heq', hprop⟩ :=
      greedyLoop_spec s (if rcl ≤ 0 then 1 else rcl)
        (sortByDegree s (List.range s.n)).length (sortByDegree s (List.range s.n)) [] pk
        (Nat.le_refl _)
    rw [hloop] at heq'
    simp only [Option.some.injEq, Prod.mk.injEq] at heq'
    obtain ⟨h1, h2, h3⟩ := hprop hsym (NodeOK.root s)
    rw [← heq'.1] at h1 h2 h3
    have hmax := greedyLoop_maximal s (if rcl ≤ 0 then 1 else rcl)
      (sortByDegree s (List.range s.n)) _ _ _ _ _ _ hloop (fun u hu => Or.inl hu)
    have hlenc := (greedyLoop_length s _ _ _ _ _ _ _ hloop).2 hbase
    refine ⟨?_, h1, h2, ?_, ?_⟩
    · intro h0
      rw [h0] at hlenc
      simp at hlenc
    · intro a ha b hb hab
      exact h3 a (List.mem_toFinset.mpr ha) b (List.mem_toFinset.mpr hb) hab
    · intro u hu huc
      have hub : u ∈ sortByDegree s (List.range s.n) :=
        (sortByDegree_perm s _).mem_iff.mpr (List.mem_range.mpr hu)
      rcases hmax u hub with h | ⟨v, hv, hadj⟩
      · exact absurd h huc
      · exact ⟨v, hv, hadj, by rw [hsym u hu v (h2 v hv)]; exact hadj⟩

theorem C35_greedy_restart_maximal_witness :
    1 ≤ c4.n ∧ GraphSym c4 ∧
    ∃ s1 picks1 runs,
      InitBestCliqueGreedy c4 3 2 [1, 0, 1, 1, 0, 0] = some (s1, picks1) ∧
      greedyRuns c4 (if (2 : Int) ≤ 0 then (1 : Int) else 2) (sortByDegree c4 (List.range c4.n))
        (if (3 : Int) ≤ 0 then (1 : Int) else 3).toNat [1, 0, 1, 1, 0, 0] = some runs ∧
      runs.length = (if (3 : Int) ≤ 0 then (1 : Int) else 3).toNat ∧
      1 ≤ runs.length ∧
      ∀ clique ∈ runs,
        clique ≠ [] ∧ clique.Nodup ∧ (∀ v ∈ clique, v < c4.n) ∧
        (∀ a ∈ clique, ∀ b ∈ clique, a ≠ b → IsAdjacent c4 a b = true) ∧
        ∀ u, u < c4.n → u ∉ clique →
          ∃ v ∈ clique, IsAdjacent c4 v u = false ∧ IsAdjacent c4 u v = false :=
  ⟨by decide, by decide, C35_greedy_restart_maximal c4 3 2 [1, 0, 1, 1, 0, 0]
    (by decide) (by decide)⟩

/-! ## The representation of the incumbent -/

theorem replaceBest_rep (s : State) (clique : List Nat) (h : clique.Nodup) :
    IncumbentRep (replaceBest s clique) := by
  refine ⟨h, replaceBest_set s clique, rfl, ?_⟩
  rw [replaceBest_set, List.toFinset_card_of_nodup h]
  rfl

theorem IncumbentRep.clearRep (s : State) : IncumbentRep (ClearClique s) :=
  ⟨List.nodup_nil, rfl, rfl, rfl⟩

theorem DistinctNode.childNode {cur order : List Nat} (h : DistinctNode cur order) (k : Nat)
    (hk : k < order.length) (p : Nat → Bool) :
    DistinctNode (cur ++ [order.getD k 0]) ((order.take k).filter p) := by
  obtain ⟨h1, h2, h3⟩ := h
  have hv : order.getD k 0 ∈ order := by
    rw [List.getD_eq_getElem _ _ hk]; exact List.getElem_mem _
  have hnot : order.getD k 0 ∉ order.take k := by
    rw [List.getD_eq_getElem _ _ hk]
    intro hm
    obtain ⟨i, hi, he⟩ := List.getElem_of_mem hm
    rw [List.length_take] at hi
    rw [List.getElem_take] at he
    have := (List.Nodup.getElem_inj_iff h2).mp he
    omega
  refine ⟨?_, ((List.take_sublist k order).nodup h2).filter _, ?_⟩
  · rw [List.nodup_append]
    refine ⟨h1, List.nodup_singleton _, ?_⟩
    intro a ha hb
    rw [List.mem_singleton] at hb
    subst hb
    exact h3 _ hv ha
  · intro c hc hm
    rw [List.mem_filter] at hc
    rcases List.mem_append.mp hm with hm | hm
    · exact h3 c (List.mem_of_mem_take hc.1) hm
    · rw [List.mem_singleton] at hm
      rw [hm] at hc
      exact hnot hc.1

theorem expandLoop_rep (expand : State → List Nat → Option State)
    (hexp : ∀ s c s1, expand s c = some s1 →
      s1.cur_clique = s.cur_clique ∧
        (IncumbentRep s → DistinctNode s.cur_clique c → IncumbentRep s1))
    (order bounds : List Nat) :
    ∀ (k : Nat) (s s1 : State), k ≤ order.length →
      expandLoop expand order bounds k s = some s1 →
      s1.cur_clique = s.cur_clique ∧
        (IncumbentRep s → DistinctNode s.cur_clique order → IncumbentRep s1) := by
  intro k
  induction k with
  | zero =>
    intro s s1 _ heq
    simp only [expandLoop, Option.some.injEq] at heq
    rw [← heq]
    exact ⟨rfl, fun h _ => h⟩
  | succ k ih =>
    intro s s1 hk heq
    by_cases hprune : (s.cur_clique.length : Int) + (bounds.getD k 0 : Int) ≤ s.best_size
    · rw [expandLoop, if_pos hprune] at heq
      simp only [Option.some.injEq] at heq
      rw [← heq]
      exact ⟨rfl, fun h _ => h⟩
    · rw [expandLoop, if_neg hprune] at heq
      cases hcall : expand { s with cur_clique := s.cur_clique ++ [order.getD k 0] }
          ((order.take k).filter (fun u => IsAdjacent s (order.getD k 0) u)) with
      | none => simp only [hcall] at heq; cases heq
      | some s2 =>
        simp only [hcall] at heq
        obtain ⟨hcur2, hrep2⟩ := hexp _ _ _ hcall
        obtain ⟨hcur1, hrep1⟩ := ih { s2 with cur_clique := s2.cur_clique.dropLast } s1
          (Nat.le_of_succ_le hk) heq
        have hdrop : s2.cur_clique.dropLast = s.cur_clique := by
          rw [hcur2]; simp
        refine ⟨by rw [hcur1]; exact hdrop, fun hrep hnode => ?_⟩
        apply hrep1
        · exact hrep2 hrep (hnode.childNode k hk _)
        · show DistinctNode s2.cur_clique.dropLast order
          rw [hdrop]; exact hnode

/-- A call of `Expand` on distinct vertices keeps the partial clique and the
consistency of the incumbent. -/
theorem Expand_rep :
    ∀ (fuel : Nat) (s : State) (candidates : List Nat) (s1 : State),
      Expand fuel s candidates = some s1 →
      s1.cur_clique = s.cur_clique ∧
        (IncumbentRep s → DistinctNode s.cur_clique candidates → IncumbentRep s1) := by
  intro fuel
  induction fuel with
  | zero => intro s c s1 heq; simp [Expand] at heq
  | succ fuel ih =>
    intro s candidates s1 heq
    cases candidates with
    | nil =>
      by_cases h : (s.cur_clique.length : Int) > s.best_size
      · simp only [Expand, List.isEmpty_nil, if_true, h, Option.some.injEq] at heq
        rw [← heq]
        exact ⟨rfl, fun _ hnode => replaceBest_rep s _ hnode.1⟩
      · simp only [Expand, List.isEmpty_nil, if_true, h, if_false, Option.some.injEq] at heq
        rw [← heq]
        exact ⟨rfl, fun hrep _ => hrep⟩
    | cons c cs =>
      obtain ⟨order, bounds, color, hcs, hperm, -, -⟩ := ColorSort_spec s (c :: cs)
      simp only [Expand, List.isEmpty_cons, Bool.false_eq_true, if_false, hcs] at heq
      obtain ⟨hcur, hrep⟩ := expandLoop_rep (Expand fuel) ih order bounds order.length s s1
        (Nat.le_refl _) heq
      refine ⟨hcur, fun h hnode => hrep h ?_⟩
      exact ⟨hnode.1, hperm.nodup_iff.mpr hnode.2.1,
        fun x hx => hnode.2.2 x (hperm.subset hx)⟩

theorem expandLoopLog_forget
    (elog : State → List Nat → Option (State × List (State × List Nat)))
    (e : State → List Nat → Option State)
    (hrec : ∀ s c r, elog s c = some r → e s c = some r.1)
    (order bounds : List Nat) :
    ∀ (k : Nat) (s : State) (r : State × List (State × List Nat)),
      expandLoopLog elog order bounds k s = some r →
      expandLoop e order bounds k s = some r.1 := by
  intro k
  induction k with
  | zero =>
    intro s r heq
    simp only [expandLoopLog, Option.some.injEq] at heq
    rw [← heq]; rfl
  | succ k ih =>
    intro s r heq
    by_cases hprune : (s.cur_clique.length : Int) + (bounds.getD k 0 : Int) ≤ s.best_size
    · rw [expandLoopLog, if_pos hprune] at heq
      simp only [Option.some.injEq] at heq
      rw [expandLoop, if_pos hprune, ← heq]
    · rw [expandLoopLog, if_neg hprune] at heq
      rw [expandLoop, if_neg hprune]
      cases hcall : elog { s with cur_clique := s.cur_clique ++ [order.getD k 0] }
          ((order.take k).filter (fun u => IsAdjacent s (order.getD k 0) u)) with
      | none => simp only [hcall] at heq; cases heq
      | some r2 =>
        obtain ⟨s2, log2⟩ := r2
        simp only [hcall] at heq
        have h2 := hrec _ _ _ hcall
        simp only [h2]
        cases hrest : expandLoopLog elog order bounds k
            { s2 with cur_clique := s2.cur_clique.dropLast } with
        | none => simp only [hrest] at heq; cases heq
        | some r3 =>
          obtain ⟨s3, log3⟩ := r3
          simp only [hrest, Option.some.injEq] at heq
          rw [← heq]
          exact ih _ (s3, log3) hrest

/-- The search with its record computes what the search computes. -/
theorem ExpandLog_forget :
    ∀ (fuel : Nat) (s : State) (candidates : List Nat) (r : State × List (State × List Nat)),
      ExpandLog fuel s candidates = some r → Expand fuel s candidates = some r.1 := by
  intro fuel
  induction fuel with
  | zero => intro s c r heq; simp [ExpandLog] at heq
  | succ fuel ih =>
    intro s candidates r heq
    cases candidates with
    | nil =>
      by_cases h : (s.cur_clique.length : Int) > s.best_size
      · simp only [ExpandLog, List.isEmpty_nil, if_true, h, Option.some.injEq] at heq
        rw [← heq]
        simp [Expand, h]
      · simp only [ExpandLog, List.isEmpty_nil, if_true, h, if_false, Option.some.injEq] at heq
        rw [← heq]
        simp [Expand, h]
    | cons c cs =>
      cases hcs : ColorSort s (c :: cs) with
      | none => simp [ExpandLog, hcs] at heq
      | some ob =>
        obtain ⟨order, bounds⟩ := ob
        simp only [ExpandLog, List.isEmpty_cons, Bool.false_eq_true, if_false, hcs] at heq
        cases hloop : expandLoopLog (ExpandLog fuel) order bounds order.length s with
        | none => simp [hloop] at heq
        | some r1 =>
          obtain ⟨s1, log⟩ := r1
          simp only [hloop, Option.some.injEq] at heq
          rw [← heq]
          simp only [Expand, List.isEmpty_cons, Bool.false_eq_true, if_false, hcs]
          exact expandLoopLog_forget (ExpandLog fuel) (Expand fuel) ih order bounds _ _ _ hloop

theorem expandLoopLog_rep
    (elog : State → List Nat → Option (State × List (State × List Nat)))
    (hrec : ∀ s c r, elog s c = some r →
      r.1.cur_clique = s.cur_clique ∧
        (IncumbentRep s → DistinctNode s.cur_clique c →
          IncumbentRep r.1 ∧
            ∀ node ∈ r.2, IncumbentRep node.1 ∧ DistinctNode node.1.cur_clique node.2))
    (order bounds : List Nat) :
    ∀ (k : Nat) (s : State) (r : State × List (State × List Nat)), k ≤ order.length →
      expandLoopLog elog order bounds k s = some r →
      r.1.cur_clique = s.cur_clique ∧
        (IncumbentRep s → DistinctNode s.cur_clique order →
          IncumbentRep r.1 ∧
            ∀ node ∈ r.2, IncumbentRep node.1 ∧ DistinctNode node.1.cur_clique node.2) := by
  intro k
  induction k with
  | zero =>
    intro s r _ heq
    simp only [expandLoopLog, Option.some.injEq] at heq
    rw [← heq]
    exact ⟨rfl, fun h _ => ⟨h, fun _ hm => absurd hm (List.not_mem_nil _)⟩⟩
  | succ k ih =>
    intro s r hk heq
    by_cases hprune : (s.cur_clique.length : Int) + (bounds.getD k 0 : Int) ≤ s.best_size
    · rw [expandLoopLog, if_pos hprune] at heq
      simp only [Option.some.injEq] at heq
      rw [← heq]
      exact ⟨rfl, fun h _ => ⟨h, fun _ hm => absurd hm (List.not_mem_nil _)⟩⟩
    · rw [expandLoopLog, if_neg hprune] at heq
      cases hcall : elog { s with cur_clique := s.cur_clique ++ [order.getD k 0] }
          ((order.take k).filter (fun u => IsAdjacent s (order.getD k 0) u)) with
      | none => simp only [hcall] at heq; cases heq
      | some r2 =>
        obtain ⟨s2, log2⟩ := r2
        simp only [hcall] at heq
        cases hrest : expandLoopLog elog order bounds k
            { s2 with cur_clique := s2.cur_clique.dropLast } with
        | none => simp only [hrest] at heq; cases heq
        | some r3 =>
          obtain ⟨s3, log3⟩ := r3
          simp only [hrest, Option.some.injEq] at heq
          rw [← heq]
          obtain ⟨hcur2, hrep2⟩ := hrec _ _ _ hcall
          obtain ⟨hcur3, hrep3⟩ := ih _ (s3, log3) (Nat.le_of_succ_le hk) hrest
          have hdrop : s2.cur_clique.dropLast = s.cur_clique := by
            rw [hcur2]; simp
          refine ⟨by rw [hcur3]; exact hdrop, fun hrep hnode => ?_⟩
          obtain ⟨ha, hb⟩ := hrep2 hrep (hnode.childNode k hk _)
          obtain ⟨hc, hd⟩ := hrep3 ha (by
            show DistinctNode s2.cur_clique.dropLast order
            rw [hdrop]; exact hnode)
          refine ⟨hc, fun node hm => ?_⟩
          rcases List.mem_append.mp hm with h | h
          · exact hb node h
          · exact hd node h

/-- Every call recorded by `ExpandLog` started on distinct vertices with a
consistent incumbent is entered on distinct vertices with a consistent
incumbent. -/
theorem ExpandLog_rep :
    ∀ (fuel : Nat) (s : State) (candidates : List Nat) (r : State × List (State × List Nat)),
      ExpandLog fuel s candidates = some r →
      r.1.cur_clique = s.cur_clique ∧
        (IncumbentRep s → DistinctNode s.cur_clique candidates →
          IncumbentRep r.1 ∧
            ∀ node ∈ r.2, IncumbentRep node.1 ∧ DistinctNode node.1.cur_clique node.2) := by
  intro fuel
  induction fuel with
  | zero => intro s c r heq; simp [ExpandLog] at heq
  | succ fuel ih =>
    intro s candidates r heq
    cases candidates with
    | nil =>
      by_cases h : (s.cur_clique.length : Int) > s.best_size
      · simp only [ExpandLog, List.isEmpty_nil, if_true, h, Option.some.injEq] at heq
        rw [← heq]
        refine ⟨rfl, fun hrep hnode => ⟨replaceBest_rep s _ hnode.1, fun node hm => ?_⟩⟩
        rw [List.mem_singleton] at hm
        rw [hm]; exact ⟨hrep, hnode⟩
      · simp only [ExpandLog, List.isEmpty_nil, if_true, h, if_false, Option.some.injEq] at heq
        rw [← heq]
        refine ⟨rfl, fun hrep hnode => ⟨hrep, fun node hm => ?_⟩⟩
        rw [List.mem_singleton] at hm
        rw [hm]; exact ⟨hrep, hnode⟩
    | cons c cs =>
      obtain ⟨order, bounds, color, hcs, hperm, -, -⟩ := ColorSort_spec s (c :: cs)
      simp only [ExpandLog, List.isEmpty_cons, Bool.false_eq_true, if_false, hcs] at heq
      cases hloop : expandLoopLog (ExpandLog fuel) order bounds order.length s with
      | none => simp only [hloop] at heq; cases heq
      | some r1 =>
        obtain ⟨s1, log⟩ := r1
        simp only [hloop, Option.some.injEq] at heq
        rw [← heq]
        obtain ⟨hcur, hrep⟩ := expandLoopLog_rep (ExpandLog fuel) ih order bounds
          order.length s (s1, log) (Nat.le_refl _) hloop
        refine ⟨hcur, fun h hnode => ?_⟩
        obtain ⟨ha, hb⟩ := hrep h ⟨hnode.1, hperm.nodup_iff.mpr hnode.2.1,
          fun x hx => hnode.2.2 x (hperm.subset hx)⟩
        refine ⟨ha, fun node hm => ?_⟩
        rcases List.mem_cons.mp hm with e | e
        · rw [e]; exact ⟨h, hnode⟩
        · exact hb node e

theorem greedyLoop_nodup (s : State) (rcl : Int) :
    ∀ (fuel : Nat) (cand clique picks clique1 picks1 : List Nat),
      greedyLoop s rcl fuel cand clique picks = some (clique1, picks1) →
      DistinctNode clique cand → clique1.Nodup := by
  intro fuel
  induction fuel with
  | zero =>
    intro cand clique picks clique1 picks1 heq hnode
    cases cand with
    | nil =>
      simp only [greedyLoop, Option.some.injEq, Prod.mk.injEq] at heq
      rw [← heq.1]; exact hnode.1
    | cons c cand => simp [greedyLoop] at heq
  | succ fuel ih =>
    intro cand clique picks clique1 picks1 heq hnode
    cases cand with
    | nil =>
      simp only [greedyLoop, Option.some.injEq, Prod.mk.injEq] at heq
      rw [← heq.1]; exact hnode.1
    | cons c cand =>
      rw [greedyLoop] at heq
      have hidx : picks.headD 0 %
          ((min (rcl - 1) (((c :: cand).length : Int) - 1)).toNat + 1) < (c :: cand).length := by
        have h1 : (min (rcl - 1) (((c :: cand).length : Int) - 1)).toNat + 1
            ≤ (c :: cand).length := by
          simp only [List.length_cons]
          omega
        exact lt_of_lt_of_le (Nat.mod_lt _ (Nat.succ_pos _)) h1
      refine ih _ _ _ _ _ heq ?_
      obtain ⟨h1, h2, h3⟩ := hnode
      have hv : (c :: cand).getD (picks.headD 0 %
          ((min (rcl - 1) (((c :: cand).length : Int) - 1)).toNat + 1)) 0 ∈ c :: cand := by
        rw [List.getD_eq_getElem _ _ hidx]; exact List.getElem_mem _
      have hsub := List.eraseIdx_sublist (c :: cand) (picks.headD 0 %
          ((min (rcl - 1) (((c :: cand).length : Int) - 1)).toNat + 1))
      refine ⟨?_, (hsub.nodup h2).filter _, ?_⟩
      · rw [List.nodup_append]
        refine ⟨h1, List.nodup_singleton _, ?_⟩
        intro a ha hb
        rw [List.mem_singleton] at hb
        subst hb
        exact h3 _ hv ha
      · intro x hx hm
        rw [List.mem_filter] at hx
        rcases List.mem_append.mp hm with hm | hm
        · exact h3 x (hsub.subset hx.1) hm
        · rw [List.mem_singleton] at hm
          have hx1 := hx.1
          rw [hm, List.getD_eq_getElem _ _ hidx, List.mem_eraseIdx_iff_getElem] at hx1
          obtain ⟨i, hi, hne, he⟩ := hx1
          exact hne ((List.Nodup.getElem_inj_iff h2).mp he)

theorem greedyStarts_rep (rcl : Int) (base : List Nat) (hbase : base.Nodup) :
    ∀ (k : Nat) (s : State) (picks : List Nat) (r : State × List Nat),
      greedyStarts rcl base k s picks = some r → IncumbentRep s → IncumbentRep r.1 := by
  intro k
  induction k with
  | zero =>
    intro s picks r heq hrep
    simp only [greedyStarts, Option.some.injEq] at heq
    rw [← heq]; exact hrep
  | succ k ih =>
    intro s picks r heq hrep
    rw [greedyStarts] at heq
    cases hloop : greedyLoop s rcl base.length base [] picks with
    | none => simp only [hloop] at heq; cases heq
    | some r0 =>
      obtain ⟨clique, picks1⟩ := r0
      simp only [hloop] at heq
      have hnd := greedyLoop_nodup s rcl _ _ _ _ _ _ hloop
        ⟨List.nodup_nil, hbase, fun _ _ h => absurd h (List.not_mem_nil _)⟩
      by_cases hbig : (clique.length : Int) > s.best_size
      · rw [if_pos hbig] at heq
        exact ih _ _ _ heq (replaceBest_rep s clique hnd)
      · rw [if_neg hbig] at heq
        exact ih _ _ _ heq hrep

theorem InitBestCliqueGreedy_rep (s : State) (starts rcl : Int) (picks : List Nat)
    (r : State × List Nat) (heq : InitBestCliqueGreedy s starts rcl picks = some r)
    (hrep : IncumbentRep s) : IncumbentRep r.1 := by
  by_cases hn : s.n ≤ 0
  · rw [InitBestCliqueGreedy, if_pos hn] at heq
    simp only [Option.some.injEq] at heq
    rw [← heq]; exact hrep
  · rw [InitBestCliqueGreedy, if_neg hn] at heq
    exact greedyStarts_rep _ _
      ((sortByDegree_perm s _).nodup_iff.mpr (List.nodup_range _)) _ _ _ _ heq hrep

/-- C36. The incumbent representation stays consistent. Starting from a
cleared incumbent, `InitBestCliqueGreedy` returns (for every `starts`, `rcl`
and every random draw) with `best_clique_vec` free of duplicates,
`best_clique_set` the set of its elements and
`best_size = |best_clique_vec| = |best_clique_set|`; `RunBnB` returns, its
search being the run of `Expand` whose calls `ExpandLog` lists; the same
consistency holds on entry to every one of these calls and in the state every
one of them returns, and in the final state, so the size `main` reports,
`GetClique().size()`, equals `best_size`. -/
theorem C36_incumbent_representation (s : State) (picks : List Nat) :
    (∀ (starts rcl : Int) (pk : List Nat), ∃ s1 pk1,
      InitBestCliqueGreedy (ClearClique s) starts rcl pk = some (s1, pk1) ∧ IncumbentRep s1) ∧
    ∃ s1 picks1 s2 log,
      InitBestCliqueGreedy (ClearClique s) 8 10 picks = some (s1, picks1) ∧
      IncumbentRep s1 ∧
      ExpandLog ((sortByDegree s1 (List.range s1.n)).length + 1)
        { s1 with cur_clique := [] } (sortByDegree s1 (List.range s1.n)) = some (s2, log) ∧
      RunBnB (ClearClique s) picks = some (s2, picks1) ∧
      (∀ node ∈ log, IncumbentRep node.1 ∧
        (∃ sx, Expand (node.2.length + 1) node.1 node.2 = some sx) ∧
        ∀ fuel sx, Expand fuel node.1 node.2 = some sx → IncumbentRep sx) ∧
      IncumbentRep s2 ∧
      ((GetClique s2).card : Int) = s2.best_size := by
  have hinitAll : ∀ (starts rcl : Int) (pk : List Nat), ∃ s1 pk1,
      InitBestCliqueGreedy (ClearClique s) starts rcl pk = some (s1, pk1) ∧
        IncumbentRep s1 := by
    intro starts rcl pk
    obtain ⟨s1, pk1, hinit, -, -⟩ := InitBestCliqueGreedy_spec (ClearClique s) starts rcl pk
    exact ⟨s1, pk1, hinit,
      InitBestCliqueGreedy_rep _ _ _ _ (s1, pk1) hinit (IncumbentRep.clearRep s)⟩
  refine ⟨hinitAll, ?_⟩
  obtain ⟨s1, picks1, hinit, hrep1⟩ := hinitAll 8 10 picks
  obtain ⟨s2, log, hlog, hexp, -, -⟩ :=
    ExpandLog_spec ((sortByDegree s1 (List.range s1.n)).length + 1)
      { s1 with cur_clique := [] } (sortByDegree s1 (List.range s1.n)) (Nat.lt_succ_self _)
  have hroot : DistinctNode ({ s1 with cur_clique := [] } : State).cur_clique
      (sortByDegree s1 (List.range s1.n)) :=
    ⟨List.nodup_nil, (sortByDegree_perm s1 _).nodup_iff.mpr (List.nodup_range _),
      fun _ _ h => absurd h (List.not_mem_nil _)⟩
  have hrep1' : IncumbentRep { s1 with cur_clique := [] } := hrep1
  obtain ⟨-, hall⟩ := ExpandLog_rep _ _ _ (s2, log) hlog
  obtain ⟨hrep2, hnodes⟩ := hall hrep1' hroot
  refine ⟨s1, picks1, s2, log, hinit, hrep1, hlog, ?_, ?_, hrep2, ?_⟩
  · simp only [RunBnB, hinit, hexp]
  · intro node hm
    obtain ⟨ha, hb⟩ := hnodes node hm
    refine ⟨ha, ?_, fun fuel sx hsx => (Expand_rep fuel node.1 node.2 sx hsx).2 ha hb⟩
    obtain ⟨sx, hsx, -⟩ := Expand_spec (node.2.length + 1) node.1 node.2 (Nat.lt_succ_self _)
    exact ⟨sx, hsx⟩
  · unfold GetClique
    exact hrep2.2.2.2.symm

end BnBSolver

namespace MaxCliqueTabuSearch

/-! ## Lab 3: the invariants in the words of the source -/

theorem FastSet.WF.indexed {n : Nat} {f : FastSet} (h : f.WF n) : f.IndexedInv n := by
  refine ⟨h.1, fun v hv => ((h.mem_iff v).mp hv).1, h.nodup, fun i hi => (h.2.1 i hi).2, ?_⟩
  intro v hv
  constructor
  · intro hp hm
    exact ((h.mem_iff v).mp hm).2 hp
  · intro hm
    by_contra hp
    exact hm (h.2.2 v hv hp)

theorem FastSet.IndexedInv.wf {n : Nat} {f : FastSet} (h : f.IndexedInv n) : f.WF n := by
  obtain ⟨h1, h2, -, h4, h5⟩ := h
  refine ⟨h1, fun i hi => ⟨h2 _ (getD_mem_of_lt f.items i hi), h4 i hi⟩, ?_⟩
  intro v hv hp
  by_contra hm
  exact hp ((h5 v hv).mpr hm)

theorem FastSet.WF.contains_iff {n : Nat} {f : FastSet} (h : f.WF n) (v : Nat) (hv : v < n) :
    f.Contains v = true ↔ v ∈ f.items := by
  unfold FastSet.Contains
  rw [h.mem_iff v, bne_iff_ne]
  exact ⟨fun hp => ⟨hv, hp⟩, fun hp => hp.2⟩

/-- C33. The indexed set `FastSet` behaves as a finite set of vertices of
`[0, n)`. The invariant "`items` has no duplicates, `pos[items[i]] = i` for
every `i`, and `pos[v] = -1` exactly when `v` is not in `items`" holds after
`Init(n)` (which leaves the set empty) and is kept by `Add(v)` and
`Remove(v)`; `Contains` is membership in `items`; after `Add(v)` `Contains(v)`
is true, after `Remove(v)` it is false, the membership of every other vertex
is unchanged, and `Size()` changes by one exactly when the membership of `v`
changed. -/
theorem C33_fastset_is_a_set (n : Nat) (f : FastSet) (v : Nat) (hv : v < n)
    (hf : f.IndexedInv n) :
    ((FastSet.Init n).IndexedInv n ∧ (FastSet.Init n).Size = 0 ∧
      ∀ u, u < n → (FastSet.Init n).Contains u = false) ∧
    (f.Add v).IndexedInv n ∧ (f.Remove v).IndexedInv n ∧
    (∀ u, u < n → (f.Contains u = true ↔ u ∈ f.items)) ∧
    (f.Add v).Contains v = true ∧ (f.Remove v).Contains v = false ∧
    (∀ u, u < n → u ≠ v →
      (f.Add v).Contains u = f.Contains u ∧ (f.Remove v).Contains u = f.Contains u) ∧
    (f.Add v).Size = f.Size + (if f.Contains v = true then 0 else 1) ∧
    (f.Remove v).Size = f.Size - (if f.Contains v = true then 1 else 0) := by
  have hw := hf.wf
  obtain ⟨hwa, hma⟩ := hw.addOK v hv
  obtain ⟨hwr, hmr⟩ := hw.removeOK v hv
  have hc := hw.contains_iff
  have hca := hwa.contains_iff
  have hcr := hwr.contains_iff
  have hbool : ∀ (a b : Bool), (a = true ↔ b = true) → a = b := by
    intro a b h
    cases a <;> cases b <;> simp_all
  refine ⟨⟨(FastSet.initOK n).indexed, rfl, ?_⟩, hwa.indexed, hwr.indexed, hc, ?_, ?_, ?_, ?_, ?_⟩
  · intro u hu
    cases hcu : (FastSet.Init n).Contains u
    · rfl
    · have := ((FastSet.initOK n).contains_iff u hu).mp hcu
      exact absurd this (List.not_mem_nil _)
  · exact (hca v hv).mpr ((hma v).mpr (Or.inr rfl))
  · cases hcu : (f.Remove v).Contains v
    · rfl
    · exact absurd rfl ((hmr v).mp ((hcr v hv).mp hcu)).2
  · intro u hu huv
    refine ⟨hbool _ _ ?_, hbool _ _ ?_⟩
    · rw [hca u hu, hc u hu, hma u]
      exact ⟨fun h => h.resolve_right huv, Or.inl⟩
    · rw [hcr u hu, hc u hu, hmr u]
      exact ⟨fun h => h.1, fun h => ⟨h, huv⟩⟩
  · by_cases hcv : f.Contains v = true
    · rw [if_pos hcv]
      have hp : f.pos.getD v (-1) ≠ -1 := by
        unfold FastSet.Contains at hcv
        exact bne_iff_ne.mp hcv
      unfold FastSet.Add
      rw [if_pos hp]
      omega
    · rw [if_neg hcv]
      have hp : ¬ f.pos.getD v (-1) ≠ -1 := by
        unfold FastSet.Contains at hcv
        intro hh
        exact hcv (bne_iff_ne.mpr hh)
      unfold FastSet.Add
      rw [if_neg hp]
      simp [FastSet.Size]
  · by_cases hcv : f.Contains v = true
    · rw [if_pos hcv]
      have hvm : v ∈ f.items := (hc v hv).mp hcv
      have hp : ¬ f.pos.getD v (-1) = -1 := by
        unfold FastSet.Contains at hcv
        exact bne_iff_ne.mp hcv
      have hpos : 0 < f.items.length := List.length_pos_of_mem hvm
      unfold FastSet.Remove
      simp only [if_neg hp, FastSet.Size, List.length_dropLast, List.length_set]
      omega
    · rw [if_neg hcv]
      have hp : f.pos.getD v (-1) = -1 := by
        unfold FastSet.Contains at hcv
        by_contra hh
        exact hcv (bne_iff_ne.mpr hh)
      unfold FastSet.Remove
      simp only [if_pos hp]
      omega

theorem C33_fastset_is_a_set_witness :
    (1 : Nat) < 4 ∧
    (⟨[2, 1], [-1, 1, 0, -1]⟩ : FastSet).IndexedInv 4 ∧
    (((FastSet.Init 4).IndexedInv 4 ∧ (FastSet.Init 4).Size = 0 ∧
      ∀ u, u < 4 → (FastSet.Init 4).Contains u = false) ∧
    ((⟨[2, 1], [-1, 1, 0, -1]⟩ : FastSet).Add 1).IndexedInv 4 ∧
    ((⟨[2, 1], [-1, 1, 0, -1]⟩ : FastSet).Remove 1).IndexedInv 4 ∧
    (∀ u, u < 4 → ((⟨[2, 1], [-1, 1, 0, -1]⟩ : FastSet).Contains u = true ↔
      u ∈ (⟨[2, 1], [-1, 1, 0, -1]⟩ : FastSet).items)) ∧
    ((⟨[2, 1], [-1, 1, 0, -1]⟩ : FastSet).Add 1).Contains 1 = true ∧
    ((⟨[2, 1], [-1, 1, 0, -1]⟩ : FastSet).Remove 1).Contains 1 = false ∧
    (∀ u, u < 4 → u ≠ 1 →
      ((⟨[2, 1], [-1, 1, 0, -1]⟩ : FastSet).Add 1).Contains u =
        (⟨[2, 1], [-1, 1, 0, -1]⟩ : FastSet).Contains u ∧
      ((⟨[2, 1], [-1, 1, 0, -1]⟩ : FastSet).Remove 1).Contains u =
        (⟨[2, 1], [-1, 1, 0, -1]⟩ : FastSet).Contains u) ∧
    ((⟨[2, 1], [-1, 1, 0, -1]⟩ : FastSet).Add 1).Size =
      (⟨[2, 1], [-1, 1, 0, -1]⟩ : FastSet).Size +
        (if (⟨[2, 1], [-1, 1, 0, -1]⟩ : FastSet).Contains 1 = true then 0 else 1) ∧
    ((⟨[2, 1], [-1, 1, 0, -1]⟩ : FastSet).Remove 1).Size =
      (⟨[2, 1], [-1, 1, 0, -1]⟩ : FastSet).Size -
        (if (⟨[2, 1], [-1, 1, 0, -1]⟩ : FastSet).Contains 1 = true then 1 else 0)) :=
  ⟨by decide, by unfold FastSet.IndexedInv; decide,
    C33_fastset_is_a_set 4 ⟨[2, 1], [-1, 1, 0, -1]⟩ 1 (by decide)
      (by unfold FastSet.IndexedInv; decide)⟩

/-- The number of conflicts of a vertex `u` outside the clique is the number
of clique vertices whose set of neighbours does not hold `u`. -/
theorem conflicts_eq_filter {sets nn : List (List Nat)} (hg : TabuGraph sets nn)
    (clique : List Nat) (u : Nat) (hnd : clique.Nodup) (hlt : ∀ w ∈ clique, w < sets.length)
    (hu : u < sets.length) (huc : u ∉ clique) :
    conflicts nn clique u =
      (clique.filter (fun w => decide (u ∉ sets.getD w []))).length := by
  unfold conflicts
  rw [← List.toFinset_card_of_nodup (hnd.filter _), List.toFinset_filter]
  congr 1
  apply Finset.filter_congr
  intro w hw
  have hwc : w ∈ clique := List.mem_toFinset.mp hw
  rw [hg.nnSpec w u, decide_eq_true_eq]
  constructor
  · intro h; exact h.2.2.2
  · intro h
    exact ⟨hlt w hwc, hu, fun e => huc (e ▸ hwc), h⟩

theorem applyOps_inv {sets nn : List (List Nat)} (hg : TabuGraph sets nn) :
    ∀ (ops : List CliqueOp) (s s1 : State), SearchInv sets nn s →
      applyOps s ops = some s1 → SearchInv sets nn s1 := by
  intro ops
  induction ops with
  | nil =>
    intro s s1 h heq
    simp only [applyOps, Option.some.injEq] at heq
    rw [← heq]; exact h
  | cons op ops ih =>
    intro s s1 h heq
    cases op with
    | add v =>
      by_cases hv : v ∈ s.C0.items
      · rw [applyOps, if_pos hv] at heq
        obtain ⟨h1, h2, h3⟩ := (h.c0 v).mp hv
        exact ih _ s1 (AddToClique_inv hg h v h1 h2 h3).1.inv heq
      · rw [applyOps, if_neg hv] at heq
        exact absurd heq (by simp)
    | remove v =>
      by_cases hv : v ∈ s.clique
      · rw [applyOps, if_pos hv] at heq
        exact ih _ s1 (RemoveFromClique_inv hg h v (h.clique_lt v hv)).1.inv heq
      · rw [applyOps, if_neg hv] at heq
        exact absurd heq (by simp)

/-- C32. The state invariant of the tabu search of lab3. On a graph read by
`ReadGraphFile` into a fresh object (from a file whose `p` lines never lower
the vertex count), after `InitializeState(n)` followed by any sequence of
calls `AddToClique(v)` with `v` in `C0` and `RemoveFromClique(v)` with `v` in
the clique: the clique is pairwise adjacent; `in_clique` and `pos_in_clique`
describe exactly the clique vector (which has no repetition); for every vertex
`u` outside the clique `tight[u]` is the number of clique vertices not
adjacent to `u`; `C0` is exactly the set of outside vertices with `tight = 0`
and `C1` exactly those with `tight = 1`, both satisfying the invariant of
`FastSet`. -/
theorem C32_tabu_state_invariant (recs : List Record) (rng : List Nat) (decisions : List Bool)
    (s s1 : State) (ops : List CliqueOp)
    (hfile : growingFile 0 recs = true)
    (hread : ReadGraphFile (newSearch rng decisions) recs = some s)
    (hrun : applyOps (InitializeState s s.neighbour_sets.length) ops = some s1) :
    s1.neighbour_sets = s.neighbour_sets ∧
    (∀ a ∈ s1.clique, ∀ b ∈ s1.clique, a ≠ b →
      b ∈ s.neighbour_sets.getD a [] ∧ a ∈ s.neighbour_sets.getD b []) ∧
    (s1.clique.Nodup ∧ ∀ v ∈ s1.clique, v < s.neighbour_sets.length) ∧
    (∀ v, v < s.neighbour_sets.length →
      (s1.in_clique.getD v false = true ↔ v ∈ s1.clique)) ∧
    (∀ i, i < s1.clique.length →
      s1.pos_in_clique.getD (s1.clique.getD i 0) (-1) = ((i : Nat) : Int)) ∧
    (∀ v, v < s.neighbour_sets.length →
      (s1.pos_in_clique.getD v (-1) = -1 ↔ v ∉ s1.clique)) ∧
    (∀ u, u < s.neighbour_sets.length → u ∉ s1.clique →
      s1.tight.getD u 0 =
        (((s1.clique.filter (fun w => decide (u ∉ s.neighbour_sets.getD w []))).length : Nat)
          : Int)) ∧
    (s1.C0.IndexedInv s.neighbour_sets.length ∧
      ∀ v, v < s.neighbour_sets.length →
        (s1.C0.Contains v = true ↔ v ∉ s1.clique ∧ s1.tight.getD v 0 = 0)) ∧
    (s1.C1.IndexedInv s.neighbour_sets.length ∧
      ∀ v, v < s.neighbour_sets.length →
        (s1.C1.Contains v = true ↔ v ∉ s1.clique ∧ s1.tight.getD v 0 = 1)) := by
  obtain ⟨hg, -⟩ := ReadGraphFile_graph rng decisions recs s hfile hread
  have h := applyOps_inv hg ops _ s1 (InitializeState_inv s).1 hrun
  have hcl := h.cliqueWF.indexed
  have hlt : ∀ v ∈ s1.clique, v < s.neighbour_sets.length := fun v hv => h.clique_lt v hv
  refine ⟨h.sets_eq, ?_, ⟨h.cliqueWF.nodup, hlt⟩, fun v _ => h.flag v, hcl.2.2.2.1,
    hcl.2.2.2.2, ?_, ⟨h.c0WF.indexed, ?_⟩, ⟨h.c1WF.indexed, ?_⟩⟩
  · intro a ha b hb hab
    exact ⟨h.adj a ha b hb hab, h.adj b hb a ha (Ne.symm hab)⟩
  · intro u hu huc
    rw [h.tight u hu huc, conflicts_eq_filter hg s1.clique u h.cliqueWF.nodup hlt hu huc]
  · intro v hv
    rw [h.c0WF.contains_iff v hv, h.c0 v]
    exact ⟨fun hh => hh.2, fun hh => ⟨hv, hh⟩⟩
  · intro v hv
    rw [h.c1WF.contains_iff v hv, h.c1 v]
    exact ⟨fun hh => hh.2, fun hh => ⟨hv, hh⟩⟩

theorem C32_tabu_state_invariant_witness :
    growingFile 0 [Record.comment, Record.header 4, Record.edge 1 2, Record.edge 1 3,
      Record.edge 2 3, Record.edge 3 4] = true ∧
    ReadGraphFile (newSearch [5] [true])
      [Record.comment, Record.header 4, Record.edge 1 2, Record.edge 1 3,
        Record.edge 2 3, Record.edge 3 4] = some (kite [5] [true]) ∧
    ∃ s1, applyOps (InitializeState (kite [5] [true]) (kite [5] [true]).neighbour_sets.length)
        [CliqueOp.add 2, CliqueOp.add 0, CliqueOp.remove 2, CliqueOp.add 1] = some s1 ∧
      s1.clique = [0, 1] ∧
      s1.neighbour_sets = (kite [5] [true]).neighbour_sets ∧
      (∀ a ∈ s1.clique, ∀ b ∈ s1.clique, a ≠ b →
        b ∈ (kite [5] [true]).neighbour_sets.getD a [] ∧
          a ∈ (kite [5] [true]).neighbour_sets.getD b []) ∧
      (s1.clique.Nodup ∧ ∀ v ∈ s1.clique, v < (kite [5] [true]).neighbour_sets.length) ∧
      (∀ v, v < (kite [5] [true]).neighbour_sets.length →
        (s1.in_clique.getD v false = true ↔ v ∈ s1.clique)) ∧
      (∀ i, i < s1.clique.length →
        s1.pos_in_clique.getD (s1.clique.getD i 0) (-1) = ((i : Nat) : Int)) ∧
      (∀ v, v < (kite [5] [true]).neighbour_sets.length →
        (s1.pos_in_clique.getD v (-1) = -1 ↔ v ∉ s1.clique)) ∧
      (∀ u, u < (kite [5] [true]).neighbour_sets.length → u ∉ s1.clique →
        s1.tight.getD u 0 =
          (((s1.clique.filter
            (fun w => decide (u ∉ (kite [5] [true]).neighbour_sets.getD w []))).length : Nat)
            : Int)) ∧
      (s1.C0.IndexedInv (kite [5] [true]).neighbour_sets.length ∧
        ∀ v, v < (kite [5] [true]).neighbour_sets.length →
          (s1.C0.Contains v = true ↔ v ∉ s1.clique ∧ s1.tight.getD v 0 = 0)) ∧
      (s1.C1.IndexedInv (kite [5] [true]).neighbour_sets.length ∧
        ∀ v, v < (kite [5] [true]).neighbour_sets.length →
          (s1.C1.Contains v = true ↔ v ∉ s1.clique ∧ s1.tight.getD v 0 = 1)) := by
  have hsome : (applyOps
      (InitializeState (kite [5] [true]) (kite [5] [true]).neighbour_sets.length)
      [CliqueOp.add 2, CliqueOp.add 0, CliqueOp.remove 2, CliqueOp.add 1]).isSome = true := by
    decide
  obtain ⟨s1, h1⟩ := Option.isSome_iff_exists.mp hsome
  have hcl : ((applyOps
      (InitializeState (kite [5] [true]) (kite [5] [true]).neighbour_sets.length)
      [CliqueOp.add 2, CliqueOp.add 0, CliqueOp.remove 2, CliqueOp.add 1]).map
        (fun t => t.clique)) = some [0, 1] := by
    decide
  rw [h1] at hcl
  exact ⟨by decide, by decide, s1, h1, by simpa using hcl,
    C32_tabu_state_invariant
      [Record.comment, Record.header 4, Record.edge 1 2, Record.edge 1 3,
        Record.edge 2 3, Record.edge 3 4] [5] [true] (kite [5] [true]) s1
      [CliqueOp.add 2, CliqueOp.add 0, CliqueOp.remove 2, CliqueOp.add 1]
      (by decide) (by decide) h1⟩

end MaxCliqueTabuSearch

namespace ColoringProblem

/-! ## Week 1: the colours in use -/

/-- A step of the colour choice loop that leaves "no colour found" was taken
from "no colour found", on a colour that is marked used or whose saturation
increase is not below `INT_MAX`. -/
theorem colorStep_fresh (sets : List (List Nat)) (colors : List Nat) (used : List Bool)
    (vertex : Nat) (c : Choice) (color : Nat)
    (h : (colorStep sets colors used vertex c color).found_zero_increase = false ∧
      INT_MAX ≤ (colorStep sets colors used vertex c color).min_saturation_increase) :
    (c.found_zero_increase = false ∧ INT_MAX ≤ c.min_saturation_increase) ∧
      (used.getD color false = true ∨ INT_MAX ≤ saturationIncrease sets colors vertex color) := by
  unfold colorStep at h
  by_cases hu : used.getD color false = true
  · rw [if_pos hu] at h
    exact ⟨h, Or.inl hu⟩
  · rw [if_neg hu] at h
    simp only at h
    split_ifs at h with a b d e f
    · exact absurd h.1 (by simp)
    · have hfz : c.found_zero_increase = true := by
        cases hc : c.found_zero_increase
        · simp [hc] at b
        · rfl
      rw [hfz] at h
      exact absurd h.1 (by simp)
    · simp only at h
      refine ⟨⟨h.1, by omega⟩, Or.inr h.2⟩
    · simp only at h
      refine ⟨h, Or.inr (by omega)⟩
    · refine ⟨h, Or.inr (by omega)⟩
    · have hfz : c.found_zero_increase = false := h.1
      rw [hfz] at d
      simp at d

theorem chooseColor_fresh_fold (sets : List (List Nat)) (colors : List Nat) (used : List Bool)
    (vertex : Nat) :
    ∀ (l : List Nat) (c : Choice),
      ((l.foldl (colorStep sets colors used vertex) c).found_zero_increase = false ∧
        INT_MAX ≤ (l.foldl (colorStep sets colors used vertex) c).min_saturation_increase) →
      (c.found_zero_increase = false ∧ INT_MAX ≤ c.min_saturation_increase) ∧
        ∀ color ∈ l, used.getD color false = true ∨
          INT_MAX ≤ saturationIncrease sets colors vertex color := by
  intro l
  induction l with
  | nil => intro c h; exact ⟨h, fun _ hm => absurd hm (List.not_mem_nil _)⟩
  | cons a l ih =>
    intro c h
    rw [List.foldl_cons] at h
    obtain ⟨h1, h2⟩ := ih _ h
    obtain ⟨h3, h4⟩ := colorStep_fresh sets colors used vertex c a h1
    refine ⟨h3, fun color hm => ?_⟩
    rcases List.mem_cons.mp hm with e | e
    · rw [e]; exact h4
    · exact h2 color e

/-- When the colour choice loop finds no colour, every colour of
`[1, maxcolor]` is marked in `used_colors` or has a saturation increase that
is not below `INT_MAX`. -/
theorem chooseColor_fresh (sets : List (List Nat)) (colors : List Nat) (used : List Bool)
    (maxcolor vertex : Nat)
    (h : (chooseColor sets colors used maxcolor vertex).found_zero_increase = false ∧
      (chooseColor sets colors used maxcolor vertex).min_saturation_increase = INT_MAX) :
    ∀ color, 1 ≤ color → color ≤ maxcolor →
      used.getD color false = true ∨ INT_MAX ≤ saturationIncrease sets colors vertex color := by
  intro color h1 h2
  unfold chooseColor at h
  have := (chooseColor_fresh_fold sets colors used vertex (List.range' 1 maxcolor)
    ⟨1, INT_MAX, false⟩ ⟨h.1, by rw [h.2]⟩).2
  apply this
  rw [List.mem_range'_1]
  omega

theorem markUsed_true_fold (colors : List Nat) (c : Nat) :
    ∀ (l : List Nat) (used : List Bool),
      (l.foldl (fun used neighbour =>
        if colors.getD neighbour 0 ≠ 0 then used.set (colors.getD neighbour 0) true else used)
        used).getD c false = true →
      used.getD c false = true ∨ ∃ nb ∈ l, colors.getD nb 0 ≠ 0 ∧ colors.getD nb 0 = c := by
  intro l
  induction l with
  | nil => intro used h; exact Or.inl h
  | cons a l ih =>
    intro used h
    rw [List.foldl_cons] at h
    rcases ih _ h with h1 | ⟨nb, hnb, h2, h3⟩
    · by_cases ha : colors.getD a 0 ≠ 0
      · rw [if_pos ha, BnBSolver.getD_set_any] at h1
        by_cases hac : colors.getD a 0 = c ∧ colors.getD a 0 < used.length
        · exact Or.inr ⟨a, List.mem_cons_self _ _, ha, hac.1⟩
        · rw [if_neg hac] at h1
          exact Or.inl h1
      · rw [if_neg ha] at h1
        exact Or.inl h1
    · exact Or.inr ⟨nb, List.mem_cons_of_mem _ hnb, h2, h3⟩

/-- A colour marked in `used_colors` is the colour of a coloured neighbour of
`vertex`. -/
theorem markUsed_true (sets : List (List Nat)) (colors : List Nat) (maxcolor vertex c : Nat)
    (h : (markUsed sets colors maxcolor vertex).getD c false = true) :
    ∃ nb ∈ sets.getD vertex [], colors.getD nb 0 ≠ 0 ∧ colors.getD nb 0 = c := by
  unfold markUsed at h
  rcases markUsed_true_fold colors c _ _ h with h1 | h1
  · rw [List.getD_eq_getElem?_getD, List.getElem?_replicate] at h1
    split_ifs at h1 <;> simp at h1
  · exact h1

theorem saturationIncrease_le (sets : List (List Nat)) (colors : List Nat) (vertex color : Nat) :
    saturationIncrease sets colors vertex color ≤ (((sets.getD vertex []).length : Nat) : Int) := by
  unfold saturationIncrease
  exact_mod_cast List.countP_le_length _

theorem foldl_max_le (l : List Nat) : ∀ (a x : Nat), (x ≤ a ∨ x ∈ l) → x ≤ l.foldl max a := by
  induction l with
  | nil =>
    intro a x h
    rcases h with h | h
    · exact h
    · exact absurd h (List.not_mem_nil _)
  | cons b l ih =>
    intro a x h
    rw [List.foldl_cons]
    apply ih
    rcases h with h | h
    · exact Or.inl (le_trans h (le_max_left _ _))
    · rcases List.mem_cons.mp h with e | e
      · exact Or.inl (e ▸ le_max_right _ _)
      · exact Or.inr e

theorem length_le_maxDegree (sets : List (List Nat)) (v : Nat) :
    (sets.getD v []).length ≤ maxDegree sets := by
  unfold maxDegree
  by_cases hv : v < sets.length
  · apply foldl_max_le
    right
    rw [List.mem_map]
    exact ⟨sets.getD v [], by rw [List.getD_eq_getElem _ _ hv]; exact List.getElem_mem _, rfl⟩
  · rw [List.getD_eq_default _ _ (Nat.le_of_not_lt hv)]
    exact Nat.zero_le _

/-- A set of `neighbour_sets` has at most `n` elements. -/
theorem degree_le_size {sets : List (List Nat)} (h : MaxCliqueProblem.GraphOK sets) (v : Nat) :
    (sets.getD v []).length ≤ sets.length := by
  by_cases hv : v < sets.length
  · have hsub : sets.getD v [] ⊆ List.range sets.length :=
      fun u hu => List.mem_range.mpr (h.inRange v hv u hu)
    have := (List.subperm_of_subset (h.nodup v hv) hsub).length_le
    rwa [List.length_range] at this
  · rw [List.getD_eq_default _ _ (Nat.le_of_not_lt hv)]
    exact Nat.zero_le _

/-- What one round writes, with the condition under which it opens a colour:
the selected vertex gets a colour `best` of `[1, maxc]`, `maxc` being the new
`maxcolor`; either `maxcolor` is unchanged, or it grows by one, `best` is the
new colour, and every colour of `[1, maxcolor]` was the colour of a neighbour
of the selected vertex. -/
theorem round_palette (sets : List (List Nat)) (l : Loop)
    (hsat : ∀ color, saturationIncrease sets l.colors
      (selectVertex sets l.colors l.saturation l.uncolored_vertices) color < INT_MAX) :
    ∃ best maxc,
      (round sets l).colors =
        l.colors.set (selectVertex sets l.colors l.saturation l.uncolored_vertices) best ∧
      (round sets l).maxcolor = maxc ∧
      (round sets l).uncolored_vertices = l.uncolored_vertices.erase
        (selectVertex sets l.colors l.saturation l.uncolored_vertices) ∧
      1 ≤ best ∧ best ≤ maxc ∧
      ((maxc = l.maxcolor) ∨
        (maxc = l.maxcolor + 1 ∧ best = maxc ∧
          ∀ c, 1 ≤ c → c ≤ l.maxcolor →
            ∃ nb ∈ sets.getD (selectVertex sets l.colors l.saturation l.uncolored_vertices) [],
              l.colors.getD nb 0 ≠ 0 ∧ l.colors.getD nb 0 = c)) := by
  generalize hvx : selectVertex sets l.colors l.saturation l.uncolored_vertices = vertex at *
  have hspec := chooseColor_spec sets l.colors (markUsed sets l.colors l.maxcolor vertex)
    l.maxcolor vertex
  have hfresh := chooseColor_fresh sets l.colors (markUsed sets l.colors l.maxcolor vertex)
    l.maxcolor vertex
  generalize hch : chooseColor sets l.colors (markUsed sets l.colors l.maxcolor vertex)
    l.maxcolor vertex = ch at *
  by_cases hf : (!ch.found_zero_increase && ch.min_saturation_increase == INT_MAX) = true
  · have hf2 : ch.found_zero_increase = false ∧ ch.min_saturation_increase = INT_MAX := by
      simpa using hf
    refine ⟨l.maxcolor + 1, l.maxcolor + 1, ?_, ?_, ?_, by omega, Nat.le_refl _,
      Or.inr ⟨rfl, rfl, ?_⟩⟩
    · simp only [round, hvx, hch, hf, if_true]
    · simp only [round, hvx, hch, hf, if_true]
    · simp only [round, hvx]
    · intro c hc1 hc2
      rcases hfresh hf2 c hc1 hc2 with h | h
      · exact markUsed_true sets l.colors l.maxcolor vertex c h
      · have := hsat c
        omega
  · have hright : 1 ≤ ch.best_color ∧ ch.best_color ≤ l.maxcolor := by
      rcases hspec with h | h
      · exfalso
        apply hf
        rw [h.1, h.2]
        rfl
      · exact ⟨h.1, h.2.1⟩
    refine ⟨ch.best_color, l.maxcolor, ?_, ?_, ?_, hright.1, hright.2, Or.inl rfl⟩
    · simp only [round, hvx, hch, hf, Bool.false_eq_true, if_false]
    · simp only [round, hvx, hch, hf, Bool.false_eq_true, if_false]
    · simp only [round, hvx]

/-- A list on which a function takes every value of `[1, m]` has at least `m`
elements. -/
theorem length_ge_of_surj (L : List Nat) (f : Nat → Nat) (m : Nat)
    (h : ∀ c, 1 ≤ c → c ≤ m → ∃ nb ∈ L, f nb = c) : m ≤ L.length := by
  have hsub : Finset.Icc 1 m ⊆ (L.map f).toFinset := by
    intro c hc
    rw [Finset.mem_Icc] at hc
    obtain ⟨nb, hnb, he⟩ := h c hc.1 hc.2
    rw [List.mem_toFinset, List.mem_map]
    exact ⟨nb, hnb, he⟩
  have h1 := Finset.card_le_card hsub
  have h2 := List.toFinset_card_le (L.map f)
  rw [Nat.card_Icc] at h1
  rw [List.length_map] at h2
  omega

/-- One round of the loop keeps the invariant about the colours in use and
colours exactly one more vertex. -/
theorem round_paletteInv (sets : List (List Nat)) (hg : MaxCliqueProblem.GraphOK sets)
    (hsmall : (sets.length : Int) < INT_MAX) (l : Loop)
    (hinv : PaletteInv sets l) (hne : l.uncolored_vertices ≠ []) :
    PaletteInv sets (round sets l) ∧
      (round sets l).uncolored_vertices.length + 1 = l.uncolored_vertices.length := by
  have hsat : ∀ color, saturationIncrease sets l.colors
      (selectVertex sets l.colors l.saturation l.uncolored_vertices) color < INT_MAX := by
    intro color
    have h1 := saturationIncrease_le sets l.colors
      (selectVertex sets l.colors l.saturation l.uncolored_vertices) color
    have h2 := degree_le_size hg (selectVertex sets l.colors l.saturation l.uncolored_vertices)
    omega
  obtain ⟨best, maxc, hcol, hmax, hunc, hb1, hb2, hcase⟩ := round_palette sets l hsat
  have hv := selectVertex_mem sets l.colors l.saturation l.uncolored_vertices hne
  generalize selectVertex sets l.colors l.saturation l.uncolored_vertices = vertex at *
  obtain ⟨hvn, hv0⟩ := (hinv.unc vertex).mp hv
  have hvlen : vertex < l.colors.length := by rw [hinv.len]; exact hvn
  have hget : ∀ x, (round sets l).colors.getD x 0 =
      if x = vertex then best else l.colors.getD x 0 := by
    intro x
    rw [hcol, BnBSolver.getD_set]
    by_cases hx : x = vertex
    · rw [if_pos hx, if_pos ⟨hx.symm, hvlen⟩]
    · rw [if_neg hx, if_neg (fun e => hx e.1.symm)]
  have hmono : l.maxcolor ≤ maxc := by
    rcases hcase with h | h
    · omega
    · omega
  refine ⟨⟨?_, ?_, ?_, ?_, ?_, ?_, ?_, ?_⟩, ?_⟩
  · rw [hcol, List.length_set]; exact hinv.len
  · rw [hunc]; exact hinv.nodup.erase _
  · intro x
    rw [hunc, hinv.nodup.mem_erase_iff, hinv.unc x, hget x]
    by_cases hx : x = vertex
    · rw [if_pos hx]
      constructor
      · intro h; exact absurd hx h.1
      · intro h; omega
    · rw [if_neg hx]
      exact ⟨fun h => h.2, fun h => ⟨hx, h⟩⟩
  · intro x
    rw [hget x, hmax]
    by_cases hx : x = vertex
    · rw [if_pos hx]; exact hb2
    · rw [if_neg hx]; exact le_trans (hinv.le x) hmono
  · rw [hmax]; omega
  · intro _ c hc1 hc2
    rw [hmax] at hc2
    have hvertex : ∃ v, v < sets.length ∧ (round sets l).colors.getD v 0 = best :=
      ⟨vertex, hvn, by rw [hget vertex, if_pos rfl]⟩
    have hkeep : ∀ v, l.colors.getD v 0 = c → (round sets l).colors.getD v 0 = c := by
      intro v hvc
      have hne2 : v ≠ vertex := by
        intro e
        rw [e, hv0] at hvc
        omega
      rw [hget v, if_neg hne2]
      exact hvc
    by_cases hsome : ∃ v, v < sets.length ∧ l.colors.getD v 0 ≠ 0
    · by_cases hcl : c ≤ l.maxcolor
      · obtain ⟨v, hvl, hvc⟩ := hinv.used hsome c hc1 hcl
        exact ⟨v, hvl, hkeep v hvc⟩
      · rcases hcase with h | h
        · omega
        · have : c = best := by omega
          rw [this]; exact hvertex
    · have hzero : ∀ v, l.colors.getD v 0 = 0 := by
        intro v
        by_cases hvl : v < sets.length
        · by_contra h0
          exact hsome ⟨v, hvl, h0⟩
        · exact List.getD_eq_default _ _ (by rw [hinv.len]; omega)
      have hone := hinv.start hzero
      rcases hcase with h | h
      · have : c = best := by omega
        rw [this]; exact hvertex
      · exfalso
        obtain ⟨nb, -, h0, -⟩ := h.2.2 1 (Nat.le_refl _) (by omega)
        exact h0 (hzero nb)
  · intro hall
    have := hall vertex
    rw [hget vertex, if_pos rfl] at this
    omega
  · rw [hmax]
    rcases hcase with h | h
    · rw [h]; exact hinv.bound
    · rw [h.1]
      have h1 := length_ge_of_surj (sets.getD vertex []) (fun nb => l.colors.getD nb 0)
        l.maxcolor (fun c hc1 hc2 => by
          obtain ⟨nb, hnb, -, he⟩ := h.2.2 c hc1 hc2
          exact ⟨nb, hnb, he⟩)
      have h2 := length_le_maxDegree sets vertex
      omega
  · rw [hunc, List.length_erase_of_mem hv]
    have := List.length_pos.mpr hne
    omega

/-- The loop terminates within as many rounds as there are uncoloured
vertices, with the invariant about the colours in use and no uncoloured vertex
left. -/
theorem whileLoop_palette (sets : List (List Nat)) (hg : MaxCliqueProblem.GraphOK sets)
    (hsmall : (sets.length : Int) < INT_MAX) :
    ∀ (fuel : Nat) (l : Loop), l.uncolored_vertices.length ≤ fuel → PaletteInv sets l →
      ∃ l1, whileLoop sets fuel l = some l1 ∧ PaletteInv sets l1 ∧
        l1.uncolored_vertices = [] := by
  intro fuel
  induction fuel with
  | zero =>
    intro l hlen hinv
    have h0 : l.uncolored_vertices = [] := List.length_eq_zero.mp (Nat.le_zero.mp hlen)
    exact ⟨l, by simp [whileLoop, h0], hinv, h0⟩
  | succ fuel ih =>
    intro l hlen hinv
    by_cases h0 : l.uncolored_vertices = []
    · exact ⟨l, by simp [whileLoop, h0], hinv, h0⟩
    · obtain ⟨hinv1, hlen1⟩ := round_paletteInv sets hg hsmall l hinv h0
      obtain ⟨l1, heq, hinv2, hemp⟩ := ih (round sets l) (by omega) hinv1
      refine ⟨l1, ?_, hinv2, hemp⟩
      rw [whileLoop, if_neg (by simpa using h0)]
      exact heq

theorem paletteInv_init (sets : List (List Nat)) (order : List Nat)
    (hord : order.Perm (List.range sets.length)) :
    PaletteInv sets ⟨List.replicate sets.length 0, 1, List.replicate sets.length 0, order⟩ := by
  have hz : ∀ v, (List.replicate sets.length 0).getD v 0 = 0 := by
    intro v
    rw [List.getD_eq_getElem?_getD, List.getElem?_replicate]
    split_ifs <;> rfl
  refine ⟨List.length_replicate _ _, hord.nodup_iff.mpr (List.nodup_range _), ?_, ?_,
    Nat.le_refl _, ?_, fun _ => rfl, Nat.le_add_left _ _⟩
  · intro v
    simp only [hz, and_true]
    rw [hord.mem_iff, List.mem_range]
  · intro v; simp only [hz]; omega
  · rintro ⟨v, -, hv⟩
    simp only [hz] at hv
    exact absurd rfl hv

theorem roundStates_inv (sets : List (List Nat)) (hg : MaxCliqueProblem.GraphOK sets)
    (hsmall : (sets.length : Int) < INT_MAX) :
    ∀ (fuel : Nat) (l : Loop), PaletteInv sets l →
      ∀ x ∈ roundStates sets fuel l, PaletteInv sets x ∧ x.uncolored_vertices ≠ [] := by
  intro fuel
  induction fuel with
  | zero => intro l _ x hx; simp [roundStates] at hx
  | succ fuel ih =>
    intro l hinv x hx
    by_cases h0 : l.uncolored_vertices = []
    · simp [roundStates, h0] at hx
    · rw [roundStates, if_neg (by simpa using h0)] at hx
      rcases List.mem_cons.mp hx with e | e
      · rw [e]; exact ⟨hinv, h0⟩
      · exact ih _ (round_paletteInv sets hg hsmall l hinv h0).1 x e

/-- The loop runs the rounds `roundStates` lists: its result is the state
after the last of them. -/
theorem whileLoop_rounds (sets : List (List Nat)) :
    ∀ (fuel : Nat) (l l1 : Loop), whileLoop sets fuel l = some l1 →
      l1 = (roundStates sets fuel l).foldl (fun _ x => round sets x) l := by
  intro fuel
  induction fuel with
  | zero =>
    intro l l1 h
    by_cases h0 : l.uncolored_vertices.isEmpty = true
    · simp only [whileLoop, h0, if_true, Option.some.injEq] at h
      rw [← h]; rfl
    · simp [whileLoop, h0] at h
  | succ fuel ih =>
    intro l l1 h
    by_cases h0 : l.uncolored_vertices.isEmpty = true
    · simp only [whileLoop, h0, if_true, Option.some.injEq] at h
      rw [← h]
      simp [roundStates, h0]
    · rw [whileLoop, if_neg h0] at h
      rw [roundStates, if_neg h0, List.foldl_cons]
      exact ih _ _ h

/-- Reading a file whose `p` lines never lower the vertex count keeps every set
of `neighbour_sets` a list without repetition of vertices of `[0, n)`, with
symmetric adjacency. -/
theorem ReadGraphFile_sets :
    ∀ (recs : List Record) (s s1 : State), MaxCliqueProblem.GraphOK s.neighbour_sets →
      growingFile s.neighbour_sets.length recs = true → ReadGraphFile s recs = some s1 →
      MaxCliqueProblem.GraphOK s1.neighbour_sets := by
  intro recs
  induction recs with
  | nil =>
    intro s s1 h _ heq
    simp only [ReadGraphFile, Option.some.injEq] at heq
    rw [← heq]; exact h
  | cons r recs ih =>
    intro s s1 h hfile heq
    cases r with
    | comment =>
      rw [ReadGraphFile] at heq
      rw [growingFile] at hfile
      exact ih s s1 h hfile heq
    | header vertices =>
      rw [growingFile, Bool.and_eq_true, decide_eq_true_eq] at hfile
      have hv : ¬ vertices < 0 := by omega
      rw [ReadGraphFile, if_neg hv] at heq
      refine ih _ s1 ?_ ?_ heq
      · exact h.resizeGrow _ (by omega)
      · simp only [length_resize]; exact hfile.2
    | edge start finish =>
      rw [growingFile] at hfile
      by_cases hr : start - 1 < 0 ∨ start - 1 ≥ (s.neighbour_sets.length : Int) ∨
          finish - 1 < 0 ∨ finish - 1 ≥ (s.neighbour_sets.length : Int)
      · rw [ReadGraphFile, if_pos hr] at heq
        exact absurd heq (by simp)
      · rw [ReadGraphFile, if_neg hr] at heq
        refine ih _ s1 ?_ ?_ heq
        · exact h.insertPair _ _ (by omega) (by omega)
        · simp only [length_insertAt]; exact hfile

/-- The greedy colouring and the colours in use: on a graph whose sets hold
vertices of `[0, n)` without repetition, with `n` below `INT_MAX`,
`GreedyGraphColoring` returns, every vertex has a colour of `[1, maxcolor]`,
every colour of `[1, maxcolor]` is the colour of a vertex when there is one,
and `maxcolor` is at most the maximum degree plus one. -/
theorem GreedyGraphColoring_palette (s : State) (order : List Nat)
    (hg : MaxCliqueProblem.GraphOK s.neighbour_sets)
    (hsmall : (s.neighbour_sets.length : Int) < INT_MAX)
    (hord : order.Perm (List.range s.neighbour_sets.length)) :
    ∃ s1, GreedyGraphColoring s order = some s1 ∧
      s1.colors.length = s.neighbour_sets.length ∧
      (∀ v, v < s.neighbour_sets.length →
        1 ≤ s1.colors.getD v 0 ∧ s1.colors.getD v 0 ≤ s1.maxcolor) ∧
      (1 ≤ s.neighbour_sets.length → ∀ c, 1 ≤ c → c ≤ s1.maxcolor →
        ∃ v, v < s.neighbour_sets.length ∧ s1.colors.getD v 0 = c) ∧
      s1.maxcolor ≤ maxDegree s.neighbour_sets + 1 ∧
      (List.foldl (fun _ x => round s.neighbour_sets x)
        (⟨List.replicate s.neighbour_sets.length 0, 1,
          List.replicate s.neighbour_sets.length 0, order⟩ : Loop)
        (roundStates s.neighbour_sets order.length
          ⟨List.replicate s.neighbour_sets.length 0, 1,
            List.replicate s.neighbour_sets.length 0, order⟩)).maxcolor = s1.maxcolor := by
  obtain ⟨l1, heq, hinv, hemp⟩ :=
    whileLoop_palette s.neighbour_sets hg hsmall order.length
      ⟨List.replicate s.neighbour_sets.length 0, 1,
        List.replicate s.neighbour_sets.length 0, order⟩
      (Nat.le_refl _) (paletteInv_init s.neighbour_sets order hord)
  have hcol : ∀ v, v < s.neighbour_sets.length → l1.colors.getD v 0 ≠ 0 := by
    intro v hv h0
    have := (hinv.unc v).mpr ⟨hv, h0⟩
    rw [hemp] at this
    exact absurd this (List.not_mem_nil _)
  refine ⟨{ s with colors := l1.colors, maxcolor := l1.maxcolor }, ?_, hinv.len, ?_, ?_,
    hinv.bound, ?_⟩
  · simp only [GreedyGraphColoring, heq]
  · intro v hv
    exact ⟨Nat.one_le_iff_ne_zero.mpr (hcol v hv), hinv.le v⟩
  · intro hn c hc1 hc2
    exact hinv.used ⟨0, hn, hcol 0 hn⟩ c hc1 hc2
  · rw [← whileLoop_rounds _ _ _ _ heq]

/-- The number of distinct values of a vector whose entries are in `[1, m]`
and take every value of `[1, m]`. -/
theorem toFinset_eq_Icc (colors : List Nat) (m : Nat)
    (hrange : ∀ v, v < colors.length → 1 ≤ colors.getD v 0 ∧ colors.getD v 0 ≤ m)
    (hall : ∀ c, 1 ≤ c → c ≤ m → ∃ v, v < colors.length ∧ colors.getD v 0 = c) :
    colors.toFinset = Finset.Icc 1 m := by
  ext c
  rw [List.mem_toFinset, Finset.mem_Icc]
  constructor
  · intro hc
    obtain ⟨i, hi, he⟩ := List.getElem_of_mem hc
    have := hrange i hi
    rw [List.getD_eq_getElem _ _ hi, he] at this
    exact this
  · intro hc
    obtain ⟨v, hv, he⟩ := hall c hc.1 hc.2
    rw [← he, List.getD_eq_getElem _ _ hv]
    exact List.getElem_mem _

/-- C37, the claim as stated, fails on the graph with no vertices: after
`GreedyGraphColoring` on a fresh `ColoringProblem` (no file read, or a file
with the line `p edge 0 0`) `GetNumberOfColors()` is 1 while `GetColors()` is
empty and so has 0 distinct values. -/
theorem C37_empty_graph_counterexample :
    ReadGraphFile newProblem [Record.header 0] = some newProblem ∧
    GreedyGraphColoring newProblem [] = some newProblem ∧
    GetNumberOfColors newProblem = 1 ∧
    GetColors newProblem = [] ∧
    (GetColors newProblem).toFinset.card = 0 ∧
    ¬ ((GetColors newProblem).toFinset.card = GetNumberOfColors newProblem) := by
  decide

/-- C37, amended. For every graph with at least one vertex (read by
`ReadGraphFile` into a fresh object from a file whose `p` lines never lower
the vertex count, self-loops allowed, with fewer than `INT_MAX` vertices so
that the `int` arithmetic of the source does not overflow), and for every
iteration order of `uncolored_vertices`, `GreedyGraphColoring` returns, and
afterwards the values in `GetColors()` are exactly `1, ..., maxcolor`, so that
`GetNumberOfColors()` is the number of distinct values in `GetColors()`. -/
theorem C37_colour_count_amended (recs : List Record) (s : State) (order : List Nat)
    (hfile : growingFile 0 recs = true)
    (hread : ReadGraphFile newProblem recs = some s)
    (hord : order.Perm (List.range s.neighbour_sets.length))
    (hn : 1 ≤ s.neighbour_sets.length)
    (hsmall : (s.neighbour_sets.length : Int) < INT_MAX) :
    ∃ s1, GreedyGraphColoring s order = some s1 ∧
      (GetColors s1).toFinset = Finset.Icc 1 (GetNumberOfColors s1) ∧
      (GetColors s1).toFinset.card = GetNumberOfColors s1 := by
  have hg : MaxCliqueProblem.GraphOK s.neighbour_sets :=
    ReadGraphFile_sets recs newProblem s MaxCliqueProblem.graphOK_empty hfile hread
  obtain ⟨s1, heq, hlen, hrange, hall, -, -⟩ := GreedyGraphColoring_palette s order hg hsmall hord
  have hset : (GetColors s1).toFinset = Finset.Icc 1 (GetNumberOfColors s1) := by
    apply toFinset_eq_Icc
    · intro v hv
      exact hrange v (by rw [← hlen]; exact hv)
    · intro c hc1 hc2
      obtain ⟨v, hv, he⟩ := hall hn c hc1 hc2
      exact ⟨v, by unfold GetColors; rw [hlen]; exact hv, he⟩
  refine ⟨s1, heq, hset, ?_⟩
  rw [hset, Nat.card_Icc]
  omega

theorem C37_colour_count_amended_witness :
    growingFile 0 [Record.comment, Record.header 3, Record.edge 1 2, Record.edge 2 3] = true ∧
    ReadGraphFile newProblem
      [Record.comment, Record.header 3, Record.edge 1 2, Record.edge 2 3] = some path3 ∧
    [2, 0, 1].Perm (List.range path3.neighbour_sets.length) ∧
    1 ≤ path3.neighbour_sets.length ∧
    (path3.neighbour_sets.length : Int) < INT_MAX ∧
    ∃ s1, GreedyGraphColoring path3 [2, 0, 1] = some s1 ∧
      (GetColors s1).toFinset = Finset.Icc 1 (GetNumberOfColors s1) ∧
      (GetColors s1).toFinset.card = GetNumberOfColors s1 :=
  ⟨by decide, by decide, by decide, by decide, by decide,
    C37_colour_count_amended
      [Record.comment, Record.header 3, Record.edge 1 2, Record.edge 2 3] path3 [2, 0, 1]
      (by decide) (by decide) (by decide) (by decide) (by decide)⟩

/-- C38. The greedy bound of week1. For every graph read by `ReadGraphFile`
into a fresh object (from a file whose `p` lines never lower the vertex count;
graphs with `n >= 1` and no self-loops in particular), with fewer than
`INT_MAX` vertices, and for every iteration order of `uncolored_vertices`,
`GreedyGraphColoring` returns; in every round of its loop `maxcolor` either
stays or grows by one, and it grows only when every colour of `[1, maxcolor]`
is the colour of a neighbour of the chosen vertex, which then gets the new
colour; the value of `maxcolor` after the last round is the one
`GetNumberOfColors()` returns, and it is at most the maximum vertex degree
plus one. -/
theorem C38_week1_greedy_bound (recs : List Record) (s : State) (order : List Nat)
    (hfile : growingFile 0 recs = true)
    (hread : ReadGraphFile newProblem recs = some s)
    (hord : order.Perm (List.range s.neighbour_sets.length))
    (hsmall : (s.neighbour_sets.length : Int) < INT_MAX) :
    ∃ s1, GreedyGraphColoring s order = some s1 ∧
      (∀ l ∈ roundStates s.neighbour_sets order.length
          ⟨List.replicate s.neighbour_sets.length 0, 1,
            List.replicate s.neighbour_sets.length 0, order⟩,
        (round s.neighbour_sets l).maxcolor = l.maxcolor ∨
        ((round s.neighbour_sets l).maxcolor = l.maxcolor + 1 ∧
          (round s.neighbour_sets l).colors.getD
            (selectVertex s.neighbour_sets l.colors l.saturation l.uncolored_vertices) 0
              = l.maxcolor + 1 ∧
          ∀ c, 1 ≤ c → c ≤ l.maxcolor →
            ∃ nb ∈ s.neighbour_sets.getD
                (selectVertex s.neighbour_sets l.colors l.saturation l.uncolored_vertices) [],
              l.colors.getD nb 0 = c)) ∧
      (List.foldl (fun _ x => round s.neighbour_sets x)
        (⟨List.replicate s.neighbour_sets.length 0, 1,
          List.replicate s.neighbour_sets.length 0, order⟩ : Loop)
        (roundStates s.neighbour_sets order.length
          ⟨List.replicate s.neighbour_sets.length 0, 1,
            List.replicate s.neighbour_sets.length 0, order⟩)).maxcolor
        = GetNumberOfColors s1 ∧
      GetNumberOfColors s1 ≤ maxDegree s.neighbour_sets + 1 := by
  have hg : MaxCliqueProblem.GraphOK s.neighbour_sets :=
    ReadGraphFile_sets recs newProblem s MaxCliqueProblem.graphOK_empty hfile hread
  obtain ⟨s1, heq, -, -, -, hbound, hlast⟩ := GreedyGraphColoring_palette s order hg hsmall hord
  refine ⟨s1, heq, ?_, hlast, hbound⟩
  intro l hl
  obtain ⟨hinv, hne⟩ := roundStates_inv s.neighbour_sets hg hsmall order.length _
    (paletteInv_init s.neighbour_sets order hord) l hl
  have hsat : ∀ color, saturationIncrease s.neighbour_sets l.colors
      (selectVertex s.neighbour_sets l.colors l.saturation l.uncolored_vertices) color
        < INT_MAX := by
    intro color
    have h1 := saturationIncrease_le s.neighbour_sets l.colors
      (selectVertex s.neighbour_sets l.colors l.saturation l.uncolored_vertices) color
    have h2 := degree_le_size hg
      (selectVertex s.neighbour_sets l.colors l.saturation l.uncolored_vertices)
    omega
  obtain ⟨best, maxc, hcol, hmax, -, -, -, hcase⟩ := round_palette s.neighbour_sets l hsat
  have hv := selectVertex_mem s.neighbour_sets l.colors l.saturation l.uncolored_vertices hne
  have hvlen : selectVertex s.neighbour_sets l.colors l.saturation l.uncolored_vertices
      < l.colors.length := by
    rw [hinv.len]; exact ((hinv.unc _).mp hv).1
  rcases hcase with h | h
  · exact Or.inl (by rw [hmax, h])
  · refine Or.inr ⟨by rw [hmax, h.1], ?_, ?_⟩
    · rw [hcol, BnBSolver.getD_set, if_pos ⟨rfl, hvlen⟩, h.2.1, h.1]
    · intro c hc1 hc2
      obtain ⟨nb, hnb, -, he⟩ := h.2.2 c hc1 hc2
      exact ⟨nb, hnb, he⟩

theorem C38_week1_greedy_bound_witness :
    growingFile 0 [Record.comment, Record.header 3, Record.edge 1 2, Record.edge 2 3] = true ∧
    ReadGraphFile newProblem
      [Record.comment, Record.header 3, Record.edge 1 2, Record.edge 2 3] = some path3 ∧
    [2, 0, 1].Perm (List.range path3.neighbour_sets.length) ∧
    (path3.neighbour_sets.length : Int) < INT_MAX ∧
    ∃ s1, GreedyGraphColoring path3 [2, 0, 1] = some s1 ∧
      (∀ l ∈ roundStates path3.neighbour_sets [2, 0, 1].length
          ⟨List.replicate path3.neighbour_sets.length 0, 1,
            List.replicate path3.neighbour_sets.length 0, [2, 0, 1]⟩,
        (round path3.neighbour_sets l).maxcolor = l.maxcolor ∨
        ((round path3.neighbour_sets l).maxcolor = l.maxcolor + 1 ∧
          (round path3.neighbour_sets l).colors.getD
            (selectVertex path3.neighbour_sets l.colors l.saturation l.uncolored_vertices) 0
              = l.maxcolor + 1 ∧
          ∀ c, 1 ≤ c → c ≤ l.maxcolor →
            ∃ nb ∈ path3.neighbour_sets.getD
                (selectVertex path3.neighbour_sets l.colors l.saturation
                  l.uncolored_vertices) [],
              l.colors.getD nb 0 = c)) ∧
      (List.foldl (fun _ x => round path3.neighbour_sets x)
        (⟨List.replicate path3.neighbour_sets.length 0, 1,
          List.replicate path3.neighbour_sets.length 0, [2, 0, 1]⟩ : Loop)
        (roundStates path3.neighbour_sets [2, 0, 1].length
          ⟨List.replicate path3.neighbour_sets.length 0, 1,
            List.replicate path3.neighbour_sets.length 0, [2, 0, 1]⟩)).maxcolor
        = GetNumberOfColors s1 ∧
      GetNumberOfColors s1 ≤ maxDegree path3.neighbour_sets + 1 :=
  ⟨by decide, by decide, by decide, by decide,
    C38_week1_greedy_bound
      [Record.comment, Record.header 3, Record.edge 1 2, Record.edge 2 3] path3 [2, 0, 1]
      (by decide) (by decide) (by decide) (by decide)⟩

end ColoringProblem

namespace MaxCliqueProblem

/-! ## Lab 2: the size of the restricted candidate list -/

/-- With a non-negative `randomization` the size of the restricted candidate
list of a non-empty candidate list lies in `[1, size]`. -/
theorem rclSize_nonneg (randomization : Int) (size : Nat) (hr : 0 ≤ randomization)
    (hs : 1 ≤ size) : 1 ≤ rclSize randomization size ∧ rclSize randomization size ≤ size := by
  unfold rclSize
  by_cases h0 : min randomization (size : Int) = 0
  · simp only [if_pos h0]
    omega
  · simp only [if_neg h0]
    omega

/-- With a negative `randomization` the guard `rcl_size == 0` does not fire:
the size of the restricted candidate list is `randomization` itself. -/
theorem rclSize_negative (randomization : Int) (size : Nat) (hr : randomization < 0) :
    rclSize randomization size = randomization := by
  unfold rclSize
  have h0 : min randomization (size : Int) ≠ 0 := by omega
  simp only [if_neg h0]
  omega

/-- C39. The restricted candidate list of lab2 is not well-formed for a
negative `randomization`. For every negative `randomization` and every
candidate list, `rcl_size` is `randomization` itself (the guard
`if (rcl_size == 0) rcl_size = 1` handles 0 only), so it is below 1 and the
read `candidate_scores[rcl_size - 1]` is out of range. On the triangle read
from the file `p edge 3 3`, `e 1 2`, `e 1 3`, `e 2 3`, with `randomization = -1`
and the first draw `GetRandom(0, 100) = 30`: `rcl_size = -1`, the selection of
the first vertex makes that out-of-range read, and `FindClique(-1, 1)` has no
defined result; with `randomization = 0` the size is 1 and the call returns. -/
theorem C39_negative_randomization_escapes :
    (∀ (randomization : Int) (scores : List (Nat × Int)), randomization < 0 →
      rclSize randomization scores.length = randomization ∧
      ¬ (1 ≤ rclSize randomization scores.length) ∧
      at? (sortScores scores) (rclSize randomization scores.length - 1) = none) ∧
    ReadGraphFile newProblem
      [Record.header 3, Record.edge 1 2, Record.edge 1 3, Record.edge 2 3] = some triangle ∧
    rclSize (-1) 3 = -1 ∧
    selectVertex triangle.neighbour_sets (-1) [true, true, true] [0, 1, 2] [0, 0, 0] [7]
      = none ∧
    FindClique triangle (-1) 1 [30, 7] = none ∧
    rclSize 0 3 = 1 ∧
    (FindClique triangle 0 1 [30, 7, 7, 7]).isSome = true := by
  refine ⟨?_, by decide, by decide, by decide, by decide, by decide, by decide⟩
  intro randomization scores hr
  have h := rclSize_negative randomization scores.length hr
  refine ⟨h, by omega, ?_⟩
  unfold at?
  rw [if_pos (by omega)]

end MaxCliqueProblem

namespace Lab4TabuSearch

/-! ## Lab 4: the tabu search class and its restarts -/

/-- C40. `RunSearch` of lab4 does not keep the best clique over the starts:
`ClearClique()`, called at the top of every start, empties `best_clique`, so
the test `q_border > best_clique.size()` at the end of a start always compares
with 0 and the clique of the last start is the one kept. On the graph made of
the triangle `1, 2, 3` and the edge `4 - 5` (file `p edge 5 4`, `e 1 2`,
`e 1 3`, `e 2 3`, `e 4 5`), with `starts = 2`, `randomization = 1`, and the
shuffles that put vertex 0 first in the first start and vertex 3 first in the
second: the first start ends with `q_border = 3` (the triangle), the second
with `q_border = 2`, and after `RunSearch` `GetClique()` is the edge `3, 4` of
the 0-based vertices, of size 2, smaller than the clique of the first start. -/
theorem C40_restart_clears_best :
    ReadGraphFile
      (newSearch [] [[0, 1, 2, 3, 4], [2, 1], [1], [], [3, 0, 1, 2, 4], [4], []])
      [Record.comment, Record.header 5, Record.edge 1 2, Record.edge 1 3, Record.edge 2 3,
        Record.edge 4 5]
      = some (triangleAndEdge [] [[0, 1, 2, 3, 4], [2, 1], [1], [], [3, 0, 1, 2, 4], [4], []]) ∧
    (RunSearch
      (triangleAndEdge [] [[0, 1, 2, 3, 4], [2, 1], [1], [], [3, 0, 1, 2, 4], [4], []]) 1 1).map
        (fun r => (GetClique r.1, r.2)) = some ([0, 2, 1], [3]) ∧
    (RunSearch
      (triangleAndEdge [] [[0, 1, 2, 3, 4], [2, 1], [1], [], [3, 0, 1, 2, 4], [4], []]) 2 1).map
        (fun r => (GetClique r.1, r.2)) = some ([3, 4], [3, 2]) ∧
    ¬ (∀ r ∈ RunSearch
        (triangleAndEdge [] [[0, 1, 2, 3, 4], [2, 1], [1], [], [3, 0, 1, 2, 4], [4], []]) 2 1,
      ∀ q ∈ r.2, q ≤ ((GetClique r.1).length : Int)) := by
  decide

end Lab4TabuSearch
